import Mathlib

/-!
# Verification development for `ctc/cctc-tombstone.cc`

A shallow embedding of the forward-backward computation over the compact
CTC HMM: the strided tensor copy and the two rearrangements, the transition
table builder, the initial distribution, and the alpha / beta recursions
with their gradients.

Conventions of the embedding.

* `int32` sizes, strides and indices are natural numbers; wrap-around of
  32-bit arithmetic is not modelled.  Where a statement is about the offset
  arithmetic of the copies, it bounds the offsets by `int32Max`.
* `BaseFloat` and `double` are an arbitrary linearly ordered field `K`
  (exact arithmetic); the logarithm is a parameter `log : K → K`.  In the
  forward pass a division by zero is a fault: a zero denominator makes the
  sum of a cell an infinity or a NaN, on which the assertion of
  `AlphaGeneralFrame` fails, and a zero alpha of the special state makes the
  stored value an infinity or a NaN.  Elsewhere division is the total
  division of the field, and every statement that depends on a quotient
  carries the hypothesis that its divisor is nonzero.
* A raw buffer is a function from offsets (relative to the data pointer) to
  values; a matrix is a buffer with a row count, a column count and a row
  stride, element `(r, c)` living at offset `r * Stride + c`.
* Loops are left folds over `List.range`, in the order of the source.
-/

set_option autoImplicit false

namespace Cctc

/-! ## Faults -/

/-- Ways in which a call can fail to return. -/
inductive Fault where
  /-- A `KALDI_ASSERT` did not hold. -/
  | assertFailed
  /-- An operation the language leaves undefined: integer remainder by zero,
  an index outside a `std::vector`. -/
  | undefinedBehaviour
  /-- A floating-point division by zero whose result, an infinity or a NaN,
  the code stores and carries on with.  The exact arithmetic of the embedding
  has no such value, so the embedding does not follow the run any further. -/
  | notFinite
  deriving DecidableEq, Repr

/-! ## Matrices over raw buffers -/

/-- The part of `CuMatrixBase<Real>` the code uses: data pointer, dimensions
and row stride. -/
structure CuMatrixBase (α : Type) where
  Data : Nat → α
  NumRows : Nat
  NumCols : Nat
  Stride : Nat

/-- `M.RowData(t)`: the buffer seen from the start of row `t`. -/
def CuMatrixBase.RowData {α : Type} (M : CuMatrixBase α) (t : Nat) : Nat → α :=
  fun i => M.Data (t * M.Stride + i)

/-- The assignment `M.RowData(t)[i] = v`. -/
def CuMatrixBase.setRowData {α : Type} (M : CuMatrixBase α) (t i : Nat) (v : α) :
    CuMatrixBase α :=
  { M with Data := Function.update M.Data (t * M.Stride + i) v }

/-- Storage handed out by `Resize(..., kUndefined)`: the padding the
allocator adds to each row and whatever the memory held before. -/
structure RawAlloc (α : Type) where
  pad : Nat
  contents : Nat → α

/-- `M.Resize(rows, cols, kUndefined)`: a `rows × cols` matrix whose stride
is `cols` plus the allocator's padding and whose cells are not initialised. -/
def ResizeUndefined {α : Type} (a : RawAlloc α) (rows cols : Nat) : CuMatrixBase α :=
  { Data := a.contents, NumRows := rows, NumCols := cols, Stride := cols + a.pad }

/-- `M.Resize(rows, cols)` with the default `kSetZero`. -/
def ResizeZero {α : Type} [Zero α] (pad rows cols : Nat) : CuMatrixBase α :=
  { Data := fun _ => 0, NumRows := rows, NumCols := cols, Stride := cols + pad }

/-- Modelled from the spec: `CuSubMatrix(M, 0, M.NumRows(), col_offset, num_cols)`
and `M.ColRange(col_offset, num_cols)` of the matrix library, which is not part
of the source file.  The view shares the parent's rows and stride and starts
`col_offset` cells into each row; the column range has to lie inside the
parent (the spec lists the column-count bound among the preconditions that
are checked at entry). -/
def ColRange {α : Type} (M : CuMatrixBase α) (col_offset num_cols : Nat) :
    Except Fault (CuMatrixBase α) :=
  if col_offset + num_cols ≤ M.NumCols then
    .ok { Data := fun i => M.Data (col_offset + i), NumRows := M.NumRows,
          NumCols := num_cols, Stride := M.Stride }
  else .error .assertFailed

/-- Memory of the parent after the view starting `col_offset` cells into it
has been written: the view's buffer replaces the parent's from that offset on. -/
def writeBack {α : Type} (M : CuMatrixBase α) (col_offset : Nat) (view : CuMatrixBase α) :
    CuMatrixBase α :=
  { M with Data := fun j => if col_offset ≤ j then view.Data (j - col_offset) else M.Data j }

/-- `M.SetZero()`: every cell of every row becomes zero. -/
def SetZero {α : Type} [Zero α] (M : CuMatrixBase α) : CuMatrixBase α :=
  (List.range M.NumRows).foldl (fun m r =>
    (List.range M.NumCols).foldl (fun m c => m.setRowData r c 0) m) M

/-! ## Tensor rearrangement -/

/-- The CPU branch of `Tensor3dCopy`: three nested loops copying
`src[x*sx + y*sy + z*sz]` to `dst[x*dx + y*dy + z*dz]`. -/
def Tensor3dCopy {α : Type} (xdim ydim zdim : Nat)
    (src_xstride src_ystride src_zstride : Nat)
    (dst_xstride dst_ystride dst_zstride : Nat)
    (src : Nat → α) (dst : Nat → α) : Nat → α :=
  (List.range xdim).foldl (fun d x =>
    (List.range ydim).foldl (fun d y =>
      (List.range zdim).foldl (fun d z =>
        Function.update d (x * dst_xstride + y * dst_ystride + z * dst_zstride)
          (src (x * src_xstride + y * src_ystride + z * src_zstride))) d) d) dst

/-- The largest value of an `int32`. -/
def int32Max : Nat := 2147483647

/-- The memory accesses of the CPU branch of `Tensor3dCopy`, one per
iteration of the three loops and in their order: the offset read in `src`
and the offset written in `dst`.  Every intermediate value of the two offset
expressions is at most the offset itself. -/
def Tensor3dCopy.accesses (xdim ydim zdim : Nat)
    (src_xstride src_ystride src_zstride : Nat)
    (dst_xstride dst_ystride dst_zstride : Nat) : List (Nat × Nat) :=
  (List.range xdim).flatMap (fun x =>
    (List.range ydim).flatMap (fun y =>
      (List.range zdim).map (fun z =>
        (x * src_xstride + y * src_ystride + z * src_zstride,
         x * dst_xstride + y * dst_ystride + z * dst_zstride))))

/-- `RearrangeNnetOutput(nnet_output, &nnet_output_rearranged)`; the result is
the rearranged matrix after the call. -/
def RearrangeNnetOutput {α : Type} (nnet_output : CuMatrixBase α)
    (nnet_output_rearranged : CuMatrixBase α) : Except Fault (CuMatrixBase α) :=
  let num_time_steps := nnet_output_rearranged.NumRows
  let nnet_output_dim := nnet_output.NumCols
  if num_time_steps = 0 then .error .undefinedBehaviour
  else if nnet_output.NumRows % num_time_steps ≠ 0 then .error .assertFailed
  else
    let num_sequences := nnet_output.NumRows / num_time_steps
    if nnet_output_rearranged.NumCols ≠ nnet_output_dim * num_sequences then
      .error .assertFailed
    else
      let xdim := num_time_steps
      let ydim := nnet_output_dim
      let zdim := num_sequences
      let src_xstride := nnet_output.Stride
      let src_ystride := 1
      let src_zstride := nnet_output.Stride * num_time_steps
      let dest_xstride := nnet_output_rearranged.Stride
      let dest_ystride := num_sequences
      let dest_zstride := 1
      .ok { nnet_output_rearranged with
            Data := Tensor3dCopy xdim ydim zdim src_xstride src_ystride src_zstride
              dest_xstride dest_ystride dest_zstride
              nnet_output.Data nnet_output_rearranged.Data }

/-- `RearrangeNnetOutputReverse(nnet_output_rearranged, &nnet_output)`; the
result is `nnet_output` after the call. -/
def RearrangeNnetOutputReverse {α : Type} (nnet_output_rearranged : CuMatrixBase α)
    (nnet_output : CuMatrixBase α) : Except Fault (CuMatrixBase α) :=
  let num_time_steps := nnet_output_rearranged.NumRows
  let nnet_output_dim := nnet_output.NumCols
  if num_time_steps = 0 then .error .undefinedBehaviour
  else if nnet_output.NumRows % num_time_steps ≠ 0 then .error .assertFailed
  else
    let num_sequences := nnet_output.NumRows / num_time_steps
    if nnet_output_rearranged.NumCols ≠ nnet_output_dim * num_sequences then
      .error .assertFailed
    else
      let xdim := num_time_steps
      let ydim := nnet_output_dim
      let zdim := num_sequences
      let src_xstride := nnet_output_rearranged.Stride
      let src_ystride := num_sequences
      let src_zstride := 1
      let dest_xstride := nnet_output.Stride
      let dest_ystride := 1
      let dest_zstride := nnet_output.Stride * num_time_steps
      .ok { nnet_output with
            Data := Tensor3dCopy xdim ydim zdim src_xstride src_ystride src_zstride
              dest_xstride dest_ystride dest_zstride
              nnet_output_rearranged.Data nnet_output.Data }

/-! ## The transition model and the HMM transition table -/

/-- The interface of `CctcTransitionModel` that the code calls; the class
itself is an external collaborator and enters as a parameter. -/
structure CctcTransitionModel (K : Type) where
  NumHistoryStates : Nat
  NumPhones : Nat
  NumTreeIndexes : Nat
  NumBlankIndexes : Nat
  GetGraphLabel : Nat → Nat → Nat
  GraphLabelToLmProb : Nat → K
  GraphLabelToOutputIndex : Nat → Nat
  GraphLabelToNextHistoryState : Nat → Nat

/-- One record of the flat transition array, `struct CctcHmmTransition`. -/
structure CctcHmmTransition (K : Type) where
  transition_prob : K
  num_index : Nat
  hmm_state : Nat

/-- A half-open index range, `struct Int32Pair`. -/
structure Int32Pair where
  first : Nat
  second : Nat
  deriving DecidableEq, Repr

/-- The members of `class CctcHmm`. -/
structure CctcHmm (K : Type) where
  forward_transitions_ : List Int32Pair
  backward_transitions_ : List Int32Pair
  transitions_ : List (CctcHmmTransition K)
  initial_probs_ : List K
  special_hmm_state_ : Nat

/-- The record that the loop body of `SetTransitions` stores for state `s`
and phone `p` in `transitions_out[s][p]`. -/
def forwardRecord {K : Type} (trans_mdl : CctcTransitionModel K) (s p : Nat) :
    CctcHmmTransition K :=
  let graph_label := trans_mdl.GetGraphLabel s p
  { transition_prob := trans_mdl.GraphLabelToLmProb graph_label
    num_index := trans_mdl.GraphLabelToOutputIndex graph_label
    hmm_state := trans_mdl.GraphLabelToNextHistoryState graph_label }

/-- The body of the loop over phones in `SetTransitions`: stores the record in
`transitions_out[s][p]` and appends the mirrored record to `transitions_in`
of the destination.  Indexing `transitions_in` outside its size is undefined
behaviour. -/
def SetTransitions.step {K : Type} (trans_mdl : CctcTransitionModel K) (s : Nat)
    (st : List (List (CctcHmmTransition K)) × List (List (CctcHmmTransition K))) (p : Nat) :
    Except Fault (List (List (CctcHmmTransition K)) × List (List (CctcHmmTransition K))) :=
  let this_trans := forwardRecord trans_mdl s p
  let reverse_transition : CctcHmmTransition K := { this_trans with hmm_state := s }
  if this_trans.hmm_state < trans_mdl.NumHistoryStates then
    .ok (List.modify (fun row => row.set p this_trans) s st.1,
         List.modify (fun row => row ++ [reverse_transition]) this_trans.hmm_state st.2)
  else .error .undefinedBehaviour

/-- The first pair of loops of `SetTransitions`, from value-initialised
`transitions_out` rows of `num_phones + 1` records and empty
`transitions_in` rows. -/
def SetTransitions.fill {K : Type} [Zero K] (trans_mdl : CctcTransitionModel K) :
    Except Fault (List (List (CctcHmmTransition K)) × List (List (CctcHmmTransition K))) :=
  let num_hmm_states := trans_mdl.NumHistoryStates
  let num_phones := trans_mdl.NumPhones
  let transitions_out : List (List (CctcHmmTransition K)) :=
    List.replicate num_hmm_states (List.replicate (num_phones + 1) ⟨0, 0, 0⟩)
  let transitions_in : List (List (CctcHmmTransition K)) :=
    List.replicate num_hmm_states []
  (List.range num_hmm_states).foldlM (fun st s =>
    (List.range (num_phones + 1)).foldlM (SetTransitions.step trans_mdl s) st)
    (transitions_out, transitions_in)

/-- One of the two concatenation loops of `SetTransitions`: appends the rows
to the flat array and records each row's range. -/
def SetTransitions.concat {K : Type} (num_hmm_states : Nat)
    (rows : List (List (CctcHmmTransition K)))
    (transitions : List (CctcHmmTransition K)) :
    List Int32Pair × List (CctcHmmTransition K) :=
  (List.range num_hmm_states).foldl
    (fun (acc : List Int32Pair × List (CctcHmmTransition K)) s =>
      let first := acc.2.length
      let transitions := acc.2 ++ rows.getD s []
      (acc.1.set s ⟨first, transitions.length⟩, transitions))
    (List.replicate num_hmm_states ⟨0, 0⟩, transitions)

/-- `CctcHmm::SetTransitions`: the forward ranges, the backward ranges and the
flat transition array. -/
def SetTransitions {K : Type} [Zero K] (trans_mdl : CctcTransitionModel K) :
    Except Fault (List Int32Pair × List Int32Pair × List (CctcHmmTransition K)) :=
  let num_hmm_states := trans_mdl.NumHistoryStates
  let num_phones := trans_mdl.NumPhones
  match SetTransitions.fill trans_mdl with
  | .error e => .error e
  | .ok (transitions_out, transitions_in) =>
    let expected_num_transitions := 2 * num_hmm_states * (num_phones + 1)
    let fwd := SetTransitions.concat num_hmm_states transitions_out []
    let bwd := SetTransitions.concat num_hmm_states transitions_in fwd.2
    if bwd.2.length = expected_num_transitions then .ok (fwd.1, bwd.1, bwd.2)
    else .error .assertFailed

/-- Modelled from the spec: `Vector::Max(&index)` of the matrix library, used
to "take the arg-max state as SpecialState"; the first index holding the
largest entry, and 0 for the empty vector. -/
def maxIndex {K : Type} [LinearOrder K] (v : List K) : Nat :=
  ((List.range v.length).foldl (fun (acc : Option K × Nat) i =>
    match v[i]?, acc.1 with
    | some x, none => (some x, i)
    | some x, some ans => if ans < x then (some x, i) else acc
    | none, _ => acc) (none, 0)).2

/-- The propagation of one iteration of `SetInitialProbs`: every state sends
`cur_prob(s) * trans_prob` to the next state of each of its transitions.  A
next state outside the vector leaves it unchanged. -/
def SetInitialProbs.propagate {K : Type} [Field K] (trans_mdl : CctcTransitionModel K)
    (cur_prob next_prob : List K) : List K :=
  (List.range trans_mdl.NumHistoryStates).foldl (fun next_prob s =>
    let prob := cur_prob.getD s 0
    (List.range (trans_mdl.NumPhones + 1)).foldl (fun next_prob p =>
      let graph_label := trans_mdl.GetGraphLabel s p
      let trans_prob := trans_mdl.GraphLabelToLmProb graph_label
      let next_state := trans_mdl.GraphLabelToNextHistoryState graph_label
      List.modify (fun x => x + prob * trans_prob) next_state next_prob) next_prob) next_prob

/-- One iteration of the loop of `SetInitialProbs` on the pair
`(cur_prob, next_prob)`: propagate, swap, zero `next_prob`, renormalise. -/
def SetInitialProbs.iterate {K : Type} [Field K] (trans_mdl : CctcTransitionModel K)
    (st : List K × List K) : List K × List K :=
  let next_prob := SetInitialProbs.propagate trans_mdl st.1 st.2
  let cur_prob := next_prob
  let next_prob := st.1.map (fun _ => (0 : K))
  (cur_prob.map (fun x => x * (1 / cur_prob.sum)), next_prob)

/-- `CctcHmm::SetInitialProbs`: the initial distribution and the special
state. -/
def SetInitialProbs {K : Type} [LinearOrderedField K] (trans_mdl : CctcTransitionModel K) :
    List K × Nat :=
  let num_iters := 20
  let num_hmm_states := trans_mdl.NumHistoryStates
  let cur_prob : List K := List.replicate num_hmm_states (1 / (num_hmm_states : K))
  let next_prob : List K := List.replicate num_hmm_states 0
  let st := (List.range num_iters).foldl
    (fun st _ => SetInitialProbs.iterate trans_mdl st) (cur_prob, next_prob)
  (st.1, maxIndex st.1)

/-- The constructor `CctcHmm::CctcHmm`. -/
def newCctcHmm {K : Type} [LinearOrderedField K] (trans_mdl : CctcTransitionModel K) :
    Except Fault (CctcHmm K) :=
  match SetTransitions trans_mdl with
  | .error e => .error e
  | .ok (forward_transitions, backward_transitions, transitions) =>
    let ip := SetInitialProbs trans_mdl
    .ok { forward_transitions_ := forward_transitions
          backward_transitions_ := backward_transitions
          transitions_ := transitions
          initial_probs_ := ip.1
          special_hmm_state_ := ip.2 }

/-! ## The forward-backward computation -/

/-- The records that a pointer loop from `transitions + r.first` to
`transitions + r.second` visits. -/
def transRange {K : Type} (transitions : List (CctcHmmTransition K)) (r : Int32Pair) :
    List (CctcHmmTransition K) :=
  (transitions.drop r.first).take (r.second - r.first)

/-- The members of `class CctcNegativeComputation`. -/
@[ext]
structure CctcNegativeComputation (K : Type) where
  trans_model_ : CctcTransitionModel K
  hmm_ : CctcHmm K
  exp_nnet_output_ : CuMatrixBase K
  denominators_ : CuMatrixBase K
  num_sequences_ : Nat
  num_time_steps_ : Nat
  numerator_dim_ : Nat
  num_hmm_states_ : Nat
  numerators_rearranged_ : CuMatrixBase K
  denominators_rearranged_ : CuMatrixBase K
  alpha_ : CuMatrixBase K
  beta_ : CuMatrixBase K
  tot_prob_ : List K
  tot_log_prob_ : List K
  log_numerator_derivs_rearranged_ : CuMatrixBase K
  denominator_derivs_rearranged_ : CuMatrixBase K

/-- The storage that the `Resize(..., kUndefined)` calls of the constructor
obtain. -/
structure Workspace (K : Type) where
  numerators : RawAlloc K
  denominators : RawAlloc K
  alpha : RawAlloc K
  beta : RawAlloc K

/-- The constructor `CctcNegativeComputation::CctcNegativeComputation`.  The
matrices that the constructor leaves default-constructed are empty. -/
def newCctcNegativeComputation {K : Type} [Zero K] (trans_model : CctcTransitionModel K)
    (hmm : CctcHmm K) (exp_nnet_output denominators : CuMatrixBase K)
    (num_sequences : Nat) (ws : Workspace K) : Except Fault (CctcNegativeComputation K) :=
  if num_sequences = 0 then .error .undefinedBehaviour
  else if exp_nnet_output.NumRows % num_sequences ≠ 0 then .error .assertFailed
  else
    let num_time_steps := exp_nnet_output.NumRows / num_sequences
    let numerator_dim := trans_model.NumTreeIndexes + trans_model.NumBlankIndexes
    let num_hmm_states := trans_model.NumHistoryStates
    let numerators_rearranged :=
      ResizeUndefined ws.numerators num_time_steps (numerator_dim * num_sequences)
    match ColRange exp_nnet_output 0 numerator_dim with
    | .error e => .error e
    | .ok numerators =>
    match RearrangeNnetOutput numerators numerators_rearranged with
    | .error e => .error e
    | .ok numerators_rearranged =>
    let denominators_rearranged :=
      ResizeUndefined ws.denominators num_time_steps (num_hmm_states * num_sequences)
    match RearrangeNnetOutput denominators denominators_rearranged with
    | .error e => .error e
    | .ok denominators_rearranged =>
    .ok { trans_model_ := trans_model
          hmm_ := hmm
          exp_nnet_output_ := exp_nnet_output
          denominators_ := denominators
          num_sequences_ := num_sequences
          num_time_steps_ := num_time_steps
          numerator_dim_ := numerator_dim
          num_hmm_states_ := num_hmm_states
          numerators_rearranged_ := numerators_rearranged
          denominators_rearranged_ := denominators_rearranged
          alpha_ := ResizeUndefined ws.alpha (num_time_steps + 1) (num_hmm_states * num_sequences)
          beta_ := ResizeUndefined ws.beta 2 (num_hmm_states * num_sequences)
          tot_prob_ := []
          tot_log_prob_ := []
          log_numerator_derivs_rearranged_ := ⟨fun _ => 0, 0, 0, 0⟩
          denominator_derivs_rearranged_ := ⟨fun _ => 0, 0, 0, 0⟩ }

/-- `AlphaFirstFrame`: row 0 of `alpha_`, viewed as a
`num_hmm_states_ × num_sequences_` matrix of stride `num_sequences_`, is
zeroed and then receives `InitialProbs` in every column
(`AddVecToCols(1.0, v, 0.0)`), so cell `h * num_sequences_ + s` holds
`InitialProbs(h)`. -/
def AlphaFirstFrame {K : Type} [Zero K] (c : CctcNegativeComputation K) :
    CctcNegativeComputation K :=
  { c with alpha_ :=
      (List.range c.num_hmm_states_).foldl (fun alpha h =>
        (List.range c.num_sequences_).foldl (fun alpha s =>
          alpha.setRowData 0 (h * c.num_sequences_ + s) (c.hmm_.initial_probs_.getD h 0))
          alpha) c.alpha_ }

/-- The body of the loops of `AlphaGeneralFrame` for state `h` and sequence
`s`, on the current content of `alpha_`.  The sum `this_tot_alpha` is `none`
once a quotient with a zero denominator has been added to it: the
floating-point value is then an infinity or a NaN and stays one, and the check
`this_tot_alpha - this_tot_alpha == 0` fails on it.  When the alpha of the
special state on the previous frame is zero, `arbitrary_scale` is infinite and
the value stored is an infinity or a NaN. -/
def AlphaGeneralFrame.cell {K : Type} [Field K] [DecidableEq K]
    (c : CctcNegativeComputation K) (t h : Nat)
    (alpha : CuMatrixBase K) (s : Nat) : Except Fault (CuMatrixBase K) :=
  let prev_alpha := alpha.RowData (t - 1)
  let backward_transitions := c.hmm_.backward_transitions_
  let transitions := c.hmm_.transitions_
  let num_probs := c.numerators_rearranged_.RowData (t - 1)
  let den_probs := c.denominators_rearranged_.RowData (t - 1)
  let num_sequences := c.num_sequences_
  let special_hmm_state := c.hmm_.special_hmm_state_
  let this_tot_alpha : Option K :=
    (transRange transitions (backward_transitions.getD h ⟨0, 0⟩)).foldl
      (fun this_tot_alpha trans_iter =>
        let transition_prob := trans_iter.transition_prob
        let num_index := trans_iter.num_index
        let prev_hmm_state := trans_iter.hmm_state
        let den := den_probs (prev_hmm_state * num_sequences + s)
        let num := num_probs (num_index * num_sequences + s)
        let this_prev_alpha := prev_alpha (prev_hmm_state * num_sequences + s)
        if den = 0 then none
        else this_tot_alpha.map (fun x => x + this_prev_alpha * transition_prob * num / den))
      (some 0)
  let arbitrary_scale := 1 / prev_alpha (special_hmm_state * num_sequences + s)
  match this_tot_alpha with
  | none => .error .assertFailed
  | some this_tot_alpha =>
    if prev_alpha (special_hmm_state * num_sequences + s) = 0 then .error .notFinite
    else .ok (alpha.setRowData t (h * num_sequences + s) (this_tot_alpha * arbitrary_scale))

/-- `AlphaGeneralFrame(t)`, the CPU branch. -/
def AlphaGeneralFrame {K : Type} [Field K] [DecidableEq K]
    (c : CctcNegativeComputation K) (t : Nat) : Except Fault (CctcNegativeComputation K) :=
  if 0 < t ∧ t ≤ c.num_time_steps_ then
    match (List.range c.num_hmm_states_).foldlM (fun alpha h =>
        (List.range c.num_sequences_).foldlM (AlphaGeneralFrame.cell c t h) alpha) c.alpha_ with
    | .error e => .error e
    | .ok alpha => .ok { c with alpha_ := alpha }
  else .error .assertFailed

/-- `ComputeTotLogLike`: the per-sequence sums of the last alpha row
(`AddRowSumMat(1.0, last_alpha, 0.0)`), their logarithms, and the logarithms
of the block of `alpha_` made of rows `0 .. num_time_steps_ - 1` and columns
`num_sequences_ * SpecialHmmState() ..` of width `num_sequences_`. -/
def ComputeTotLogLike {K : Type} [Field K] (log : K → K) (c : CctcNegativeComputation K) :
    K × CctcNegativeComputation K :=
  let last_alpha := c.alpha_.RowData c.num_time_steps_
  let tot_prob : List K := (List.range c.num_sequences_).map (fun s =>
    ((List.range c.num_hmm_states_).map (fun h => last_alpha (h * c.num_sequences_ + s))).sum)
  let tot_log_prob_vec := tot_prob.map log
  let tot_log_prob := tot_log_prob_vec.sum
  let log_inv_arbitrary_scales_product : K :=
    ((List.range c.num_time_steps_).map (fun t =>
      ((List.range c.num_sequences_).map (fun s =>
        log (c.alpha_.RowData t (c.num_sequences_ * c.hmm_.special_hmm_state_ + s)))).sum)).sum
  (tot_log_prob + log_inv_arbitrary_scales_product,
   { c with tot_prob_ := tot_prob, tot_log_prob_ := tot_log_prob_vec })

/-- `Forward()`: the returned total log-likelihood and the object after the
call. -/
def Forward {K : Type} [Field K] [DecidableEq K] (log : K → K)
    (c : CctcNegativeComputation K) : Except Fault (K × CctcNegativeComputation K) :=
  match (List.range c.num_time_steps_).foldlM (fun c i => AlphaGeneralFrame c (i + 1))
      (AlphaFirstFrame c) with
  | .error e => .error e
  | .ok c => .ok (ComputeTotLogLike log c)

/-- `BetaLastFrame`: every row of the view of beta row `num_time_steps_ % 2`
receives the inverted total probabilities (`CopyRowsFromVec`). -/
def BetaLastFrame {K : Type} [Field K] (c : CctcNegativeComputation K) :
    CctcNegativeComputation K :=
  let t := c.num_time_steps_
  let inv_tot_prob := c.tot_prob_.map (fun x => 1 / x)
  { c with beta_ :=
      (List.range c.num_hmm_states_).foldl (fun beta h =>
        (List.range c.num_sequences_).foldl (fun beta s =>
          beta.setRowData (t % 2) (h * c.num_sequences_ + s) (inv_tot_prob.getD s 0))
          beta) c.beta_ }

/-- The body of the loops of `BetaGeneralFrame` for state `h` and sequence
`s`, on the current content of the object. -/
def BetaGeneralFrame.cell {K : Type} [Field K] (t h : Nat)
    (c : CctcNegativeComputation K) (s : Nat) : CctcNegativeComputation K :=
  let this_alpha := c.alpha_.RowData t
  let forward_transitions := c.hmm_.forward_transitions_
  let transitions := c.hmm_.transitions_
  let num_probs := c.numerators_rearranged_.RowData t
  let den_probs := c.denominators_rearranged_.RowData t
  let num_sequences := c.num_sequences_
  let special_hmm_state := c.hmm_.special_hmm_state_
  let this_alpha_prob := this_alpha (h * num_sequences + s)
  let inv_arbitrary_scale := this_alpha (special_hmm_state * num_sequences + s)
  let this_den_prob := den_probs (h * num_sequences + s)
  let common_factor := 1 / (this_den_prob * inv_arbitrary_scale)
  let occupation_factor := common_factor * this_alpha_prob
  let r := (transRange transitions (forward_transitions.getD h ⟨0, 0⟩)).foldl
    (fun (acc : K × CctcNegativeComputation K) trans_iter =>
      let transition_prob := trans_iter.transition_prob
      let num_index := trans_iter.num_index
      let next_hmm_state := trans_iter.hmm_state
      let variable_factor := transition_prob *
        acc.2.beta_.RowData ((t + 1) % 2) (next_hmm_state * num_sequences + s) *
        num_probs (num_index * num_sequences + s)
      let occupation_prob := variable_factor * occupation_factor
      (acc.1 + variable_factor,
       { acc.2 with
         log_numerator_derivs_rearranged_ :=
           acc.2.log_numerator_derivs_rearranged_.setRowData t (num_index * num_sequences + s)
             (acc.2.log_numerator_derivs_rearranged_.RowData t (num_index * num_sequences + s)
               + occupation_prob) })) (0, c)
  let tot_variable_factor := r.1
  { r.2 with
    denominator_derivs_rearranged_ :=
      r.2.denominator_derivs_rearranged_.setRowData t (h * num_sequences + s)
        (- tot_variable_factor * occupation_factor / this_den_prob)
    beta_ := r.2.beta_.setRowData (t % 2) (h * num_sequences + s)
        (tot_variable_factor * common_factor) }

/-- `BetaGeneralFrame(t)`, the CPU branch. -/
def BetaGeneralFrame {K : Type} [Field K] (c : CctcNegativeComputation K) (t : Nat) :
    Except Fault (CctcNegativeComputation K) :=
  if t < c.num_time_steps_ then
    .ok ((List.range c.num_hmm_states_).foldl (fun c h =>
      (List.range c.num_sequences_).foldl (BetaGeneralFrame.cell t h) c) c)
  else .error .assertFailed

/-- `BackwardInternal()`: the last frame, then `t = num_time_steps_ - 1`
down to 0. -/
def BackwardInternal {K : Type} [Field K] (c : CctcNegativeComputation K) :
    Except Fault (CctcNegativeComputation K) :=
  (List.range c.num_time_steps_).reverse.foldlM (fun c t => BetaGeneralFrame c t)
    (BetaLastFrame c)

/-- `Backward(nnet_output_deriv, denominators_deriv)`: the object and the two
output matrices after the call.  `pad` is the row padding of the zeroed
numerator-derivative matrix and `den_alloc` the storage of the
denominator-derivative matrix. -/
def Backward {K : Type} [Field K] (c : CctcNegativeComputation K)
    (pad : Nat) (den_alloc : RawAlloc K)
    (nnet_output_deriv denominators_deriv : CuMatrixBase K) :
    Except Fault (CctcNegativeComputation K × CuMatrixBase K × CuMatrixBase K) :=
  let c := { c with
    log_numerator_derivs_rearranged_ :=
      ResizeZero pad c.numerators_rearranged_.NumRows c.numerators_rearranged_.NumCols
    denominator_derivs_rearranged_ :=
      ResizeUndefined den_alloc c.denominators_rearranged_.NumRows
        c.denominators_rearranged_.NumCols }
  match BackwardInternal c with
  | .error e => .error e
  | .ok c =>
  match ColRange nnet_output_deriv 0 c.numerator_dim_ with
  | .error e => .error e
  | .ok log_numerator_deriv =>
  match RearrangeNnetOutputReverse c.log_numerator_derivs_rearranged_ log_numerator_deriv with
  | .error e => .error e
  | .ok log_numerator_deriv =>
  let nnet_output_deriv := writeBack nnet_output_deriv 0 log_numerator_deriv
  match ColRange nnet_output_deriv c.numerator_dim_ c.trans_model_.NumBlankIndexes with
  | .error e => .error e
  | .ok rest =>
  let nnet_output_deriv := writeBack nnet_output_deriv c.numerator_dim_ (SetZero rest)
  match RearrangeNnetOutputReverse c.denominator_derivs_rearranged_ denominators_deriv with
  | .error e => .error e
  | .ok denominators_deriv => .ok (c, nnet_output_deriv, denominators_deriv)

/-! ## Auxiliary definitions used by the proofs -/

/-- The index triples of the three nested loops, in loop order. -/
def box (xdim ydim zdim : Nat) : List (Nat × Nat × Nat) :=
  (List.range xdim).product ((List.range ydim).product (List.range zdim))

/-- The pairs `(s, p)` with `s < H` and `p ≤ P`, in the order in which the
loops of `SetTransitions` and `SetInitialProbs` visit them. -/
def statePhonePairs (H P : Nat) : List (Nat × Nat) :=
  (List.range H).product (List.range (P + 1))

/-- The mirrored record that `SetTransitions` appends to `transitions_in`:
the record of `(s, p)` with the origin `s` in place of the destination. -/
def reverseRecord {K : Type} (trans_mdl : CctcTransitionModel K) (s p : Nat) :
    CctcHmmTransition K :=
  { forwardRecord trans_mdl s p with hmm_state := s }

/-- The records of the edges of the model that leave state `s`, by phone. -/
def outgoingRecords {K : Type} (trans_mdl : CctcTransitionModel K) (s : Nat) :
    List (CctcHmmTransition K) :=
  (List.range (trans_mdl.NumPhones + 1)).map (forwardRecord trans_mdl s)

/-- The mirrored records of the edges of the model that enter state `d`, in
increasing `(s, p)` order. -/
def incomingRecords {K : Type} (trans_mdl : CctcTransitionModel K) (d : Nat) :
    List (CctcHmmTransition K) :=
  ((statePhonePairs trans_mdl.NumHistoryStates trans_mdl.NumPhones).filter
    (fun sp => decide ((forwardRecord trans_mdl sp.1 sp.2).hmm_state = d))).map
    (fun sp => reverseRecord trans_mdl sp.1 sp.2)

/-- The model of the concrete scenario: one history state, one phone, so
two graph labels (phone and blank) that both loop to state 0 with transition
probability 1; label `p` consumes output index `p`. -/
def scenarioModel (K : Type) [One K] : CctcTransitionModel K :=
  { NumHistoryStates := 1
    NumPhones := 1
    NumTreeIndexes := 1
    NumBlankIndexes := 1
    GetGraphLabel := fun _ p => p
    GraphLabelToLmProb := fun _ => 1
    GraphLabelToOutputIndex := fun g => g
    GraphLabelToNextHistoryState := fun _ => 0 }

/-! ### The quantities of the recursions, by history state, frame and lane -/

/-- `numeratorProb[k, t, s]`: the cell of the time-major numerator matrix
that the recursions read as `num_probs[k * num_sequences + s]` on frame `t`. -/
def numProb {K : Type} (c : CctcNegativeComputation K) (k t s : Nat) : K :=
  c.numerators_rearranged_.RowData t (k * c.num_sequences_ + s)

/-- `denominatorProb[h, t, s]`: the cell of the time-major denominator matrix
that the recursions read as `den_probs[h * num_sequences + s]` on frame `t`. -/
def denProb {K : Type} (c : CctcNegativeComputation K) (h t s : Nat) : K :=
  c.denominators_rearranged_.RowData t (h * c.num_sequences_ + s)

/-- The records of the backward range of state `h`: its incoming transitions. -/
def inEdges {K : Type} (c : CctcNegativeComputation K) (h : Nat) :
    List (CctcHmmTransition K) :=
  transRange c.hmm_.transitions_ (c.hmm_.backward_transitions_.getD h ⟨0, 0⟩)

/-- The records of the forward range of state `h`: its outgoing transitions. -/
def outEdges {K : Type} (c : CctcNegativeComputation K) (h : Nat) :
    List (CctcHmmTransition K) :=
  transRange c.hmm_.transitions_ (c.hmm_.forward_transitions_.getD h ⟨0, 0⟩)

/-- The value that `AlphaGeneralFrame(t)` stores for state `h` and lane `s`
when the buffer of `alpha_` is `d` and its stride `st`. -/
def alphaCellValue {K : Type} [Field K] (c : CctcNegativeComputation K) (t h s st : Nat)
    (d : Nat → K) : K :=
  (inEdges c h).foldl (fun this_tot_alpha e =>
      this_tot_alpha
        + d ((t - 1) * st + (e.hmm_state * c.num_sequences_ + s)) * e.transition_prob
          * c.numerators_rearranged_.RowData (t - 1) (e.num_index * c.num_sequences_ + s)
          / c.denominators_rearranged_.RowData (t - 1) (e.hmm_state * c.num_sequences_ + s)) 0
    * (1 / d ((t - 1) * st + (c.hmm_.special_hmm_state_ * c.num_sequences_ + s)))

/-- The alpha recursion as the code computes it, rescaling included:
`alpha[0][h,s] = InitialProbs(h)` and `alpha[t+1][h,s]` is the sum over the
incoming transitions of `h` times `1 / alpha[t][SpecialState,s]`. -/
def alphaRec {K : Type} [Field K] (c : CctcNegativeComputation K) : Nat → Nat → Nat → K
  | 0, h, _ => c.hmm_.initial_probs_.getD h 0
  | t + 1, h, s =>
    ((inEdges c h).map (fun e =>
      alphaRec c t e.hmm_state s * e.transition_prob * numProb c e.num_index t s
        / denProb c e.hmm_state t s)).sum
      * (1 / alphaRec c t c.hmm_.special_hmm_state_ s)

/-- The unscaled reference recursion `U` of the rescale-invariance property:
`U[0][h,s] = InitialDistribution[h]` and `U[t+1][h,s]` is the sum over the
incoming transitions of `h` of
`U[t][origin,s] * transitionProb * numeratorProb[numIndex,t,s] / denominatorProb[origin,t,s]`. -/
def unscaledAlpha {K : Type} [Field K] (c : CctcNegativeComputation K) : Nat → Nat → Nat → K
  | 0, h, _ => c.hmm_.initial_probs_.getD h 0
  | t + 1, h, s =>
    ((inEdges c h).map (fun e =>
      unscaledAlpha c t e.hmm_state s * e.transition_prob * numProb c e.num_index t s
        / denProb c e.hmm_state t s)).sum

/-- The object is fit for the forward pass: a row of `alpha_` holds
`num_hmm_states_ * num_sequences_` cells, and the special state and the
origin of every incoming transition are history states. -/
structure ForwardReady {K : Type} (c : CctcNegativeComputation K) : Prop where
  alpha_stride : c.num_hmm_states_ * c.num_sequences_ ≤ c.alpha_.Stride
  special_lt : c.hmm_.special_hmm_state_ < c.num_hmm_states_
  origin_lt : ∀ h, h < c.num_hmm_states_ → ∀ e ∈ inEdges c h, e.hmm_state < c.num_hmm_states_

/-- The table and the initial distribution of the scenario model. -/
def scenarioHmm (K : Type) [One K] : CctcHmm K :=
  { forward_transitions_ := [⟨0, 2⟩]
    backward_transitions_ := [⟨2, 4⟩]
    transitions_ := [⟨1, 0, 0⟩, ⟨1, 1, 0⟩, ⟨1, 0, 0⟩, ⟨1, 1, 0⟩]
    initial_probs_ := [1]
    special_hmm_state_ := 0 }

/-- A matrix without padding whose cells all hold `v`. -/
def constMatrix {K : Type} (v : K) (rows cols : Nat) : CuMatrixBase K :=
  ⟨fun _ => v, rows, cols, cols⟩

/-- The object that the constructor builds for the scenario (one sequence,
two time steps, every numerator and denominator probability 1) when the
storage it obtains holds ones and has no padding; `alpha_` is shown with
zeros in place of its uninitialised cells. -/
def scenarioComputation (K : Type) [Zero K] [One K] : CctcNegativeComputation K :=
  { trans_model_ := scenarioModel K
    hmm_ := scenarioHmm K
    exp_nnet_output_ := constMatrix 1 2 2
    denominators_ := constMatrix 1 2 1
    num_sequences_ := 1
    num_time_steps_ := 2
    numerator_dim_ := 2
    num_hmm_states_ := 1
    numerators_rearranged_ := constMatrix 1 2 2
    denominators_rearranged_ := constMatrix 1 2 1
    alpha_ := constMatrix 0 3 1
    beta_ := constMatrix 0 2 1
    tot_prob_ := []
    tot_log_prob_ := []
    log_numerator_derivs_rearranged_ := ⟨fun _ => 0, 0, 0, 0⟩
    denominator_derivs_rearranged_ := ⟨fun _ => 0, 0, 0, 0⟩ }

/-- A model with two history states and no phone: the single (blank)
transition of either state enters state 1 with probability 1, so state 0 has
no incoming transition. -/
def sinkModel (K : Type) [One K] : CctcTransitionModel K :=
  { NumHistoryStates := 2
    NumPhones := 0
    NumTreeIndexes := 0
    NumBlankIndexes := 1
    GetGraphLabel := fun s _ => s
    GraphLabelToLmProb := fun _ => 1
    GraphLabelToOutputIndex := fun _ => 0
    GraphLabelToNextHistoryState := fun _ => 1 }

/-- The object that the constructor of `CctcHmm` builds for `sinkModel`: the
table of `SetTransitions`, and the distribution `(0, 1)` that
`SetInitialProbs` reaches after its first iteration, whose largest entry makes
state 1 the special state. -/
def sinkHmm (K : Type) [Field K] : CctcHmm K :=
  { forward_transitions_ := [⟨0, 1⟩, ⟨1, 2⟩]
    backward_transitions_ := [⟨2, 2⟩, ⟨2, 4⟩]
    transitions_ := [⟨1, 0, 1⟩, ⟨1, 0, 1⟩, ⟨1, 0, 0⟩, ⟨1, 0, 1⟩]
    initial_probs_ := [0, 1]
    special_hmm_state_ := 1 }

/-- Storage whose padding is zero and whose cells hold zeros. -/
def zeroWorkspace (K : Type) [Zero K] : Workspace K :=
  { numerators := ⟨0, fun _ => 0⟩
    denominators := ⟨0, fun _ => 0⟩
    alpha := ⟨0, fun _ => 0⟩
    beta := ⟨0, fun _ => 0⟩ }

/-- A model with one history state and no phone whose single transition has
probability 0. -/
def zeroProbModel (K : Type) [Zero K] : CctcTransitionModel K :=
  { NumHistoryStates := 1
    NumPhones := 0
    NumTreeIndexes := 0
    NumBlankIndexes := 1
    GetGraphLabel := fun _ _ => 0
    GraphLabelToLmProb := fun _ => 0
    GraphLabelToOutputIndex := fun _ => 0
    GraphLabelToNextHistoryState := fun _ => 0 }

/-- The pair `(cur_prob, next_prob)` of `SetInitialProbs` after `n`
iterations of its loop. -/
def SetInitialProbs.state {K : Type} [Field K] (trans_mdl : CctcTransitionModel K)
    (n : Nat) : List K × List K :=
  (List.range n).foldl (fun st _ => SetInitialProbs.iterate trans_mdl st)
    (List.replicate trans_mdl.NumHistoryStates (1 / (trans_mdl.NumHistoryStates : K)),
     List.replicate trans_mdl.NumHistoryStates 0)

/-- The divisor of the renormalisation of iteration `n` of `SetInitialProbs`:
the sum of the propagated vector, `cur_prob.Sum()` after the swap. -/
def SetInitialProbs.divisor {K : Type} [Field K] (trans_mdl : CctcTransitionModel K)
    (n : Nat) : K :=
  (SetInitialProbs.propagate trans_mdl (SetInitialProbs.state trans_mdl n).1
    (SetInitialProbs.state trans_mdl n).2).sum

/-! ### The quantities of the backward pass -/

/-- `variable_factor` of `BetaGeneralFrame(t)` for transition `e` and lane
`s`, when the row of the next frame's betas is the buffer `nb`. -/
def varFactor {K : Type} [Field K] (c : CctcNegativeComputation K) (t s : Nat)
    (nb : Nat → K) (e : CctcHmmTransition K) : K :=
  e.transition_prob * nb (e.hmm_state * c.num_sequences_ + s)
    * c.numerators_rearranged_.RowData t (e.num_index * c.num_sequences_ + s)

/-- `common_factor` of `BetaGeneralFrame(t)` for state `h` and lane `s`. -/
def commonFactor {K : Type} [Field K] (c : CctcNegativeComputation K) (t h s : Nat) : K :=
  1 / (c.denominators_rearranged_.RowData t (h * c.num_sequences_ + s)
        * c.alpha_.RowData t (c.hmm_.special_hmm_state_ * c.num_sequences_ + s))

/-- `occupation_factor` of `BetaGeneralFrame(t)` for state `h` and lane `s`. -/
def occupationFactor {K : Type} [Field K] (c : CctcNegativeComputation K) (t h s : Nat) : K :=
  commonFactor c t h s * c.alpha_.RowData t (h * c.num_sequences_ + s)

/-- `tot_variable_factor` of `BetaGeneralFrame(t)` after the loop over the
outgoing transitions of `h`. -/
def totVariableFactor {K : Type} [Field K] (c : CctcNegativeComputation K) (t h s : Nat)
    (nb : Nat → K) : K :=
  ((outEdges c h).map (varFactor c t s nb)).sum

/-- The numerator-derivative matrix after the loop over the outgoing
transitions of `h` in `BetaGeneralFrame(t)`, lane `s`: every transition adds
its occupation probability to the cell of its `num_index`. -/
def accumulateNumDeriv {K : Type} [Field K] (c : CctcNegativeComputation K) (t h s : Nat)
    (nb : Nat → K) (L : CuMatrixBase K) : CuMatrixBase K :=
  (outEdges c h).foldl (fun L e =>
    L.setRowData t (e.num_index * c.num_sequences_ + s)
      (L.RowData t (e.num_index * c.num_sequences_ + s)
        + varFactor c t s nb e * occupationFactor c t h s)) L

/-- The beta recursion over a full table, one row per frame, counted from
the last frame: `betaRec c k` is the row of frame `T - k`.  Row `T` holds
`1 / tot_prob(s)` for every state; the row of frame `t < T` holds, for state
`h`, the sum over the outgoing transitions of `h` of
`transitionProb * beta[t+1][dest,s] * numeratorProb[numIndex,t,s]` times
`common_factor = 1 / (denominatorProb[h,t,s] * alpha[t][SpecialState,s])`. -/
def betaRec {K : Type} [Field K] (c : CctcNegativeComputation K) : Nat → Nat → Nat → K
  | 0, _, s => (c.tot_prob_.map (fun x => 1 / x)).getD s 0
  | k + 1, h, s =>
    ((outEdges c h).map (fun e =>
      e.transition_prob * betaRec c k e.hmm_state s
        * c.numerators_rearranged_.RowData (c.num_time_steps_ - (k + 1))
            (e.num_index * c.num_sequences_ + s))).sum
      * commonFactor c (c.num_time_steps_ - (k + 1)) h s

/-- `beta[t][h,s]` of the full `(T + 1)`-row table. -/
def fullBeta {K : Type} [Field K] (c : CctcNegativeComputation K) (t h s : Nat) : K :=
  betaRec c (c.num_time_steps_ - t) h s

/-- The denominator gradient of cell `(t, h, s)` computed from the full beta
table: `- tot_variable_factor * occupation_factor / denominatorProb[h,t,s]`. -/
def denGradFull {K : Type} [Field K] (c : CctcNegativeComputation K) (t h s : Nat) : K :=
  - ((outEdges c h).map (fun e =>
      e.transition_prob * fullBeta c (t + 1) e.hmm_state s
        * c.numerators_rearranged_.RowData t (e.num_index * c.num_sequences_ + s))).sum
    * occupationFactor c t h s
    / c.denominators_rearranged_.RowData t (h * c.num_sequences_ + s)

/-- The numerator gradient of cell `(t, k, s)` computed from the full beta
table: the sum, over the history states `h` and the outgoing transitions of
`h` whose `num_index` is `k`, of `variable_factor * occupation_factor`. -/
def numGradFull {K : Type} [Field K] (c : CctcNegativeComputation K) (t k s : Nat) : K :=
  ((List.range c.num_hmm_states_).map (fun h =>
    (((outEdges c h).filter (fun e => decide (e.num_index = k))).map (fun e =>
      e.transition_prob * fullBeta c (t + 1) e.hmm_state s
        * c.numerators_rearranged_.RowData t (e.num_index * c.num_sequences_ + s)
        * occupationFactor c t h s)).sum)).sum

/-- The object is fit for the backward pass: a row of `beta_` holds
`num_hmm_states_ * num_sequences_` cells, the time-major matrices have the
column counts the constructor gives them, and the destination and the
`num_index` of every outgoing transition are in range. -/
structure BackwardReady {K : Type} (c : CctcNegativeComputation K) : Prop where
  beta_stride : c.num_hmm_states_ * c.num_sequences_ ≤ c.beta_.Stride
  num_cols : c.numerators_rearranged_.NumCols = c.numerator_dim_ * c.num_sequences_
  den_cols : c.denominators_rearranged_.NumCols = c.num_hmm_states_ * c.num_sequences_
  dest_lt : ∀ h, h < c.num_hmm_states_ → ∀ e ∈ outEdges c h, e.hmm_state < c.num_hmm_states_
  index_lt : ∀ h, h < c.num_hmm_states_ → ∀ e ∈ outEdges c h, e.num_index < c.numerator_dim_

/-! ### The quantities of the gradient claims -/

/-- The value that `Forward()` returns, as a function of the object (0 when
the call does not return). -/
def totalLogLike {K : Type} [Field K] [DecidableEq K] (log : K → K)
    (c : CctcNegativeComputation K) : K :=
  match Forward log c with
  | .ok r => r.1
  | .error _ => 0

/-- The object with `denominatorProb[h,t,s]` replaced by `x`. -/
def withDenominator {K : Type} (c : CctcNegativeComputation K) (t h s : Nat) (x : K) :
    CctcNegativeComputation K :=
  { c with denominators_rearranged_ :=
      c.denominators_rearranged_.setRowData t (h * c.num_sequences_ + s) x }

/-- The object with `numeratorProb[k,t,s]` replaced by `x`. -/
def withNumerator {K : Type} (c : CctcNegativeComputation K) (t k s : Nat) (x : K) :
    CctcNegativeComputation K :=
  { c with numerators_rearranged_ :=
      c.numerators_rearranged_.setRowData t (k * c.num_sequences_ + s) x }

/-- The unscaled mass, at state `h` on frame `t₀ + 1 + k`, of the paths whose
transition on frame `t₀` has its origin and `num_index` in the set `E`. -/
def edgeSetMass {K : Type} [Field K] (c : CctcNegativeComputation K) (E : Nat → Nat → Bool)
    (t₀ s : Nat) : Nat → Nat → K
  | 0, h =>
    ((inEdges c h).map (fun e =>
      if E e.hmm_state e.num_index then
        unscaledAlpha c t₀ e.hmm_state s * e.transition_prob * numProb c e.num_index t₀ s
          / denProb c e.hmm_state t₀ s
      else 0)).sum
  | k + 1, h =>
    ((inEdges c h).map (fun e =>
      edgeSetMass c E t₀ s k e.hmm_state * e.transition_prob
        * numProb c e.num_index (t₀ + 1 + k) s / denProb c e.hmm_state (t₀ + 1 + k) s)).sum

/-- The inputs of the computation are strictly positive: the transition
probabilities of the model, the initial probabilities of the history states,
and the numerator and denominator probabilities of every frame and lane. -/
structure PositiveInputs {K : Type} [LinearOrderedField K] (trans_mdl : CctcTransitionModel K)
    (c : CctcNegativeComputation K) : Prop where
  trans_pos : ∀ s p, s < trans_mdl.NumHistoryStates → p < trans_mdl.NumPhones + 1 →
    0 < (forwardRecord trans_mdl s p).transition_prob
  init_pos : ∀ h, h < c.num_hmm_states_ → 0 < c.hmm_.initial_probs_.getD h 0
  num_pos : ∀ k t s, k < c.numerator_dim_ → t < c.num_time_steps_ → s < c.num_sequences_ →
    0 < numProb c k t s
  den_pos : ∀ h t s, h < c.num_hmm_states_ → t < c.num_time_steps_ → s < c.num_sequences_ →
    0 < denProb c h t s

/-! # Proofs -/

/-! ## Loops as folds -/

section Folds

variable {ι α β : Type}

theorem foldl_nested_eq_product {γ : Type} (f : β → ι → γ → β) (l₁ : List ι) (l₂ : List γ)
    (b : β) :
    l₁.foldl (fun b x => l₂.foldl (fun b y => f b x y) b) b
      = (l₁.product l₂).foldl (fun b p => f b p.1 p.2) b := by
  induction l₁ generalizing b with
  | nil => rfl
  | cons a l ih =>
    have hp : (a :: l).product l₂ = List.map (fun y => (a, y)) l₂ ++ l.product l₂ :=
      List.product_cons a l l₂
    rw [hp, List.foldl_append, List.foldl_map, List.foldl_cons, ih]

theorem foldlM_ok_eq (f : β → ι → β) (l : List ι) (b : β) :
    l.foldlM (fun b a => (Except.ok (f b a) : Except Fault β)) b = Except.ok (l.foldl f b) := by
  induction l generalizing b with
  | nil => rfl
  | cons a l ih =>
    rw [List.foldlM_cons, List.foldl_cons]
    exact ih (f b a)

theorem foldl_add_eq_sum {K : Type} [AddCommMonoid K] (l : List ι) (g : ι → K) (a : K) :
    l.foldl (fun acc i => acc + g i) a = a + (l.map g).sum := by
  induction l generalizing a with
  | nil => simp
  | cons x l ih => rw [List.foldl_cons, ih, List.map_cons, List.sum_cons, add_assoc]

/-- A cell that no step of a loop of stores addresses keeps its value. -/
theorem foldl_update_of_forall_ne (l : List ι) (off : ι → Nat) (val : (Nat → α) → ι → α)
    (d : Nat → α) (j : Nat) (h : ∀ i ∈ l, off i ≠ j) :
    (l.foldl (fun d i => Function.update d (off i) (val d i)) d) j = d j := by
  induction l generalizing d with
  | nil => rfl
  | cons a l ih =>
    rw [List.foldl_cons, ih _ (fun i hi => h i (List.mem_cons_of_mem a hi))]
    exact Function.update_noteq (Ne.symm (h a (List.mem_cons_self a l))) _ _

/-- When distinct steps of a loop of stores address distinct cells and the
stored values do not depend on the cells the loop writes, each addressed cell
ends up holding the value computed from the initial buffer. -/
theorem foldl_update_of_mem (l : List ι) (off : ι → Nat) (val : (Nat → α) → ι → α)
    (d₀ : Nat → α)
    (hinj : ∀ i ∈ l, ∀ i' ∈ l, off i = off i' → i = i')
    (hval : ∀ d : Nat → α, (∀ j, (∀ i ∈ l, off i ≠ j) → d j = d₀ j) →
      ∀ i ∈ l, val d i = val d₀ i)
    (i : ι) (hi : i ∈ l) :
    (l.foldl (fun d i => Function.update d (off i) (val d i)) d₀) (off i) = val d₀ i := by
  suffices H : ∀ (l' : List ι) (d : Nat → α), (∀ x ∈ l', x ∈ l) →
      (∀ j, (∀ i ∈ l, off i ≠ j) → d j = d₀ j) → i ∈ l' →
      (l'.foldl (fun d i => Function.update d (off i) (val d i)) d) (off i) = val d₀ i from
    H l d₀ (fun _ hx => hx) (fun _ _ => rfl) hi
  intro l'
  induction l' with
  | nil => intro d _ _ h; exact absurd h (List.not_mem_nil i)
  | cons a l' ih =>
    intro d hsub hd hmem
    rw [List.foldl_cons]
    have ha : a ∈ l := hsub a (List.mem_cons_self a l')
    have hd' : ∀ j, (∀ i ∈ l, off i ≠ j) →
        Function.update d (off a) (val d a) j = d₀ j := by
      intro j hj
      rw [Function.update_noteq (Ne.symm (hj a ha)), hd j hj]
    by_cases hil : i ∈ l'
    · exact ih _ (fun x hx => hsub x (List.mem_cons_of_mem a hx)) hd' hil
    · have hia : i = a := by
        rcases List.mem_cons.mp hmem with h | h
        · exact h
        · exact absurd h hil
      subst hia
      rw [foldl_update_of_forall_ne]
      · rw [Function.update_same]; exact hval d hd i ha
      · intro x hx hox
        have : x = i :=
          hinj x (hsub x (List.mem_cons_of_mem i hx)) i ha hox
        exact hil (this ▸ hx)

end Folds

/-! ## The strided copy -/

section Tensor

variable {α : Type}

theorem mixed_radix_inj {a b a' b' n : Nat} (hb : b < n) (hb' : b' < n)
    (h : a * n + b = a' * n + b') : a = a' ∧ b = b' := by
  rcases Nat.lt_trichotomy a a' with hlt | heq | hgt
  · have h1 : (a + 1) * n ≤ a' * n := Nat.mul_le_mul_right n hlt
    have h2 : (a + 1) * n = a * n + n := Nat.succ_mul a n
    omega
  · subst heq
    exact ⟨rfl, by omega⟩
  · have h1 : (a' + 1) * n ≤ a * n := Nat.mul_le_mul_right n hgt
    have h2 : (a' + 1) * n = a' * n + n := Nat.succ_mul a' n
    omega

theorem mem_box {xdim ydim zdim : Nat} {p : Nat × Nat × Nat} :
    p ∈ box xdim ydim zdim ↔ p.1 < xdim ∧ p.2.1 < ydim ∧ p.2.2 < zdim := by
  obtain ⟨x, y, z⟩ := p
  simp [box, List.pair_mem_product]

theorem Tensor3dCopy_eq_foldl (xdim ydim zdim sx sy sz dx dy dz : Nat) (src dst : Nat → α) :
    Tensor3dCopy xdim ydim zdim sx sy sz dx dy dz src dst
      = (box xdim ydim zdim).foldl (fun d p =>
          Function.update d (p.1 * dx + p.2.1 * dy + p.2.2 * dz)
            (src (p.1 * sx + p.2.1 * sy + p.2.2 * sz))) dst := by
  unfold Tensor3dCopy box
  have h1 := foldl_nested_eq_product (fun (d : Nat → α) (x : Nat) (p : Nat × Nat) =>
          Function.update d (x * dx + p.1 * dy + p.2 * dz)
            (src (x * sx + p.1 * sy + p.2 * sz)))
          (List.range xdim) ((List.range ydim).product (List.range zdim)) dst
  refine Eq.trans ?_ h1
  congr 1
  funext d x
  exact foldl_nested_eq_product (fun (d : Nat → α) (y z : Nat) =>
          Function.update d (x * dx + y * dy + z * dz)
            (src (x * sx + y * sy + z * sz))) _ _ d

/-- A destination cell whose offset is produced by exactly one index triple
receives the source cell of that triple. -/
theorem Tensor3dCopy_apply (xdim ydim zdim sx sy sz dx dy dz : Nat) (src dst : Nat → α)
    (hinj : ∀ x y z x' y' z', x < xdim → y < ydim → z < zdim → x' < xdim → y' < ydim →
      z' < zdim → x * dx + y * dy + z * dz = x' * dx + y' * dy + z' * dz →
      x = x' ∧ y = y' ∧ z = z')
    (x y z : Nat) (hx : x < xdim) (hy : y < ydim) (hz : z < zdim) :
    Tensor3dCopy xdim ydim zdim sx sy sz dx dy dz src dst (x * dx + y * dy + z * dz)
      = src (x * sx + y * sy + z * sz) := by
  rw [Tensor3dCopy_eq_foldl]
  have := foldl_update_of_mem (box xdim ydim zdim)
    (fun p => p.1 * dx + p.2.1 * dy + p.2.2 * dz)
    (fun _ p => src (p.1 * sx + p.2.1 * sy + p.2.2 * sz)) dst
    (by
      rintro ⟨a, b, c⟩ hp ⟨a', b', c'⟩ hp' he
      rw [mem_box] at hp hp'
      obtain ⟨h1, h2, h3⟩ := hinj a b c a' b' c' hp.1 hp.2.1 hp.2.2 hp'.1 hp'.2.1 hp'.2.2 he
      simp [h1, h2, h3])
    (fun _ _ _ _ => rfl) (x, y, z) (mem_box.mpr ⟨hx, hy, hz⟩)
  exact this

/-- A destination cell that no index triple addresses is left as it was. -/
theorem Tensor3dCopy_frame (xdim ydim zdim sx sy sz dx dy dz : Nat) (src dst : Nat → α)
    (j : Nat)
    (hj : ∀ x y z, x < xdim → y < ydim → z < zdim → x * dx + y * dy + z * dz ≠ j) :
    Tensor3dCopy xdim ydim zdim sx sy sz dx dy dz src dst j = dst j := by
  rw [Tensor3dCopy_eq_foldl]
  apply foldl_update_of_forall_ne (box xdim ydim zdim)
    (fun p => p.1 * dx + p.2.1 * dy + p.2.2 * dz)
    (fun _ p => src (p.1 * sx + p.2.1 * sy + p.2.2 * sz))
  rintro ⟨a, b, c⟩ hp
  rw [mem_box] at hp
  exact hj a b c hp.1 hp.2.1 hp.2.2

theorem timeMajor_offset_inj {S F st : Nat} (hst : F * S ≤ st)
    {x y z x' y' z' : Nat} (hy : y < F) (hz : z < S) (hy' : y' < F) (hz' : z' < S)
    (h : x * st + y * S + z * 1 = x' * st + y' * S + z' * 1) :
    x = x' ∧ y = y' ∧ z = z' := by
  have b1 : y * S + z < st := by
    have : (y + 1) * S ≤ F * S := Nat.mul_le_mul_right S hy
    have h2 : (y + 1) * S = y * S + S := Nat.succ_mul y S
    omega
  have b2 : y' * S + z' < st := by
    have : (y' + 1) * S ≤ F * S := Nat.mul_le_mul_right S hy'
    have h2 : (y' + 1) * S = y' * S + S := Nat.succ_mul y' S
    omega
  have h' : x * st + (y * S + z) = x' * st + (y' * S + z') := by omega
  obtain ⟨e1, e2⟩ := mixed_radix_inj b1 b2 h'
  obtain ⟨e3, e4⟩ := mixed_radix_inj hz hz' e2
  exact ⟨e1, e3, e4⟩

theorem native_offset_inj {T F st : Nat} (hst : F ≤ st)
    {x y z x' y' z' : Nat} (hx : x < T) (hy : y < F) (hx' : x' < T) (hy' : y' < F)
    (h : x * st + y * 1 + z * (st * T) = x' * st + y' * 1 + z' * (st * T)) :
    x = x' ∧ y = y' ∧ z = z' := by
  have e : ∀ a b c : Nat, a * st + b * 1 + c * (st * T) = (c * T + a) * st + b := by
    intro a b c; ring
  rw [e, e] at h
  obtain ⟨e1, e2⟩ := mixed_radix_inj (Nat.lt_of_lt_of_le hy hst) (Nat.lt_of_lt_of_le hy' hst) h
  obtain ⟨e3, e4⟩ := mixed_radix_inj hx hx' e1
  exact ⟨e4, e2, e3⟩

end Tensor

/-! ## The two rearrangements -/

section Rearrange

variable {α : Type}

theorem RearrangeNnetOutput_ok (M N : CuMatrixBase α) (hT : N.NumRows ≠ 0)
    (hrows : M.NumRows % N.NumRows = 0)
    (hcols : N.NumCols = M.NumCols * (M.NumRows / N.NumRows)) :
    RearrangeNnetOutput M N = .ok { N with
      Data := Tensor3dCopy N.NumRows M.NumCols (M.NumRows / N.NumRows)
        M.Stride 1 (M.Stride * N.NumRows) N.Stride (M.NumRows / N.NumRows) 1
        M.Data N.Data } := by
  unfold RearrangeNnetOutput
  simp [hT, hrows, hcols]

theorem RearrangeNnetOutput_inv {M N N' : CuMatrixBase α}
    (h : RearrangeNnetOutput M N = .ok N') :
    N.NumRows ≠ 0 ∧ M.NumRows % N.NumRows = 0 ∧
    N.NumCols = M.NumCols * (M.NumRows / N.NumRows) ∧
    N' = { N with
      Data := Tensor3dCopy N.NumRows M.NumCols (M.NumRows / N.NumRows)
        M.Stride 1 (M.Stride * N.NumRows) N.Stride (M.NumRows / N.NumRows) 1
        M.Data N.Data } := by
  by_cases hT : N.NumRows = 0
  · simp [RearrangeNnetOutput, hT] at h
  by_cases hrows : M.NumRows % N.NumRows = 0
  · by_cases hcols : N.NumCols = M.NumCols * (M.NumRows / N.NumRows)
    · rw [RearrangeNnetOutput_ok M N hT hrows hcols] at h
      exact ⟨hT, hrows, hcols, (Except.ok.inj h).symm⟩
    · simp [RearrangeNnetOutput, hT, hrows, hcols] at h
  · simp [RearrangeNnetOutput, hT, hrows] at h

theorem RearrangeNnetOutputReverse_ok (N O : CuMatrixBase α) (hT : N.NumRows ≠ 0)
    (hrows : O.NumRows % N.NumRows = 0)
    (hcols : N.NumCols = O.NumCols * (O.NumRows / N.NumRows)) :
    RearrangeNnetOutputReverse N O = .ok { O with
      Data := Tensor3dCopy N.NumRows O.NumCols (O.NumRows / N.NumRows)
        N.Stride (O.NumRows / N.NumRows) 1 O.Stride 1 (O.Stride * N.NumRows)
        N.Data O.Data } := by
  unfold RearrangeNnetOutputReverse
  simp [hT, hrows, hcols]

theorem RearrangeNnetOutputReverse_inv {N O O' : CuMatrixBase α}
    (h : RearrangeNnetOutputReverse N O = .ok O') :
    N.NumRows ≠ 0 ∧ O.NumRows % N.NumRows = 0 ∧
    N.NumCols = O.NumCols * (O.NumRows / N.NumRows) ∧
    O' = { O with
      Data := Tensor3dCopy N.NumRows O.NumCols (O.NumRows / N.NumRows)
        N.Stride (O.NumRows / N.NumRows) 1 O.Stride 1 (O.Stride * N.NumRows)
        N.Data O.Data } := by
  by_cases hT : N.NumRows = 0
  · simp [RearrangeNnetOutputReverse, hT] at h
  by_cases hrows : O.NumRows % N.NumRows = 0
  · by_cases hcols : N.NumCols = O.NumCols * (O.NumRows / N.NumRows)
    · rw [RearrangeNnetOutputReverse_ok N O hT hrows hcols] at h
      exact ⟨hT, hrows, hcols, (Except.ok.inj h).symm⟩
    · simp [RearrangeNnetOutputReverse, hT, hrows, hcols] at h
  · simp [RearrangeNnetOutputReverse, hT, hrows] at h

/-- Cell `(t, f * S + s)` of the time-major matrix written by
`RearrangeNnetOutput` is cell `(s * T + t, f)` of the native matrix. -/
theorem RearrangeNnetOutput_cell {M N N' : CuMatrixBase α}
    (h : RearrangeNnetOutput M N = .ok N') (hst : N.NumCols ≤ N.Stride)
    {t f s : Nat} (ht : t < N.NumRows) (hf : f < M.NumCols)
    (hs : s < M.NumRows / N.NumRows) :
    N'.RowData t (f * (M.NumRows / N.NumRows) + s) = M.RowData (s * N.NumRows + t) f := by
  obtain ⟨_, _, hcols, rfl⟩ := RearrangeNnetOutput_inv h
  have key := Tensor3dCopy_apply N.NumRows M.NumCols (M.NumRows / N.NumRows)
    M.Stride 1 (M.Stride * N.NumRows) N.Stride (M.NumRows / N.NumRows) 1 M.Data N.Data
    (fun x y z x' y' z' _ hy hz _ hy' hz' he =>
      timeMajor_offset_inj (hcols ▸ hst) hy hz hy' hz' he)
    t f s ht hf hs
  simp only [CuMatrixBase.RowData]
  have e1 : t * N.Stride + (f * (M.NumRows / N.NumRows) + s)
      = t * N.Stride + f * (M.NumRows / N.NumRows) + s * 1 := by ring
  have e2 : (s * N.NumRows + t) * M.Stride + f
      = t * M.Stride + f * 1 + s * (M.Stride * N.NumRows) := by ring
  rw [e1, e2]
  exact key

/-- Cell `(s * T + t, f)` of the native matrix written by
`RearrangeNnetOutputReverse` is cell `(t, f * S + s)` of the time-major
matrix. -/
theorem RearrangeNnetOutputReverse_cell {N O O' : CuMatrixBase α}
    (h : RearrangeNnetOutputReverse N O = .ok O') (hst : O.NumCols ≤ O.Stride)
    {t f s : Nat} (ht : t < N.NumRows) (hf : f < O.NumCols)
    (hs : s < O.NumRows / N.NumRows) :
    O'.RowData (s * N.NumRows + t) f = N.RowData t (f * (O.NumRows / N.NumRows) + s) := by
  obtain ⟨_, _, _, rfl⟩ := RearrangeNnetOutputReverse_inv h
  have key := Tensor3dCopy_apply N.NumRows O.NumCols (O.NumRows / N.NumRows)
    N.Stride (O.NumRows / N.NumRows) 1 O.Stride 1 (O.Stride * N.NumRows) N.Data O.Data
    (fun x y z x' y' z' hx hy _ hx' hy' _ he =>
      native_offset_inj hst hx hy hx' hy' he)
    t f s ht hf hs
  simp only [CuMatrixBase.RowData]
  have e1 : t * N.Stride + (f * (O.NumRows / N.NumRows) + s)
      = t * N.Stride + f * (O.NumRows / N.NumRows) + s * 1 := by ring
  have e2 : (s * N.NumRows + t) * O.Stride + f
      = t * O.Stride + f * 1 + s * (O.Stride * N.NumRows) := by ring
  rw [e1, e2]
  exact key

end Rearrange

/-! ## C3: the rearrangement round trip -/

/-- C3.  For a native matrix `M` of `S * T` rows and `F` columns with
`T ≥ 1`, `RearrangeNnetOutput` into a `T × (F * S)` matrix followed by
`RearrangeNnetOutputReverse` into a matrix of the shape of `M` succeeds and
yields `M` in every cell; and for a time-major matrix `N` of `T` rows and
`F * S` columns, the reverse rearrangement followed by `RearrangeNnetOutput`
succeeds and yields `N` in every cell.  Every destination has a row stride
at least its column count; the contents of the destinations before the calls
are arbitrary. -/
theorem rearrange_round_trip {α : Type} (S T F : Nat) (hT : 1 ≤ T)
    (M N O P : CuMatrixBase α)
    (hMr : M.NumRows = S * T) (hMc : M.NumCols = F)
    (hNr : N.NumRows = T) (hNc : N.NumCols = F * S) (hNs : N.NumCols ≤ N.Stride)
    (hOr : O.NumRows = S * T) (hOc : O.NumCols = F) (hOs : O.NumCols ≤ O.Stride)
    (hPr : P.NumRows = T) (hPc : P.NumCols = F * S) (hPs : P.NumCols ≤ P.Stride) :
    (∃ N' O', RearrangeNnetOutput M N = .ok N' ∧
        RearrangeNnetOutputReverse N' O = .ok O' ∧
        O'.NumRows = M.NumRows ∧ O'.NumCols = M.NumCols ∧
        ∀ r c, r < S * T → c < F → O'.RowData r c = M.RowData r c) ∧
    (∃ O' P', RearrangeNnetOutputReverse N O = .ok O' ∧
        RearrangeNnetOutput O' P = .ok P' ∧
        P'.NumRows = N.NumRows ∧ P'.NumCols = N.NumCols ∧
        ∀ t j, t < T → j < F * S → P'.RowData t j = N.RowData t j) := by
  have hT0 : T ≠ 0 := by omega
  have hTpos : 0 < T := by omega
  have hdiv : S * T / T = S := Nat.mul_div_cancel S hTpos
  have hmod : S * T % T = 0 := Nat.mul_mod_left S T
  constructor
  · have h1 := RearrangeNnetOutput_ok M N (by rw [hNr]; exact hT0)
      (by rw [hMr, hNr]; exact hmod) (by rw [hMr, hNr, hMc, hdiv]; exact hNc)
    obtain ⟨N', hN'⟩ : ∃ N', RearrangeNnetOutput M N = .ok N' := ⟨_, h1⟩
    obtain ⟨_, _, _, hN'eq⟩ := RearrangeNnetOutput_inv hN'
    have hN'r : N'.NumRows = T := by rw [hN'eq]; exact hNr
    have hN'c : N'.NumCols = F * S := by rw [hN'eq]; exact hNc
    have h2 := RearrangeNnetOutputReverse_ok N' O (by rw [hN'r]; exact hT0)
      (by rw [hOr, hN'r]; exact hmod) (by rw [hOr, hN'r, hOc, hdiv]; exact hN'c)
    obtain ⟨O', hO'⟩ : ∃ O', RearrangeNnetOutputReverse N' O = .ok O' := ⟨_, h2⟩
    obtain ⟨_, _, _, hO'eq⟩ := RearrangeNnetOutputReverse_inv hO'
    refine ⟨N', O', hN', hO', ?_, ?_, ?_⟩
    · rw [hO'eq, hMr]; exact hOr
    · rw [hO'eq, hMc]; exact hOc
    · intro r c hr hc
      have hrT : r % T < T := Nat.mod_lt r hTpos
      have hrS : r / T < S := by
        rw [Nat.div_lt_iff_lt_mul hTpos]; exact hr
      have hr_eq : r / T * T + r % T = r := Nat.div_add_mod' r T
      have c1 := RearrangeNnetOutputReverse_cell hO' hOs
        (t := r % T) (f := c) (s := r / T) (by rw [hN'r]; exact hrT) (by rw [hOc]; exact hc)
        (by rw [hOr, hN'r, hdiv]; exact hrS)
      have c2 := RearrangeNnetOutput_cell hN' hNs
        (t := r % T) (f := c) (s := r / T) (by rw [hNr]; exact hrT) (by rw [hMc]; exact hc)
        (by rw [hMr, hNr, hdiv]; exact hrS)
      rw [hN'r, hOr, hdiv, hr_eq] at c1
      rw [hNr, hMr, hdiv, hr_eq] at c2
      rw [c1, c2]
  · have h1 := RearrangeNnetOutputReverse_ok N O (by rw [hNr]; exact hT0)
      (by rw [hOr, hNr]; exact hmod) (by rw [hOr, hNr, hOc, hdiv]; exact hNc)
    obtain ⟨O', hO'⟩ : ∃ O', RearrangeNnetOutputReverse N O = .ok O' := ⟨_, h1⟩
    obtain ⟨_, _, _, hO'eq⟩ := RearrangeNnetOutputReverse_inv hO'
    have hO'r : O'.NumRows = S * T := by rw [hO'eq]; exact hOr
    have hO'c : O'.NumCols = F := by rw [hO'eq]; exact hOc
    have h2 := RearrangeNnetOutput_ok O' P (by rw [hPr]; exact hT0)
      (by rw [hO'r, hPr]; exact hmod) (by rw [hO'r, hPr, hO'c, hdiv]; exact hPc)
    obtain ⟨P', hP'⟩ : ∃ P', RearrangeNnetOutput O' P = .ok P' := ⟨_, h2⟩
    obtain ⟨_, _, _, hP'eq⟩ := RearrangeNnetOutput_inv hP'
    refine ⟨O', P', hO', hP', ?_, ?_, ?_⟩
    · rw [hP'eq, hNr]; exact hPr
    · rw [hP'eq, hNc]; exact hPc
    · intro t j ht hj
      have hSpos : 0 < S := by
        rcases Nat.eq_zero_or_pos S with h0 | h0
        · rw [h0] at hj; simp at hj
        · exact h0
      have hjS : j % S < S := Nat.mod_lt j hSpos
      have hjF : j / S < F := by
        rw [Nat.div_lt_iff_lt_mul hSpos]; exact hj
      have hj_eq : j / S * S + j % S = j := Nat.div_add_mod' j S
      have c1 := RearrangeNnetOutput_cell hP' hPs
        (t := t) (f := j / S) (s := j % S) (by rw [hPr]; exact ht) (by rw [hO'c]; exact hjF)
        (by rw [hO'r, hPr, hdiv]; exact hjS)
      have c2 := RearrangeNnetOutputReverse_cell hO' hOs
        (t := t) (f := j / S) (s := j % S) (by rw [hNr]; exact ht) (by rw [hOc]; exact hjF)
        (by rw [hOr, hNr, hdiv]; exact hjS)
      rw [hO'r, hPr, hdiv, hj_eq] at c1
      rw [hOr, hNr, hdiv, hj_eq] at c2
      rw [c1, c2]

/-! ## Lists updated in a loop -/

section Lists

variable {ι β γ : Type}

theorem foldlM_eq_ok_of_forall (f : β → ι → Except Fault β) (g : β → ι → β) (l : List ι)
    (b : β) (h : ∀ a ∈ l, ∀ b, f b a = .ok (g b a)) :
    l.foldlM f b = .ok (l.foldl g b) := by
  induction l generalizing b with
  | nil => rfl
  | cons a l ih =>
    rw [List.foldlM_cons, List.foldl_cons, h a (List.mem_cons_self a l) b]
    exact ih (g b a) (fun x hx => h x (List.mem_cons_of_mem a hx))

/-- A monadic fold whose steps return as long as an invariant holds, and keep
the invariant, returns the pure fold, on which the invariant holds. -/
theorem foldlM_eq_ok_of_inv (P : β → Prop) (f : β → ι → Except Fault β) (g : β → ι → β)
    (l : List ι) (b : β) (hb : P b)
    (h : ∀ a ∈ l, ∀ b, P b → f b a = .ok (g b a) ∧ P (g b a)) :
    l.foldlM f b = .ok (l.foldl g b) ∧ P (l.foldl g b) := by
  induction l generalizing b with
  | nil => exact ⟨rfl, hb⟩
  | cons a l ih =>
    obtain ⟨h1, h2⟩ := h a (List.mem_cons_self a l) b hb
    rw [List.foldlM_cons, List.foldl_cons, h1]
    exact ih (g b a) h2 (fun x hx => h x (List.mem_cons_of_mem a hx))

/-- A sum that becomes `none` at a zero denominator is the plain sum when no
denominator is zero. -/
theorem foldl_guarded_eq_some [DecidableEq β] [Zero β] [Add β] (l : List ι) (den term : ι → β)
    (x : β) (h : ∀ e ∈ l, den e ≠ 0) :
    l.foldl (fun (acc : Option β) e =>
        if den e = 0 then none else acc.map (fun y => y + term e)) (some x)
      = some (l.foldl (fun y e => y + term e) x) := by
  induction l generalizing x with
  | nil => rfl
  | cons a l ih =>
    rw [List.foldl_cons, List.foldl_cons, if_neg (h a (List.mem_cons_self a l))]
    exact ih _ (fun e he => h e (List.mem_cons_of_mem a he))

/-- A sum that becomes `none` at a zero denominator is `none` as soon as one
denominator is zero. -/
theorem foldl_guarded_eq_none [DecidableEq β] [Zero β] [Add β] (l : List ι) (den term : ι → β)
    (acc : Option β) (h : ∃ e ∈ l, den e = 0) :
    l.foldl (fun (acc : Option β) e =>
        if den e = 0 then none else acc.map (fun y => y + term e)) acc = none := by
  have hnone : ∀ l : List ι, l.foldl (fun (acc : Option β) e =>
      if den e = 0 then none else acc.map (fun y => y + term e)) none = none := by
    intro l
    induction l with
    | nil => rfl
    | cons a l ih =>
      rw [List.foldl_cons]
      by_cases ha : den a = 0
      · rw [if_pos ha]; exact ih
      · rw [if_neg ha]; exact ih
  induction l generalizing acc with
  | nil => obtain ⟨e, he, _⟩ := h; exact absurd he (List.not_mem_nil e)
  | cons a l ih =>
    rw [List.foldl_cons]
    by_cases ha : den a = 0
    · rw [if_pos ha]; exact hnone l
    · rw [if_neg ha]
      obtain ⟨e, he, h0⟩ := h
      rcases List.mem_cons.mp he with rfl | he'
      · exact absurd h0 ha
      · exact ih _ ⟨e, he', h0⟩

theorem foldl_prod (f₁ : β → ι → β) (f₂ : γ → ι → γ) (l : List ι) (b : β) (c : γ) :
    l.foldl (fun (st : β × γ) i => (f₁ st.1 i, f₂ st.2 i)) (b, c)
      = (l.foldl f₁ b, l.foldl f₂ c) := by
  induction l generalizing b c with
  | nil => rfl
  | cons a l ih => simp only [List.foldl_cons]; exact ih _ _

theorem foldl_modify_length (l : List ι) (idx : ι → Nat) (g : ι → β → β) (L : List β) :
    (l.foldl (fun L i => List.modify (g i) (idx i) L) L).length = L.length := by
  induction l generalizing L with
  | nil => rfl
  | cons a l ih => rw [List.foldl_cons, ih, List.length_modify]

/-- After a loop of in-place modifications of the entries of a list, entry
`k` has received, in loop order, the modifications of the steps that
address `k`. -/
theorem foldl_modify_getElem? (l : List ι) (idx : ι → Nat) (g : ι → β → β) (L : List β)
    (k : Nat) :
    (l.foldl (fun L i => List.modify (g i) (idx i) L) L)[k]?
      = (L[k]?).map (fun x =>
          (l.filter (fun i => decide (idx i = k))).foldl (fun x i => g i x) x) := by
  induction l generalizing L with
  | nil => simp
  | cons a l ih =>
    rw [List.foldl_cons, ih, List.getElem?_modify, List.filter_cons]
    by_cases hk : idx a = k
    · cases L[k]? <;> simp [hk]
    · cases L[k]? <;> simp [hk]

theorem filter_product_fst (l₁ : List ι) (l₂ : List γ) [DecidableEq ι] (a : ι)
    (ha : a ∈ l₁) (hnd : l₁.Nodup) :
    (l₁.product l₂).filter (fun p => decide (p.1 = a)) = l₂.map (fun y => (a, y)) := by
  induction l₁ with
  | nil => exact absurd ha (List.not_mem_nil a)
  | cons x l ih =>
    have hp : (x :: l).product l₂ = List.map (fun y => (x, y)) l₂ ++ l.product l₂ :=
      List.product_cons x l l₂
    rw [hp, List.filter_append]
    have hxl : x ∉ l := (List.nodup_cons.mp hnd).1
    by_cases hxa : x = a
    · subst hxa
      have h1 : List.filter (fun p : ι × γ => decide (p.1 = x)) (List.map (fun y => (x, y)) l₂)
          = List.map (fun y => (x, y)) l₂ := by
        apply List.filter_eq_self.mpr
        intro p hp
        obtain ⟨y, _, rfl⟩ := List.mem_map.mp hp
        simp
      have h2 : List.filter (fun p : ι × γ => decide (p.1 = x)) (l.product l₂) = [] := by
        apply List.filter_eq_nil_iff.mpr
        rintro ⟨u, v⟩ huv
        have : u ∈ l := (List.pair_mem_product.mp huv).1
        simp only [decide_eq_true_eq]
        rintro rfl
        exact hxl this
      rw [h1, h2, List.append_nil]
    · have h1 : List.filter (fun p : ι × γ => decide (p.1 = a)) (List.map (fun y => (x, y)) l₂)
          = [] := by
        apply List.filter_eq_nil_iff.mpr
        intro p hp
        obtain ⟨y, _, rfl⟩ := List.mem_map.mp hp
        simpa using hxa
      rw [h1, List.nil_append]
      rcases List.mem_cons.mp ha with h | h
      · exact absurd h.symm hxa
      · exact ih h (List.nodup_cons.mp hnd).2

end Lists

/-! ## The transition table built by `SetTransitions` -/

section Table

variable {K : Type}

theorem foldl_set_range {β : Type} (f : Nat → β) (n : Nat) (L : List β) (hL : L.length = n) :
    (List.range n).foldl (fun x p => x.set p (f p)) L = (List.range n).map f := by
  have key : ∀ m, m ≤ n →
      ((List.range m).foldl (fun x p => x.set p (f p)) L).length = n ∧
      ∀ k, ((List.range m).foldl (fun x p => x.set p (f p)) L)[k]?
        = if k < m then some (f k) else L[k]? := by
    intro m
    induction m with
    | zero => intro _; exact ⟨hL, fun k => by simp⟩
    | succ m ih =>
      intro hm
      obtain ⟨hlen, hget⟩ := ih (by omega)
      rw [List.range_succ, List.foldl_append]
      simp only [List.foldl_cons, List.foldl_nil]
      refine ⟨by rw [List.length_set]; exact hlen, fun k => ?_⟩
      have hm' : m < ((List.range m).foldl (fun x p => x.set p (f p)) L).length := by
        rw [hlen]; omega
      rw [List.getElem?_set, hget, if_pos hm']
      by_cases hk : m = k
      · subst hk; simp
      · by_cases hk2 : k < m
        · have : k < m + 1 := by omega
          simp [hk, hk2, this]
        · have : ¬ k < m + 1 := by omega
          simp [hk, hk2, this]
  obtain ⟨hlen, hget⟩ := key n (le_refl n)
  apply List.ext_getElem?
  intro k
  rw [hget, List.getElem?_map]
  by_cases hk : k < n
  · simp [hk, List.getElem?_range hk]
  · have h1 : L[k]? = none := List.getElem?_eq_none (by omega)
    have h2 : (List.range n)[k]? = none := List.getElem?_eq_none (by simp; omega)
    simp [hk, h1, h2]

/-- The pairs `(s, p)` in the order in which the loops of `SetTransitions`
visit them. -/
theorem mem_statePhonePairs {H P : Nat} {sp : Nat × Nat} :
    sp ∈ (List.range H).product (List.range (P + 1)) ↔ sp.1 < H ∧ sp.2 < P + 1 := by
  obtain ⟨s, p⟩ := sp
  simp [List.pair_mem_product]

theorem SetTransitions.fill_ok [Zero K] (trans_mdl : CctcTransitionModel K)
    (hnext : ∀ s p, s < trans_mdl.NumHistoryStates → p < trans_mdl.NumPhones + 1 →
      (forwardRecord trans_mdl s p).hmm_state < trans_mdl.NumHistoryStates) :
    SetTransitions.fill trans_mdl = .ok
      (((List.range trans_mdl.NumHistoryStates).product
          (List.range (trans_mdl.NumPhones + 1))).foldl
        (fun L sp => List.modify
          (fun row => row.set sp.2 (forwardRecord trans_mdl sp.1 sp.2)) sp.1 L)
        (List.replicate trans_mdl.NumHistoryStates
          (List.replicate (trans_mdl.NumPhones + 1) ⟨0, 0, 0⟩)),
       ((List.range trans_mdl.NumHistoryStates).product
          (List.range (trans_mdl.NumPhones + 1))).foldl
        (fun L sp => List.modify
          (fun row => row ++ [{ forwardRecord trans_mdl sp.1 sp.2 with hmm_state := sp.1 }])
          (forwardRecord trans_mdl sp.1 sp.2).hmm_state L)
        (List.replicate trans_mdl.NumHistoryStates [])) := by
  rw [← foldl_prod]
  have e := foldl_nested_eq_product
    (fun (st : List (List (CctcHmmTransition K)) × List (List (CctcHmmTransition K)))
        (s p : Nat) =>
      (List.modify (fun row => row.set p (forwardRecord trans_mdl s p)) s st.1,
       List.modify
        (fun row => row ++ [{ forwardRecord trans_mdl s p with hmm_state := s }])
        (forwardRecord trans_mdl s p).hmm_state st.2))
    (List.range trans_mdl.NumHistoryStates) (List.range (trans_mdl.NumPhones + 1))
    (List.replicate trans_mdl.NumHistoryStates
        (List.replicate (trans_mdl.NumPhones + 1) ⟨0, 0, 0⟩),
      List.replicate trans_mdl.NumHistoryStates [])
  refine Eq.trans ?_ (congrArg Except.ok e)
  unfold SetTransitions.fill
  apply foldlM_eq_ok_of_forall
  intro s hs st
  apply foldlM_eq_ok_of_forall
  intro p hp st'
  unfold SetTransitions.step
  rw [if_pos (hnext s p (List.mem_range.mp hs) (List.mem_range.mp hp))]

theorem foldl_append_singleton {ι β : Type} (l : List ι) (r : ι → β) (x : List β) :
    l.foldl (fun x i => x ++ [r i]) x = x ++ l.map r := by
  induction l generalizing x with
  | nil => simp
  | cons a l ih => rw [List.foldl_cons, ih]; simp

theorem fill_out_getElem? [Zero K] (trans_mdl : CctcTransitionModel K) (s : Nat)
    (hs : s < trans_mdl.NumHistoryStates) :
    ((statePhonePairs trans_mdl.NumHistoryStates trans_mdl.NumPhones).foldl
        (fun L sp => List.modify
          (fun row => row.set sp.2 (forwardRecord trans_mdl sp.1 sp.2)) sp.1 L)
        (List.replicate trans_mdl.NumHistoryStates
          (List.replicate (trans_mdl.NumPhones + 1) ⟨0, 0, 0⟩)))[s]?
      = some (outgoingRecords trans_mdl s) := by
  refine (foldl_modify_getElem? _ (fun sp : Nat × Nat => sp.1)
    (fun sp (row : List (CctcHmmTransition K)) =>
      row.set sp.2 (forwardRecord trans_mdl sp.1 sp.2)) _ s).trans ?_
  rw [List.getElem?_replicate, if_pos hs]
  simp only [Option.map_some']
  congr 1
  unfold statePhonePairs
  rw [filter_product_fst _ _ s (List.mem_range.mpr hs) (List.nodup_range _), List.foldl_map]
  exact foldl_set_range (forwardRecord trans_mdl s) _ _ (List.length_replicate _ _)

theorem fill_in_getElem? (trans_mdl : CctcTransitionModel K) (d : Nat)
    (hd : d < trans_mdl.NumHistoryStates) :
    ((statePhonePairs trans_mdl.NumHistoryStates trans_mdl.NumPhones).foldl
        (fun L sp => List.modify
          (fun row => row ++ [{ forwardRecord trans_mdl sp.1 sp.2 with hmm_state := sp.1 }])
          (forwardRecord trans_mdl sp.1 sp.2).hmm_state L)
        (List.replicate trans_mdl.NumHistoryStates []))[d]?
      = some (incomingRecords trans_mdl d) := by
  refine (foldl_modify_getElem? _
    (fun sp : Nat × Nat => (forwardRecord trans_mdl sp.1 sp.2).hmm_state)
    (fun sp (row : List (CctcHmmTransition K)) =>
      row ++ [{ forwardRecord trans_mdl sp.1 sp.2 with hmm_state := sp.1 }])
    _ d).trans ?_
  rw [List.getElem?_replicate, if_pos hd]
  simp only [Option.map_some']
  congr 1
  rw [foldl_append_singleton _
    (fun sp : Nat × Nat => ({ forwardRecord trans_mdl sp.1 sp.2 with hmm_state := sp.1 } :
      CctcHmmTransition K))]
  rfl

theorem transRange_append_left (l l' : List (CctcHmmTransition K)) (r : Int32Pair)
    (h1 : r.first ≤ r.second) (h2 : r.second ≤ l.length) :
    transRange (l ++ l') r = transRange l r := by
  unfold transRange
  rw [List.drop_append_of_le_length (by omega), List.take_append_of_le_length]
  rw [List.length_drop]; omega

theorem transRange_append_right (l row : List (CctcHmmTransition K)) :
    transRange (l ++ row) ⟨l.length, (l ++ row).length⟩ = row := by
  unfold transRange
  simp

theorem transRange_length (l : List (CctcHmmTransition K)) (r : Int32Pair)
    (h2 : r.second ≤ l.length) : (transRange l r).length = r.second - r.first := by
  unfold transRange
  rw [List.length_take, List.length_drop]; omega

/-- What one concatenation loop of `SetTransitions` leaves: every state's
range is a well-formed range of the flat array that holds exactly the
state's row, and the array has grown by the total length of the rows. -/
theorem SetTransitions.concat_spec (H : Nat) (rows : List (List (CctcHmmTransition K)))
    (init : List (CctcHmmTransition K)) :
    (SetTransitions.concat H rows init).1.length = H ∧
    (∃ X, (SetTransitions.concat H rows init).2 = init ++ X) ∧
    (SetTransitions.concat H rows init).2.length
      = init.length + ((List.range H).map (fun s => (rows.getD s []).length)).sum ∧
    ∀ s, s < H → ∃ r, (SetTransitions.concat H rows init).1[s]? = some r ∧
      r.second = r.first + (rows.getD s []).length ∧
      r.second ≤ (SetTransitions.concat H rows init).2.length ∧
      transRange (SetTransitions.concat H rows init).2 r = rows.getD s [] := by
  have key : ∀ n, n ≤ H →
      let acc := (List.range n).foldl
        (fun (acc : List Int32Pair × List (CctcHmmTransition K)) s =>
          (acc.1.set s ⟨acc.2.length, (acc.2 ++ rows.getD s []).length⟩,
            acc.2 ++ rows.getD s []))
        (List.replicate H ⟨0, 0⟩, init)
      acc.1.length = H ∧ (∃ X, acc.2 = init ++ X) ∧
      acc.2.length = init.length + ((List.range n).map (fun s => (rows.getD s []).length)).sum ∧
      ∀ s, s < n → ∃ r, acc.1[s]? = some r ∧
        r.second = r.first + (rows.getD s []).length ∧
        r.second ≤ acc.2.length ∧ transRange acc.2 r = rows.getD s [] := by
    intro n
    induction n with
    | zero =>
      intro _
      refine ⟨List.length_replicate _ _, ⟨[], by simp⟩, by simp, ?_⟩
      intro s hs; omega
    | succ n ih =>
      intro hn
      obtain ⟨h1, ⟨X, h2⟩, h3, h4⟩ := ih (by omega)
      simp only [List.range_succ, List.foldl_append, List.foldl_cons, List.foldl_nil]
      generalize List.foldl _ (List.replicate H _, init) (List.range n) = acc at h1 h2 h3 h4 ⊢
      refine ⟨by rw [List.length_set]; exact h1, ⟨X ++ rows.getD n [], ?_⟩, ?_, ?_⟩
      · rw [h2, List.append_assoc]
      · rw [List.length_append, h3, List.map_append, List.sum_append]
        simp [add_assoc]
      · intro s hs
        by_cases hsn : s = n
        · subst hsn
          refine ⟨⟨acc.2.length, (acc.2 ++ rows.getD s []).length⟩, ?_, ?_, ?_, ?_⟩
          · rw [List.getElem?_set, if_pos rfl, if_pos (by rw [h1]; omega)]
          · simp
          · exact le_refl _
          · exact transRange_append_right _ _
        · obtain ⟨r, hr1, hr2, hr3, hr4⟩ := h4 s (by omega)
          refine ⟨r, ?_, hr2, ?_, ?_⟩
          · rw [List.getElem?_set, if_neg (Ne.symm hsn)]; exact hr1
          · rw [List.length_append]; omega
          · rw [transRange_append_left _ _ _ (by omega) hr3]; exact hr4
  exact key H (le_refl H)

theorem sum_indicator_range (a H : Nat) :
    ((List.range H).map (fun d => if a = d then 1 else 0)).sum = if a < H then 1 else 0 := by
  induction H with
  | zero => simp
  | succ H ih =>
    rw [List.sum_range_succ, ih]
    by_cases h1 : a < H
    · have h2 : a ≠ H := by omega
      have h3 : a < H + 1 := by omega
      simp [h1, h2, h3]
    · by_cases h2 : a = H
      · subst h2; simp
      · have h3 : ¬ a < H + 1 := by omega
        simp [h1, h2, h3]

theorem sum_length_filter_eq {ι : Type} (l : List ι) (idx : ι → Nat) (H : Nat)
    (h : ∀ i ∈ l, idx i < H) :
    ((List.range H).map (fun d => (l.filter (fun i => decide (idx i = d))).length)).sum
      = l.length := by
  induction l with
  | nil => simp
  | cons a l ih =>
    have e : (fun d => ((a :: l).filter (fun i => decide (idx i = d))).length)
        = fun d => (if idx a = d then 1 else 0)
            + (l.filter (fun i => decide (idx i = d))).length := by
      funext d
      rw [List.filter_cons]
      by_cases hd : idx a = d
      · simp [hd]; omega
      · simp [hd]
    rw [e, List.sum_map_add, ih (fun i hi => h i (List.mem_cons_of_mem a hi)),
      sum_indicator_range, if_pos (h a (List.mem_cons_self a l))]
    simp; omega

theorem length_statePhonePairs (H P : Nat) : (statePhonePairs H P).length = H * (P + 1) := by
  unfold statePhonePairs
  have h := List.length_product (List.range H) (List.range (P + 1))
  rw [List.length_range, List.length_range] at h
  exact h

theorem length_outgoingRecords (trans_mdl : CctcTransitionModel K) (s : Nat) :
    (outgoingRecords trans_mdl s).length = trans_mdl.NumPhones + 1 := by
  unfold outgoingRecords
  rw [List.length_map, List.length_range]

theorem sum_length_incomingRecords (trans_mdl : CctcTransitionModel K)
    (hnext : ∀ s p, s < trans_mdl.NumHistoryStates → p < trans_mdl.NumPhones + 1 →
      (forwardRecord trans_mdl s p).hmm_state < trans_mdl.NumHistoryStates) :
    ((List.range trans_mdl.NumHistoryStates).map
        (fun d => (incomingRecords trans_mdl d).length)).sum
      = trans_mdl.NumHistoryStates * (trans_mdl.NumPhones + 1) := by
  unfold incomingRecords
  simp only [List.length_map]
  rw [sum_length_filter_eq _ (fun sp : Nat × Nat => (forwardRecord trans_mdl sp.1 sp.2).hmm_state),
    length_statePhonePairs]
  rintro ⟨s, p⟩ hsp
  have := mem_statePhonePairs.mp hsp
  exact hnext s p this.1 this.2

theorem getD_of_getElem? {β : Type} {l : List β} {k : Nat} {x d : β} (h : l[k]? = some x) :
    l.getD k d = x := by
  rw [List.getD_eq_getElem?_getD, h]; rfl

/-- The table that `SetTransitions` builds for a model whose next states are
in range. -/
theorem SetTransitions_spec [Zero K] (trans_mdl : CctcTransitionModel K)
    (hnext : ∀ s p, s < trans_mdl.NumHistoryStates → p < trans_mdl.NumPhones + 1 →
      (forwardRecord trans_mdl s p).hmm_state < trans_mdl.NumHistoryStates) :
    ∃ fwd bwd trans, SetTransitions trans_mdl = .ok (fwd, bwd, trans) ∧
      fwd.length = trans_mdl.NumHistoryStates ∧ bwd.length = trans_mdl.NumHistoryStates ∧
      trans.length = 2 * trans_mdl.NumHistoryStates * (trans_mdl.NumPhones + 1) ∧
      (∀ s, s < trans_mdl.NumHistoryStates →
        (fwd.getD s ⟨0, 0⟩).second = (fwd.getD s ⟨0, 0⟩).first + (trans_mdl.NumPhones + 1) ∧
        (fwd.getD s ⟨0, 0⟩).second ≤ trans.length ∧
        transRange trans (fwd.getD s ⟨0, 0⟩) = outgoingRecords trans_mdl s) ∧
      (∀ d, d < trans_mdl.NumHistoryStates →
        (bwd.getD d ⟨0, 0⟩).first ≤ (bwd.getD d ⟨0, 0⟩).second ∧
        (bwd.getD d ⟨0, 0⟩).second ≤ trans.length ∧
        transRange trans (bwd.getD d ⟨0, 0⟩) = incomingRecords trans_mdl d) := by
  have hfill := SetTransitions.fill_ok trans_mdl hnext
  have hout := fill_out_getElem? trans_mdl
  have hin := fill_in_getElem? trans_mdl
  unfold statePhonePairs at hout hin
  generalize List.foldl _ (List.replicate trans_mdl.NumHistoryStates
    (List.replicate (trans_mdl.NumPhones + 1) (⟨0, 0, 0⟩ : CctcHmmTransition K))) _ = outs
    at hfill hout
  generalize List.foldl _ (List.replicate trans_mdl.NumHistoryStates
    ([] : List (CctcHmmTransition K))) _ = ins at hfill hin
  obtain ⟨f1, ⟨X, f2⟩, f3, f4⟩ :=
    SetTransitions.concat_spec trans_mdl.NumHistoryStates outs []
  obtain ⟨b1, ⟨Y, b2⟩, b3, b4⟩ :=
    SetTransitions.concat_spec trans_mdl.NumHistoryStates ins
      (SetTransitions.concat trans_mdl.NumHistoryStates outs []).2
  have houtD : ∀ s, s < trans_mdl.NumHistoryStates →
      outs.getD s [] = outgoingRecords trans_mdl s :=
    fun s hs => getD_of_getElem? (hout s hs)
  have hinD : ∀ d, d < trans_mdl.NumHistoryStates →
      ins.getD d [] = incomingRecords trans_mdl d :=
    fun d hd => getD_of_getElem? (hin d hd)
  have hlenF : (SetTransitions.concat trans_mdl.NumHistoryStates outs []).2.length
      = trans_mdl.NumHistoryStates * (trans_mdl.NumPhones + 1) := by
    rw [f3]
    have : (List.range trans_mdl.NumHistoryStates).map (fun s => (outs.getD s []).length)
        = (List.range trans_mdl.NumHistoryStates).map (fun _ => trans_mdl.NumPhones + 1) := by
      apply List.map_congr_left
      intro s hs
      rw [houtD s (List.mem_range.mp hs), length_outgoingRecords]
    rw [this]
    simp
  have hlenB : (SetTransitions.concat trans_mdl.NumHistoryStates ins
      (SetTransitions.concat trans_mdl.NumHistoryStates outs []).2).2.length
      = 2 * trans_mdl.NumHistoryStates * (trans_mdl.NumPhones + 1) := by
    rw [b3, hlenF]
    have : (List.range trans_mdl.NumHistoryStates).map (fun s => (ins.getD s []).length)
        = (List.range trans_mdl.NumHistoryStates).map
            (fun d => (incomingRecords trans_mdl d).length) := by
      apply List.map_congr_left
      intro s hs
      rw [hinD s (List.mem_range.mp hs)]
    rw [this, sum_length_incomingRecords trans_mdl hnext]
    ring
  refine ⟨_, _, _, ?_, f1, b1, hlenB, ?_, ?_⟩
  · unfold SetTransitions
    rw [hfill]
    simp only []
    rw [if_pos hlenB]
  · intro s hs
    obtain ⟨r, hr1, hr2, hr3, hr4⟩ := f4 s hs
    rw [getD_of_getElem? hr1]
    rw [houtD s hs] at hr2 hr4
    rw [length_outgoingRecords] at hr2
    refine ⟨hr2, ?_, ?_⟩
    · rw [b2, List.length_append]; omega
    · rw [b2, transRange_append_left _ _ _ (by omega) hr3]; exact hr4
  · intro d hd
    obtain ⟨r, hr1, hr2, hr3, hr4⟩ := b4 d hd
    rw [getD_of_getElem? hr1]
    rw [hinD d hd] at hr4
    exact ⟨by omega, hr3, hr4⟩

end Table

theorem rearrange_round_trip_witness :
    (∃ N' O', RearrangeNnetOutput (⟨fun i => i, 4, 1, 1⟩ : CuMatrixBase Nat)
          ⟨fun _ => 0, 2, 2, 3⟩ = .ok N' ∧
        RearrangeNnetOutputReverse N' ⟨fun _ => 7, 4, 1, 2⟩ = .ok O' ∧
        O'.NumRows = 4 ∧ O'.NumCols = 1 ∧
        ∀ r c, r < 2 * 2 → c < 1 →
          O'.RowData r c = (⟨fun i => i, 4, 1, 1⟩ : CuMatrixBase Nat).RowData r c) ∧
    (∃ O' P', RearrangeNnetOutputReverse (⟨fun _ => 0, 2, 2, 3⟩ : CuMatrixBase Nat)
          ⟨fun _ => 7, 4, 1, 2⟩ = .ok O' ∧
        RearrangeNnetOutput O' ⟨fun _ => 9, 2, 2, 2⟩ = .ok P' ∧
        P'.NumRows = 2 ∧ P'.NumCols = 2 ∧
        ∀ t j, t < 2 → j < 1 * 2 →
          P'.RowData t j = (⟨fun _ => 0, 2, 2, 3⟩ : CuMatrixBase Nat).RowData t j) :=
  rearrange_round_trip 2 2 1 (by decide) ⟨fun i => i, 4, 1, 1⟩ ⟨fun _ => 0, 2, 2, 3⟩
    ⟨fun _ => 7, 4, 1, 2⟩ ⟨fun _ => 9, 2, 2, 2⟩ rfl rfl rfl rfl (by decide) rfl rfl
    (by decide) rfl rfl (by decide)

/-! ## C6 and C7: the shape and the content of the transition table -/

/-- C6.  For every transition model whose next history states all lie below
`NumHistoryStates`, `SetTransitions` passes its size assertion and returns a
table in which every state's forward range has `NumPhones + 1` records and
the flat array has `2 * NumHistoryStates * (NumPhones + 1)` records. -/
theorem transition_table_complete {K : Type} [Zero K] (trans_mdl : CctcTransitionModel K)
    (hnext : ∀ s p, s < trans_mdl.NumHistoryStates → p ≤ trans_mdl.NumPhones →
      trans_mdl.GraphLabelToNextHistoryState (trans_mdl.GetGraphLabel s p)
        < trans_mdl.NumHistoryStates) :
    ∃ fwd bwd trans, SetTransitions trans_mdl = .ok (fwd, bwd, trans) ∧
      (∀ h, h < trans_mdl.NumHistoryStates →
        (fwd.getD h ⟨0, 0⟩).second - (fwd.getD h ⟨0, 0⟩).first = trans_mdl.NumPhones + 1) ∧
      trans.length = 2 * trans_mdl.NumHistoryStates * (trans_mdl.NumPhones + 1) := by
  obtain ⟨fwd, bwd, trans, h1, _, _, h4, h5, _⟩ := SetTransitions_spec trans_mdl
    (fun s p hs hp => hnext s p hs (by omega))
  refine ⟨fwd, bwd, trans, h1, ?_, h4⟩
  intro h hh
  have := (h5 h hh).1
  omega

theorem transition_table_complete_witness :
    ∃ fwd bwd trans, SetTransitions (scenarioModel ℚ) = .ok (fwd, bwd, trans) ∧
      (∀ h, h < (scenarioModel ℚ).NumHistoryStates →
        (fwd.getD h ⟨0, 0⟩).second - (fwd.getD h ⟨0, 0⟩).first
          = (scenarioModel ℚ).NumPhones + 1) ∧
      trans.length
        = 2 * (scenarioModel ℚ).NumHistoryStates * ((scenarioModel ℚ).NumPhones + 1) :=
  transition_table_complete (scenarioModel ℚ) (fun _ _ _ _ => Nat.zero_lt_one)

/-- C7.  After `SetTransitions` on a model whose next history states are in
range: for every state `d` the records in the backward range of `d` are, in
increasing `(s, p)` order, the records `(transitionProb(s,p), numIndex(s,p), s)`
of the pairs `(s, p)`, `s < NumHistoryStates`, `p ≤ NumPhones`, whose next
history state is `d`; and for every such pair the record at position
`forward_transitions[s].first + p` is
`(transitionProb(s,p), numIndex(s,p), nextHistoryState(s,p))`. -/
theorem backward_table_mirrors_forward {K : Type} [Zero K]
    (trans_mdl : CctcTransitionModel K)
    (hnext : ∀ s p, s < trans_mdl.NumHistoryStates → p ≤ trans_mdl.NumPhones →
      trans_mdl.GraphLabelToNextHistoryState (trans_mdl.GetGraphLabel s p)
        < trans_mdl.NumHistoryStates) :
    ∃ fwd bwd trans, SetTransitions trans_mdl = .ok (fwd, bwd, trans) ∧
      (∀ d, d < trans_mdl.NumHistoryStates →
        transRange trans (bwd.getD d ⟨0, 0⟩)
          = ((statePhonePairs trans_mdl.NumHistoryStates trans_mdl.NumPhones).filter
              (fun sp => decide (trans_mdl.GraphLabelToNextHistoryState
                (trans_mdl.GetGraphLabel sp.1 sp.2) = d))).map
              (fun sp =>
                { transition_prob :=
                    trans_mdl.GraphLabelToLmProb (trans_mdl.GetGraphLabel sp.1 sp.2)
                  num_index :=
                    trans_mdl.GraphLabelToOutputIndex (trans_mdl.GetGraphLabel sp.1 sp.2)
                  hmm_state := sp.1 })) ∧
      (∀ s p, s < trans_mdl.NumHistoryStates → p ≤ trans_mdl.NumPhones →
        trans[(fwd.getD s ⟨0, 0⟩).first + p]?
          = some
              { transition_prob :=
                  trans_mdl.GraphLabelToLmProb (trans_mdl.GetGraphLabel s p)
                num_index :=
                  trans_mdl.GraphLabelToOutputIndex (trans_mdl.GetGraphLabel s p)
                hmm_state :=
                  trans_mdl.GraphLabelToNextHistoryState (trans_mdl.GetGraphLabel s p) }) := by
  obtain ⟨fwd, bwd, trans, h1, _, _, _, h5, h6⟩ := SetTransitions_spec trans_mdl
    (fun s p hs hp => hnext s p hs (by omega))
  refine ⟨fwd, bwd, trans, h1, fun d hd => (h6 d hd).2.2, ?_⟩
  intro s p hs hp
  obtain ⟨e1, _, e3⟩ := h5 s hs
  have hp' : p < trans_mdl.NumPhones + 1 := by omega
  have : (transRange trans (fwd.getD s ⟨0, 0⟩))[p]? = some (forwardRecord trans_mdl s p) := by
    rw [e3]
    unfold outgoingRecords
    rw [List.getElem?_map, List.getElem?_range hp']
    rfl
  unfold transRange at this
  rw [List.getElem?_take, if_pos (by omega), List.getElem?_drop] at this
  exact this

theorem backward_table_mirrors_forward_witness :
    ∃ fwd bwd trans, SetTransitions (scenarioModel ℚ) = .ok (fwd, bwd, trans) ∧
      (∀ d, d < (scenarioModel ℚ).NumHistoryStates →
        transRange trans (bwd.getD d ⟨0, 0⟩)
          = ((statePhonePairs (scenarioModel ℚ).NumHistoryStates
                (scenarioModel ℚ).NumPhones).filter
              (fun sp => decide ((scenarioModel ℚ).GraphLabelToNextHistoryState
                ((scenarioModel ℚ).GetGraphLabel sp.1 sp.2) = d))).map
              (fun sp =>
                { transition_prob :=
                    (scenarioModel ℚ).GraphLabelToLmProb
                      ((scenarioModel ℚ).GetGraphLabel sp.1 sp.2)
                  num_index :=
                    (scenarioModel ℚ).GraphLabelToOutputIndex
                      ((scenarioModel ℚ).GetGraphLabel sp.1 sp.2)
                  hmm_state := sp.1 })) ∧
      (∀ s p, s < (scenarioModel ℚ).NumHistoryStates → p ≤ (scenarioModel ℚ).NumPhones →
        trans[(fwd.getD s ⟨0, 0⟩).first + p]?
          = some
              { transition_prob :=
                  (scenarioModel ℚ).GraphLabelToLmProb ((scenarioModel ℚ).GetGraphLabel s p)
                num_index :=
                  (scenarioModel ℚ).GraphLabelToOutputIndex
                    ((scenarioModel ℚ).GetGraphLabel s p)
                hmm_state :=
                  (scenarioModel ℚ).GraphLabelToNextHistoryState
                    ((scenarioModel ℚ).GetGraphLabel s p) }) :=
  backward_table_mirrors_forward (scenarioModel ℚ) (fun _ _ _ _ => Nat.zero_lt_one)

/-! ## The forward pass -/

section ForwardPass

variable {K : Type} [Field K]

theorem foldl_setRowData {ι α : Type} (l : List ι) (r i : ι → Nat)
    (val : Nat → (Nat → α) → ι → α) (M : CuMatrixBase α) :
    l.foldl (fun m x => m.setRowData (r x) (i x) (val m.Stride m.Data x)) M
      = { M with Data := l.foldl (fun d x =>
            Function.update d (r x * M.Stride + i x) (val M.Stride d x)) M.Data } := by
  induction l generalizing M with
  | nil => rfl
  | cons a l ih =>
    rw [List.foldl_cons, ih]
    rfl

theorem cell_offset_inj {S st : Nat} {t h s h' s' : Nat} (hs : s < S) (hs' : s' < S)
    (he : t * st + (h * S + s) = t * st + (h' * S + s')) : h = h' ∧ s = s' :=
  mixed_radix_inj hs hs' (by omega)

theorem cell_lt {H S : Nat} {h s : Nat} (hh : h < H) (hs : s < S) : h * S + s < H * S := by
  have h1 : (h + 1) * S ≤ H * S := Nat.mul_le_mul_right S hh
  have h2 : (h + 1) * S = h * S + S := Nat.succ_mul h S
  omega

theorem row_offset_ne {st : Nat} {t t' j j' : Nat} (hj : j < st) (hj' : j' < st)
    (ht : t ≠ t') : t * st + j ≠ t' * st + j' := by
  intro he
  exact ht (mixed_radix_inj hj hj' he).1

/-- A pair of loops over states and lanes that stores one value per cell of
the logical row `t`: every cell of the row receives the value computed from
the initial buffer, provided the values do not depend on the cells of that
row; every other cell of the buffer is left as it was. -/
theorem writeRow_spec {α : Type} (M : CuMatrixBase α) (H S t : Nat)
    (val : Nat → (Nat → α) → Nat × Nat → α)
    (hval : ∀ d : Nat → α,
      (∀ j, (∀ h s, h < H → s < S → t * M.Stride + (h * S + s) ≠ j) → d j = M.Data j) →
      ∀ h s, h < H → s < S → val M.Stride d (h, s) = val M.Stride M.Data (h, s)) :
    ((List.range H).foldl (fun m h => (List.range S).foldl (fun m s =>
        m.setRowData t (h * S + s) (val m.Stride m.Data (h, s))) m) M).Stride = M.Stride ∧
    ((List.range H).foldl (fun m h => (List.range S).foldl (fun m s =>
        m.setRowData t (h * S + s) (val m.Stride m.Data (h, s))) m) M).NumRows = M.NumRows ∧
    ((List.range H).foldl (fun m h => (List.range S).foldl (fun m s =>
        m.setRowData t (h * S + s) (val m.Stride m.Data (h, s))) m) M).NumCols = M.NumCols ∧
    (∀ h s, h < H → s < S →
      ((List.range H).foldl (fun m h => (List.range S).foldl (fun m s =>
        m.setRowData t (h * S + s) (val m.Stride m.Data (h, s))) m) M).RowData t (h * S + s)
        = val M.Stride M.Data (h, s)) ∧
    (∀ j, (∀ h s, h < H → s < S → t * M.Stride + (h * S + s) ≠ j) →
      ((List.range H).foldl (fun m h => (List.range S).foldl (fun m s =>
        m.setRowData t (h * S + s) (val m.Stride m.Data (h, s))) m) M).Data j = M.Data j) := by
  have e1 := foldl_nested_eq_product
    (fun (m : CuMatrixBase α) (h s : Nat) =>
      m.setRowData t (h * S + s) (val m.Stride m.Data (h, s)))
    (List.range H) (List.range S) M
  have e2 := foldl_setRowData ((List.range H).product (List.range S))
    (fun _ => t) (fun x : Nat × Nat => x.1 * S + x.2) val M
  have e : (List.range H).foldl (fun m h => (List.range S).foldl (fun m s =>
        m.setRowData t (h * S + s) (val m.Stride m.Data (h, s))) m) M
      = { M with Data := ((List.range H).product (List.range S)).foldl (fun d x =>
            Function.update d (t * M.Stride + (x.1 * S + x.2)) (val M.Stride d x)) M.Data } :=
    e1.trans e2
  rw [e]
  have hmem : ∀ x : Nat × Nat, x ∈ (List.range H).product (List.range S) ↔
      x.1 < H ∧ x.2 < S := by
    rintro ⟨a, b⟩
    simp [List.pair_mem_product]
  refine ⟨rfl, rfl, rfl, ?_, ?_⟩
  · intro h s hh hs
    have := foldl_update_of_mem ((List.range H).product (List.range S))
      (fun x : Nat × Nat => t * M.Stride + (x.1 * S + x.2))
      (fun d x => val M.Stride d x) M.Data
      (by
        rintro ⟨a, b⟩ hab ⟨a', b'⟩ hab' he
        obtain ⟨h1, h2⟩ := cell_offset_inj ((hmem _).mp hab).2 ((hmem _).mp hab').2 he
        exact Prod.ext h1 h2)
      (by
        intro d hd x hx
        obtain ⟨a, b⟩ := x
        have hx' := (hmem _).mp hx
        apply hval d _ a b hx'.1 hx'.2
        intro j hj
        apply hd
        rintro ⟨a', b'⟩ hab'
        exact hj a' b' ((hmem _).mp hab').1 ((hmem _).mp hab').2)
      (h, s) ((hmem _).mpr ⟨hh, hs⟩)
    exact this
  · intro j hj
    apply foldl_update_of_forall_ne ((List.range H).product (List.range S))
      (fun x : Nat × Nat => t * M.Stride + (x.1 * S + x.2))
      (fun d x => val M.Stride d x)
    rintro ⟨a, b⟩ hab
    exact hj a b ((hmem _).mp hab).1 ((hmem _).mp hab).2

variable [DecidableEq K]

/-- The body of `AlphaGeneralFrame` stores the value of the cell when no
denominator read for the cell is zero and the alpha of the special state on
the previous frame is nonzero. -/
theorem AlphaGeneralFrame.cell_ok (c : CctcNegativeComputation K) (t h : Nat)
    (m : CuMatrixBase K) (s : Nat)
    (hden : ∀ e ∈ inEdges c h,
      c.denominators_rearranged_.RowData (t - 1) (e.hmm_state * c.num_sequences_ + s) ≠ 0)
    (hsc : m.RowData (t - 1) (c.hmm_.special_hmm_state_ * c.num_sequences_ + s) ≠ 0) :
    AlphaGeneralFrame.cell c t h m s
      = .ok (m.setRowData t (h * c.num_sequences_ + s)
          (alphaCellValue c t h s m.Stride m.Data)) := by
  unfold AlphaGeneralFrame.cell
  simp only []
  have e := foldl_guarded_eq_some (inEdges c h)
    (fun e => c.denominators_rearranged_.RowData (t - 1) (e.hmm_state * c.num_sequences_ + s))
    (fun e => m.RowData (t - 1) (e.hmm_state * c.num_sequences_ + s) * e.transition_prob
      * c.numerators_rearranged_.RowData (t - 1) (e.num_index * c.num_sequences_ + s)
      / c.denominators_rearranged_.RowData (t - 1) (e.hmm_state * c.num_sequences_ + s))
    0 hden
  unfold inEdges at e
  rw [e]
  simp only []
  rw [if_neg hsc]
  rfl

/-- The body of `AlphaGeneralFrame` fails the assertion when a denominator
read for the cell is zero. -/
theorem AlphaGeneralFrame.cell_assert (c : CctcNegativeComputation K) (t h : Nat)
    (m : CuMatrixBase K) (s : Nat)
    (hden : ∃ e ∈ inEdges c h,
      c.denominators_rearranged_.RowData (t - 1) (e.hmm_state * c.num_sequences_ + s) = 0) :
    AlphaGeneralFrame.cell c t h m s = .error .assertFailed := by
  unfold AlphaGeneralFrame.cell
  simp only []
  have e := foldl_guarded_eq_none (inEdges c h)
    (fun e => c.denominators_rearranged_.RowData (t - 1) (e.hmm_state * c.num_sequences_ + s))
    (fun e => m.RowData (t - 1) (e.hmm_state * c.num_sequences_ + s) * e.transition_prob
      * c.numerators_rearranged_.RowData (t - 1) (e.num_index * c.num_sequences_ + s)
      / c.denominators_rearranged_.RowData (t - 1) (e.hmm_state * c.num_sequences_ + s))
    (some 0) hden
  unfold inEdges at e
  rw [e]

theorem AlphaGeneralFrame_eq (c : CctcNegativeComputation K) (t : Nat)
    (ht : 0 < t ∧ t ≤ c.num_time_steps_)
    (hst : c.num_hmm_states_ * c.num_sequences_ ≤ c.alpha_.Stride)
    (hsp : c.hmm_.special_hmm_state_ < c.num_hmm_states_)
    (hden : ∀ h, h < c.num_hmm_states_ → ∀ e ∈ inEdges c h, ∀ s, s < c.num_sequences_ →
      c.denominators_rearranged_.RowData (t - 1) (e.hmm_state * c.num_sequences_ + s) ≠ 0)
    (hsc : ∀ s, s < c.num_sequences_ →
      c.alpha_.RowData (t - 1) (c.hmm_.special_hmm_state_ * c.num_sequences_ + s) ≠ 0) :
    AlphaGeneralFrame c t = .ok { c with alpha_ :=
      (List.range c.num_hmm_states_).foldl (fun m h =>
        (List.range c.num_sequences_).foldl (fun m s =>
          m.setRowData t (h * c.num_sequences_ + s)
            (alphaCellValue c t h s m.Stride m.Data)) m) c.alpha_ } := by
  unfold AlphaGeneralFrame
  rw [if_pos ht]
  have inner := foldlM_eq_ok_of_inv
    (fun m : CuMatrixBase K => m.Stride = c.alpha_.Stride ∧ ∀ s, s < c.num_sequences_ →
      m.RowData (t - 1) (c.hmm_.special_hmm_state_ * c.num_sequences_ + s)
        = c.alpha_.RowData (t - 1) (c.hmm_.special_hmm_state_ * c.num_sequences_ + s))
    (fun alpha h =>
        (List.range c.num_sequences_).foldlM (AlphaGeneralFrame.cell c t h) alpha)
    (fun m h => (List.range c.num_sequences_).foldl (fun m s =>
          m.setRowData t (h * c.num_sequences_ + s)
            (alphaCellValue c t h s m.Stride m.Data)) m)
    (List.range c.num_hmm_states_) c.alpha_ ⟨rfl, fun _ _ => rfl⟩
    (by
      intro h hh m hm
      have hh' := List.mem_range.mp hh
      exact foldlM_eq_ok_of_inv
        (fun m : CuMatrixBase K => m.Stride = c.alpha_.Stride ∧ ∀ s, s < c.num_sequences_ →
          m.RowData (t - 1) (c.hmm_.special_hmm_state_ * c.num_sequences_ + s)
            = c.alpha_.RowData (t - 1) (c.hmm_.special_hmm_state_ * c.num_sequences_ + s))
        (AlphaGeneralFrame.cell c t h)
        (fun m s => m.setRowData t (h * c.num_sequences_ + s)
            (alphaCellValue c t h s m.Stride m.Data))
        (List.range c.num_sequences_) m hm
        (by
          intro s hs m' hm'
          have hs' := List.mem_range.mp hs
          refine ⟨AlphaGeneralFrame.cell_ok c t h m' s (fun e he => hden h hh' e he s hs')
            (by rw [hm'.2 s hs']; exact hsc s hs'), hm'.1, ?_⟩
          intro s' hs''
          rw [← hm'.2 s' hs'']
          show Function.update m'.Data _ _ _ = m'.Data _
          apply Function.update_noteq
          show (t - 1) * m'.Stride + _ ≠ t * m'.Stride + _
          rw [hm'.1]
          have hne : t - 1 ≠ t := by have := ht.1; omega
          exact row_offset_ne (Nat.lt_of_lt_of_le (cell_lt hsp hs'') hst)
            (Nat.lt_of_lt_of_le (cell_lt hh' hs') hst) hne))
  rw [inner.1]

/-- One frame of the forward pass: from a buffer whose row `t` holds the
alpha values of frame `t`, `AlphaGeneralFrame(t + 1)` returns, writes the
alpha values of frame `t + 1` into row `t + 1`, and leaves the rows written
before as they were. -/
theorem AlphaGeneralFrame_spec (c : CctcNegativeComputation K) (wf : ForwardReady c)
    (A : CuMatrixBase K) (t : Nat) (ht : t < c.num_time_steps_)
    (hA : A.Stride = c.alpha_.Stride)
    (hrow : ∀ h s, h < c.num_hmm_states_ → s < c.num_sequences_ →
      A.RowData t (h * c.num_sequences_ + s) = alphaRec c t h s)
    (hden : ∀ h s, h < c.num_hmm_states_ → s < c.num_sequences_ → denProb c h t s ≠ 0)
    (hscale : ∀ s, s < c.num_sequences_ → alphaRec c t c.hmm_.special_hmm_state_ s ≠ 0) :
    ∃ A', AlphaGeneralFrame { c with alpha_ := A } (t + 1) = .ok { c with alpha_ := A' } ∧
      A'.Stride = A.Stride ∧
      (∀ h s, h < c.num_hmm_states_ → s < c.num_sequences_ →
        A'.RowData (t + 1) (h * c.num_sequences_ + s) = alphaRec c (t + 1) h s) ∧
      (∀ t' j, t' ≠ t + 1 → j < A.Stride → A'.RowData t' j = A.RowData t' j) := by
  have hst : c.num_hmm_states_ * c.num_sequences_ ≤ A.Stride := hA ▸ wf.alpha_stride
  have hread : ∀ d : Nat → K,
      (∀ j, (∀ h s, h < c.num_hmm_states_ → s < c.num_sequences_ →
        (t + 1) * A.Stride + (h * c.num_sequences_ + s) ≠ j) → d j = A.Data j) →
      ∀ o s, o < c.num_hmm_states_ → s < c.num_sequences_ →
        d (t * A.Stride + (o * c.num_sequences_ + s))
          = A.RowData t (o * c.num_sequences_ + s) := by
    intro d hd o s ho hs
    apply hd
    intro h' s' hh' hs'
    exact row_offset_ne (Nat.lt_of_lt_of_le (cell_lt hh' hs') hst)
      (Nat.lt_of_lt_of_le (cell_lt ho hs) hst) (by omega)
  have hvalue : ∀ d : Nat → K,
      (∀ j, (∀ h s, h < c.num_hmm_states_ → s < c.num_sequences_ →
        (t + 1) * A.Stride + (h * c.num_sequences_ + s) ≠ j) → d j = A.Data j) →
      ∀ h s, h < c.num_hmm_states_ → s < c.num_sequences_ →
        alphaCellValue c (t + 1) h s A.Stride d = alphaRec c (t + 1) h s := by
    intro d hd h s hh hs
    unfold alphaCellValue
    rw [foldl_add_eq_sum, zero_add, Nat.add_sub_cancel,
      hread d hd _ s wf.special_lt hs, hrow _ s wf.special_lt hs]
    show _ = ((inEdges c h).map _).sum * _
    congr 2
    apply List.map_congr_left
    intro e he
    have ho := wf.origin_lt h hh e he
    rw [hread d hd _ s ho hs, hrow _ s ho hs]
    rfl
  have spec := writeRow_spec A c.num_hmm_states_ c.num_sequences_ (t + 1)
    (fun st d x => alphaCellValue c (t + 1) x.1 x.2 st d)
    (by
      intro d hd h s hh hs
      show alphaCellValue c (t + 1) h s A.Stride d = alphaCellValue c (t + 1) h s A.Stride A.Data
      rw [hvalue d hd h s hh hs, hvalue A.Data (fun _ _ => rfl) h s hh hs])
  have heq := AlphaGeneralFrame_eq { c with alpha_ := A } (t + 1) ⟨by omega, by
    show t + 1 ≤ c.num_time_steps_
    omega⟩ hst wf.special_lt
    (fun h hh e he s hs => hden e.hmm_state s (wf.origin_lt h hh e he) hs)
    (fun s hs => by
      show A.RowData (t + 1 - 1) (c.hmm_.special_hmm_state_ * c.num_sequences_ + s) ≠ 0
      rw [Nat.add_sub_cancel, hrow _ s wf.special_lt hs]
      exact hscale s hs)
  beta_reduce at spec
  generalize hA' : (List.range c.num_hmm_states_).foldl (fun m h =>
        (List.range c.num_sequences_).foldl (fun m s =>
          m.setRowData (t + 1) (h * c.num_sequences_ + s)
            (alphaCellValue c (t + 1) h s m.Stride m.Data)) m) A = A' at spec
  obtain ⟨s1, _, _, s4, s5⟩ := spec
  refine ⟨A', ?_, s1, ?_, ?_⟩
  · rw [← hA']; exact heq
  · intro h s hh hs
    rw [s4 h s hh hs]
    exact hvalue A.Data (fun _ _ => rfl) h s hh hs
  · intro t' j ht' hj
    unfold CuMatrixBase.RowData
    rw [s1]
    apply s5
    intro h s hh hs
    exact row_offset_ne (Nat.lt_of_lt_of_le (cell_lt hh hs) hst) hj (Ne.symm ht')

omit [DecidableEq K] in
/-- `AlphaFirstFrame` writes the initial distribution into row 0. -/
theorem AlphaFirstFrame_spec (c : CctcNegativeComputation K) :
    ∃ A, AlphaFirstFrame c = { c with alpha_ := A } ∧ A.Stride = c.alpha_.Stride ∧
      (∀ h s, h < c.num_hmm_states_ → s < c.num_sequences_ →
        A.RowData 0 (h * c.num_sequences_ + s) = alphaRec c 0 h s) := by
  have spec := writeRow_spec c.alpha_ c.num_hmm_states_ c.num_sequences_ 0
    (fun _ _ x => c.hmm_.initial_probs_.getD x.1 0) (fun _ _ _ _ _ _ => rfl)
  beta_reduce at spec
  obtain ⟨s1, _, _, s4, _⟩ := spec
  exact ⟨_, rfl, s1, fun h s hh hs => s4 h s hh hs⟩

/-- The alpha loop of `Forward()`: after `AlphaFirstFrame` and the frames
`1 .. n` the call has returned and rows `0 .. n` of `alpha_` hold the alpha
recursion. -/
theorem alpha_loop_spec (c : CctcNegativeComputation K) (wf : ForwardReady c)
    (hden : ∀ t h s, t < c.num_time_steps_ → h < c.num_hmm_states_ → s < c.num_sequences_ →
      denProb c h t s ≠ 0)
    (hscale : ∀ t s, t < c.num_time_steps_ → s < c.num_sequences_ →
      alphaRec c t c.hmm_.special_hmm_state_ s ≠ 0)
    (n : Nat) (hn : n ≤ c.num_time_steps_) :
    ∃ A, (List.range n).foldlM (fun c i => AlphaGeneralFrame c (i + 1)) (AlphaFirstFrame c)
        = .ok { c with alpha_ := A } ∧ A.Stride = c.alpha_.Stride ∧
      (∀ t h s, t ≤ n → h < c.num_hmm_states_ → s < c.num_sequences_ →
        A.RowData t (h * c.num_sequences_ + s) = alphaRec c t h s) := by
  induction n with
  | zero =>
    obtain ⟨A, h1, h2, h3⟩ := AlphaFirstFrame_spec c
    refine ⟨A, by rw [h1]; rfl, h2, ?_⟩
    intro t h s ht hh hs
    have : t = 0 := by omega
    subst this
    exact h3 h s hh hs
  | succ n ih =>
    obtain ⟨A, h1, h2, h3⟩ := ih (by omega)
    obtain ⟨A', g1, g2, g3, g4⟩ := AlphaGeneralFrame_spec c wf A n (by omega) h2
      (fun h s hh hs => h3 n h s (le_refl n) hh hs)
      (fun h s hh hs => hden n h s (by omega) hh hs)
      (fun s hs => hscale n s (by omega) hs)
    refine ⟨A', ?_, by rw [g2, h2], ?_⟩
    · rw [List.range_succ, List.foldlM_append, h1]
      change List.foldlM (fun c i => AlphaGeneralFrame c (i + 1)) { c with alpha_ := A } [n] = _
      rw [List.foldlM_cons, g1]
      rfl
    · intro t h s ht hh hs
      by_cases htn : t = n + 1
      · subst htn; exact g3 h s hh hs
      · rw [g4 t _ htn (Nat.lt_of_lt_of_le (cell_lt hh hs) (by rw [h2]; exact wf.alpha_stride))]
        exact h3 t h s (by omega) hh hs

omit [DecidableEq K] in
theorem list_sum_range_eq (f : Nat → K) (n : Nat) :
    ((List.range n).map f).sum = ∑ i ∈ Finset.range n, f i := by
  induction n with
  | zero => simp
  | succ n ih => rw [List.sum_range_succ, Finset.sum_range_succ, ih]

/-- When no division of the forward pass is by zero, that is, the denominator
probabilities are nonzero and the alpha of the special state is nonzero on
every frame before the last, `Forward()` returns; the object it leaves
differs from the initial one in `alpha_`, `tot_prob_` and `tot_log_prob_`,
rows `0 .. num_time_steps_` of `alpha_` hold the alpha recursion, `tot_prob_`
holds the sums of the last row, and the returned value is the sum of the
logarithms of those sums plus the logarithms of the special state's alphas on
the frames before the last. -/
theorem Forward_spec (log : K → K) (c : CctcNegativeComputation K) (wf : ForwardReady c)
    (hden : ∀ t h s, t < c.num_time_steps_ → h < c.num_hmm_states_ → s < c.num_sequences_ →
      denProb c h t s ≠ 0)
    (hscale : ∀ t s, t < c.num_time_steps_ → s < c.num_sequences_ →
      alphaRec c t c.hmm_.special_hmm_state_ s ≠ 0) :
    ∃ A, Forward log c = .ok
        (∑ s ∈ Finset.range c.num_sequences_,
            log (∑ h ∈ Finset.range c.num_hmm_states_, alphaRec c c.num_time_steps_ h s)
          + ∑ t ∈ Finset.range c.num_time_steps_, ∑ s ∈ Finset.range c.num_sequences_,
              log (alphaRec c t c.hmm_.special_hmm_state_ s),
         { c with
            alpha_ := A
            tot_prob_ := (List.range c.num_sequences_).map (fun s =>
              ∑ h ∈ Finset.range c.num_hmm_states_, alphaRec c c.num_time_steps_ h s)
            tot_log_prob_ := (List.range c.num_sequences_).map (fun s =>
              log (∑ h ∈ Finset.range c.num_hmm_states_, alphaRec c c.num_time_steps_ h s)) }) ∧
      A.Stride = c.alpha_.Stride ∧
      (∀ t h s, t ≤ c.num_time_steps_ → h < c.num_hmm_states_ → s < c.num_sequences_ →
        A.RowData t (h * c.num_sequences_ + s) = alphaRec c t h s) := by
  obtain ⟨A, h1, h2, h3⟩ := alpha_loop_spec c wf hden hscale c.num_time_steps_ (le_refl _)
  refine ⟨A, ?_, h2, h3⟩
  unfold Forward
  rw [h1]
  have htot : (List.range c.num_sequences_).map (fun s =>
        ((List.range c.num_hmm_states_).map (fun h =>
          A.RowData c.num_time_steps_ (h * c.num_sequences_ + s))).sum)
      = (List.range c.num_sequences_).map (fun s =>
        ∑ h ∈ Finset.range c.num_hmm_states_, alphaRec c c.num_time_steps_ h s) := by
    apply List.map_congr_left
    intro s hs
    rw [← list_sum_range_eq]
    congr 1
    apply List.map_congr_left
    intro h hh
    exact h3 _ h s (le_refl _) (List.mem_range.mp hh) (List.mem_range.mp hs)
  have hscale : (List.range c.num_time_steps_).map (fun t =>
        ((List.range c.num_sequences_).map (fun s =>
          log (A.RowData t (c.num_sequences_ * c.hmm_.special_hmm_state_ + s)))).sum)
      = (List.range c.num_time_steps_).map (fun t =>
        ∑ s ∈ Finset.range c.num_sequences_, log (alphaRec c t c.hmm_.special_hmm_state_ s)) := by
    apply List.map_congr_left
    intro t ht
    rw [← list_sum_range_eq]
    congr 1
    apply List.map_congr_left
    intro s hs
    rw [Nat.mul_comm, h3 t _ s (le_of_lt (List.mem_range.mp ht)) wf.special_lt
      (List.mem_range.mp hs)]
  simp only [ComputeTotLogLike]
  rw [htot, hscale, List.map_map, list_sum_range_eq, list_sum_range_eq]
  rfl

omit [DecidableEq K] in
/-- The rescaling is undone by the product of the special state's alphas:
when those are nonzero on the frames before `t`, the stored alpha of frame `t`
times their product is the unscaled alpha. -/
theorem alphaRec_mul_prod (c : CctcNegativeComputation K) (s t : Nat)
    (hsp : ∀ u, u < t → alphaRec c u c.hmm_.special_hmm_state_ s ≠ 0) (h : Nat) :
    alphaRec c t h s * ∏ u ∈ Finset.range t, alphaRec c u c.hmm_.special_hmm_state_ s
      = unscaledAlpha c t h s := by
  induction t generalizing h with
  | zero => simp [alphaRec, unscaledAlpha]
  | succ t ih =>
    have ih' := ih (fun u hu => hsp u (by omega))
    have hne := hsp t (by omega)
    rw [Finset.prod_range_succ]
    simp only [alphaRec, unscaledAlpha]
    rw [← List.sum_map_mul_right, ← List.sum_map_mul_right]
    congr 1
    apply List.map_congr_left
    intro e _
    rw [← ih' e.hmm_state]
    have hcancel : alphaRec c t c.hmm_.special_hmm_state_ s
        * (1 / alphaRec c t c.hmm_.special_hmm_state_ s) = 1 := mul_one_div_cancel hne
    calc alphaRec c t e.hmm_state s * e.transition_prob * numProb c e.num_index t s
            / denProb c e.hmm_state t s * (1 / alphaRec c t c.hmm_.special_hmm_state_ s)
            * ((∏ u ∈ Finset.range t, alphaRec c u c.hmm_.special_hmm_state_ s)
              * alphaRec c t c.hmm_.special_hmm_state_ s)
        = alphaRec c t e.hmm_state s
            * (∏ u ∈ Finset.range t, alphaRec c u c.hmm_.special_hmm_state_ s)
            * e.transition_prob * numProb c e.num_index t s / denProb c e.hmm_state t s
            * (alphaRec c t c.hmm_.special_hmm_state_ s
              * (1 / alphaRec c t c.hmm_.special_hmm_state_ s)) := by ring
      _ = _ := by rw [hcancel, mul_one]

end ForwardPass

/-! ## The constructor -/

section Constructor

variable {K : Type} [Zero K]

/-- The constructor returns on inputs of matching shapes and leaves the
time-major matrices holding the cells of the native inputs:
`numeratorProb[k,t,s]` is cell `(s * T + t, k)` of `exp_nnet_output` and
`denominatorProb[h,t,s]` is cell `(s * T + t, h)` of `denominators`. -/
theorem newCctcNegativeComputation_spec (trans_model : CctcTransitionModel K) (hmm : CctcHmm K)
    (exp_nnet_output denominators : CuMatrixBase K) (S T : Nat) (ws : Workspace K)
    (hS : S ≠ 0) (hT : T ≠ 0)
    (hrows : exp_nnet_output.NumRows = S * T)
    (hcols : trans_model.NumTreeIndexes + trans_model.NumBlankIndexes ≤ exp_nnet_output.NumCols)
    (hdrows : denominators.NumRows = S * T)
    (hdcols : denominators.NumCols = trans_model.NumHistoryStates) :
    ∃ c, newCctcNegativeComputation trans_model hmm exp_nnet_output denominators S ws = .ok c ∧
      c.trans_model_ = trans_model ∧ c.hmm_ = hmm ∧
      c.num_sequences_ = S ∧ c.num_time_steps_ = T ∧
      c.numerator_dim_ = trans_model.NumTreeIndexes + trans_model.NumBlankIndexes ∧
      c.num_hmm_states_ = trans_model.NumHistoryStates ∧
      c.alpha_.Stride = trans_model.NumHistoryStates * S + ws.alpha.pad ∧
      c.beta_.Stride = trans_model.NumHistoryStates * S + ws.beta.pad ∧
      c.numerators_rearranged_.NumRows = T ∧
      c.numerators_rearranged_.NumCols
        = (trans_model.NumTreeIndexes + trans_model.NumBlankIndexes) * S ∧
      c.denominators_rearranged_.NumRows = T ∧
      c.denominators_rearranged_.NumCols = trans_model.NumHistoryStates * S ∧
      (∀ k t s, k < trans_model.NumTreeIndexes + trans_model.NumBlankIndexes → t < T → s < S →
        numProb c k t s = exp_nnet_output.RowData (s * T + t) k) ∧
      (∀ h t s, h < trans_model.NumHistoryStates → t < T → s < S →
        denProb c h t s = denominators.RowData (s * T + t) h) := by
  have hTpos : 0 < T := Nat.pos_of_ne_zero hT
  have hSpos : 0 < S := Nat.pos_of_ne_zero hS
  have hdivS : S * T / S = T := Nat.mul_div_cancel_left T hSpos
  have hdivT : S * T / T = S := Nat.mul_div_cancel S hTpos
  have hmodS : S * T % S = 0 := Nat.mul_mod_right S T
  have hmodT : S * T % T = 0 := Nat.mul_mod_left S T
  obtain ⟨V, hV, hVr, hVc, hVcell⟩ :
      ∃ V, ColRange exp_nnet_output 0
          (trans_model.NumTreeIndexes + trans_model.NumBlankIndexes) = .ok V ∧
        V.NumRows = S * T ∧
        V.NumCols = trans_model.NumTreeIndexes + trans_model.NumBlankIndexes ∧
        ∀ r j, V.RowData r j = exp_nnet_output.RowData r j := by
    refine ⟨{ Data := fun i => exp_nnet_output.Data (0 + i)
              NumRows := exp_nnet_output.NumRows
              NumCols := trans_model.NumTreeIndexes + trans_model.NumBlankIndexes
              Stride := exp_nnet_output.Stride }, ?_, hrows, rfl, ?_⟩
    · unfold ColRange; rw [if_pos (by omega)]
    · intro r j
      simp [CuMatrixBase.RowData]
  obtain ⟨N', hN⟩ : ∃ N', RearrangeNnetOutput V
      (ResizeUndefined ws.numerators T
        ((trans_model.NumTreeIndexes + trans_model.NumBlankIndexes) * S)) = .ok N' :=
    ⟨_, RearrangeNnetOutput_ok V _ hT (by show V.NumRows % T = 0; rw [hVr]; exact hmodT)
      (by show _ = V.NumCols * (V.NumRows / T); rw [hVr, hVc, hdivT]; rfl)⟩
  obtain ⟨D', hD⟩ : ∃ D', RearrangeNnetOutput denominators
      (ResizeUndefined ws.denominators T (trans_model.NumHistoryStates * S)) = .ok D' :=
    ⟨_, RearrangeNnetOutput_ok denominators _ hT
      (by show denominators.NumRows % T = 0; rw [hdrows]; exact hmodT)
      (by
        show _ = denominators.NumCols * (denominators.NumRows / T)
        rw [hdrows, hdcols, hdivT]; rfl)⟩
  have hNcell : ∀ k t s, k < trans_model.NumTreeIndexes + trans_model.NumBlankIndexes →
      t < T → s < S → N'.RowData t (k * S + s) = exp_nnet_output.RowData (s * T + t) k := by
    intro k t s hk ht hs
    have := RearrangeNnetOutput_cell hN (Nat.le_add_right _ _) (t := t) (f := k) (s := s) ht
      (by rw [hVc]; exact hk) (by show s < V.NumRows / T; rw [hVr, hdivT]; exact hs)
    change N'.RowData t (k * (V.NumRows / T) + s) = V.RowData (s * T + t) k at this
    rw [hVr, hdivT, hVcell] at this
    exact this
  have hDcell : ∀ h t s, h < trans_model.NumHistoryStates →
      t < T → s < S → D'.RowData t (h * S + s) = denominators.RowData (s * T + t) h := by
    intro h t s hh ht hs
    have := RearrangeNnetOutput_cell hD (Nat.le_add_right _ _) (t := t) (f := h) (s := s) ht
      (by rw [hdcols]; exact hh)
      (by show s < denominators.NumRows / T; rw [hdrows, hdivT]; exact hs)
    change D'.RowData t (h * (denominators.NumRows / T) + s)
      = denominators.RowData (s * T + t) h at this
    rw [hdrows, hdivT] at this
    exact this
  obtain ⟨_, _, _, hN'eq⟩ := RearrangeNnetOutput_inv hN
  obtain ⟨_, _, _, hD'eq⟩ := RearrangeNnetOutput_inv hD
  have hnew : newCctcNegativeComputation trans_model hmm exp_nnet_output denominators S ws
      = .ok { trans_model_ := trans_model
              hmm_ := hmm
              exp_nnet_output_ := exp_nnet_output
              denominators_ := denominators
              num_sequences_ := S
              num_time_steps_ := T
              numerator_dim_ := trans_model.NumTreeIndexes + trans_model.NumBlankIndexes
              num_hmm_states_ := trans_model.NumHistoryStates
              numerators_rearranged_ := N'
              denominators_rearranged_ := D'
              alpha_ := ResizeUndefined ws.alpha (T + 1) (trans_model.NumHistoryStates * S)
              beta_ := ResizeUndefined ws.beta 2 (trans_model.NumHistoryStates * S)
              tot_prob_ := []
              tot_log_prob_ := []
              log_numerator_derivs_rearranged_ := ⟨fun _ => 0, 0, 0, 0⟩
              denominator_derivs_rearranged_ := ⟨fun _ => 0, 0, 0, 0⟩ } := by
    unfold newCctcNegativeComputation
    rw [if_neg hS, if_neg (by rw [hrows, hmodS]; simp)]
    simp only [hrows, hdivS]
    rw [hV]
    simp only []
    rw [hN]
    simp only []
    rw [hD]
  refine ⟨_, hnew, rfl, rfl, rfl, rfl, rfl, rfl, rfl, rfl, ?_, ?_, ?_, ?_, ?_, ?_⟩
  · rw [hN'eq]; rfl
  · rw [hN'eq]; rfl
  · rw [hD'eq]; rfl
  · rw [hD'eq]; rfl
  · intro k t s hk ht hs
    exact hNcell k t s hk ht hs
  · intro h t s hh ht hs
    exact hDcell h t s hh ht hs

end Constructor

/-! ## The concrete scenario -/

section Scenario

theorem SetTransitions_scenario (K : Type) [Zero K] [One K] :
    SetTransitions (scenarioModel K)
      = .ok ([⟨0, 2⟩], [⟨2, 4⟩], [⟨1, 0, 0⟩, ⟨1, 1, 0⟩, ⟨1, 0, 0⟩, ⟨1, 1, 0⟩]) := by
  rfl

theorem SetInitialProbs_scenario (K : Type) [LinearOrderedField K] :
    SetInitialProbs (scenarioModel K) = ([1], 0) := by
  have hit : SetInitialProbs.iterate (scenarioModel K) (([1] : List K), [0]) = ([1], [0]) := by
    simp [SetInitialProbs.iterate, SetInitialProbs.propagate, scenarioModel, List.range_succ,
      List.modify]
  have hfold : ∀ n, (List.range n).foldl
      (fun st _ => SetInitialProbs.iterate (scenarioModel K) st) (([1] : List K), [0])
      = ([1], [0]) := by
    intro n
    induction n with
    | zero => rfl
    | succ n ih => rw [List.range_succ, List.foldl_append, ih]; exact hit
  unfold SetInitialProbs
  have e : (scenarioModel K).NumHistoryStates = 1 := rfl
  simp only [e, List.replicate, Nat.cast_one, div_one]
  rw [hfold]
  simp [maxIndex, List.range_succ]

theorem newCctcHmm_scenario (K : Type) [LinearOrderedField K] :
    newCctcHmm (scenarioModel K) = .ok (scenarioHmm K) := by
  unfold newCctcHmm
  rw [SetTransitions_scenario]
  simp only [SetInitialProbs_scenario]
  rfl

/-- The alphas of the scenario: 1 on frame 0 and 2 on every later frame. -/
theorem alphaRec_scenario {K : Type} [Field K] [CharZero K] (c : CctcNegativeComputation K)
    (hhmm : c.hmm_ = scenarioHmm K) (hS : c.num_sequences_ = 1) (T : Nat)
    (hnum : ∀ k t, k < 2 → t < T → numProb c k t 0 = 1)
    (hden : ∀ t, t < T → denProb c 0 t 0 = 1) :
    alphaRec c 0 0 0 = 1 ∧ ∀ t, t < T → alphaRec c (t + 1) 0 0 = 2 := by
  have hedges : inEdges c 0 = [⟨1, 0, 0⟩, ⟨1, 1, 0⟩] := by
    unfold inEdges; rw [hhmm]; rfl
  have hsp : c.hmm_.special_hmm_state_ = 0 := by rw [hhmm]; rfl
  have h0 : alphaRec c 0 0 0 = 1 := by
    simp [alphaRec, hhmm, scenarioHmm]
  have hstep : ∀ t, t < T → alphaRec c t 0 0 ≠ 0 → alphaRec c (t + 1) 0 0 = 2 := by
    intro t ht hne
    simp only [alphaRec, hedges, hsp, List.map_cons, List.map_nil, List.sum_cons, List.sum_nil]
    rw [hnum 0 t (by omega) ht, hnum 1 t (by omega) ht, hden t ht]
    field_simp
    ring
  refine ⟨h0, ?_⟩
  intro t
  induction t with
  | zero => intro ht; exact hstep 0 ht (by rw [h0]; exact one_ne_zero)
  | succ t ih =>
    intro ht
    exact hstep (t + 1) ht (by rw [ih (by omega)]; exact two_ne_zero)

/-- The forward pass on the scenario, for any storage handed to the
constructor: the constructors return, `Forward()` returns `2 * log 2`, and the
special state's alpha is 1, 2, 2 on frames 0, 1, 2. -/
theorem Forward_scenario (ws : Workspace ℝ) :
    ∃ c c', newCctcNegativeComputation (scenarioModel ℝ) (scenarioHmm ℝ)
        (constMatrix 1 2 2) (constMatrix 1 2 1) 1 ws = .ok c ∧
      Forward Real.log c = .ok (2 * Real.log 2, c') ∧
      c.num_time_steps_ = 2 ∧ c.num_sequences_ = 1 ∧ c.num_hmm_states_ = 1 ∧
      c.hmm_ = scenarioHmm ℝ ∧ ForwardReady c ∧
      (∀ t, t < 2 → denProb c 0 t 0 = 1) ∧
      alphaRec c 0 0 0 = 1 ∧ alphaRec c 1 0 0 = 2 ∧ alphaRec c 2 0 0 = 2 ∧
      c'.alpha_.RowData 0 (0 * 1 + 0) = 1 ∧ c'.alpha_.RowData 1 (0 * 1 + 0) = 2 ∧
      c'.alpha_.RowData 2 (0 * 1 + 0) = 2 := by
  obtain ⟨c, hc, -, hhmm, hS, hT, -, hH, hst, -, -, -, -, -, hnum, hden⟩ :=
    newCctcNegativeComputation_spec (scenarioModel ℝ) (scenarioHmm ℝ)
      (constMatrix 1 2 2) (constMatrix 1 2 1) 1 2 ws (by decide) (by decide) rfl
      (by show 1 + 1 ≤ 2; omega) rfl rfl
  have hH' : c.num_hmm_states_ = 1 := hH
  have wf : ForwardReady c := by
    refine ⟨?_, ?_, ?_⟩
    · rw [hst, hH', hS]; show 1 * 1 ≤ 1 * 1 + _; omega
    · rw [hhmm, hH']; exact Nat.zero_lt_one
    · intro h hh e he
      rw [hH'] at hh ⊢
      have h0 : h = 0 := by omega
      subst h0
      have hedges : inEdges c 0 = [⟨1, 0, 0⟩, ⟨1, 1, 0⟩] := by
        unfold inEdges; rw [hhmm]; rfl
      rw [hedges] at he
      simp only [List.mem_cons, List.mem_singleton, List.not_mem_nil, or_false] at he
      rcases he with rfl | rfl <;> exact Nat.zero_lt_one
  have hnum' : ∀ k t, k < 2 → t < 2 → numProb c k t 0 = 1 := by
    intro k t hk ht
    rw [hnum k t 0 (by show k < 1 + 1; omega) ht (by omega)]
    rfl
  have hden' : ∀ t, t < 2 → denProb c 0 t 0 = 1 := by
    intro t ht
    rw [hden 0 t 0 (by show 0 < 1; omega) ht (by omega)]
    rfl
  obtain ⟨a0, astep⟩ := alphaRec_scenario c hhmm hS 2 hnum' hden'
  have a1 := astep 0 (by omega)
  have a2 := astep 1 (by omega)
  have hsp0 : c.hmm_.special_hmm_state_ = 0 := by rw [hhmm]; rfl
  obtain ⟨A, hF, -, hrows⟩ := Forward_spec Real.log c wf
    (by
      intro t h s ht hh hs
      rw [hT] at ht
      rw [hH'] at hh
      rw [hS] at hs
      have h0 : h = 0 := by omega
      have s0 : s = 0 := by omega
      subst h0 s0
      rw [hden' t ht]
      exact one_ne_zero)
    (by
      intro t s ht hs
      rw [hT] at ht
      rw [hS] at hs
      have s0 : s = 0 := by omega
      subst s0
      rw [hsp0]
      rcases (by omega : t = 0 ∨ t = 1) with rfl | rfl
      · rw [a0]; exact one_ne_zero
      · rw [a1]; exact two_ne_zero)
  have hval : ∑ s ∈ Finset.range c.num_sequences_,
        Real.log (∑ h ∈ Finset.range c.num_hmm_states_, alphaRec c c.num_time_steps_ h s)
      + ∑ t ∈ Finset.range c.num_time_steps_, ∑ s ∈ Finset.range c.num_sequences_,
          Real.log (alphaRec c t c.hmm_.special_hmm_state_ s) = 2 * Real.log 2 := by
    have hsp : c.hmm_.special_hmm_state_ = 0 := by rw [hhmm]; rfl
    rw [hS, hH', hT, hsp]
    simp only [Finset.sum_range_succ, Finset.sum_range_zero, zero_add]
    rw [a0, a1, a2, Real.log_one]
    ring
  rw [hval] at hF
  refine ⟨c, _, hc, hF, hT, hS, hH', hhmm, wf, hden', a0, a1, a2, ?_, ?_, ?_⟩
  · have := hrows 0 0 0 (by omega) (by omega) (by omega)
    rw [hS] at this; rw [← a0]; exact this
  · have := hrows 1 0 0 (by omega) (by omega) (by omega)
    rw [hS] at this; rw [← a1]; exact this
  · have := hrows 2 0 0 (by omega) (by omega) (by omega)
    rw [hS] at this; rw [← a2]; exact this

end Scenario

/-! ## The two-state model with a state that has no incoming transition -/

section Sink

theorem SetInitialProbs_sink (K : Type) [LinearOrderedField K] :
    SetInitialProbs (sinkModel K) = ([0, 1], 1) := by
  have hit0 : SetInitialProbs.iterate (sinkModel K) (([1 / 2, 1 / 2] : List K), [0, 0])
      = ([0, 1], [0, 0]) := by
    simp [SetInitialProbs.iterate, SetInitialProbs.propagate, sinkModel, List.range_succ,
      List.modify]
  have hit : SetInitialProbs.iterate (sinkModel K) (([0, 1] : List K), [0, 0])
      = ([0, 1], [0, 0]) := by
    simp [SetInitialProbs.iterate, SetInitialProbs.propagate, sinkModel, List.range_succ,
      List.modify]
  have hfold : ∀ n, (List.range n).foldl
      (fun st _ => SetInitialProbs.iterate (sinkModel K) st) (([0, 1] : List K), [0, 0])
      = ([0, 1], [0, 0]) := by
    intro n
    induction n with
    | zero => rfl
    | succ n ih => rw [List.range_succ, List.foldl_append, ih]; exact hit
  have hshift : ∀ (n : Nat) (st : List K × List K),
      (List.range (n + 1)).foldl (fun st _ => SetInitialProbs.iterate (sinkModel K) st) st
        = (List.range n).foldl (fun st _ => SetInitialProbs.iterate (sinkModel K) st)
            (SetInitialProbs.iterate (sinkModel K) st) := by
    intro n st
    rw [List.range_succ_eq_map, List.foldl_cons, List.foldl_map]
  unfold SetInitialProbs
  have e : (sinkModel K).NumHistoryStates = 2 := rfl
  simp only [e, List.replicate, Nat.cast_ofNat]
  rw [hshift, hit0, hfold]
  simp [maxIndex, List.range_succ]

/-- The object `sinkHmm` is the one that the constructor of `CctcHmm` builds
for `sinkModel`. -/
theorem newCctcHmm_sink (K : Type) [LinearOrderedField K] :
    newCctcHmm (sinkModel K) = .ok (sinkHmm K) := by
  have ht : SetTransitions (sinkModel K)
      = .ok ([⟨0, 1⟩, ⟨1, 2⟩], [⟨2, 2⟩, ⟨2, 4⟩],
          [⟨1, 0, 1⟩, ⟨1, 0, 1⟩, ⟨1, 0, 0⟩, ⟨1, 0, 1⟩]) := rfl
  unfold newCctcHmm
  rw [ht]
  simp only [SetInitialProbs_sink]
  rfl

end Sink

/-! ## C2 and C9: the claims on the concrete scenario -/

theorem ForwardReady_scenarioComputation (K : Type) [Field K] :
    ForwardReady (scenarioComputation K) := by
  refine ⟨?_, ?_, ?_⟩
  · show 1 * 1 ≤ 1; omega
  · show 0 < 1; omega
  · intro h hh e he
    have hh' : h < 1 := hh
    show e.hmm_state < 1
    have h0 : h = 0 := by omega
    subst h0
    have : inEdges (scenarioComputation K) 0 = [⟨1, 0, 0⟩, ⟨1, 1, 0⟩] := rfl
    rw [this] at he
    simp only [List.mem_cons, List.mem_singleton, List.not_mem_nil, or_false] at he
    rcases he with rfl | rfl <;> exact Nat.zero_lt_one

theorem alphaRec_scenarioComputation (K : Type) [Field K] [CharZero K] :
    alphaRec (scenarioComputation K) 0 0 0 = 1 ∧ alphaRec (scenarioComputation K) 1 0 0 = 2 ∧
    alphaRec (scenarioComputation K) 2 0 0 = 2 := by
  obtain ⟨a0, astep⟩ := alphaRec_scenario (scenarioComputation K) rfl rfl 2
    (fun _ _ _ _ => rfl) (fun _ _ => rfl)
  exact ⟨a0, astep 0 (by omega), astep 1 (by omega)⟩

/-- C2, amended.  On the scenario (one history state, one phone, both
transitions looping to state 0 with probability 1, one sequence, two time
steps, every numerator and denominator probability 1, the table and the
initial distribution built by the `CctcHmm` constructor) the two constructors
return and `Forward()` returns `2 * log 2`, the logarithm of the number of
paths, whatever storage the constructor obtains. -/
theorem scenario_total_log_like (ws : Workspace ℝ) :
    ∃ hmm c c', newCctcHmm (scenarioModel ℝ) = .ok hmm ∧
      newCctcNegativeComputation (scenarioModel ℝ) hmm
        (constMatrix 1 2 2) (constMatrix 1 2 1) 1 ws = .ok c ∧
      Forward Real.log c = .ok (2 * Real.log 2, c') := by
  obtain ⟨c, c', h1, h2, -⟩ := Forward_scenario ws
  exact ⟨scenarioHmm ℝ, c, c', newCctcHmm_scenario ℝ, h1, h2⟩

/-- Counterexample to C2 as stated: on the scenario the value that
`Forward()` returns is not 0. -/
theorem scenario_total_log_like_counterexample :
    ∃ hmm c v c', newCctcHmm (scenarioModel ℝ) = .ok hmm ∧
      newCctcNegativeComputation (scenarioModel ℝ) hmm
        (constMatrix 1 2 2) (constMatrix 1 2 1) 1 (zeroWorkspace ℝ) = .ok c ∧
      c.num_sequences_ = 1 ∧ c.num_time_steps_ = 2 ∧
      Forward Real.log c = .ok (v, c') ∧ v ≠ 0 := by
  obtain ⟨c, c', h1, h2, h3, h4, -⟩ := Forward_scenario (zeroWorkspace ℝ)
  refine ⟨scenarioHmm ℝ, c, _, c', newCctcHmm_scenario ℝ, h1, h4, h3, h2, ?_⟩
  have : 0 < Real.log 2 := Real.log_pos (by norm_num)
  linarith

/-- C9, amended.  On an object fit for the forward pass on which no division
of the forward pass is by zero (the denominator probabilities are nonzero and
the alpha recursion of the special state is nonzero on every frame before the
last), `Forward()` returns, and for every frame `t + 1 ≤ T` and lane `s` the
stored alpha of the special state is the sum over the incoming transitions of
the special state of
`alpha[t][origin,s] * transitionProb * numeratorProb / denominatorProb`,
times `1 / alpha[t][SpecialState,s]`: the rescaling divides by the special
state's alpha of the previous frame. -/
theorem special_state_alpha {K : Type} [Field K] [DecidableEq K] (log : K → K)
    (c : CctcNegativeComputation K) (wf : ForwardReady c)
    (hden : ∀ t h s, t < c.num_time_steps_ → h < c.num_hmm_states_ → s < c.num_sequences_ →
      denProb c h t s ≠ 0)
    (hscale : ∀ t s, t < c.num_time_steps_ → s < c.num_sequences_ →
      alphaRec c t c.hmm_.special_hmm_state_ s ≠ 0) :
    ∃ v c', Forward log c = .ok (v, c') ∧
      ∀ t s, t < c.num_time_steps_ → s < c.num_sequences_ →
        c'.alpha_.RowData (t + 1) (c.hmm_.special_hmm_state_ * c.num_sequences_ + s)
          = ((inEdges c c.hmm_.special_hmm_state_).map (fun e =>
              c'.alpha_.RowData t (e.hmm_state * c.num_sequences_ + s) * e.transition_prob
                * numProb c e.num_index t s / denProb c e.hmm_state t s)).sum
            * (1 / c'.alpha_.RowData t (c.hmm_.special_hmm_state_ * c.num_sequences_ + s)) := by
  obtain ⟨A, hF, -, hrows⟩ := Forward_spec log c wf hden hscale
  refine ⟨_, _, hF, ?_⟩
  intro t s ht hs
  show A.RowData (t + 1) _ = ((inEdges c c.hmm_.special_hmm_state_).map (fun e =>
      A.RowData t (e.hmm_state * c.num_sequences_ + s) * e.transition_prob
        * numProb c e.num_index t s / denProb c e.hmm_state t s)).sum * (1 / A.RowData t _)
  rw [hrows (t + 1) _ s (by omega) wf.special_lt hs, hrows t _ s (by omega) wf.special_lt hs]
  simp only [alphaRec]
  congr 2
  apply List.map_congr_left
  intro e he
  rw [hrows t _ s (by omega) (wf.origin_lt _ wf.special_lt e he) hs]

/-- On the scenario no division of the forward pass is by zero: every
denominator probability is 1, the alpha of the special state is 1 on frame 0
and 2 on frame 1, and the last alpha row sums to 2. -/
theorem scenario_no_zero_division :
    (∀ t h s, t < (scenarioComputation ℝ).num_time_steps_ →
      h < (scenarioComputation ℝ).num_hmm_states_ →
      s < (scenarioComputation ℝ).num_sequences_ →
      denProb (scenarioComputation ℝ) h t s ≠ 0) ∧
    (∀ t s, t < (scenarioComputation ℝ).num_time_steps_ →
      s < (scenarioComputation ℝ).num_sequences_ →
      alphaRec (scenarioComputation ℝ) t (scenarioComputation ℝ).hmm_.special_hmm_state_ s
        ≠ 0) ∧
    (∀ s, s < (scenarioComputation ℝ).num_sequences_ →
      ∑ h ∈ Finset.range (scenarioComputation ℝ).num_hmm_states_,
        alphaRec (scenarioComputation ℝ) (scenarioComputation ℝ).num_time_steps_ h s ≠ 0) := by
  obtain ⟨a0, a1, a2⟩ := alphaRec_scenarioComputation ℝ
  refine ⟨fun _ _ _ _ _ _ => (one_ne_zero : (1 : ℝ) ≠ 0), ?_, ?_⟩
  · intro t s ht hs
    have hs0 : s = 0 := by
      have : s < 1 := hs
      omega
    have ht2 : t < 2 := ht
    subst hs0
    show alphaRec (scenarioComputation ℝ) t 0 0 ≠ 0
    rcases (by omega : t = 0 ∨ t = 1) with rfl | rfl
    · rw [a0]; exact one_ne_zero
    · rw [a1]; exact two_ne_zero
  · intro s hs
    have hs0 : s = 0 := by
      have : s < 1 := hs
      omega
    subst hs0
    show ∑ h ∈ Finset.range 1, alphaRec (scenarioComputation ℝ) 2 h 0 ≠ 0
    rw [Finset.sum_range_one, a2]
    exact two_ne_zero

theorem special_state_alpha_witness :
    ∃ v c', Forward Real.log (scenarioComputation ℝ) = .ok (v, c') ∧
      ∀ t s, t < (scenarioComputation ℝ).num_time_steps_ →
        s < (scenarioComputation ℝ).num_sequences_ →
        c'.alpha_.RowData (t + 1)
            ((scenarioComputation ℝ).hmm_.special_hmm_state_
              * (scenarioComputation ℝ).num_sequences_ + s)
          = ((inEdges (scenarioComputation ℝ)
                (scenarioComputation ℝ).hmm_.special_hmm_state_).map (fun e =>
              c'.alpha_.RowData t (e.hmm_state * (scenarioComputation ℝ).num_sequences_ + s)
                * e.transition_prob
                * numProb (scenarioComputation ℝ) e.num_index t s
                / denProb (scenarioComputation ℝ) e.hmm_state t s)).sum
            * (1 / c'.alpha_.RowData t
                ((scenarioComputation ℝ).hmm_.special_hmm_state_
                  * (scenarioComputation ℝ).num_sequences_ + s)) :=
  special_state_alpha Real.log (scenarioComputation ℝ) (ForwardReady_scenarioComputation ℝ)
    scenario_no_zero_division.1 scenario_no_zero_division.2.1

/-- Counterexample to C9 as stated: on the scenario, frame 1 lies in
`1 .. T` and the stored alpha of the special state on that frame is 2. -/
theorem special_state_alpha_counterexample :
    ∃ hmm c v c', newCctcHmm (scenarioModel ℝ) = .ok hmm ∧
      newCctcNegativeComputation (scenarioModel ℝ) hmm
        (constMatrix 1 2 2) (constMatrix 1 2 1) 1 (zeroWorkspace ℝ) = .ok c ∧
      Forward Real.log c = .ok (v, c') ∧
      1 ≤ 1 ∧ 1 ≤ c.num_time_steps_ ∧ 0 < c.num_sequences_ ∧
      c'.alpha_.RowData 1 (hmm.special_hmm_state_ * c.num_sequences_ + 0) = 2 ∧
      c'.alpha_.RowData 1 (hmm.special_hmm_state_ * c.num_sequences_ + 0) ≠ 1 := by
  obtain ⟨c, c', h1, h2, h3, h4, -, -, -, -, -, -, -, -, r1, -⟩ :=
    Forward_scenario (zeroWorkspace ℝ)
  have e : c'.alpha_.RowData 1 ((scenarioHmm ℝ).special_hmm_state_ * c.num_sequences_ + 0)
      = 2 := by
    rw [h4]; exact r1
  refine ⟨scenarioHmm ℝ, c, _, c', newCctcHmm_scenario ℝ, h1, h2, le_refl 1,
    by rw [h3]; omega, by rw [h4]; omega, e, ?_⟩
  rw [e]; norm_num

/-! ## C8: the initial distribution -/

section InitialProbs

variable {K : Type}

theorem sum_indicator_range_val [AddCommMonoid K] (a H : Nat) (v : K) :
    ((List.range H).map (fun d => if a = d then v else 0)).sum = if a < H then v else 0 := by
  induction H with
  | zero => simp
  | succ H ih =>
    rw [List.sum_range_succ, ih]
    by_cases h1 : a < H
    · have h2 : a ≠ H := by omega
      have h3 : a < H + 1 := by omega
      simp [h1, h2, h3]
    · by_cases h2 : a = H
      · subst h2; simp
      · have h3 : ¬ a < H + 1 := by omega
        simp [h1, h2, h3]

/-- Summing a weight over the steps that address `d`, and then over all `d`,
is summing it over all steps. -/
theorem sum_filter_partition [AddCommMonoid K] {ι : Type} (l : List ι) (idx : ι → Nat)
    (w : ι → K) (H : Nat) (h : ∀ i ∈ l, idx i < H) :
    ((List.range H).map (fun d =>
        ((l.filter (fun i => decide (idx i = d))).map w).sum)).sum = (l.map w).sum := by
  induction l with
  | nil => simp
  | cons a l ih =>
    have e : (fun d => (((a :: l).filter (fun i => decide (idx i = d))).map w).sum)
        = fun d => (if idx a = d then w a else 0)
            + ((l.filter (fun i => decide (idx i = d))).map w).sum := by
      funext d
      rw [List.filter_cons]
      by_cases hd : idx a = d
      · simp [hd]
      · simp [hd]
    rw [e, List.sum_map_add, ih (fun i hi => h i (List.mem_cons_of_mem a hi)),
      sum_indicator_range_val, if_pos (h a (List.mem_cons_self a l)), List.map_cons,
      List.sum_cons]

theorem exists_pos_of_sum_pos [LinearOrderedField K] (l : List K) (hs : 0 < l.sum) :
    ∃ x ∈ l, 0 < x := by
  induction l with
  | nil => simp at hs
  | cons a l ih =>
    by_cases ha : 0 < a
    · exact ⟨a, List.mem_cons_self a l, ha⟩
    · rw [List.sum_cons] at hs
      have : 0 < l.sum := by
        have : a ≤ 0 := not_lt.mp ha
        linarith
      obtain ⟨x, hx, hx0⟩ := ih this
      exact ⟨x, List.mem_cons_of_mem a hx, hx0⟩

/-- The propagation into a zeroed vector: entry `d` is the mass sent along
the transitions that enter `d`. -/
theorem SetInitialProbs.propagate_eq [Field K] (trans_mdl : CctcTransitionModel K)
    (cur : List K) :
    SetInitialProbs.propagate trans_mdl cur (List.replicate trans_mdl.NumHistoryStates 0)
      = (List.range trans_mdl.NumHistoryStates).map (fun d =>
          (((statePhonePairs trans_mdl.NumHistoryStates trans_mdl.NumPhones).filter
            (fun sp => decide (trans_mdl.GraphLabelToNextHistoryState
              (trans_mdl.GetGraphLabel sp.1 sp.2) = d))).map
            (fun sp => cur.getD sp.1 0
              * trans_mdl.GraphLabelToLmProb (trans_mdl.GetGraphLabel sp.1 sp.2))).sum) := by
  unfold SetInitialProbs.propagate
  have e1 := foldl_nested_eq_product
    (fun (next_prob : List K) (s p : Nat) =>
      List.modify (fun x => x + cur.getD s 0
          * trans_mdl.GraphLabelToLmProb (trans_mdl.GetGraphLabel s p))
        (trans_mdl.GraphLabelToNextHistoryState (trans_mdl.GetGraphLabel s p)) next_prob)
    (List.range trans_mdl.NumHistoryStates) (List.range (trans_mdl.NumPhones + 1))
    (List.replicate trans_mdl.NumHistoryStates 0)
  refine e1.trans ?_
  apply List.ext_getElem?
  intro d
  have e2 := foldl_modify_getElem?
    ((List.range trans_mdl.NumHistoryStates).product (List.range (trans_mdl.NumPhones + 1)))
    (fun sp : Nat × Nat =>
      trans_mdl.GraphLabelToNextHistoryState (trans_mdl.GetGraphLabel sp.1 sp.2))
    (fun sp (x : K) => x + cur.getD sp.1 0
          * trans_mdl.GraphLabelToLmProb (trans_mdl.GetGraphLabel sp.1 sp.2))
    (List.replicate trans_mdl.NumHistoryStates 0) d
  refine e2.trans ?_
  rw [List.getElem?_replicate, List.getElem?_map]
  by_cases hd : d < trans_mdl.NumHistoryStates
  · rw [if_pos hd, List.getElem?_range hd]
    simp only [Option.map_some']
    congr 1
    rw [foldl_add_eq_sum, zero_add]
    rfl
  · rw [if_neg hd, List.getElem?_eq_none (by simp; omega)]
    rfl

/-- One iteration of `SetInitialProbs` from a probability vector and a
zeroed `next_prob`, for a model with next states in range and strictly
positive transition probabilities: the renormalisation divides by a positive
number and leaves a probability vector and a zeroed `next_prob`. -/
theorem SetInitialProbs.iterate_spec [LinearOrderedField K] (trans_mdl : CctcTransitionModel K)
    (hnext : ∀ s p, s < trans_mdl.NumHistoryStates → p ≤ trans_mdl.NumPhones →
      trans_mdl.GraphLabelToNextHistoryState (trans_mdl.GetGraphLabel s p)
        < trans_mdl.NumHistoryStates)
    (hpos : ∀ s p, s < trans_mdl.NumHistoryStates → p ≤ trans_mdl.NumPhones →
      0 < trans_mdl.GraphLabelToLmProb (trans_mdl.GetGraphLabel s p))
    (st : List K × List K) (hlen : st.1.length = trans_mdl.NumHistoryStates)
    (hnn : ∀ x ∈ st.1, 0 ≤ x) (hsum : st.1.sum = 1)
    (hzero : st.2 = List.replicate trans_mdl.NumHistoryStates 0) :
    0 < (SetInitialProbs.propagate trans_mdl st.1 st.2).sum ∧
    (SetInitialProbs.iterate trans_mdl st).1.length = trans_mdl.NumHistoryStates ∧
    (∀ x ∈ (SetInitialProbs.iterate trans_mdl st).1, 0 ≤ x) ∧
    (SetInitialProbs.iterate trans_mdl st).1.sum = 1 ∧
    (SetInitialProbs.iterate trans_mdl st).2 = List.replicate trans_mdl.NumHistoryStates 0 := by
  obtain ⟨cur, next⟩ := st
  simp only at hlen hnn hsum hzero
  subst hzero
  have hgetD : ∀ s, 0 ≤ cur.getD s 0 := by
    intro s
    by_cases hs : s < cur.length
    · rw [List.getD_eq_getElem cur 0 hs]; exact hnn _ (List.getElem_mem hs)
    · rw [List.getD_eq_default cur 0 (by omega)]
  have hw : ∀ sp ∈ statePhonePairs trans_mdl.NumHistoryStates trans_mdl.NumPhones,
      0 ≤ cur.getD sp.1 0
        * trans_mdl.GraphLabelToLmProb (trans_mdl.GetGraphLabel sp.1 sp.2) := by
    intro sp hsp
    have := mem_statePhonePairs.mp hsp
    exact mul_nonneg (hgetD sp.1) (le_of_lt (hpos sp.1 sp.2 this.1 (by omega)))
  have hprop := SetInitialProbs.propagate_eq trans_mdl cur
  have hZ : (SetInitialProbs.propagate trans_mdl cur
      (List.replicate trans_mdl.NumHistoryStates 0)).sum
      = ((statePhonePairs trans_mdl.NumHistoryStates trans_mdl.NumPhones).map
          (fun sp => cur.getD sp.1 0
            * trans_mdl.GraphLabelToLmProb (trans_mdl.GetGraphLabel sp.1 sp.2))).sum := by
    rw [hprop]
    apply sum_filter_partition
    intro sp hsp
    have := mem_statePhonePairs.mp hsp
    exact hnext sp.1 sp.2 this.1 (by omega)
  have hZpos : 0 < (SetInitialProbs.propagate trans_mdl cur
      (List.replicate trans_mdl.NumHistoryStates 0)).sum := by
    rw [hZ]
    obtain ⟨x, hx, hx0⟩ := exists_pos_of_sum_pos cur (by rw [hsum]; exact one_pos)
    obtain ⟨s0, hs0, rfl⟩ := List.mem_iff_getElem.mp hx
    have hmem : (s0, 0) ∈ statePhonePairs trans_mdl.NumHistoryStates trans_mdl.NumPhones :=
      mem_statePhonePairs.mpr ⟨by rw [← hlen]; exact hs0, by show 0 < _ + 1; omega⟩
    have hterm : 0 < cur.getD s0 0
        * trans_mdl.GraphLabelToLmProb (trans_mdl.GetGraphLabel s0 0) := by
      rw [List.getD_eq_getElem cur 0 hs0]
      exact mul_pos hx0 (hpos s0 0 (by rw [← hlen]; exact hs0) (Nat.zero_le _))
    refine lt_of_lt_of_le hterm ?_
    apply List.single_le_sum
    · intro y hy
      obtain ⟨sp, hsp, rfl⟩ := List.mem_map.mp hy
      exact hw sp hsp
    · exact List.mem_map.mpr ⟨(s0, 0), hmem, rfl⟩
  have hpropnn : ∀ x ∈ SetInitialProbs.propagate trans_mdl cur
      (List.replicate trans_mdl.NumHistoryStates 0), 0 ≤ x := by
    intro x hx
    rw [hprop] at hx
    obtain ⟨d, _, rfl⟩ := List.mem_map.mp hx
    apply List.sum_nonneg
    intro y hy
    obtain ⟨sp, hsp, rfl⟩ := List.mem_map.mp hy
    exact hw sp (List.mem_of_mem_filter hsp)
  refine ⟨hZpos, ?_, ?_, ?_, ?_⟩
  · simp only [SetInitialProbs.iterate, List.length_map]
    rw [hprop, List.length_map, List.length_range]
  · intro x hx
    simp only [SetInitialProbs.iterate] at hx
    obtain ⟨y, hy, rfl⟩ := List.mem_map.mp hx
    exact mul_nonneg (hpropnn y hy) (le_of_lt (one_div_pos.mpr hZpos))
  · simp only [SetInitialProbs.iterate]
    rw [List.sum_map_mul_right]
    simp only [List.map_id']
    exact mul_one_div_cancel (ne_of_gt hZpos)
  · simp only [SetInitialProbs.iterate]
    rw [List.map_const', hlen]

theorem SetInitialProbs.state_succ [Field K] (trans_mdl : CctcTransitionModel K) (n : Nat) :
    SetInitialProbs.state trans_mdl (n + 1)
      = SetInitialProbs.iterate trans_mdl (SetInitialProbs.state trans_mdl n) := by
  unfold SetInitialProbs.state
  rw [List.range_succ, List.foldl_append]
  rfl

/-- Every state of the loop of `SetInitialProbs` is a probability vector with
a zeroed `next_prob`. -/
theorem SetInitialProbs.state_spec [LinearOrderedField K] (trans_mdl : CctcTransitionModel K)
    (hH : 1 ≤ trans_mdl.NumHistoryStates)
    (hnext : ∀ s p, s < trans_mdl.NumHistoryStates → p ≤ trans_mdl.NumPhones →
      trans_mdl.GraphLabelToNextHistoryState (trans_mdl.GetGraphLabel s p)
        < trans_mdl.NumHistoryStates)
    (hpos : ∀ s p, s < trans_mdl.NumHistoryStates → p ≤ trans_mdl.NumPhones →
      0 < trans_mdl.GraphLabelToLmProb (trans_mdl.GetGraphLabel s p))
    (n : Nat) :
    (SetInitialProbs.state trans_mdl n).1.length = trans_mdl.NumHistoryStates ∧
    (∀ x ∈ (SetInitialProbs.state trans_mdl n).1, 0 ≤ x) ∧
    (SetInitialProbs.state trans_mdl n).1.sum = 1 ∧
    (SetInitialProbs.state trans_mdl n).2 = List.replicate trans_mdl.NumHistoryStates 0 := by
  induction n with
  | zero =>
    have hHK : (0 : K) < (trans_mdl.NumHistoryStates : K) := by
      exact_mod_cast hH
    refine ⟨List.length_replicate _ _, ?_, ?_, rfl⟩
    · intro x hx
      have : x = 1 / (trans_mdl.NumHistoryStates : K) := List.eq_of_mem_replicate hx
      rw [this]
      exact le_of_lt (one_div_pos.mpr hHK)
    · show (List.replicate trans_mdl.NumHistoryStates
        (1 / (trans_mdl.NumHistoryStates : K))).sum = 1
      rw [List.sum_replicate, nsmul_eq_mul]
      exact mul_one_div_cancel (ne_of_gt hHK)
  | succ n ih =>
    obtain ⟨h1, h2, h3, h4⟩ := ih
    rw [SetInitialProbs.state_succ]
    exact (SetInitialProbs.iterate_spec trans_mdl hnext hpos _ h1 h2 h3 h4).2

end InitialProbs

/-- C8, amended.  For every transition model with at least one history
state, next states in range and strictly positive transition probabilities,
the vector produced by `SetInitialProbs` has one entry per history state,
every entry nonnegative, the entries sum to 1, and the divisor of each of the
20 renormalisations is nonzero. -/
theorem initial_probs_distribution {K : Type} [LinearOrderedField K]
    (trans_mdl : CctcTransitionModel K)
    (hH : 1 ≤ trans_mdl.NumHistoryStates)
    (hnext : ∀ s p, s < trans_mdl.NumHistoryStates → p ≤ trans_mdl.NumPhones →
      trans_mdl.GraphLabelToNextHistoryState (trans_mdl.GetGraphLabel s p)
        < trans_mdl.NumHistoryStates)
    (hpos : ∀ s p, s < trans_mdl.NumHistoryStates → p ≤ trans_mdl.NumPhones →
      0 < trans_mdl.GraphLabelToLmProb (trans_mdl.GetGraphLabel s p)) :
    (SetInitialProbs trans_mdl).1.length = trans_mdl.NumHistoryStates ∧
    (∀ x ∈ (SetInitialProbs trans_mdl).1, 0 ≤ x) ∧
    (SetInitialProbs trans_mdl).1.sum = 1 ∧
    (∀ n, n < 20 → SetInitialProbs.divisor trans_mdl n ≠ 0) := by
  have e : (SetInitialProbs trans_mdl).1 = (SetInitialProbs.state trans_mdl 20).1 := rfl
  obtain ⟨h1, h2, h3, _⟩ := SetInitialProbs.state_spec trans_mdl hH hnext hpos 20
  refine ⟨by rw [e]; exact h1, by rw [e]; exact h2, by rw [e]; exact h3, ?_⟩
  intro n _
  obtain ⟨g1, g2, g3, g4⟩ := SetInitialProbs.state_spec trans_mdl hH hnext hpos n
  exact ne_of_gt (SetInitialProbs.iterate_spec trans_mdl hnext hpos _ g1 g2 g3 g4).1

theorem initial_probs_distribution_witness :
    (SetInitialProbs (scenarioModel ℚ)).1.length = (scenarioModel ℚ).NumHistoryStates ∧
    (∀ x ∈ (SetInitialProbs (scenarioModel ℚ)).1, 0 ≤ x) ∧
    (SetInitialProbs (scenarioModel ℚ)).1.sum = 1 ∧
    (∀ n, n < 20 → SetInitialProbs.divisor (scenarioModel ℚ) n ≠ 0) :=
  initial_probs_distribution (scenarioModel ℚ) (le_refl 1)
    (fun _ _ _ _ => Nat.zero_lt_one) (fun _ _ _ _ => one_pos)

/-- Counterexample to C8 as stated.  The model with one history state whose
single transition has probability 0 has next states in range, yet the first
renormalisation of `SetInitialProbs` divides by the sum 0 of the propagated
vector, and the entries of the result do not sum to 1.  (With the total
division of the field the result is the zero vector; in floating point it is
NaN.) -/
theorem initial_probs_distribution_counterexample :
    1 ≤ (zeroProbModel ℚ).NumHistoryStates ∧
    (∀ s p, s < (zeroProbModel ℚ).NumHistoryStates → p ≤ (zeroProbModel ℚ).NumPhones →
      (zeroProbModel ℚ).GraphLabelToNextHistoryState ((zeroProbModel ℚ).GetGraphLabel s p)
        < (zeroProbModel ℚ).NumHistoryStates) ∧
    SetInitialProbs.divisor (zeroProbModel ℚ) 0 = 0 ∧
    (SetInitialProbs (zeroProbModel ℚ)).1.sum ≠ 1 := by
  have h1 : SetInitialProbs.iterate (zeroProbModel ℚ) (([1] : List ℚ), [0]) = ([0], [0]) := by
    simp [SetInitialProbs.iterate, SetInitialProbs.propagate, zeroProbModel, List.range_succ,
      List.modify]
  have h0 : SetInitialProbs.iterate (zeroProbModel ℚ) (([0] : List ℚ), [0]) = ([0], [0]) := by
    simp [SetInitialProbs.iterate, SetInitialProbs.propagate, zeroProbModel, List.range_succ,
      List.modify]
  have hstate0 : SetInitialProbs.state (zeroProbModel ℚ) 0 = ([1], [0]) := by
    simp [SetInitialProbs.state, zeroProbModel]
  have hstate : ∀ n, SetInitialProbs.state (zeroProbModel ℚ) (n + 1) = ([0], [0]) := by
    intro n
    induction n with
    | zero => rw [SetInitialProbs.state_succ, hstate0, h1]
    | succ n ih => rw [SetInitialProbs.state_succ, ih, h0]
  refine ⟨le_refl 1, fun _ _ _ _ => Nat.zero_lt_one, ?_, ?_⟩
  · unfold SetInitialProbs.divisor
    rw [hstate0]
    simp [SetInitialProbs.propagate, zeroProbModel, List.range_succ, List.modify]
  · have e : (SetInitialProbs (zeroProbModel ℚ)).1
        = (SetInitialProbs.state (zeroProbModel ℚ) 20).1 := rfl
    rw [e, hstate 19]
    simp

/-! ## The backward pass -/

section BackwardPass

variable {K : Type} [Field K]

/-- The body of the loops of `BetaGeneralFrame`, field by field. -/
theorem BetaGeneralFrame.cell_eq (t h : Nat) (c : CctcNegativeComputation K) (s : Nat) :
    BetaGeneralFrame.cell t h c s = { c with
      log_numerator_derivs_rearranged_ :=
        accumulateNumDeriv c t h s (c.beta_.RowData ((t + 1) % 2))
          c.log_numerator_derivs_rearranged_
      denominator_derivs_rearranged_ :=
        c.denominator_derivs_rearranged_.setRowData t (h * c.num_sequences_ + s)
          (- totVariableFactor c t h s (c.beta_.RowData ((t + 1) % 2))
            * occupationFactor c t h s
            / c.denominators_rearranged_.RowData t (h * c.num_sequences_ + s))
      beta_ := c.beta_.setRowData (t % 2) (h * c.num_sequences_ + s)
          (totVariableFactor c t h s (c.beta_.RowData ((t + 1) % 2))
            * commonFactor c t h s) } := by
  have inner : ∀ (l : List (CctcHmmTransition K)) (a : K) (L : CuMatrixBase K),
      l.foldl (fun (acc : K × CctcNegativeComputation K) trans_iter =>
        (acc.1 + trans_iter.transition_prob *
            acc.2.beta_.RowData ((t + 1) % 2) (trans_iter.hmm_state * c.num_sequences_ + s) *
            c.numerators_rearranged_.RowData t (trans_iter.num_index * c.num_sequences_ + s),
         { acc.2 with
           log_numerator_derivs_rearranged_ :=
             acc.2.log_numerator_derivs_rearranged_.setRowData t
               (trans_iter.num_index * c.num_sequences_ + s)
               (acc.2.log_numerator_derivs_rearranged_.RowData t
                   (trans_iter.num_index * c.num_sequences_ + s)
                 + trans_iter.transition_prob *
                   acc.2.beta_.RowData ((t + 1) % 2)
                     (trans_iter.hmm_state * c.num_sequences_ + s) *
                   c.numerators_rearranged_.RowData t
                     (trans_iter.num_index * c.num_sequences_ + s)
                   * (1 / (c.denominators_rearranged_.RowData t (h * c.num_sequences_ + s)
                        * c.alpha_.RowData t
                            (c.hmm_.special_hmm_state_ * c.num_sequences_ + s))
                      * c.alpha_.RowData t (h * c.num_sequences_ + s))) }))
        (a, { c with log_numerator_derivs_rearranged_ := L })
      = (a + (l.map (varFactor c t s (c.beta_.RowData ((t + 1) % 2)))).sum,
         { c with log_numerator_derivs_rearranged_ :=
            l.foldl (fun L e =>
              L.setRowData t (e.num_index * c.num_sequences_ + s)
                (L.RowData t (e.num_index * c.num_sequences_ + s)
                  + varFactor c t s (c.beta_.RowData ((t + 1) % 2)) e
                    * occupationFactor c t h s)) L }) := by
    intro l
    induction l with
    | nil => intro a L; simp
    | cons e l ih =>
      intro a L
      rw [List.foldl_cons, List.foldl_cons, List.map_cons, List.sum_cons, ← add_assoc]
      exact ih _ _
  have h0 := inner (outEdges c h) 0 c.log_numerator_derivs_rearranged_
  rw [zero_add] at h0
  unfold BetaGeneralFrame.cell
  simp only []
  have e : ({ c with log_numerator_derivs_rearranged_ := c.log_numerator_derivs_rearranged_ }
      : CctcNegativeComputation K) = c := rfl
  rw [e] at h0
  unfold outEdges at h0
  rw [h0]
  rfl

/-- A loop of `+=` on the cells of a buffer adds to every cell the values of
the steps that address it. -/
theorem foldl_accumulate {ι : Type} (l : List ι) (off : ι → Nat) (v : ι → K) (d₀ : Nat → K)
    (j : Nat) :
    (l.foldl (fun d i => Function.update d (off i) (d (off i) + v i)) d₀) j
      = d₀ j + ((l.filter (fun i => decide (off i = j))).map v).sum := by
  induction l generalizing d₀ with
  | nil => simp
  | cons a l ih =>
    rw [List.foldl_cons, ih, List.filter_cons]
    by_cases h : off a = j
    · subst h
      simp [add_assoc]
    · rw [Function.update_noteq (Ne.symm h)]
      simp [h]

/-- The loop over the outgoing transitions in `BetaGeneralFrame` keeps the
shape of the numerator-derivative matrix and adds to every cell the
occupation probabilities of the transitions that address it. -/
theorem accumulateNumDeriv_spec (c : CctcNegativeComputation K) (t h s : Nat) (nb : Nat → K)
    (L : CuMatrixBase K) :
    (accumulateNumDeriv c t h s nb L).Stride = L.Stride ∧
    (accumulateNumDeriv c t h s nb L).NumRows = L.NumRows ∧
    (accumulateNumDeriv c t h s nb L).NumCols = L.NumCols ∧
    ∀ j, (accumulateNumDeriv c t h s nb L).Data j
      = L.Data j + (((outEdges c h).filter (fun e =>
          decide (t * L.Stride + (e.num_index * c.num_sequences_ + s) = j))).map
          (fun e => varFactor c t s nb e * occupationFactor c t h s)).sum := by
  have e := foldl_setRowData (outEdges c h) (fun _ => t)
    (fun e => e.num_index * c.num_sequences_ + s)
    (fun st d e => d (t * st + (e.num_index * c.num_sequences_ + s))
      + varFactor c t s nb e * occupationFactor c t h s) L
  have e' : accumulateNumDeriv c t h s nb L = { L with Data := (outEdges c h).foldl (fun d e =>
      Function.update d (t * L.Stride + (e.num_index * c.num_sequences_ + s))
        (d (t * L.Stride + (e.num_index * c.num_sequences_ + s))
          + varFactor c t s nb e * occupationFactor c t h s)) L.Data } := e
  rw [e']
  refine ⟨rfl, rfl, rfl, ?_⟩
  intro j
  exact foldl_accumulate (outEdges c h)
    (fun e => t * L.Stride + (e.num_index * c.num_sequences_ + s))
    (fun e => varFactor c t s nb e * occupationFactor c t h s) L.Data j

/-- A loop whose steps keep the stride and add to every cell an amount that
does not depend on the matrix adds up the amounts. -/
theorem foldl_additive {ι : Type} (l : List ι) (step : ι → CuMatrixBase K → CuMatrixBase K)
    (g : ι → Nat → Nat → K)
    (hstep : ∀ i L, (step i L).Stride = L.Stride ∧
      ∀ j, (step i L).Data j = L.Data j + g i L.Stride j)
    (L : CuMatrixBase K) :
    (l.foldl (fun L i => step i L) L).Stride = L.Stride ∧
    ∀ j, (l.foldl (fun L i => step i L) L).Data j
      = L.Data j + (l.map (fun i => g i L.Stride j)).sum := by
  induction l generalizing L with
  | nil => simp
  | cons a l ih =>
    obtain ⟨h1, h2⟩ := ih (step a L)
    obtain ⟨s1, s2⟩ := hstep a L
    rw [List.foldl_cons]
    refine ⟨by rw [h1, s1], ?_⟩
    intro j
    rw [h2 j, s2 j, s1, List.map_cons, List.sum_cons, add_assoc]

theorem varFactor_congr (c : CctcNegativeComputation K) (t s : Nat) (nb nb' : Nat → K)
    (e : CctcHmmTransition K)
    (h : nb (e.hmm_state * c.num_sequences_ + s) = nb' (e.hmm_state * c.num_sequences_ + s)) :
    varFactor c t s nb e = varFactor c t s nb' e := by
  unfold varFactor
  rw [h]

theorem totVariableFactor_congr (c : CctcNegativeComputation K) (t h s : Nat)
    (nb nb' : Nat → K)
    (hnb : ∀ e ∈ outEdges c h,
      nb (e.hmm_state * c.num_sequences_ + s) = nb' (e.hmm_state * c.num_sequences_ + s)) :
    totVariableFactor c t h s nb = totVariableFactor c t h s nb' := by
  unfold totVariableFactor
  congr 1
  apply List.map_congr_left
  intro e he
  exact varFactor_congr c t s nb nb' e (hnb e he)

theorem accumulateNumDeriv_congr (c : CctcNegativeComputation K) (t h s : Nat)
    (nb nb' : Nat → K) (L : CuMatrixBase K)
    (hnb : ∀ e ∈ outEdges c h,
      nb (e.hmm_state * c.num_sequences_ + s) = nb' (e.hmm_state * c.num_sequences_ + s)) :
    accumulateNumDeriv c t h s nb L = accumulateNumDeriv c t h s nb' L := by
  unfold accumulateNumDeriv
  apply List.foldl_ext
  intro L' e he
  rw [varFactor_congr c t s nb nb' e (hnb e he)]

/-- The loops of `BetaGeneralFrame(t)` over a list of cells, field by field:
when the row of the next frame's betas holds `nb`, the three matrices evolve
independently of each other. -/
theorem BetaGeneralFrame.pairs_fold (c₀ : CctcNegativeComputation K) (t : Nat) (nb : Nat → K)
    (hdest : ∀ h, h < c₀.num_hmm_states_ → ∀ e ∈ outEdges c₀ h,
      e.hmm_state < c₀.num_hmm_states_)
    (l : List (Nat × Nat))
    (hl : ∀ p ∈ l, p.1 < c₀.num_hmm_states_ ∧ p.2 < c₀.num_sequences_)
    (L D B : CuMatrixBase K)
    (hst : c₀.num_hmm_states_ * c₀.num_sequences_ ≤ B.Stride)
    (hnb : ∀ j, j < c₀.num_hmm_states_ * c₀.num_sequences_ →
      B.RowData ((t + 1) % 2) j = nb j) :
    l.foldl (fun c p => BetaGeneralFrame.cell t p.1 c p.2)
        { c₀ with log_numerator_derivs_rearranged_ := L
                  denominator_derivs_rearranged_ := D
                  beta_ := B }
      = { c₀ with
          log_numerator_derivs_rearranged_ :=
            l.foldl (fun L p => accumulateNumDeriv c₀ t p.1 p.2 nb L) L
          denominator_derivs_rearranged_ :=
            l.foldl (fun D p => D.setRowData t (p.1 * c₀.num_sequences_ + p.2)
              (- totVariableFactor c₀ t p.1 p.2 nb * occupationFactor c₀ t p.1 p.2
                / c₀.denominators_rearranged_.RowData t (p.1 * c₀.num_sequences_ + p.2))) D
          beta_ :=
            l.foldl (fun B p => B.setRowData (t % 2) (p.1 * c₀.num_sequences_ + p.2)
              (totVariableFactor c₀ t p.1 p.2 nb * commonFactor c₀ t p.1 p.2)) B } := by
  induction l generalizing L D B with
  | nil => rfl
  | cons p l ih =>
    obtain ⟨hp1, hp2⟩ := hl p (List.mem_cons_self p l)
    have hagree : ∀ e ∈ outEdges c₀ p.1,
        B.RowData ((t + 1) % 2) (e.hmm_state * c₀.num_sequences_ + p.2)
          = nb (e.hmm_state * c₀.num_sequences_ + p.2) :=
      fun e he => hnb _ (cell_lt (hdest p.1 hp1 e he) hp2)
    have hstep : BetaGeneralFrame.cell t p.1
        { c₀ with log_numerator_derivs_rearranged_ := L
                  denominator_derivs_rearranged_ := D
                  beta_ := B } p.2
        = { c₀ with
            log_numerator_derivs_rearranged_ := accumulateNumDeriv c₀ t p.1 p.2 nb L
            denominator_derivs_rearranged_ :=
              D.setRowData t (p.1 * c₀.num_sequences_ + p.2)
                (- totVariableFactor c₀ t p.1 p.2 nb * occupationFactor c₀ t p.1 p.2
                  / c₀.denominators_rearranged_.RowData t (p.1 * c₀.num_sequences_ + p.2))
            beta_ := B.setRowData (t % 2) (p.1 * c₀.num_sequences_ + p.2)
                (totVariableFactor c₀ t p.1 p.2 nb * commonFactor c₀ t p.1 p.2) } := by
      rw [BetaGeneralFrame.cell_eq]
      apply CctcNegativeComputation.ext <;> try rfl
      · show B.setRowData _ _ (totVariableFactor c₀ t p.1 p.2 (B.RowData ((t + 1) % 2)) * _)
          = _
        rw [totVariableFactor_congr c₀ t p.1 p.2 _ nb hagree]
        rfl
      · exact accumulateNumDeriv_congr c₀ t p.1 p.2 _ nb L hagree
      · show D.setRowData _ _
          (- totVariableFactor c₀ t p.1 p.2 (B.RowData ((t + 1) % 2)) * _ / _) = _
        rw [totVariableFactor_congr c₀ t p.1 p.2 _ nb hagree]
        rfl
    rw [List.foldl_cons, hstep]
    have hne : (t + 1) % 2 ≠ t % 2 := by omega
    refine ih (fun q hq => hl q (List.mem_cons_of_mem p hq)) _ _ _ hst ?_
    intro j hj
    unfold CuMatrixBase.RowData CuMatrixBase.setRowData
    simp only
    rw [Function.update_noteq]
    · exact hnb j hj
    · exact row_offset_ne (Nat.lt_of_lt_of_le hj hst)
        (Nat.lt_of_lt_of_le (cell_lt hp1 hp2) hst) hne

theorem BetaGeneralFrame.cell_num_sequences (t h : Nat) (c : CctcNegativeComputation K)
    (s : Nat) : (BetaGeneralFrame.cell t h c s).num_sequences_ = c.num_sequences_ := by
  rw [BetaGeneralFrame.cell_eq]

theorem BetaGeneralFrame.lanes_num_sequences (t h : Nat) (l : List Nat)
    (c : CctcNegativeComputation K) :
    (l.foldl (BetaGeneralFrame.cell t h) c).num_sequences_ = c.num_sequences_ := by
  induction l generalizing c with
  | nil => rfl
  | cons a l ih => rw [List.foldl_cons, ih, BetaGeneralFrame.cell_num_sequences]

/-- The bound of the inner loop of `BetaGeneralFrame` is the same on every
pass of the outer loop. -/
theorem BetaGeneralFrame.rows_fold (t : Nat) (l : List Nat) (S : Nat)
    (c : CctcNegativeComputation K) (hS : c.num_sequences_ = S) :
    l.foldl (fun c h => (List.range c.num_sequences_).foldl (BetaGeneralFrame.cell t h) c) c
      = l.foldl (fun c h => (List.range S).foldl (BetaGeneralFrame.cell t h) c) c := by
  induction l generalizing c with
  | nil => rfl
  | cons a l ih =>
    rw [List.foldl_cons, List.foldl_cons, hS]
    apply ih
    rw [BetaGeneralFrame.lanes_num_sequences, hS]

theorem sum_product {ι κ : Type} (l₁ : List ι) (l₂ : List κ) (f : ι × κ → K) :
    ((l₁.product l₂).map f).sum = (l₁.map (fun a => (l₂.map (fun b => f (a, b))).sum)).sum := by
  induction l₁ with
  | nil => rfl
  | cons a l ih =>
    have hp : (a :: l).product l₂ = List.map (fun y => (a, y)) l₂ ++ l.product l₂ :=
      List.product_cons a l l₂
    rw [hp, List.map_append, List.sum_append, ih, List.map_cons, List.sum_cons, List.map_map]
    rfl

/-- A loop over the cells `(h, s)` that stores a value in each cell of the
logical row `t`. -/
theorem writePairs_spec {α : Type} (M : CuMatrixBase α) (H S t : Nat) (v : Nat × Nat → α) :
    (((List.range H).product (List.range S)).foldl (fun m p =>
        m.setRowData t (p.1 * S + p.2) (v p)) M).Stride = M.Stride ∧
    (((List.range H).product (List.range S)).foldl (fun m p =>
        m.setRowData t (p.1 * S + p.2) (v p)) M).NumRows = M.NumRows ∧
    (((List.range H).product (List.range S)).foldl (fun m p =>
        m.setRowData t (p.1 * S + p.2) (v p)) M).NumCols = M.NumCols ∧
    (∀ h s, h < H → s < S →
      (((List.range H).product (List.range S)).foldl (fun m p =>
        m.setRowData t (p.1 * S + p.2) (v p)) M).RowData t (h * S + s) = v (h, s)) ∧
    (∀ j, (∀ h s, h < H → s < S → t * M.Stride + (h * S + s) ≠ j) →
      (((List.range H).product (List.range S)).foldl (fun m p =>
        m.setRowData t (p.1 * S + p.2) (v p)) M).Data j = M.Data j) := by
  have e := foldl_nested_eq_product
    (fun (m : CuMatrixBase α) (h s : Nat) => m.setRowData t (h * S + s) (v (h, s)))
    (List.range H) (List.range S) M
  have w := writeRow_spec M H S t (fun _ _ p => v p) (fun _ _ _ _ _ _ => rfl)
  beta_reduce at w
  rw [e] at w
  exact w

theorem BetaGeneralFrame_eq_pairs (c : CctcNegativeComputation K) (t : Nat)
    (ht : t < c.num_time_steps_) :
    BetaGeneralFrame c t = .ok
      (((List.range c.num_hmm_states_).product (List.range c.num_sequences_)).foldl
        (fun c p => BetaGeneralFrame.cell t p.1 c p.2) c) := by
  unfold BetaGeneralFrame
  rw [if_pos ht, BetaGeneralFrame.rows_fold t _ c.num_sequences_ c rfl]
  have h := foldl_nested_eq_product
    (fun (c : CctcNegativeComputation K) (h s : Nat) => BetaGeneralFrame.cell t h c s)
    (List.range c.num_hmm_states_) (List.range c.num_sequences_) c
  exact congrArg Except.ok h

theorem foldl_shape {ι α : Type} (l : List ι) (step : ι → CuMatrixBase α → CuMatrixBase α)
    (hstep : ∀ i L, (step i L).NumRows = L.NumRows ∧ (step i L).NumCols = L.NumCols)
    (L : CuMatrixBase α) :
    (l.foldl (fun L i => step i L) L).NumRows = L.NumRows ∧
    (l.foldl (fun L i => step i L) L).NumCols = L.NumCols := by
  induction l generalizing L with
  | nil => exact ⟨rfl, rfl⟩
  | cons a l ih =>
    rw [List.foldl_cons]
    exact ⟨(ih _).1.trans (hstep a L).1, (ih _).2.trans (hstep a L).2⟩

/-- The numerator-derivative matrix after the loops of `BetaGeneralFrame(t)`:
row `t` has grown, in the cell of label index `k` and lane `s`, by the
occupation probabilities of the transitions whose `num_index` is `k`; the
other rows are as before. -/
theorem numDeriv_pairs_spec (c₀ : CctcNegativeComputation K) (t : Nat) (nb : Nat → K)
    (hidx : ∀ h, h < c₀.num_hmm_states_ → ∀ e ∈ outEdges c₀ h,
      e.num_index < c₀.numerator_dim_)
    (L : CuMatrixBase K) (hL : c₀.numerator_dim_ * c₀.num_sequences_ ≤ L.Stride) :
    (((List.range c₀.num_hmm_states_).product (List.range c₀.num_sequences_)).foldl
        (fun L p => accumulateNumDeriv c₀ t p.1 p.2 nb L) L).Stride = L.Stride ∧
    (((List.range c₀.num_hmm_states_).product (List.range c₀.num_sequences_)).foldl
        (fun L p => accumulateNumDeriv c₀ t p.1 p.2 nb L) L).NumRows = L.NumRows ∧
    (((List.range c₀.num_hmm_states_).product (List.range c₀.num_sequences_)).foldl
        (fun L p => accumulateNumDeriv c₀ t p.1 p.2 nb L) L).NumCols = L.NumCols ∧
    (∀ k s, k < c₀.numerator_dim_ → s < c₀.num_sequences_ →
      (((List.range c₀.num_hmm_states_).product (List.range c₀.num_sequences_)).foldl
        (fun L p => accumulateNumDeriv c₀ t p.1 p.2 nb L) L).RowData t
          (k * c₀.num_sequences_ + s)
        = L.RowData t (k * c₀.num_sequences_ + s)
          + ((List.range c₀.num_hmm_states_).map (fun h =>
              (((outEdges c₀ h).filter (fun e => decide (e.num_index = k))).map (fun e =>
                varFactor c₀ t s nb e * occupationFactor c₀ t h s)).sum)).sum) ∧
    (∀ t' j, t' ≠ t → j < L.Stride →
      (((List.range c₀.num_hmm_states_).product (List.range c₀.num_sequences_)).foldl
        (fun L p => accumulateNumDeriv c₀ t p.1 p.2 nb L) L).RowData t' j
        = L.RowData t' j) := by
  have hmem : ∀ x : Nat × Nat,
      x ∈ (List.range c₀.num_hmm_states_).product (List.range c₀.num_sequences_) ↔
      x.1 < c₀.num_hmm_states_ ∧ x.2 < c₀.num_sequences_ := by
    rintro ⟨a, b⟩
    simp [List.pair_mem_product]
  have hadd := foldl_additive
    ((List.range c₀.num_hmm_states_).product (List.range c₀.num_sequences_))
    (fun (p : Nat × Nat) L => accumulateNumDeriv c₀ t p.1 p.2 nb L)
    (fun p st j => (((outEdges c₀ p.1).filter (fun e =>
          decide (t * st + (e.num_index * c₀.num_sequences_ + p.2) = j))).map
          (fun e => varFactor c₀ t p.2 nb e * occupationFactor c₀ t p.1 p.2)).sum)
    (fun p L => ⟨(accumulateNumDeriv_spec c₀ t p.1 p.2 nb L).1,
      (accumulateNumDeriv_spec c₀ t p.1 p.2 nb L).2.2.2⟩) L
  have hshape := foldl_shape
    ((List.range c₀.num_hmm_states_).product (List.range c₀.num_sequences_))
    (fun (p : Nat × Nat) L => accumulateNumDeriv c₀ t p.1 p.2 nb L)
    (fun p L => ⟨(accumulateNumDeriv_spec c₀ t p.1 p.2 nb L).2.1,
      (accumulateNumDeriv_spec c₀ t p.1 p.2 nb L).2.2.1⟩) L
  beta_reduce at hadd hshape
  generalize ((List.range c₀.num_hmm_states_).product (List.range c₀.num_sequences_)).foldl
        (fun L p => accumulateNumDeriv c₀ t p.1 p.2 nb L) L = L' at hadd hshape ⊢
  obtain ⟨hst, hdata⟩ := hadd
  refine ⟨hst, hshape.1, hshape.2, ?_, ?_⟩
  · intro k s hk hs
    show L'.Data (t * L'.Stride + (k * c₀.num_sequences_ + s)) = _
    rw [hst, hdata, sum_product]
    show L.Data (t * L.Stride + (k * c₀.num_sequences_ + s)) + _ = 
      L.Data (t * L.Stride + (k * c₀.num_sequences_ + s)) + _
    congr 1
    congr 1
    apply List.map_congr_left
    intro h hh
    have hh' : h < c₀.num_hmm_states_ := List.mem_range.mp hh
    have e : ∀ s' ∈ List.range c₀.num_sequences_,
        (((outEdges c₀ h).filter (fun e =>
          decide (t * L.Stride + (e.num_index * c₀.num_sequences_ + s')
            = t * L.Stride + (k * c₀.num_sequences_ + s)))).map
          (fun e => varFactor c₀ t s' nb e * occupationFactor c₀ t h s')).sum
        = if s = s' then
            (((outEdges c₀ h).filter (fun e => decide (e.num_index = k))).map (fun e =>
                varFactor c₀ t s nb e * occupationFactor c₀ t h s)).sum
          else 0 := by
      intro s' hs'
      have hs'' : s' < c₀.num_sequences_ := List.mem_range.mp hs'
      by_cases heq : s = s'
      · subst heq
        rw [if_pos rfl]
        congr 2
        apply List.filter_congr
        intro x _
        apply decide_eq_decide.mpr
        constructor
        · intro hx
          exact (cell_offset_inj hs hs hx).1
        · intro hx
          rw [hx]
      · rw [if_neg heq]
        have : (outEdges c₀ h).filter (fun e =>
          decide (t * L.Stride + (e.num_index * c₀.num_sequences_ + s')
            = t * L.Stride + (k * c₀.num_sequences_ + s))) = [] := by
          apply List.filter_eq_nil_iff.mpr
          intro x _ hx
          have hx' := of_decide_eq_true hx
          exact heq (cell_offset_inj hs'' hs hx').2.symm
        rw [this]
        rfl
    rw [List.map_congr_left e, sum_indicator_range_val, if_pos hs]
  · intro t' j ht' hj
    show L'.Data (t' * L'.Stride + j) = L.Data (t' * L.Stride + j)
    rw [hst, hdata]
    have : (((List.range c₀.num_hmm_states_).product (List.range c₀.num_sequences_)).map
        (fun p => (((outEdges c₀ p.1).filter (fun e =>
          decide (t * L.Stride + (e.num_index * c₀.num_sequences_ + p.2)
            = t' * L.Stride + j))).map
          (fun e => varFactor c₀ t p.2 nb e * occupationFactor c₀ t p.1 p.2)).sum)).sum = 0 := by
      apply List.sum_eq_zero
      intro x hx
      obtain ⟨p, hp, rfl⟩ := List.mem_map.mp hx
      have hp' := (hmem p).mp hp
      have : (outEdges c₀ p.1).filter (fun e =>
          decide (t * L.Stride + (e.num_index * c₀.num_sequences_ + p.2)
            = t' * L.Stride + j)) = [] := by
        apply List.filter_eq_nil_iff.mpr
        intro e he hx
        have hx' := of_decide_eq_true hx
        have hlt : e.num_index * c₀.num_sequences_ + p.2 < L.Stride :=
          lt_of_lt_of_le (cell_lt (hidx p.1 hp'.1 e he) hp'.2) hL
        exact row_offset_ne hlt hj (Ne.symm ht') hx'
      rw [this]
      rfl
    rw [this, add_zero]

/-- One frame of the backward pass.  When row `(t + 1) % 2` of `beta_` holds
the betas `β` of the next frame, `BetaGeneralFrame(t)` returns, row `t % 2` of
`beta_` holds the betas of frame `t`, row `(t + 1) % 2` is as before, row `t`
of the denominator derivatives holds the gradient of frame `t` and row `t` of
the numerator derivatives has grown by the occupation probabilities; the
other rows of the two derivative matrices are as before. -/
theorem BetaGeneralFrame_spec (c₀ : CctcNegativeComputation K) (t : Nat) (β : Nat → Nat → K)
    (ht : t < c₀.num_time_steps_)
    (hdest : ∀ h, h < c₀.num_hmm_states_ → ∀ e ∈ outEdges c₀ h,
      e.hmm_state < c₀.num_hmm_states_)
    (hidx : ∀ h, h < c₀.num_hmm_states_ → ∀ e ∈ outEdges c₀ h,
      e.num_index < c₀.numerator_dim_)
    (L D B : CuMatrixBase K)
    (hB : c₀.num_hmm_states_ * c₀.num_sequences_ ≤ B.Stride)
    (hD : c₀.num_hmm_states_ * c₀.num_sequences_ ≤ D.Stride)
    (hL : c₀.numerator_dim_ * c₀.num_sequences_ ≤ L.Stride)
    (hβ : ∀ h s, h < c₀.num_hmm_states_ → s < c₀.num_sequences_ →
      B.RowData ((t + 1) % 2) (h * c₀.num_sequences_ + s) = β h s) :
    ∃ L' D' B' : CuMatrixBase K,
      BetaGeneralFrame { c₀ with log_numerator_derivs_rearranged_ := L
                                 denominator_derivs_rearranged_ := D
                                 beta_ := B } t
        = .ok { c₀ with log_numerator_derivs_rearranged_ := L'
                        denominator_derivs_rearranged_ := D'
                        beta_ := B' } ∧
      (L'.Stride = L.Stride ∧ L'.NumRows = L.NumRows ∧ L'.NumCols = L.NumCols) ∧
      (D'.Stride = D.Stride ∧ D'.NumRows = D.NumRows ∧ D'.NumCols = D.NumCols) ∧
      (B'.Stride = B.Stride ∧ B'.NumRows = B.NumRows ∧ B'.NumCols = B.NumCols) ∧
      (∀ h s, h < c₀.num_hmm_states_ → s < c₀.num_sequences_ →
        B'.RowData (t % 2) (h * c₀.num_sequences_ + s)
          = ((outEdges c₀ h).map (fun e => e.transition_prob * β e.hmm_state s
              * c₀.numerators_rearranged_.RowData t (e.num_index * c₀.num_sequences_ + s))).sum
            * commonFactor c₀ t h s) ∧
      (∀ h s, h < c₀.num_hmm_states_ → s < c₀.num_sequences_ →
        B'.RowData ((t + 1) % 2) (h * c₀.num_sequences_ + s) = β h s) ∧
      (∀ h s, h < c₀.num_hmm_states_ → s < c₀.num_sequences_ →
        D'.RowData t (h * c₀.num_sequences_ + s)
          = - ((outEdges c₀ h).map (fun e => e.transition_prob * β e.hmm_state s
              * c₀.numerators_rearranged_.RowData t (e.num_index * c₀.num_sequences_ + s))).sum
            * occupationFactor c₀ t h s
            / c₀.denominators_rearranged_.RowData t (h * c₀.num_sequences_ + s)) ∧
      (∀ t' j, t' ≠ t → j < D.Stride → D'.RowData t' j = D.RowData t' j) ∧
      (∀ k s, k < c₀.numerator_dim_ → s < c₀.num_sequences_ →
        L'.RowData t (k * c₀.num_sequences_ + s)
          = L.RowData t (k * c₀.num_sequences_ + s)
            + ((List.range c₀.num_hmm_states_).map (fun h =>
                (((outEdges c₀ h).filter (fun e => decide (e.num_index = k))).map (fun e =>
                  e.transition_prob * β e.hmm_state s
                    * c₀.numerators_rearranged_.RowData t (e.num_index * c₀.num_sequences_ + s)
                    * occupationFactor c₀ t h s)).sum)).sum) ∧
      (∀ t' j, t' ≠ t → j < L.Stride → L'.RowData t' j = L.RowData t' j) := by
  have hvf : ∀ h s, h < c₀.num_hmm_states_ → s < c₀.num_sequences_ → ∀ e ∈ outEdges c₀ h,
      varFactor c₀ t s (B.RowData ((t + 1) % 2)) e
        = e.transition_prob * β e.hmm_state s
          * c₀.numerators_rearranged_.RowData t (e.num_index * c₀.num_sequences_ + s) := by
    intro h s hh hs e he
    unfold varFactor
    rw [hβ _ _ (hdest h hh e he) hs]
  have htot : ∀ h s, h < c₀.num_hmm_states_ → s < c₀.num_sequences_ →
      totVariableFactor c₀ t h s (B.RowData ((t + 1) % 2))
        = ((outEdges c₀ h).map (fun e => e.transition_prob * β e.hmm_state s
            * c₀.numerators_rearranged_.RowData t (e.num_index * c₀.num_sequences_ + s))).sum := by
    intro h s hh hs
    unfold totVariableFactor
    congr 1
    exact List.map_congr_left (hvf h s hh hs)
  have hmem : ∀ x : Nat × Nat,
      x ∈ (List.range c₀.num_hmm_states_).product (List.range c₀.num_sequences_) ↔
      x.1 < c₀.num_hmm_states_ ∧ x.2 < c₀.num_sequences_ := by
    rintro ⟨a, b⟩
    simp [List.pair_mem_product]
  have hrun := BetaGeneralFrame_eq_pairs
    { c₀ with log_numerator_derivs_rearranged_ := L
              denominator_derivs_rearranged_ := D
              beta_ := B } t ht
  have hfold := BetaGeneralFrame.pairs_fold c₀ t (B.RowData ((t + 1) % 2)) hdest
    ((List.range c₀.num_hmm_states_).product (List.range c₀.num_sequences_))
    (fun p hp => (hmem p).mp hp) L D B hB (fun _ _ => rfl)
  have hrun' := hrun.trans (congrArg Except.ok hfold)
  obtain ⟨l1, l2, l3, l4, l5⟩ :=
    numDeriv_pairs_spec c₀ t (B.RowData ((t + 1) % 2)) hidx L hL
  obtain ⟨d1, d2, d3, d4, d5⟩ := writePairs_spec D c₀.num_hmm_states_ c₀.num_sequences_ t
    (fun p => - totVariableFactor c₀ t p.1 p.2 (B.RowData ((t + 1) % 2))
      * occupationFactor c₀ t p.1 p.2
      / c₀.denominators_rearranged_.RowData t (p.1 * c₀.num_sequences_ + p.2))
  obtain ⟨b1, b2, b3, b4, b5⟩ := writePairs_spec B c₀.num_hmm_states_ c₀.num_sequences_ (t % 2)
    (fun p => totVariableFactor c₀ t p.1 p.2 (B.RowData ((t + 1) % 2))
      * commonFactor c₀ t p.1 p.2)
  generalize ((List.range c₀.num_hmm_states_).product (List.range c₀.num_sequences_)).foldl
    (fun m p => m.setRowData (t % 2) (p.1 * c₀.num_sequences_ + p.2)
      (totVariableFactor c₀ t p.1 p.2 (B.RowData ((t + 1) % 2)) * commonFactor c₀ t p.1 p.2)) B
    = B' at b1 b2 b3 b4 b5 hrun'
  generalize ((List.range c₀.num_hmm_states_).product (List.range c₀.num_sequences_)).foldl
    (fun m p => m.setRowData t (p.1 * c₀.num_sequences_ + p.2)
      (- totVariableFactor c₀ t p.1 p.2 (B.RowData ((t + 1) % 2))
        * occupationFactor c₀ t p.1 p.2
        / c₀.denominators_rearranged_.RowData t (p.1 * c₀.num_sequences_ + p.2))) D
    = D' at d1 d2 d3 d4 d5 hrun'
  refine ⟨_, D', B', hrun', ⟨l1, l2, l3⟩, ⟨d1, d2, d3⟩, ⟨b1, b2, b3⟩, ?_, ?_, ?_, ?_, ?_, l5⟩
  · intro h s hh hs
    rw [b4 h s hh hs, htot h s hh hs]
  · intro h s hh hs
    rw [← hβ h s hh hs]
    show B'.Data (((t + 1) % 2) * B'.Stride + _) = B.Data (((t + 1) % 2) * B.Stride + _)
    rw [b1]
    refine b5 _ ?_
    intro h' s' hh' hs'
    have hne : t % 2 ≠ (t + 1) % 2 := by omega
    exact row_offset_ne (lt_of_lt_of_le (cell_lt hh' hs') hB)
      (lt_of_lt_of_le (cell_lt hh hs) hB) hne
  · intro h s hh hs
    rw [d4 h s hh hs, htot h s hh hs]
  · intro t' j ht' hj
    show D'.Data (t' * D'.Stride + j) = D.Data (t' * D.Stride + j)
    rw [d1]
    refine d5 _ ?_
    intro h' s' hh' hs'
    exact row_offset_ne (lt_of_lt_of_le (cell_lt hh' hs') hD) hj (Ne.symm ht')
  · intro k s hk hs
    rw [l4 k s hk hs]
    congr 2
    apply List.map_congr_left
    intro h hh
    congr 1
    apply List.map_congr_left
    intro e he
    rw [hvf h s (List.mem_range.mp hh) hs e (List.mem_of_mem_filter he)]

theorem BetaLastFrame_spec (c : CctcNegativeComputation K) :
    ∃ B, BetaLastFrame c = { c with beta_ := B } ∧
      (B.Stride = c.beta_.Stride ∧ B.NumRows = c.beta_.NumRows ∧ B.NumCols = c.beta_.NumCols) ∧
      (∀ h s, h < c.num_hmm_states_ → s < c.num_sequences_ →
        B.RowData (c.num_time_steps_ % 2) (h * c.num_sequences_ + s) = betaRec c 0 h s) := by
  have spec := writeRow_spec c.beta_ c.num_hmm_states_ c.num_sequences_ (c.num_time_steps_ % 2)
    (fun _ _ x => (c.tot_prob_.map (fun x => 1 / x)).getD x.2 0) (fun _ _ _ _ _ _ => rfl)
  beta_reduce at spec
  obtain ⟨s1, s2, s3, s4, _⟩ := spec
  exact ⟨_, rfl, ⟨s1, s2, s3⟩, fun h s hh hs => s4 h s hh hs⟩

theorem fullBeta_succ (c : CctcNegativeComputation K) (n h s : Nat)
    (hn : n + 1 ≤ c.num_time_steps_) :
    fullBeta c (c.num_time_steps_ - (n + 1) + 1) h s = betaRec c n h s := by
  unfold fullBeta
  congr 1
  omega

/-- The loop of `BackwardInternal()`: after `BetaLastFrame` and the frames
`T - 1` down to `T - n` the call has returned, the row of `beta_` for frame
`T - n` holds the betas of that frame, the row for the frame after it is
intact, and rows `T - n .. T - 1` of the two derivative matrices hold the
gradients computed from the full beta table. -/
theorem backward_loop_spec (c : CctcNegativeComputation K) (wf : BackwardReady c)
    (hL : c.numerator_dim_ * c.num_sequences_ ≤ c.log_numerator_derivs_rearranged_.Stride)
    (hD : c.num_hmm_states_ * c.num_sequences_ ≤ c.denominator_derivs_rearranged_.Stride)
    (n : Nat) (hn : n ≤ c.num_time_steps_) :
    ∃ L D B : CuMatrixBase K,
      ((List.range n).map (fun i => c.num_time_steps_ - (i + 1))).foldlM
          (fun c t => BetaGeneralFrame c t) (BetaLastFrame c)
        = .ok { c with log_numerator_derivs_rearranged_ := L
                       denominator_derivs_rearranged_ := D
                       beta_ := B } ∧
      (L.Stride = c.log_numerator_derivs_rearranged_.Stride ∧
        L.NumRows = c.log_numerator_derivs_rearranged_.NumRows ∧
        L.NumCols = c.log_numerator_derivs_rearranged_.NumCols) ∧
      (D.Stride = c.denominator_derivs_rearranged_.Stride ∧
        D.NumRows = c.denominator_derivs_rearranged_.NumRows ∧
        D.NumCols = c.denominator_derivs_rearranged_.NumCols) ∧
      (B.Stride = c.beta_.Stride ∧ B.NumRows = c.beta_.NumRows ∧
        B.NumCols = c.beta_.NumCols) ∧
      (∀ h s, h < c.num_hmm_states_ → s < c.num_sequences_ →
        B.RowData ((c.num_time_steps_ - n) % 2) (h * c.num_sequences_ + s)
          = betaRec c n h s) ∧
      (∀ h s, h < c.num_hmm_states_ → s < c.num_sequences_ → 0 < n →
        B.RowData ((c.num_time_steps_ - n + 1) % 2) (h * c.num_sequences_ + s)
          = betaRec c (n - 1) h s) ∧
      (∀ t h s, c.num_time_steps_ - n ≤ t → t < c.num_time_steps_ →
        h < c.num_hmm_states_ → s < c.num_sequences_ →
        D.RowData t (h * c.num_sequences_ + s) = denGradFull c t h s) ∧
      (∀ t j, t < c.num_time_steps_ - n → j < c.denominator_derivs_rearranged_.Stride →
        D.RowData t j = c.denominator_derivs_rearranged_.RowData t j) ∧
      (∀ t k s, c.num_time_steps_ - n ≤ t → t < c.num_time_steps_ →
        k < c.numerator_dim_ → s < c.num_sequences_ →
        L.RowData t (k * c.num_sequences_ + s)
          = c.log_numerator_derivs_rearranged_.RowData t (k * c.num_sequences_ + s)
            + numGradFull c t k s) ∧
      (∀ t j, t < c.num_time_steps_ - n → j < c.log_numerator_derivs_rearranged_.Stride →
        L.RowData t j = c.log_numerator_derivs_rearranged_.RowData t j) := by
  induction n with
  | zero =>
    obtain ⟨B, h1, h2, h3⟩ := BetaLastFrame_spec c
    refine ⟨c.log_numerator_derivs_rearranged_, c.denominator_derivs_rearranged_, B,
      by rw [h1]; rfl, ⟨rfl, rfl, rfl⟩, ⟨rfl, rfl, rfl⟩, h2, h3, ?_, ?_, ?_, ?_, ?_⟩
    · intro _ _ _ _ h0; omega
    · intro t _ _ h1 h2; omega
    · intro _ _ _ _; rfl
    · intro t _ _ h1 h2; omega
    · intro _ _ _ _; rfl
  | succ n ih =>
    obtain ⟨L, D, B, h1, ⟨l1, l2, l3⟩, ⟨d1, d2, d3⟩, ⟨b1, b2, b3⟩, hb, _, hd, hd', hl, hl'⟩ :=
      ih (by omega)
    have hT : c.num_time_steps_ - (n + 1) + 1 = c.num_time_steps_ - n := by omega
    obtain ⟨L', D', B', g1, ⟨gl1, gl2, gl3⟩, ⟨gd1, gd2, gd3⟩, ⟨gb1, gb2, gb3⟩,
        gb, gb', gd, gd', gl, gl'⟩ :=
      BetaGeneralFrame_spec c (c.num_time_steps_ - (n + 1)) (betaRec c n) (by omega)
        wf.dest_lt wf.index_lt L D B (by rw [b1]; exact wf.beta_stride) (by rw [d1]; exact hD)
        (by rw [l1]; exact hL) (by rw [hT]; exact hb)
    refine ⟨L', D', B', ?_, ⟨gl1.trans l1, gl2.trans l2, gl3.trans l3⟩,
      ⟨gd1.trans d1, gd2.trans d2, gd3.trans d3⟩, ⟨gb1.trans b1, gb2.trans b2, gb3.trans b3⟩,
      ?_, ?_, ?_, ?_, ?_, ?_⟩
    · rw [List.range_succ, List.map_append, List.foldlM_append, h1]
      change List.foldlM (fun c t => BetaGeneralFrame c t)
        { c with log_numerator_derivs_rearranged_ := L
                 denominator_derivs_rearranged_ := D
                 beta_ := B } [c.num_time_steps_ - (n + 1)] = _
      rw [List.foldlM_cons, g1]
      rfl
    · intro h s hh hs
      rw [gb h s hh hs]
      rfl
    · intro h s hh hs _
      rw [gb' h s hh hs]
      rfl
    · intro t h s ht1 ht2 hh hs
      by_cases htn : t = c.num_time_steps_ - (n + 1)
      · subst htn
        rw [gd h s hh hs]
        have e : ∀ h', fullBeta c (c.num_time_steps_ - (n + 1) + 1) h' s = betaRec c n h' s :=
          fun h' => fullBeta_succ c n h' s (by omega)
        unfold denGradFull
        simp only [e]
      · rw [gd' t _ htn (by rw [d1]; exact lt_of_lt_of_le (cell_lt hh hs) hD)]
        exact hd t h s (by omega) ht2 hh hs
    · intro t j ht hj
      rw [gd' t j (by omega) (by rw [d1]; exact hj)]
      exact hd' t j (by omega) hj
    · intro t k s ht1 ht2 hk hs
      by_cases htn : t = c.num_time_steps_ - (n + 1)
      · subst htn
        rw [gl k s hk hs, hl' _ _ (by omega) (lt_of_lt_of_le (cell_lt hk hs) hL)]
        have e : ∀ h', fullBeta c (c.num_time_steps_ - (n + 1) + 1) h' s = betaRec c n h' s :=
          fun h' => fullBeta_succ c n h' s (by omega)
        unfold numGradFull
        simp only [e]
      · rw [gl' t _ htn (by rw [l1]; exact lt_of_lt_of_le (cell_lt hk hs) hL)]
        exact hl t k s (by omega) ht2 hk hs
    · intro t j ht hj
      rw [gl' t j (by omega) (by rw [l1]; exact hj)]
      exact hl' t j (by omega) hj

theorem reverse_range_eq_map (T : Nat) :
    (List.range T).reverse = (List.range T).map (fun i => T - (i + 1)) := by
  apply List.ext_getElem
  · simp
  · intro i h1 h2
    simp only [List.length_reverse, List.length_range] at h1
    simp [List.getElem_reverse]
    omega

/-- `BackwardInternal()` returns; it changes `beta_` and the two derivative
matrices only, every row `t < T` of the denominator derivatives holds the
gradient computed from the full beta table, every row `t < T` of the numerator
derivatives has grown by it, and row `0` of `beta_` holds the betas of frame
0. -/
theorem BackwardInternal_spec (c : CctcNegativeComputation K) (wf : BackwardReady c)
    (hL : c.numerator_dim_ * c.num_sequences_ ≤ c.log_numerator_derivs_rearranged_.Stride)
    (hD : c.num_hmm_states_ * c.num_sequences_ ≤ c.denominator_derivs_rearranged_.Stride) :
    ∃ L D B : CuMatrixBase K,
      BackwardInternal c
        = .ok { c with log_numerator_derivs_rearranged_ := L
                       denominator_derivs_rearranged_ := D
                       beta_ := B } ∧
      (L.Stride = c.log_numerator_derivs_rearranged_.Stride ∧
        L.NumRows = c.log_numerator_derivs_rearranged_.NumRows ∧
        L.NumCols = c.log_numerator_derivs_rearranged_.NumCols) ∧
      (D.Stride = c.denominator_derivs_rearranged_.Stride ∧
        D.NumRows = c.denominator_derivs_rearranged_.NumRows ∧
        D.NumCols = c.denominator_derivs_rearranged_.NumCols) ∧
      (B.Stride = c.beta_.Stride ∧ B.NumRows = c.beta_.NumRows ∧
        B.NumCols = c.beta_.NumCols) ∧
      (∀ h s, h < c.num_hmm_states_ → s < c.num_sequences_ →
        B.RowData 0 (h * c.num_sequences_ + s) = fullBeta c 0 h s) ∧
      (∀ t h s, t < c.num_time_steps_ → h < c.num_hmm_states_ → s < c.num_sequences_ →
        D.RowData t (h * c.num_sequences_ + s) = denGradFull c t h s) ∧
      (∀ t k s, t < c.num_time_steps_ → k < c.numerator_dim_ → s < c.num_sequences_ →
        L.RowData t (k * c.num_sequences_ + s)
          = c.log_numerator_derivs_rearranged_.RowData t (k * c.num_sequences_ + s)
            + numGradFull c t k s) ∧
      (∀ h s, h < c.num_hmm_states_ → s < c.num_sequences_ → 0 < c.num_time_steps_ →
        B.RowData 1 (h * c.num_sequences_ + s) = fullBeta c 1 h s) := by
  obtain ⟨L, D, B, h1, hl, hd, hb, b1, b2, d1, _, l1, _⟩ :=
    backward_loop_spec c wf hL hD c.num_time_steps_ (le_refl _)
  refine ⟨L, D, B, ?_, hl, hd, hb, ?_, ?_, ?_, ?_⟩
  rotate_left 4
  · intro h s hh hs hT
    have := b2 h s hh hs hT
    rw [Nat.sub_self] at this
    exact this
  · unfold BackwardInternal
    rw [reverse_range_eq_map]
    exact h1
  · intro h s hh hs
    have := b1 h s hh hs
    rw [Nat.sub_self] at this
    exact this
  · intro t h s ht hh hs
    exact d1 t h s (by omega) ht hh hs
  · intro t k s ht hk hs
    exact l1 t k s (by omega) ht hk hs

theorem foldl_update_const {ι α : Type} (l : List ι) (off : ι → Nat) (v : α) (d : Nat → α)
    (j : Nat) (hex : ∃ i ∈ l, off i = j) :
    (l.foldl (fun d i => Function.update d (off i) v) d) j = v := by
  induction l generalizing d with
  | nil => obtain ⟨i', hi', _⟩ := hex; exact absurd hi' (List.not_mem_nil i')
  | cons a l ih =>
    rw [List.foldl_cons]
    by_cases hl : ∃ i' ∈ l, off i' = j
    · exact ih _ hl
    · obtain ⟨i', hi', he⟩ := hex
      have hia : i' = a := by
        rcases List.mem_cons.mp hi' with h | h
        · exact h
        · exact absurd ⟨i', h, he⟩ hl
      subst hia
      rw [foldl_update_of_forall_ne l off (fun _ _ => v) _ j
        (fun i'' hi'' he' => hl ⟨i'', hi'', he'⟩), ← he]
      exact Function.update_same _ _ _

/-- `SetZero` keeps the shape, zeroes every cell of the matrix and leaves the
rest of the buffer as it was. -/
theorem SetZero_spec {α : Type} [Zero α] (M : CuMatrixBase α) :
    (SetZero M).Stride = M.Stride ∧ (SetZero M).NumRows = M.NumRows ∧
    (SetZero M).NumCols = M.NumCols ∧
    (∀ r c, r < M.NumRows → c < M.NumCols → (SetZero M).Data (r * M.Stride + c) = 0) ∧
    (∀ j, (∀ r c, r < M.NumRows → c < M.NumCols → r * M.Stride + c ≠ j) →
      (SetZero M).Data j = M.Data j) := by
  have e1 := foldl_nested_eq_product
    (fun (m : CuMatrixBase α) (r c : Nat) => m.setRowData r c 0)
    (List.range M.NumRows) (List.range M.NumCols) M
  have e2 := foldl_setRowData ((List.range M.NumRows).product (List.range M.NumCols))
    (fun x : Nat × Nat => x.1) (fun x : Nat × Nat => x.2) (fun _ _ _ => (0 : α)) M
  have e : SetZero M = { M with Data :=
      ((List.range M.NumRows).product (List.range M.NumCols)).foldl (fun d x =>
        Function.update d (x.1 * M.Stride + x.2) 0) M.Data } := e1.trans e2
  rw [e]
  have hmem : ∀ x : Nat × Nat, x ∈ (List.range M.NumRows).product (List.range M.NumCols) ↔
      x.1 < M.NumRows ∧ x.2 < M.NumCols := by
    rintro ⟨a, b⟩
    simp [List.pair_mem_product]
  refine ⟨rfl, rfl, rfl, ?_, ?_⟩
  · intro r c hr hc
    exact foldl_update_const ((List.range M.NumRows).product (List.range M.NumCols))
      (fun x : Nat × Nat => x.1 * M.Stride + x.2) 0 M.Data _
      ⟨(r, c), (hmem _).mpr ⟨hr, hc⟩, rfl⟩
  · intro j hj
    apply foldl_update_of_forall_ne ((List.range M.NumRows).product (List.range M.NumCols))
      (fun x : Nat × Nat => x.1 * M.Stride + x.2) (fun _ _ => (0 : α))
    rintro ⟨a, b⟩ hab
    exact hj a b ((hmem _).mp hab).1 ((hmem _).mp hab).2


/-- `Backward` when its checks pass: the outputs are the native-layout
copies of the two derivative matrices, with the columns
`numerator_dim_ .. numerator_dim_ + NumBlankIndexes - 1` of the first zeroed. -/
theorem Backward_eq (c : CctcNegativeComputation K) (pad : Nat) (a : RawAlloc K)
    (nod dd L' D' B' v dd' : CuMatrixBase K)
    (hBI : BackwardInternal { c with
        log_numerator_derivs_rearranged_ :=
          ResizeZero pad c.numerators_rearranged_.NumRows c.numerators_rearranged_.NumCols
        denominator_derivs_rearranged_ :=
          ResizeUndefined a c.denominators_rearranged_.NumRows
            c.denominators_rearranged_.NumCols }
      = .ok { c with log_numerator_derivs_rearranged_ := L'
                     denominator_derivs_rearranged_ := D'
                     beta_ := B' })
    (hc : c.numerator_dim_ + c.trans_model_.NumBlankIndexes ≤ nod.NumCols)
    (hR1 : RearrangeNnetOutputReverse L'
        { Data := fun i => nod.Data (0 + i), NumRows := nod.NumRows,
          NumCols := c.numerator_dim_, Stride := nod.Stride } = .ok v)
    (hR2 : RearrangeNnetOutputReverse D' dd = .ok dd') :
    Backward c pad a nod dd = .ok
      ({ c with log_numerator_derivs_rearranged_ := L'
                denominator_derivs_rearranged_ := D'
                beta_ := B' },
       writeBack (writeBack nod 0 v) c.numerator_dim_
         (SetZero { Data := fun i => (writeBack nod 0 v).Data (c.numerator_dim_ + i),
                    NumRows := nod.NumRows,
                    NumCols := c.trans_model_.NumBlankIndexes,
                    Stride := nod.Stride }),
       dd') := by
  have h1 : 0 + c.numerator_dim_ ≤ nod.NumCols := by omega
  have h2 : c.numerator_dim_ + c.trans_model_.NumBlankIndexes
      ≤ (writeBack nod 0 v).NumCols := hc
  unfold Backward
  simp only [hBI, ColRange, if_pos h1, hR1, if_pos h2, hR2]
  rfl


theorem writeBack_zero_data {α : Type} (M v : CuMatrixBase α) (j : Nat) :
    (writeBack M 0 v).Data j = v.Data j := by
  simp [writeBack]

/-- The buffer of the output after its columns `nd .. nd + nb - 1` have been
zeroed through a column-range view: those cells are zero and every other cell
is as the preceding copy left it. -/
theorem zeroColumns_spec {α : Type} [Zero α] (M v : CuMatrixBase α) (nd nb : Nat) :
    (∀ r c, r < M.NumRows → c < nb →
      (writeBack (writeBack M 0 v) nd
        (SetZero { Data := fun i => (writeBack M 0 v).Data (nd + i), NumRows := M.NumRows,
                   NumCols := nb, Stride := M.Stride })).Data (r * M.Stride + (nd + c)) = 0) ∧
    (∀ j, (∀ r c, r < M.NumRows → c < nb → r * M.Stride + (nd + c) ≠ j) →
      (writeBack (writeBack M 0 v) nd
        (SetZero { Data := fun i => (writeBack M 0 v).Data (nd + i), NumRows := M.NumRows,
                   NumCols := nb, Stride := M.Stride })).Data j = v.Data j) := by
  obtain ⟨_, _, _, z4, z5⟩ := SetZero_spec
    ({ Data := fun i => (writeBack M 0 v).Data (nd + i), NumRows := M.NumRows,
       NumCols := nb, Stride := M.Stride } : CuMatrixBase α)
  constructor
  · intro r c hr hc
    have hle : nd ≤ r * M.Stride + (nd + c) := by omega
    have hsub : r * M.Stride + (nd + c) - nd = r * M.Stride + c := by omega
    show (if nd ≤ r * M.Stride + (nd + c) then _ else _) = _
    rw [if_pos hle, hsub]
    exact z4 r c hr hc
  · intro j hj
    show (if nd ≤ j then _ else _) = _
    by_cases hle : nd ≤ j
    · rw [if_pos hle, z5 (j - nd) (fun r c hr hc he => hj r c hr hc (by
        have : r * M.Stride + c = j - nd := he
        omega))]
      show (writeBack M 0 v).Data (nd + (j - nd)) = _
      rw [Nat.add_sub_cancel' hle, writeBack_zero_data]
    · rw [if_neg hle]
      exact writeBack_zero_data M v j


theorem betaRec_congr (c c' : CctcNegativeComputation K)
    (h1 : c'.hmm_ = c.hmm_) (h2 : c'.numerators_rearranged_ = c.numerators_rearranged_)
    (h3 : c'.denominators_rearranged_ = c.denominators_rearranged_)
    (h4 : c'.alpha_ = c.alpha_) (h5 : c'.tot_prob_ = c.tot_prob_)
    (h6 : c'.num_time_steps_ = c.num_time_steps_) (h7 : c'.num_sequences_ = c.num_sequences_)
    (k h s : Nat) : betaRec c' k h s = betaRec c k h s := by
  induction k generalizing h with
  | zero => unfold betaRec; rw [h5]
  | succ k ih =>
    unfold betaRec
    simp only [outEdges, commonFactor, h1, h2, h3, h4, h6, h7, ih]

theorem fullBeta_congr (c c' : CctcNegativeComputation K)
    (h1 : c'.hmm_ = c.hmm_) (h2 : c'.numerators_rearranged_ = c.numerators_rearranged_)
    (h3 : c'.denominators_rearranged_ = c.denominators_rearranged_)
    (h4 : c'.alpha_ = c.alpha_) (h5 : c'.tot_prob_ = c.tot_prob_)
    (h6 : c'.num_time_steps_ = c.num_time_steps_) (h7 : c'.num_sequences_ = c.num_sequences_)
    (t h s : Nat) : fullBeta c' t h s = fullBeta c t h s := by
  unfold fullBeta
  rw [h6]
  exact betaRec_congr c c' h1 h2 h3 h4 h5 h6 h7 _ h s

theorem denGradFull_congr (c c' : CctcNegativeComputation K)
    (h1 : c'.hmm_ = c.hmm_) (h2 : c'.numerators_rearranged_ = c.numerators_rearranged_)
    (h3 : c'.denominators_rearranged_ = c.denominators_rearranged_)
    (h4 : c'.alpha_ = c.alpha_) (h5 : c'.tot_prob_ = c.tot_prob_)
    (h6 : c'.num_time_steps_ = c.num_time_steps_) (h7 : c'.num_sequences_ = c.num_sequences_)
    (t h s : Nat) : denGradFull c' t h s = denGradFull c t h s := by
  unfold denGradFull
  simp only [outEdges, occupationFactor, commonFactor, h1, h2, h3, h4, h7,
    fullBeta_congr c c' h1 h2 h3 h4 h5 h6 h7]

theorem numGradFull_congr (c c' : CctcNegativeComputation K)
    (h1 : c'.hmm_ = c.hmm_) (h2 : c'.numerators_rearranged_ = c.numerators_rearranged_)
    (h3 : c'.denominators_rearranged_ = c.denominators_rearranged_)
    (h4 : c'.alpha_ = c.alpha_) (h5 : c'.tot_prob_ = c.tot_prob_)
    (h6 : c'.num_time_steps_ = c.num_time_steps_) (h7 : c'.num_sequences_ = c.num_sequences_)
    (h8 : c'.num_hmm_states_ = c.num_hmm_states_)
    (t k s : Nat) : numGradFull c' t k s = numGradFull c t k s := by
  unfold numGradFull
  simp only [outEdges, occupationFactor, commonFactor, h1, h2, h3, h4, h7, h8,
    fullBeta_congr c c' h1 h2 h3 h4 h5 h6 h7]

/-- `Backward()` end to end.  On an object fit for the backward pass, with
output matrices of the native shapes, the call returns; the numerator part of
the first output holds the numerator gradient, its columns
`numerator_dim_ .. numerator_dim_ + NumBlankIndexes - 1` are zero, its other
cells are as before the call, and the second output holds the denominator
gradient. -/
theorem Backward_spec (c : CctcNegativeComputation K) (wf : BackwardReady c)
    (pad : Nat) (a : RawAlloc K) (nod dd : CuMatrixBase K)
    (hT : c.num_time_steps_ ≠ 0)
    (hnr : c.numerators_rearranged_.NumRows = c.num_time_steps_)
    (hdr : c.denominators_rearranged_.NumRows = c.num_time_steps_)
    (hor : nod.NumRows = c.num_sequences_ * c.num_time_steps_)
    (hoc : c.numerator_dim_ + c.trans_model_.NumBlankIndexes ≤ nod.NumCols)
    (hos : nod.NumCols ≤ nod.Stride)
    (hdr' : dd.NumRows = c.num_sequences_ * c.num_time_steps_)
    (hdc : dd.NumCols = c.num_hmm_states_)
    (hds : dd.NumCols ≤ dd.Stride) :
    ∃ L' D' B' out dd' : CuMatrixBase K,
      Backward c pad a nod dd = .ok
        ({ c with log_numerator_derivs_rearranged_ := L'
                  denominator_derivs_rearranged_ := D'
                  beta_ := B' }, out, dd') ∧
      (out.NumRows = nod.NumRows ∧ out.NumCols = nod.NumCols ∧ out.Stride = nod.Stride) ∧
      (dd'.NumRows = dd.NumRows ∧ dd'.NumCols = dd.NumCols ∧ dd'.Stride = dd.Stride) ∧
      (∀ s t k, s < c.num_sequences_ → t < c.num_time_steps_ → k < c.numerator_dim_ →
        out.RowData (s * c.num_time_steps_ + t) k = numGradFull c t k s) ∧
      (∀ r k, r < c.num_sequences_ * c.num_time_steps_ → c.numerator_dim_ ≤ k →
        k < c.numerator_dim_ + c.trans_model_.NumBlankIndexes → out.RowData r k = 0) ∧
      (∀ r k, c.numerator_dim_ + c.trans_model_.NumBlankIndexes ≤ k → k < nod.Stride →
        out.RowData r k = nod.RowData r k) ∧
      (∀ s t h, s < c.num_sequences_ → t < c.num_time_steps_ → h < c.num_hmm_states_ →
        dd'.RowData (s * c.num_time_steps_ + t) h = denGradFull c t h s) ∧
      (∀ t h s, t < c.num_time_steps_ → h < c.num_hmm_states_ → s < c.num_sequences_ →
        D'.RowData t (h * c.num_sequences_ + s) = denGradFull c t h s) ∧
      (∀ t k s, t < c.num_time_steps_ → k < c.numerator_dim_ → s < c.num_sequences_ →
        L'.RowData t (k * c.num_sequences_ + s) = numGradFull c t k s) ∧
      (∀ h s, h < c.num_hmm_states_ → s < c.num_sequences_ →
        B'.RowData 0 (h * c.num_sequences_ + s) = fullBeta c 0 h s) ∧
      (∀ h s, h < c.num_hmm_states_ → s < c.num_sequences_ →
        B'.RowData 1 (h * c.num_sequences_ + s) = fullBeta c 1 h s) := by
  have hTpos : 0 < c.num_time_steps_ := Nat.pos_of_ne_zero hT
  have hdiv : c.num_sequences_ * c.num_time_steps_ / c.num_time_steps_ = c.num_sequences_ :=
    Nat.mul_div_cancel _ hTpos
  have hmod : c.num_sequences_ * c.num_time_steps_ % c.num_time_steps_ = 0 :=
    Nat.mul_mod_left _ _
  obtain ⟨c₁, hc₁⟩ : ∃ c₁ : CctcNegativeComputation K, c₁ = { c with
        log_numerator_derivs_rearranged_ :=
          ResizeZero pad c.numerators_rearranged_.NumRows c.numerators_rearranged_.NumCols
        denominator_derivs_rearranged_ :=
          ResizeUndefined a c.denominators_rearranged_.NumRows
            c.denominators_rearranged_.NumCols } := ⟨_, rfl⟩
  have e1 : c₁.hmm_ = c.hmm_ := by rw [hc₁]
  have e2 : c₁.numerators_rearranged_ = c.numerators_rearranged_ := by rw [hc₁]
  have e3 : c₁.denominators_rearranged_ = c.denominators_rearranged_ := by rw [hc₁]
  have e4 : c₁.alpha_ = c.alpha_ := by rw [hc₁]
  have e5 : c₁.tot_prob_ = c.tot_prob_ := by rw [hc₁]
  have e6 : c₁.num_time_steps_ = c.num_time_steps_ := by rw [hc₁]
  have e7 : c₁.num_sequences_ = c.num_sequences_ := by rw [hc₁]
  have e8 : c₁.num_hmm_states_ = c.num_hmm_states_ := by rw [hc₁]
  have e9 : c₁.numerator_dim_ = c.numerator_dim_ := by rw [hc₁]
  have wf₁ : BackwardReady c₁ := by
    rw [hc₁]
    exact ⟨wf.beta_stride, wf.num_cols, wf.den_cols, wf.dest_lt, wf.index_lt⟩
  obtain ⟨L', D', B', hBI, ⟨l1, l2, l3⟩, ⟨d1, d2, d3⟩, _, hb, hd, hl, hb1⟩ :=
    BackwardInternal_spec c₁ wf₁
      (by
        rw [hc₁]
        show c.numerator_dim_ * c.num_sequences_ ≤ c.numerators_rearranged_.NumCols + pad
        rw [wf.num_cols]; omega)
      (by
        rw [hc₁]
        show c.num_hmm_states_ * c.num_sequences_ ≤ c.denominators_rearranged_.NumCols + a.pad
        rw [wf.den_cols]; omega)
  have hL0 : ∀ t j, c₁.log_numerator_derivs_rearranged_.RowData t j = 0 := by
    intro t j; rw [hc₁]; rfl
  rw [e7, e8] at hb
  rw [e6, e7, e8] at hb1
  rw [e6, e7, e8] at hd
  rw [e6, e7, e9] at hl
  have l2' : L'.NumRows = c.num_time_steps_ := by rw [l2, hc₁]; exact hnr
  have l3' : L'.NumCols = c.numerator_dim_ * c.num_sequences_ := by
    rw [l3, hc₁]; exact wf.num_cols
  have d2' : D'.NumRows = c.num_time_steps_ := by rw [d2, hc₁]; exact hdr
  have d3' : D'.NumCols = c.num_hmm_states_ * c.num_sequences_ := by
    rw [d3, hc₁]; exact wf.den_cols
  obtain ⟨view, hview⟩ : ∃ view : CuMatrixBase K, view =
      { Data := fun i => nod.Data (0 + i), NumRows := nod.NumRows,
        NumCols := c.numerator_dim_, Stride := nod.Stride } := ⟨_, rfl⟩
  have vr : view.NumRows = nod.NumRows := by rw [hview]
  have vc : view.NumCols = c.numerator_dim_ := by rw [hview]
  have vs : view.Stride = nod.Stride := by rw [hview]
  have vd : ∀ i, view.Data i = nod.Data i := by
    intro i; rw [hview]; show nod.Data (0 + i) = _; rw [Nat.zero_add]
  obtain ⟨v, hv⟩ : ∃ v, RearrangeNnetOutputReverse L' view = .ok v :=
    ⟨_, RearrangeNnetOutputReverse_ok _ _ (by rw [l2']; exact hT)
      (by rw [vr, hor, l2']; exact hmod)
      (by rw [vc, vr, hor, l2', hdiv]; exact l3')⟩
  obtain ⟨dd', hdd'⟩ : ∃ dd', RearrangeNnetOutputReverse D' dd = .ok dd' :=
    ⟨_, RearrangeNnetOutputReverse_ok _ _ (by rw [d2']; exact hT)
      (by rw [hdr', d2']; exact hmod)
      (by rw [hdr', d2', hdiv, hdc]; exact d3')⟩
  have hrun := Backward_eq c pad a nod dd L' D' B' v dd'
    (by rw [hc₁] at hBI; exact hBI) hoc (by rw [← hview]; exact hv) hdd'
  obtain ⟨z1, z2⟩ := zeroColumns_spec nod v c.numerator_dim_ c.trans_model_.NumBlankIndexes
  have hndst : c.numerator_dim_ ≤ nod.Stride := by omega
  have hvcell : ∀ s t k, s < c.num_sequences_ → t < c.num_time_steps_ →
      k < c.numerator_dim_ →
      v.RowData (s * c.num_time_steps_ + t) k = L'.RowData t (k * c.num_sequences_ + s) := by
    intro s t k hs ht hk
    have h := RearrangeNnetOutputReverse_cell hv (by rw [vc, vs]; exact hndst)
      (t := t) (f := k) (s := s) (by rw [l2']; exact ht) (by rw [vc]; exact hk)
      (by rw [vr, hor, l2', hdiv]; exact hs)
    rw [l2', vr, hor, hdiv] at h
    exact h
  have hddcell : ∀ s t h, s < c.num_sequences_ → t < c.num_time_steps_ →
      h < c.num_hmm_states_ →
      dd'.RowData (s * c.num_time_steps_ + t) h = D'.RowData t (h * c.num_sequences_ + s) := by
    intro s t h hs ht hh
    have h' := RearrangeNnetOutputReverse_cell hdd' hds
      (t := t) (f := h) (s := s) (by rw [d2']; exact ht) (by rw [hdc]; exact hh)
      (by rw [hdr', d2', hdiv]; exact hs)
    rw [d2', hdr', hdiv] at h'
    exact h'
  obtain ⟨_, _, _, hveq⟩ := RearrangeNnetOutputReverse_inv hv
  obtain ⟨_, _, _, hddeq⟩ := RearrangeNnetOutputReverse_inv hdd'
  have hvst : v.Stride = nod.Stride := by rw [hveq]; exact vs
  refine ⟨L', D', B', _, dd', hrun, ⟨rfl, rfl, rfl⟩,
    ⟨by rw [hddeq], by rw [hddeq], by rw [hddeq]⟩, ?_, ?_, ?_, ?_, ?_, ?_, ?_, ?_⟩
  rotate_left 7
  · intro h s hh hs
    rw [hb1 h s hh hs hTpos]
    exact fullBeta_congr c c₁ e1 e2 e3 e4 e5 e6 e7 1 h s
  · intro s t k hs ht hk
    have hz := z2 ((s * c.num_time_steps_ + t) * nod.Stride + k) (by
      intro r c' _ hc' he
      have := (mixed_radix_inj (n := nod.Stride) (by omega) (by omega) he).2
      omega)
    refine hz.trans ?_
    have hc2 : v.RowData (s * c.num_time_steps_ + t) k
        = v.Data ((s * c.num_time_steps_ + t) * nod.Stride + k) := by
      show v.Data (_ * v.Stride + k) = _
      rw [hvst]
    rw [← hc2, hvcell s t k hs ht hk, hl t k s ht hk hs, hL0, zero_add]
    exact numGradFull_congr c c₁ e1 e2 e3 e4 e5 e6 e7 e8 t k s
  · intro r k hr hk1 hk2
    have := z1 r (k - c.numerator_dim_) (by rw [hor]; exact hr) (by omega)
    rw [Nat.add_sub_cancel' hk1] at this
    exact this
  · intro r k hk1 hk2
    have hz := z2 (r * nod.Stride + k) (by
      intro r' c' _ hc' he
      have := (mixed_radix_inj (n := nod.Stride) (by omega) hk2 he).2
      omega)
    refine hz.trans ?_
    rw [hveq]
    show Tensor3dCopy _ _ _ _ _ _ _ _ _ _ _ (r * nod.Stride + k) = _
    rw [Tensor3dCopy_frame]
    · exact vd _
    · intro x y z _ hy _ he
      have e : x * view.Stride + y * 1 + z * (view.Stride * L'.NumRows)
          = (z * L'.NumRows + x) * nod.Stride + y := by rw [vs]; ring
      have hy' : y < c.numerator_dim_ := by rw [← vc]; exact hy
      rw [e] at he
      have := (mixed_radix_inj (n := nod.Stride) (by omega) hk2 he).2
      omega
  · intro s t h hs ht hh
    rw [hddcell s t h hs ht hh, hd t h s ht hh hs]
    exact denGradFull_congr c c₁ e1 e2 e3 e4 e5 e6 e7 t h s
  · intro t h s ht hh hs
    rw [hd t h s ht hh hs]
    exact denGradFull_congr c c₁ e1 e2 e3 e4 e5 e6 e7 t h s
  · intro t k s ht hk hs
    rw [hl t k s ht hk hs, hL0, zero_add]
    exact numGradFull_congr c c₁ e1 e2 e3 e4 e5 e6 e7 e8 t k s
  · intro h s hh hs
    rw [hb h s hh hs]
    exact fullBeta_congr c c₁ e1 e2 e3 e4 e5 e6 e7 0 h s

/-- `BackwardInternal()` as `Backward()` runs it, on the zeroed numerator
derivatives and the uninitialised denominator derivatives: the call returns
and the derivative matrices hold the gradients computed from the full beta
table, whatever the storage and `beta_` held before. -/
theorem BackwardInternal_resized_spec (c : CctcNegativeComputation K) (wf : BackwardReady c)
    (pad : Nat) (a : RawAlloc K) :
    ∃ L' D' B' : CuMatrixBase K,
      BackwardInternal { c with
          log_numerator_derivs_rearranged_ :=
            ResizeZero pad c.numerators_rearranged_.NumRows c.numerators_rearranged_.NumCols
          denominator_derivs_rearranged_ :=
            ResizeUndefined a c.denominators_rearranged_.NumRows
              c.denominators_rearranged_.NumCols }
        = .ok { c with log_numerator_derivs_rearranged_ := L'
                       denominator_derivs_rearranged_ := D'
                       beta_ := B' } ∧
      (L'.Stride = c.numerators_rearranged_.NumCols + pad ∧
        L'.NumRows = c.numerators_rearranged_.NumRows ∧
        L'.NumCols = c.numerators_rearranged_.NumCols) ∧
      (D'.Stride = c.denominators_rearranged_.NumCols + a.pad ∧
        D'.NumRows = c.denominators_rearranged_.NumRows ∧
        D'.NumCols = c.denominators_rearranged_.NumCols) ∧
      (∀ h s, h < c.num_hmm_states_ → s < c.num_sequences_ →
        B'.RowData 0 (h * c.num_sequences_ + s) = fullBeta c 0 h s) ∧
      (∀ h s, h < c.num_hmm_states_ → s < c.num_sequences_ → 0 < c.num_time_steps_ →
        B'.RowData 1 (h * c.num_sequences_ + s) = fullBeta c 1 h s) ∧
      (∀ t h s, t < c.num_time_steps_ → h < c.num_hmm_states_ → s < c.num_sequences_ →
        D'.RowData t (h * c.num_sequences_ + s) = denGradFull c t h s) ∧
      (∀ t k s, t < c.num_time_steps_ → k < c.numerator_dim_ → s < c.num_sequences_ →
        L'.RowData t (k * c.num_sequences_ + s) = numGradFull c t k s) := by
  obtain ⟨c₁, hc₁⟩ : ∃ c₁ : CctcNegativeComputation K, c₁ = { c with
        log_numerator_derivs_rearranged_ :=
          ResizeZero pad c.numerators_rearranged_.NumRows c.numerators_rearranged_.NumCols
        denominator_derivs_rearranged_ :=
          ResizeUndefined a c.denominators_rearranged_.NumRows
            c.denominators_rearranged_.NumCols } := ⟨_, rfl⟩
  have e1 : c₁.hmm_ = c.hmm_ := by rw [hc₁]
  have e2 : c₁.numerators_rearranged_ = c.numerators_rearranged_ := by rw [hc₁]
  have e3 : c₁.denominators_rearranged_ = c.denominators_rearranged_ := by rw [hc₁]
  have e4 : c₁.alpha_ = c.alpha_ := by rw [hc₁]
  have e5 : c₁.tot_prob_ = c.tot_prob_ := by rw [hc₁]
  have e6 : c₁.num_time_steps_ = c.num_time_steps_ := by rw [hc₁]
  have e7 : c₁.num_sequences_ = c.num_sequences_ := by rw [hc₁]
  have e8 : c₁.num_hmm_states_ = c.num_hmm_states_ := by rw [hc₁]
  have e9 : c₁.numerator_dim_ = c.numerator_dim_ := by rw [hc₁]
  have wf₁ : BackwardReady c₁ := by
    rw [hc₁]
    exact ⟨wf.beta_stride, wf.num_cols, wf.den_cols, wf.dest_lt, wf.index_lt⟩
  obtain ⟨L', D', B', hBI, ⟨l1, l2, l3⟩, ⟨d1, d2, d3⟩, _, hb, hd, hl, hb1⟩ :=
    BackwardInternal_spec c₁ wf₁
      (by
        rw [hc₁]
        show c.numerator_dim_ * c.num_sequences_ ≤ c.numerators_rearranged_.NumCols + pad
        rw [wf.num_cols]; omega)
      (by
        rw [hc₁]
        show c.num_hmm_states_ * c.num_sequences_ ≤ c.denominators_rearranged_.NumCols + a.pad
        rw [wf.den_cols]; omega)
  have hL0 : ∀ t j, c₁.log_numerator_derivs_rearranged_.RowData t j = 0 := by
    intro t j; rw [hc₁]; rfl
  rw [e7, e8] at hb
  rw [e6, e7, e8] at hb1
  rw [e6, e7, e8] at hd
  rw [e6, e7, e9] at hl
  refine ⟨L', D', B', by rw [hc₁] at hBI; exact hBI,
    ⟨by rw [l1, hc₁]; rfl, by rw [l2, hc₁]; rfl, by rw [l3, hc₁]; rfl⟩,
    ⟨by rw [d1, hc₁]; rfl, by rw [d2, hc₁]; rfl, by rw [d3, hc₁]; rfl⟩, ?_, ?_, ?_, ?_⟩
  · intro h s hh hs
    rw [hb h s hh hs]
    exact fullBeta_congr c c₁ e1 e2 e3 e4 e5 e6 e7 0 h s
  · intro h s hh hs hT
    rw [hb1 h s hh hs hT]
    exact fullBeta_congr c c₁ e1 e2 e3 e4 e5 e6 e7 1 h s
  · intro t h s ht hh hs
    rw [hd t h s ht hh hs]
    exact denGradFull_congr c c₁ e1 e2 e3 e4 e5 e6 e7 t h s
  · intro t k s ht hk hs
    rw [hl t k s ht hk hs, hL0, zero_add]
    exact numGradFull_congr c c₁ e1 e2 e3 e4 e5 e6 e7 e8 t k s

/-- An object over the table of the scenario, with one lane and the shapes
the constructor gives, is fit for the backward pass. -/
theorem BackwardReady_scenario (c : CctcNegativeComputation K)
    (hhmm : c.hmm_ = scenarioHmm K) (hH : c.num_hmm_states_ = 1) (hS : c.num_sequences_ = 1)
    (hnd : c.numerator_dim_ = 2) (hb : 1 ≤ c.beta_.Stride)
    (hnc : c.numerators_rearranged_.NumCols = 2)
    (hdc : c.denominators_rearranged_.NumCols = 1) : BackwardReady c := by
  have hout : ∀ h, h < c.num_hmm_states_ → ∀ e ∈ outEdges c h,
      e.hmm_state = 0 ∧ e.num_index < 2 := by
    intro h hh e he
    have h0 : h = 0 := by omega
    subst h0
    have : outEdges c 0 = [⟨1, 0, 0⟩, ⟨1, 1, 0⟩] := by
      unfold outEdges; rw [hhmm]; rfl
    rw [this] at he
    simp only [List.mem_cons, List.mem_singleton, List.not_mem_nil, or_false] at he
    rcases he with rfl | rfl
    · exact ⟨rfl, Nat.zero_lt_two⟩
    · exact ⟨rfl, Nat.one_lt_two⟩
  refine ⟨by rw [hH, hS]; exact hb, by rw [hnc, hnd, hS], by rw [hdc, hH, hS], ?_, ?_⟩
  · intro h hh e he
    rw [(hout h hh e he).1, hH]; exact Nat.zero_lt_one
  · intro h hh e he
    rw [hnd]; exact (hout h hh e he).2

end BackwardPass


/-! ## C13, C14 and C15: the rearrangements and the strided copy -/

/-- C13 (amended).  When the time-major matrix has at least one row,
`RearrangeNnetOutput` and `RearrangeNnetOutputReverse` fail with an assertion
exactly when the native row count is not a multiple of the number of time
steps or the time-major column count differs from
`featureDim * numSequences`, and on every other such input they return. -/
theorem rearrange_error_condition {α : Type} (native timeMajor : CuMatrixBase α)
    (hT : timeMajor.NumRows ≠ 0) :
    (RearrangeNnetOutput native timeMajor = .error .assertFailed ↔
      (native.NumRows % timeMajor.NumRows ≠ 0 ∨
        timeMajor.NumCols ≠ native.NumCols * (native.NumRows / timeMajor.NumRows))) ∧
    (¬ (native.NumRows % timeMajor.NumRows ≠ 0 ∨
        timeMajor.NumCols ≠ native.NumCols * (native.NumRows / timeMajor.NumRows)) →
      ∃ out, RearrangeNnetOutput native timeMajor = .ok out) ∧
    (RearrangeNnetOutputReverse timeMajor native = .error .assertFailed ↔
      (native.NumRows % timeMajor.NumRows ≠ 0 ∨
        timeMajor.NumCols ≠ native.NumCols * (native.NumRows / timeMajor.NumRows))) ∧
    (¬ (native.NumRows % timeMajor.NumRows ≠ 0 ∨
        timeMajor.NumCols ≠ native.NumCols * (native.NumRows / timeMajor.NumRows)) →
      ∃ out, RearrangeNnetOutputReverse timeMajor native = .ok out) := by
  by_cases hrows : native.NumRows % timeMajor.NumRows = 0
  · by_cases hcols : timeMajor.NumCols
        = native.NumCols * (native.NumRows / timeMajor.NumRows)
    · have h1 := RearrangeNnetOutput_ok native timeMajor hT hrows hcols
      have h2 := RearrangeNnetOutputReverse_ok timeMajor native hT hrows hcols
      refine ⟨?_, fun _ => ⟨_, h1⟩, ?_, fun _ => ⟨_, h2⟩⟩
      · rw [h1]
        constructor
        · intro h; cases h
        · rintro (h | h)
          · exact absurd hrows h
          · exact absurd hcols h
      · rw [h2]
        constructor
        · intro h; cases h
        · rintro (h | h)
          · exact absurd hrows h
          · exact absurd hcols h
    · refine ⟨?_, fun h => absurd (Or.inr hcols) h, ?_, fun h => absurd (Or.inr hcols) h⟩
      · simp [RearrangeNnetOutput, hT, hrows, hcols]
      · simp [RearrangeNnetOutputReverse, hT, hrows, hcols]
  · refine ⟨?_, fun h => absurd (Or.inl hrows) h, ?_, fun h => absurd (Or.inl hrows) h⟩
    · simp [RearrangeNnetOutput, hT, hrows]
    · simp [RearrangeNnetOutputReverse, hT, hrows]

theorem rearrange_error_condition_witness :
    (RearrangeNnetOutput (⟨fun i => i, 3, 1, 1⟩ : CuMatrixBase Nat) ⟨fun _ => 0, 2, 2, 2⟩
        = .error .assertFailed ↔
      ((3 : Nat) % 2 ≠ 0 ∨ (2 : Nat) ≠ 1 * (3 / 2))) ∧
    (¬ ((3 : Nat) % 2 ≠ 0 ∨ (2 : Nat) ≠ 1 * (3 / 2)) →
      ∃ out, RearrangeNnetOutput (⟨fun i => i, 3, 1, 1⟩ : CuMatrixBase Nat)
        ⟨fun _ => 0, 2, 2, 2⟩ = .ok out) ∧
    (RearrangeNnetOutputReverse (⟨fun _ => 0, 2, 2, 2⟩ : CuMatrixBase Nat) ⟨fun i => i, 3, 1, 1⟩
        = .error .assertFailed ↔
      ((3 : Nat) % 2 ≠ 0 ∨ (2 : Nat) ≠ 1 * (3 / 2))) ∧
    (¬ ((3 : Nat) % 2 ≠ 0 ∨ (2 : Nat) ≠ 1 * (3 / 2)) →
      ∃ out, RearrangeNnetOutputReverse (⟨fun _ => 0, 2, 2, 2⟩ : CuMatrixBase Nat)
        ⟨fun i => i, 3, 1, 1⟩ = .ok out) :=
  rearrange_error_condition ⟨fun i => i, 3, 1, 1⟩ ⟨fun _ => 0, 2, 2, 2⟩ (by decide)

/-- C13, the claim as stated fails when the time-major matrix has no row.
Two empty matrices meet both conditions of the claim (0 rows are 0 blocks,
0 columns are `0 * 0`), and a native matrix of 2 rows does not; in both
cases the call neither returns nor fails an assertion: the remainder
`NumRows() % 0` that the first assertion evaluates is undefined. -/
theorem rearrange_error_condition_counterexample :
    ((0 : Nat) % 0 = 0 ∧ (0 : Nat) = 0 * (0 / 0)) ∧
    RearrangeNnetOutput (⟨fun _ => 0, 0, 0, 0⟩ : CuMatrixBase Nat) ⟨fun _ => 0, 0, 0, 0⟩
      = .error .undefinedBehaviour ∧
    RearrangeNnetOutputReverse (⟨fun _ => 0, 0, 0, 0⟩ : CuMatrixBase Nat)
      ⟨fun _ => 0, 0, 0, 0⟩ = .error .undefinedBehaviour ∧
    RearrangeNnetOutput (⟨fun i => i, 2, 1, 1⟩ : CuMatrixBase Nat) ⟨fun _ => 0, 0, 0, 0⟩
      = .error .undefinedBehaviour ∧
    RearrangeNnetOutputReverse (⟨fun _ => 0, 0, 0, 0⟩ : CuMatrixBase Nat)
      ⟨fun i => i, 2, 1, 1⟩ = .error .undefinedBehaviour :=
  ⟨⟨rfl, rfl⟩, rfl, rfl, rfl, rfl⟩

/-- C14.  Whenever the assertions of `RearrangeNnetOutput` pass (the
time-major matrix has `T ≥ 1` rows, the native matrix `S * T` rows and `F`
columns, the time-major matrix `F * S` columns, within its stride), the call
returns a matrix of the same shape with
`rearranged[t][f * S + s] = input[s * T + t][f]` for every `t < T`, `f < F`
and `s < S`. -/
theorem time_major_layout {α : Type} (input rearranged : CuMatrixBase α)
    (hT : rearranged.NumRows ≠ 0)
    (hrows : input.NumRows % rearranged.NumRows = 0)
    (hcols : rearranged.NumCols = input.NumCols * (input.NumRows / rearranged.NumRows))
    (hst : rearranged.NumCols ≤ rearranged.Stride) :
    ∃ out, RearrangeNnetOutput input rearranged = .ok out ∧
      out.NumRows = rearranged.NumRows ∧ out.NumCols = rearranged.NumCols ∧
      out.Stride = rearranged.Stride ∧
      ∀ t f s, t < rearranged.NumRows → f < input.NumCols →
        s < input.NumRows / rearranged.NumRows →
        out.RowData t (f * (input.NumRows / rearranged.NumRows) + s)
          = input.RowData (s * rearranged.NumRows + t) f := by
  have h := RearrangeNnetOutput_ok input rearranged hT hrows hcols
  refine ⟨_, h, rfl, rfl, rfl, ?_⟩
  intro t f s ht hf hs
  exact RearrangeNnetOutput_cell h hst ht hf hs

theorem time_major_layout_witness :
    ∃ out, RearrangeNnetOutput (⟨fun i => i, 4, 1, 1⟩ : CuMatrixBase Nat)
        ⟨fun _ => 0, 2, 2, 3⟩ = .ok out ∧
      out.NumRows = 2 ∧ out.NumCols = 2 ∧ out.Stride = 3 ∧
      ∀ t f s, t < 2 → f < 1 → s < 4 / 2 →
        out.RowData t (f * (4 / 2) + s)
          = (⟨fun i => i, 4, 1, 1⟩ : CuMatrixBase Nat).RowData (s * 2 + t) f :=
  time_major_layout ⟨fun i => i, 4, 1, 1⟩ ⟨fun _ => 0, 2, 2, 3⟩ (by decide) (by decide)
    (by decide) (by decide)

/-- C15 (amended).  For all dimensions and all strides for which distinct
index triples of the box address distinct destination cells, after
`Tensor3dCopy` every addressed destination cell holds the source cell of its
triple, and every destination cell that no triple addresses is unchanged. -/
theorem strided_copy {α : Type} (xdim ydim zdim : Nat)
    (src_xstride src_ystride src_zstride dst_xstride dst_ystride dst_zstride : Nat)
    (src dst : Nat → α)
    (hinj : ∀ x y z x' y' z', x < xdim → y < ydim → z < zdim → x' < xdim → y' < ydim →
      z' < zdim →
      x * dst_xstride + y * dst_ystride + z * dst_zstride
        = x' * dst_xstride + y' * dst_ystride + z' * dst_zstride →
      x = x' ∧ y = y' ∧ z = z') :
    (∀ x y z, x < xdim → y < ydim → z < zdim →
      Tensor3dCopy xdim ydim zdim src_xstride src_ystride src_zstride
          dst_xstride dst_ystride dst_zstride src dst
          (x * dst_xstride + y * dst_ystride + z * dst_zstride)
        = src (x * src_xstride + y * src_ystride + z * src_zstride)) ∧
    (∀ j, (∀ x y z, x < xdim → y < ydim → z < zdim →
        x * dst_xstride + y * dst_ystride + z * dst_zstride ≠ j) →
      Tensor3dCopy xdim ydim zdim src_xstride src_ystride src_zstride
          dst_xstride dst_ystride dst_zstride src dst j = dst j) :=
  ⟨fun x y z hx hy hz => Tensor3dCopy_apply xdim ydim zdim src_xstride src_ystride
      src_zstride dst_xstride dst_ystride dst_zstride src dst hinj x y z hx hy hz,
   fun j hj => Tensor3dCopy_frame xdim ydim zdim src_xstride src_ystride src_zstride
      dst_xstride dst_ystride dst_zstride src dst j hj⟩

theorem strided_copy_witness :
    (∀ x y z, x < 2 → y < 2 → z < 1 →
      Tensor3dCopy 2 2 1 2 1 4 3 1 6 (fun i : Nat => i + 10) (fun _ => 7)
          (x * 3 + y * 1 + z * 6)
        = (fun i : Nat => i + 10) (x * 2 + y * 1 + z * 4)) ∧
    (∀ j, (∀ x y z, x < 2 → y < 2 → z < 1 → x * 3 + y * 1 + z * 6 ≠ j) →
      Tensor3dCopy 2 2 1 2 1 4 3 1 6 (fun i : Nat => i + 10) (fun _ => 7) j
        = (fun _ : Nat => 7) j) :=
  strided_copy 2 2 1 2 1 4 3 1 6 (fun i : Nat => i + 10) (fun _ => 7)
    (by intro x y z x' y' z' hx hy hz hx' hy' hz' he; omega)

/-- C15, the claim as stated fails for destination strides under which two
index triples share a cell.  With `dst_xstride = dst_ystride = 1` the triples
`(0, 1, 0)` and `(1, 0, 0)` both address destination cell 1; the loop stores
`src[1]` and then `src[2]` there, so after the copy the cell of `(0, 1, 0)`
does not hold its source element. -/
theorem strided_copy_counterexample :
    Tensor3dCopy 2 2 1 2 1 4 1 1 4 (fun i : Nat => i + 10) (fun _ => 7)
        (0 * 1 + 1 * 1 + 0 * 4) = 12 ∧
    (fun i : Nat => i + 10) (0 * 2 + 1 * 1 + 0 * 4) = 11 := by
  constructor
  · decide
  · rfl


/-! ## Objects over a table built by `SetTransitions` -/

/-- On a table built by `SetTransitions` the range of incoming transitions of
state `h` holds the mirrored records of the pairs `(o, p)` that enter `h`. -/
theorem inEdges_of_SetTransitions {K : Type} [Field K] (mdl : CctcTransitionModel K)
    (c : CctcNegativeComputation K)
    (hnext : ∀ s p, s < mdl.NumHistoryStates → p < mdl.NumPhones + 1 →
      (forwardRecord mdl s p).hmm_state < mdl.NumHistoryStates)
    (htab : SetTransitions mdl = .ok (c.hmm_.forward_transitions_,
      c.hmm_.backward_transitions_, c.hmm_.transitions_))
    (h : Nat) (hh : h < mdl.NumHistoryStates) :
    inEdges c h = incomingRecords mdl h ∧ outEdges c h = outgoingRecords mdl h := by
  obtain ⟨fwd, bwd, trans, heq, _, _, _, hf, hb⟩ := SetTransitions_spec mdl hnext
  rw [htab] at heq
  have e := Except.ok.inj heq
  have e1 : c.hmm_.forward_transitions_ = fwd := congrArg (fun x => x.1) e
  have e2 : c.hmm_.backward_transitions_ = bwd := congrArg (fun x => x.2.1) e
  have e3 : c.hmm_.transitions_ = trans := congrArg (fun x => x.2.2) e
  unfold inEdges outEdges
  rw [e1, e2, e3]
  exact ⟨(hb h hh).2.2, (hf h hh).2.2⟩

/-! ## Strictly positive inputs -/

section Positive

variable {K : Type} [LinearOrderedField K]

/-- The index that `Max` returns lies inside a nonempty vector. -/
theorem maxIndex_lt (v : List K) (hv : 0 < v.length) : maxIndex v < v.length := by
  unfold maxIndex
  have key : ∀ (l : List Nat) (acc : Option K × Nat), acc.2 < v.length →
      (∀ i ∈ l, i < v.length) →
      (l.foldl (fun (acc : Option K × Nat) i =>
        match v[i]?, acc.1 with
        | some x, none => (some x, i)
        | some x, some ans => if ans < x then (some x, i) else acc
        | none, _ => acc) acc).2 < v.length := by
    intro l
    induction l with
    | nil => intro acc hacc _; exact hacc
    | cons a l ih =>
      intro acc hacc hl
      rw [List.foldl_cons]
      apply ih
      · have ha := hl a (List.mem_cons_self a l)
        rcases hva : v[a]? with _ | x
        · exact hacc
        · rcases hacc1 : acc.1 with _ | ans
          · exact ha
          · show (if ans < x then (some x, a) else acc).2 < v.length
            split_ifs
            · exact ha
            · exact hacc
      · intro i hi
        exact hl i (List.mem_cons_of_mem a hi)
  exact key _ _ hv (fun i hi => List.mem_range.mp hi)

/-- What the constructor of `CctcHmm` stores: the table of `SetTransitions`
and the distribution and special state of `SetInitialProbs`. -/
theorem newCctcHmm_ok (mdl : CctcTransitionModel K) (hmm : CctcHmm K)
    (h : newCctcHmm mdl = .ok hmm) :
    SetTransitions mdl = .ok (hmm.forward_transitions_, hmm.backward_transitions_,
      hmm.transitions_) ∧
    hmm.initial_probs_ = (SetInitialProbs.state mdl 20).1 ∧
    hmm.special_hmm_state_ = maxIndex (SetInitialProbs.state mdl 20).1 := by
  unfold newCctcHmm at h
  rcases ht : SetTransitions mdl with e | ⟨f, b, tr⟩
  · rw [ht] at h
    exact absurd h (by simp)
  · rw [ht] at h
    have h' := Except.ok.inj h
    subst h'
    exact ⟨rfl, rfl, rfl⟩

/-- A history state to which `SetInitialProbs` gives a positive probability
has an incoming transition. -/
theorem incomingRecords_ne_nil (mdl : CctcTransitionModel K)
    (hH : 1 ≤ mdl.NumHistoryStates)
    (hnext : ∀ s p, s < mdl.NumHistoryStates → p < mdl.NumPhones + 1 →
      (forwardRecord mdl s p).hmm_state < mdl.NumHistoryStates)
    (hpos : ∀ s p, s < mdl.NumHistoryStates → p < mdl.NumPhones + 1 →
      0 < (forwardRecord mdl s p).transition_prob)
    (d : Nat) (hd : d < mdl.NumHistoryStates)
    (hinit : 0 < (SetInitialProbs.state mdl 20).1.getD d 0) :
    incomingRecords mdl d ≠ [] := by
  intro hnil
  have hspec := SetInitialProbs.state_spec mdl hH
    (fun s p hs hp => hnext s p hs (by omega)) (fun s p hs hp => hpos s p hs (by omega)) 19
  obtain ⟨h1, h2, h3, h4⟩ := hspec
  have hfil : (statePhonePairs mdl.NumHistoryStates mdl.NumPhones).filter
      (fun sp => decide (mdl.GraphLabelToNextHistoryState (mdl.GetGraphLabel sp.1 sp.2) = d))
      = [] := by
    unfold incomingRecords at hnil
    exact List.map_eq_nil_iff.mp hnil
  have hprop := SetInitialProbs.propagate_eq mdl (SetInitialProbs.state mdl 19).1
  have hst : (SetInitialProbs.state mdl 20).1
      = (SetInitialProbs.propagate mdl (SetInitialProbs.state mdl 19).1
          (SetInitialProbs.state mdl 19).2).map (fun x => x * (1 /
            (SetInitialProbs.propagate mdl (SetInitialProbs.state mdl 19).1
              (SetInitialProbs.state mdl 19).2).sum)) := by
    rw [SetInitialProbs.state_succ]
    rfl
  rw [hst, h4, hprop, List.map_map, List.getD_eq_getElem?_getD, List.getElem?_map,
    List.getElem?_range hd] at hinit
  simp only [Option.map_some', Function.comp, Option.getD_some] at hinit
  rw [hfil] at hinit
  simp at hinit

/-- With strictly positive inputs on a table in which every history state has
an incoming transition, every alpha is strictly positive. -/
theorem alphaRec_pos (c : CctcNegativeComputation K)
    (hsp : c.hmm_.special_hmm_state_ < c.num_hmm_states_)
    (hne : ∀ h, h < c.num_hmm_states_ → inEdges c h ≠ [])
    (horigin : ∀ h, h < c.num_hmm_states_ → ∀ e ∈ inEdges c h,
      e.hmm_state < c.num_hmm_states_ ∧ e.num_index < c.numerator_dim_ ∧
      0 < e.transition_prob)
    (hinit : ∀ h, h < c.num_hmm_states_ → 0 < c.hmm_.initial_probs_.getD h 0)
    (hnum : ∀ k t s, k < c.numerator_dim_ → t < c.num_time_steps_ → s < c.num_sequences_ →
      0 < numProb c k t s)
    (hden : ∀ h t s, h < c.num_hmm_states_ → t < c.num_time_steps_ → s < c.num_sequences_ →
      0 < denProb c h t s)
    (s : Nat) (hs : s < c.num_sequences_) :
    ∀ t, t ≤ c.num_time_steps_ → ∀ h, h < c.num_hmm_states_ → 0 < alphaRec c t h s := by
  intro t
  induction t with
  | zero =>
    intro _ h hh
    simp only [alphaRec]
    exact hinit h hh
  | succ t ih =>
    intro ht h hh
    have ih' := ih (by omega)
    simp only [alphaRec]
    apply mul_pos
    · apply List.sum_pos
      · intro x hx
        obtain ⟨e, he, rfl⟩ := List.mem_map.mp hx
        obtain ⟨h1, h2, h3⟩ := horigin h hh e he
        exact div_pos (mul_pos (mul_pos (ih' _ h1) h3) (hnum _ t s h2 (by omega) hs))
          (hden _ t s h1 (by omega) hs)
      · intro hmap
        exact hne h hh (List.map_eq_nil_iff.mp hmap)
    · exact one_div_pos.mpr (ih' _ hsp)

/-- An object whose `CctcHmm` was built by the constructor from a model with
at least one history state and next states and label indexes in range, with
strictly positive inputs: the object is fit for the forward pass, its table is
the one of `SetTransitions`, and every alpha is strictly positive. -/
theorem positive_inputs_spec (mdl : CctcTransitionModel K) (c : CctcNegativeComputation K)
    (hH1 : 1 ≤ mdl.NumHistoryStates)
    (hnext : ∀ s p, s < mdl.NumHistoryStates → p < mdl.NumPhones + 1 →
      (forwardRecord mdl s p).hmm_state < mdl.NumHistoryStates)
    (hidx : ∀ s p, s < mdl.NumHistoryStates → p < mdl.NumPhones + 1 →
      (forwardRecord mdl s p).num_index < c.numerator_dim_)
    (hhmm : newCctcHmm mdl = .ok c.hmm_)
    (hH : c.num_hmm_states_ = mdl.NumHistoryStates)
    (hast : c.num_hmm_states_ * c.num_sequences_ ≤ c.alpha_.Stride)
    (hpos : PositiveInputs mdl c) :
    ForwardReady c ∧
    SetTransitions mdl = .ok (c.hmm_.forward_transitions_, c.hmm_.backward_transitions_,
      c.hmm_.transitions_) ∧
    c.hmm_.special_hmm_state_ < c.num_hmm_states_ ∧
    (∀ t h s, t ≤ c.num_time_steps_ → h < c.num_hmm_states_ → s < c.num_sequences_ →
      0 < alphaRec c t h s) := by
  obtain ⟨htab, hip, hspe⟩ := newCctcHmm_ok mdl c.hmm_ hhmm
  have hlen : (SetInitialProbs.state mdl 20).1.length = mdl.NumHistoryStates :=
    (SetInitialProbs.state_spec mdl hH1 (fun s p hs hp => hnext s p hs (by omega))
      (fun s p hs hp => hpos.trans_pos s p hs (by omega)) 20).1
  have hsp : c.hmm_.special_hmm_state_ < c.num_hmm_states_ := by
    rw [hspe, hH, ← hlen]
    exact maxIndex_lt _ (by rw [hlen]; exact hH1)
  have hedges := fun h hh => inEdges_of_SetTransitions mdl c hnext htab h hh
  have horigin : ∀ h, h < c.num_hmm_states_ → ∀ e ∈ inEdges c h,
      e.hmm_state < c.num_hmm_states_ ∧ e.num_index < c.numerator_dim_ ∧
      0 < e.transition_prob := by
    intro h hh e he
    rw [(hedges h (hH ▸ hh)).1] at he
    unfold incomingRecords at he
    obtain ⟨op, hop, rfl⟩ := List.mem_map.mp he
    have hm := mem_statePhonePairs.mp (List.mem_of_mem_filter hop)
    exact ⟨by rw [hH]; exact hm.1, hidx op.1 op.2 hm.1 hm.2, hpos.trans_pos op.1 op.2 hm.1 hm.2⟩
  have hne : ∀ h, h < c.num_hmm_states_ → inEdges c h ≠ [] := by
    intro h hh
    rw [(hedges h (hH ▸ hh)).1]
    apply incomingRecords_ne_nil mdl hH1 hnext hpos.trans_pos h (hH ▸ hh)
    rw [← hip]
    exact hpos.init_pos h hh
  refine ⟨⟨hast, hsp, fun h hh e he => (horigin h hh e he).1⟩, htab, hsp, ?_⟩
  intro t h s ht hh hs
  exact alphaRec_pos c hsp hne horigin hpos.init_pos hpos.num_pos hpos.den_pos s hs t ht h hh

end Positive

/-! ## C1: rescale invariance -/

/-- The value of `Forward()` when no division is by zero, in terms of the
unscaled reference recursion: `Forward()` returns `Σ_s log (Σ_h U[T][h,s])`
when the logarithm turns the products into sums, the rows of `alpha_` hold
the alpha recursion, and in every lane the sum of the last row times the
product of the special state's alphas over the frames before the last is
`Σ_h U[T][h,s]`. -/
theorem Forward_unscaled (c : CctcNegativeComputation ℝ) (wf : ForwardReady c)
    (hden : ∀ t h s, t < c.num_time_steps_ → h < c.num_hmm_states_ → s < c.num_sequences_ →
      denProb c h t s ≠ 0)
    (hsp : ∀ t s, t < c.num_time_steps_ → s < c.num_sequences_ →
      alphaRec c t c.hmm_.special_hmm_state_ s ≠ 0)
    (htot : ∀ s, s < c.num_sequences_ →
      ∑ h ∈ Finset.range c.num_hmm_states_, alphaRec c c.num_time_steps_ h s ≠ 0) :
    ∃ c', Forward Real.log c = .ok
        (∑ s ∈ Finset.range c.num_sequences_,
          Real.log (∑ h ∈ Finset.range c.num_hmm_states_, unscaledAlpha c c.num_time_steps_ h s),
         c') ∧
      (∀ t h s, t ≤ c.num_time_steps_ → h < c.num_hmm_states_ → s < c.num_sequences_ →
        c'.alpha_.RowData t (h * c.num_sequences_ + s) = alphaRec c t h s) ∧
      (∀ s, s < c.num_sequences_ →
        (∑ h ∈ Finset.range c.num_hmm_states_,
            c'.alpha_.RowData c.num_time_steps_ (h * c.num_sequences_ + s))
          * ∏ t ∈ Finset.range c.num_time_steps_,
              c'.alpha_.RowData t (c.hmm_.special_hmm_state_ * c.num_sequences_ + s)
          = ∑ h ∈ Finset.range c.num_hmm_states_, unscaledAlpha c c.num_time_steps_ h s) := by
  obtain ⟨A, h1, _, h3⟩ := Forward_spec Real.log c wf hden hsp
  have hprod : ∀ s, s < c.num_sequences_ →
      (∑ h ∈ Finset.range c.num_hmm_states_, alphaRec c c.num_time_steps_ h s)
        * ∏ t ∈ Finset.range c.num_time_steps_, alphaRec c t c.hmm_.special_hmm_state_ s
      = ∑ h ∈ Finset.range c.num_hmm_states_, unscaledAlpha c c.num_time_steps_ h s := by
    intro s hs
    rw [Finset.sum_mul]
    apply Finset.sum_congr rfl
    intro h _
    exact alphaRec_mul_prod c s c.num_time_steps_ (fun u hu => hsp u s hu hs) h
  have hval : ∑ s ∈ Finset.range c.num_sequences_,
        Real.log (∑ h ∈ Finset.range c.num_hmm_states_, alphaRec c c.num_time_steps_ h s)
      + ∑ t ∈ Finset.range c.num_time_steps_, ∑ s ∈ Finset.range c.num_sequences_,
          Real.log (alphaRec c t c.hmm_.special_hmm_state_ s)
      = ∑ s ∈ Finset.range c.num_sequences_,
          Real.log (∑ h ∈ Finset.range c.num_hmm_states_,
            unscaledAlpha c c.num_time_steps_ h s) := by
    rw [Finset.sum_comm, ← Finset.sum_add_distrib]
    apply Finset.sum_congr rfl
    intro s hs
    have hs' := Finset.mem_range.mp hs
    rw [← hprod s hs', Real.log_mul (htot s hs'), Real.log_prod]
    · intro t ht
      exact hsp t s (Finset.mem_range.mp ht) hs'
    · rw [Finset.prod_ne_zero_iff]
      intro t ht
      exact hsp t s (Finset.mem_range.mp ht) hs'
  rw [hval] at h1
  refine ⟨_, h1, h3, ?_⟩
  · intro s hs
    rw [← hprod s hs]
    congr 1
    · apply Finset.sum_congr rfl
      intro h hh
      exact h3 _ h s (le_refl _) (Finset.mem_range.mp hh) hs
    · apply Finset.prod_congr rfl
      intro t ht
      exact h3 t _ s (le_of_lt (Finset.mem_range.mp ht)) wf.special_lt hs

/-- The scenario object has strictly positive inputs. -/
theorem PositiveInputs_scenario : PositiveInputs (scenarioModel ℝ) (scenarioComputation ℝ) := by
  refine ⟨?_, ?_, ?_, ?_⟩
  · intro s p _ _
    show (0 : ℝ) < 1
    exact one_pos
  · intro h hh
    have h0 : h = 0 := by
      have : h < 1 := hh
      omega
    subst h0
    show (0 : ℝ) < 1
    exact one_pos
  · intro k t s _ _ _
    show (0 : ℝ) < 1
    exact one_pos
  · intro h t s _ _ _
    show (0 : ℝ) < 1
    exact one_pos

/-- C1.  For every transition model with at least one history state and next
states and label indexes in range, every object over the `CctcHmm` that the
constructor builds for the model, every `T ≥ 0` and number of sequences, and
all strictly positive initial, transition, numerator and denominator
probabilities: `Forward()` returns `Σ_s log (Σ_h U[T][h,s])` for the unscaled
reference recursion `U`; the rows of `alpha_` hold the alpha recursion; in
every lane the sum of the last row times the product of the special state's
alphas over the frames before the last is `Σ_h U[T][h,s]`; and every
logarithm is taken of a strictly positive number: the alphas and the sums
`Σ_h U[T][h,s]` are strictly positive. -/
theorem rescale_invariance (mdl : CctcTransitionModel ℝ) (c : CctcNegativeComputation ℝ)
    (hH1 : 1 ≤ mdl.NumHistoryStates)
    (hnext : ∀ s p, s < mdl.NumHistoryStates → p < mdl.NumPhones + 1 →
      (forwardRecord mdl s p).hmm_state < mdl.NumHistoryStates)
    (hidx : ∀ s p, s < mdl.NumHistoryStates → p < mdl.NumPhones + 1 →
      (forwardRecord mdl s p).num_index < c.numerator_dim_)
    (hhmm : newCctcHmm mdl = .ok c.hmm_)
    (hH : c.num_hmm_states_ = mdl.NumHistoryStates)
    (hast : c.num_hmm_states_ * c.num_sequences_ ≤ c.alpha_.Stride)
    (hpos : PositiveInputs mdl c) :
    ∃ c', Forward Real.log c = .ok
        (∑ s ∈ Finset.range c.num_sequences_,
          Real.log (∑ h ∈ Finset.range c.num_hmm_states_, unscaledAlpha c c.num_time_steps_ h s),
         c') ∧
      (∀ t h s, t ≤ c.num_time_steps_ → h < c.num_hmm_states_ → s < c.num_sequences_ →
        c'.alpha_.RowData t (h * c.num_sequences_ + s) = alphaRec c t h s) ∧
      (∀ s, s < c.num_sequences_ →
        (∑ h ∈ Finset.range c.num_hmm_states_,
            c'.alpha_.RowData c.num_time_steps_ (h * c.num_sequences_ + s))
          * ∏ t ∈ Finset.range c.num_time_steps_,
              c'.alpha_.RowData t (c.hmm_.special_hmm_state_ * c.num_sequences_ + s)
          = ∑ h ∈ Finset.range c.num_hmm_states_, unscaledAlpha c c.num_time_steps_ h s) ∧
      (∀ t h s, t ≤ c.num_time_steps_ → h < c.num_hmm_states_ → s < c.num_sequences_ →
        0 < c'.alpha_.RowData t (h * c.num_sequences_ + s)) ∧
      (∀ s, s < c.num_sequences_ →
        0 < ∑ h ∈ Finset.range c.num_hmm_states_, unscaledAlpha c c.num_time_steps_ h s) := by
  obtain ⟨wf, -, hsp, hal⟩ := positive_inputs_spec mdl c hH1 hnext hidx hhmm hH hast hpos
  have hHpos : 0 < c.num_hmm_states_ := by rw [hH]; exact hH1
  have htotpos : ∀ s, s < c.num_sequences_ →
      0 < ∑ h ∈ Finset.range c.num_hmm_states_, alphaRec c c.num_time_steps_ h s := by
    intro s hs
    apply Finset.sum_pos
    · intro h hh
      exact hal _ h s (le_refl _) (Finset.mem_range.mp hh) hs
    · exact ⟨0, Finset.mem_range.mpr hHpos⟩
  obtain ⟨c', h1, h2, h3⟩ := Forward_unscaled c wf
    (fun t h s ht hh hs => ne_of_gt (hpos.den_pos h t s hh ht hs))
    (fun t s ht hs => ne_of_gt (hal t _ s (le_of_lt ht) hsp hs))
    (fun s hs => ne_of_gt (htotpos s hs))
  refine ⟨c', h1, h2, h3, ?_, ?_⟩
  · intro t h s ht hh hs
    rw [h2 t h s ht hh hs]
    exact hal t h s ht hh hs
  · intro s hs
    rw [← h3 s hs]
    apply mul_pos
    · apply Finset.sum_pos
      · intro h hh
        rw [h2 _ h s (le_refl _) (Finset.mem_range.mp hh) hs]
        exact hal _ h s (le_refl _) (Finset.mem_range.mp hh) hs
      · exact ⟨0, Finset.mem_range.mpr hHpos⟩
    · apply Finset.prod_pos
      intro t ht
      rw [h2 t _ s (le_of_lt (Finset.mem_range.mp ht)) hsp hs]
      exact hal t _ s (le_of_lt (Finset.mem_range.mp ht)) hsp hs

theorem rescale_invariance_witness :
    ∃ c', Forward Real.log (scenarioComputation ℝ) = .ok
        (∑ s ∈ Finset.range (scenarioComputation ℝ).num_sequences_,
          Real.log (∑ h ∈ Finset.range (scenarioComputation ℝ).num_hmm_states_,
            unscaledAlpha (scenarioComputation ℝ) (scenarioComputation ℝ).num_time_steps_ h s),
         c') ∧
      (∀ s, s < (scenarioComputation ℝ).num_sequences_ →
        (∑ h ∈ Finset.range (scenarioComputation ℝ).num_hmm_states_,
            c'.alpha_.RowData (scenarioComputation ℝ).num_time_steps_
              (h * (scenarioComputation ℝ).num_sequences_ + s))
          * ∏ t ∈ Finset.range (scenarioComputation ℝ).num_time_steps_,
              c'.alpha_.RowData t
                ((scenarioComputation ℝ).hmm_.special_hmm_state_
                  * (scenarioComputation ℝ).num_sequences_ + s)
          = ∑ h ∈ Finset.range (scenarioComputation ℝ).num_hmm_states_,
              unscaledAlpha (scenarioComputation ℝ)
                (scenarioComputation ℝ).num_time_steps_ h s) :=
  have h := rescale_invariance (scenarioModel ℝ) (scenarioComputation ℝ) (Nat.le_refl 1)
    (fun _ _ _ _ => Nat.zero_lt_one) (fun _ _ _ hp => hp) (newCctcHmm_scenario ℝ) rfl
    (Nat.le_refl 1) PositiveInputs_scenario
  let ⟨c', h1, _, h3, _⟩ := h
  ⟨c', h1, h3⟩

/-! ## C16: the alpha recursion over the model -/

/-- C16.  On an object whose table was built by `SetTransitions` from a model
with next states in range, when no division of the forward pass is by zero
(the denominator probabilities are nonzero and the alpha recursion of the
special state is nonzero on every frame before the last), `Forward()` returns
and leaves in `alpha_`:
`alpha[0][h,s] = InitialProbs(h)`, and for `1 ≤ t ≤ T`, every history state
`h` and lane `s`, `alpha[t][h,s]` equals the sum over the pairs `(o, p)`,
`o < NumHistoryStates`, `p ≤ NumPhones`, whose next history state is `h`, of
`alpha[t-1][o,s] * transitionProb(o,p) * numeratorProb[numIndex(o,p),t-1,s]
/ denominatorProb[o,t-1,s]`, times `1 / alpha[t-1][SpecialState,s]`. -/
theorem alpha_recursion_over_model {K : Type} [Field K] [DecidableEq K] (log : K → K)
    (mdl : CctcTransitionModel K) (c : CctcNegativeComputation K)
    (hnext : ∀ s p, s < mdl.NumHistoryStates → p < mdl.NumPhones + 1 →
      (forwardRecord mdl s p).hmm_state < mdl.NumHistoryStates)
    (htab : SetTransitions mdl = .ok (c.hmm_.forward_transitions_,
      c.hmm_.backward_transitions_, c.hmm_.transitions_))
    (hH : c.num_hmm_states_ = mdl.NumHistoryStates)
    (hsp : c.hmm_.special_hmm_state_ < c.num_hmm_states_)
    (hst : c.num_hmm_states_ * c.num_sequences_ ≤ c.alpha_.Stride)
    (hden : ∀ t h s, t < c.num_time_steps_ → h < c.num_hmm_states_ → s < c.num_sequences_ →
      denProb c h t s ≠ 0)
    (hscale : ∀ t s, t < c.num_time_steps_ → s < c.num_sequences_ →
      alphaRec c t c.hmm_.special_hmm_state_ s ≠ 0) :
    ∃ v c', Forward log c = .ok (v, c') ∧
      (∀ h s, h < c.num_hmm_states_ → s < c.num_sequences_ →
        c'.alpha_.RowData 0 (h * c.num_sequences_ + s) = c.hmm_.initial_probs_.getD h 0) ∧
      (∀ t h s, 1 ≤ t → t ≤ c.num_time_steps_ → h < c.num_hmm_states_ →
        s < c.num_sequences_ →
        c'.alpha_.RowData t (h * c.num_sequences_ + s)
          = (((statePhonePairs mdl.NumHistoryStates mdl.NumPhones).filter (fun op =>
                decide ((forwardRecord mdl op.1 op.2).hmm_state = h))).map (fun op =>
              c'.alpha_.RowData (t - 1) (op.1 * c.num_sequences_ + s)
                * (forwardRecord mdl op.1 op.2).transition_prob
                * c.numerators_rearranged_.RowData (t - 1)
                    ((forwardRecord mdl op.1 op.2).num_index * c.num_sequences_ + s)
                / c.denominators_rearranged_.RowData (t - 1)
                    (op.1 * c.num_sequences_ + s))).sum
            * (1 / c'.alpha_.RowData (t - 1)
                (c.hmm_.special_hmm_state_ * c.num_sequences_ + s))) := by
  have hin : ∀ h, h < c.num_hmm_states_ → inEdges c h = incomingRecords mdl h :=
    fun h hh => (inEdges_of_SetTransitions mdl c hnext htab h (hH ▸ hh)).1
  have wf : ForwardReady c := by
    refine ⟨hst, hsp, ?_⟩
    intro h hh e he
    rw [hin h hh] at he
    unfold incomingRecords at he
    obtain ⟨op, hop, rfl⟩ := List.mem_map.mp he
    have hop' := (mem_statePhonePairs.mp (List.mem_of_mem_filter hop)).1
    rw [hH]
    exact hop'
  obtain ⟨A, hrun, -, hA⟩ := Forward_spec log c wf hden hscale
  refine ⟨_, _, hrun, ?_, ?_⟩
  · intro h s hh hs
    exact hA 0 h s (Nat.zero_le _) hh hs
  · intro t h s ht1 ht2 hh hs
    obtain ⟨t, rfl⟩ : ∃ t', t = t' + 1 := ⟨t - 1, by omega⟩
    show A.RowData (t + 1) _ = _ * (1 / A.RowData (t + 1 - 1) _)
    rw [hA (t + 1) h s ht2 hh hs, Nat.add_sub_cancel, hA t _ s (by omega) hsp hs]
    show ((inEdges c h).map _).sum * _ = _
    rw [hin h hh]
    unfold incomingRecords
    rw [List.map_map]
    congr 2
    apply List.map_congr_left
    intro op hop
    have hop' := (mem_statePhonePairs.mp (List.mem_of_mem_filter hop)).1
    show alphaRec c t op.1 s * _ * _ / _ = A.RowData t _ * _ * _ / _
    rw [hA t op.1 s (by omega) (by rw [hH]; exact hop') hs]
    rfl

theorem alpha_recursion_over_model_witness :
    ∃ v c', Forward Real.log (scenarioComputation ℝ) = .ok (v, c') ∧
      (∀ h s, h < (scenarioComputation ℝ).num_hmm_states_ →
        s < (scenarioComputation ℝ).num_sequences_ →
        c'.alpha_.RowData 0 (h * (scenarioComputation ℝ).num_sequences_ + s)
          = (scenarioComputation ℝ).hmm_.initial_probs_.getD h 0) ∧
      (∀ t h s, 1 ≤ t → t ≤ (scenarioComputation ℝ).num_time_steps_ →
        h < (scenarioComputation ℝ).num_hmm_states_ →
        s < (scenarioComputation ℝ).num_sequences_ →
        c'.alpha_.RowData t (h * (scenarioComputation ℝ).num_sequences_ + s)
          = (((statePhonePairs (scenarioModel ℝ).NumHistoryStates
                (scenarioModel ℝ).NumPhones).filter (fun op =>
                decide ((forwardRecord (scenarioModel ℝ) op.1 op.2).hmm_state = h))).map
              (fun op =>
              c'.alpha_.RowData (t - 1) (op.1 * (scenarioComputation ℝ).num_sequences_ + s)
                * (forwardRecord (scenarioModel ℝ) op.1 op.2).transition_prob
                * (scenarioComputation ℝ).numerators_rearranged_.RowData (t - 1)
                    ((forwardRecord (scenarioModel ℝ) op.1 op.2).num_index
                      * (scenarioComputation ℝ).num_sequences_ + s)
                / (scenarioComputation ℝ).denominators_rearranged_.RowData (t - 1)
                    (op.1 * (scenarioComputation ℝ).num_sequences_ + s))).sum
            * (1 / c'.alpha_.RowData (t - 1)
                ((scenarioComputation ℝ).hmm_.special_hmm_state_
                  * (scenarioComputation ℝ).num_sequences_ + s))) :=
  alpha_recursion_over_model Real.log (scenarioModel ℝ) (scenarioComputation ℝ)
    (fun _ _ _ _ => Nat.zero_lt_one) (SetTransitions_scenario ℝ) rfl Nat.zero_lt_one
    (Nat.le_refl 1) scenario_no_zero_division.1 scenario_no_zero_division.2.1


/-! ## C12: what the constructor checks -/

/-- C12, a failing input.  With two history states and `num_sequences = 2`,
a numerator matrix of 2 rows (so one time step) and a denominator matrix of
1 row and 4 columns, the constructor returns an object: the denominator
matrix has neither `NumHistoryStates` columns nor the row count of the
numerator matrix, and its row count is not a multiple of `num_sequences`.
The only checks on the denominators are the assertions of
`RearrangeNnetOutput`, which compare `1 % 1` with 0 and `2 * 2` with
`4 * (1 / 1)`. -/
theorem constructor_accepts_misshaped_denominators :
    (∃ c, newCctcNegativeComputation (sinkModel ℚ) (sinkHmm ℚ)
        (constMatrix 1 2 1) (constMatrix 1 1 4) 2 (zeroWorkspace ℚ) = .ok c) ∧
    (constMatrix (1 : ℚ) 1 4).NumCols ≠ (sinkModel ℚ).NumHistoryStates ∧
    (constMatrix (1 : ℚ) 1 4).NumRows ≠ (constMatrix (1 : ℚ) 2 1).NumRows ∧
    (constMatrix (1 : ℚ) 1 4).NumRows % 2 ≠ 0 := by
  refine ⟨⟨_, rfl⟩, by decide, by decide, by decide⟩


/-! ## C21: index safety of the rearrangements -/

section Accesses

variable {α : Type}

theorem flatMap_eq_map_product {ι γ δ : Type} (l₁ : List ι) (l₂ : List γ) (f : ι → γ → δ) :
    l₁.flatMap (fun x => l₂.map (fun y => f x y))
      = (l₁.product l₂).map (fun p => f p.1 p.2) := by
  induction l₁ with
  | nil => rfl
  | cons a l ih =>
    have hp : (a :: l).product l₂ = List.map (fun y => (a, y)) l₂ ++ l.product l₂ :=
      List.product_cons a l l₂
    rw [List.flatMap_cons, ih, hp, List.map_append, List.map_map]
    rfl

theorem Tensor3dCopy.accesses_eq_map (xdim ydim zdim sx sy sz dx dy dz : Nat) :
    Tensor3dCopy.accesses xdim ydim zdim sx sy sz dx dy dz
      = (box xdim ydim zdim).map (fun p =>
          (p.1 * sx + p.2.1 * sy + p.2.2 * sz, p.1 * dx + p.2.1 * dy + p.2.2 * dz)) := by
  unfold Tensor3dCopy.accesses box
  have e : ∀ x, (List.range ydim).flatMap (fun y =>
      (List.range zdim).map (fun z =>
        (x * sx + y * sy + z * sz, x * dx + y * dy + z * dz)))
      = ((List.range ydim).product (List.range zdim)).map (fun p =>
          (x * sx + p.1 * sy + p.2 * sz, x * dx + p.1 * dy + p.2 * dz)) :=
    fun x => flatMap_eq_map_product _ _ _
  simp only [e]
  exact flatMap_eq_map_product (List.range xdim)
    ((List.range ydim).product (List.range zdim))
    (fun x p => (x * sx + p.1 * sy + p.2 * sz, x * dx + p.1 * dy + p.2 * dz))

/-- The copy is the sequence of its accesses: each one reads the source
offset and writes the value at the destination offset. -/
theorem Tensor3dCopy_eq_accesses (xdim ydim zdim sx sy sz dx dy dz : Nat)
    (src dst : Nat → α) :
    Tensor3dCopy xdim ydim zdim sx sy sz dx dy dz src dst
      = (Tensor3dCopy.accesses xdim ydim zdim sx sy sz dx dy dz).foldl
          (fun d a => Function.update d a.2 (src a.1)) dst := by
  rw [Tensor3dCopy_eq_foldl, Tensor3dCopy.accesses_eq_map, List.foldl_map]

theorem Tensor3dCopy.mem_accesses (xdim ydim zdim sx sy sz dx dy dz : Nat) (a : Nat × Nat) :
    a ∈ Tensor3dCopy.accesses xdim ydim zdim sx sy sz dx dy dz ↔
      ∃ x y z, x < xdim ∧ y < ydim ∧ z < zdim ∧
        a = (x * sx + y * sy + z * sz, x * dx + y * dy + z * dz) := by
  rw [Tensor3dCopy.accesses_eq_map, List.mem_map]
  constructor
  · rintro ⟨⟨x, y, z⟩, hp, rfl⟩
    obtain ⟨hx, hy, hz⟩ := mem_box.mp hp
    exact ⟨x, y, z, hx, hy, hz, rfl⟩
  · rintro ⟨x, y, z, hx, hy, hz, rfl⟩
    exact ⟨(x, y, z), mem_box.mpr ⟨hx, hy, hz⟩, rfl⟩

/-- When the destination offset map is injective on the index box, no
destination offset is written twice. -/
theorem Tensor3dCopy.accesses_nodup (xdim ydim zdim sx sy sz dx dy dz : Nat)
    (hinj : ∀ x y z x' y' z', x < xdim → y < ydim → z < zdim → x' < xdim → y' < ydim →
      z' < zdim → x * dx + y * dy + z * dz = x' * dx + y' * dy + z' * dz →
      x = x' ∧ y = y' ∧ z = z') :
    ((Tensor3dCopy.accesses xdim ydim zdim sx sy sz dx dy dz).map Prod.snd).Nodup := by
  rw [Tensor3dCopy.accesses_eq_map, List.map_map]
  apply List.Nodup.map_on
  · rintro ⟨x, y, z⟩ hp ⟨x', y', z'⟩ hp' he
    obtain ⟨hx, hy, hz⟩ := mem_box.mp hp
    obtain ⟨hx', hy', hz'⟩ := mem_box.mp hp'
    obtain ⟨e1, e2, e3⟩ := hinj x y z x' y' z' hx hy hz hx' hy' hz' he
    rw [e1, e2, e3]
  · unfold box
    exact List.Nodup.product (List.nodup_range _)
      (List.Nodup.product (List.nodup_range _) (List.nodup_range _))

end Accesses

/-- C21.  When the two assertions of the rearrangements pass (the time-major
matrix `N` has `T ≥ 1` rows, the native matrix `M` has a multiple `S * T` of
`T` rows, and `N` has `F * S` columns for the `F` columns of `M`), each
matrix has a row stride at least its column count, and the buffer of each
matrix (rows times stride) has at most `2^31 - 1` cells, then for
`RearrangeNnetOutput` (source `M`, destination `N`) and for
`RearrangeNnetOutputReverse` (source `N`, destination `M`): the call returns
and its effect is that of the accesses of its `Tensor3dCopy` call, performed
in order; every access reads a cell inside the source matrix (row below
`NumRows`, column below `NumCols`) and writes a cell inside the destination
matrix; both offsets, hence every intermediate value of the offset
expressions, fit an `int32`, and so does the product `Stride * T` of the
stride computation when the native matrix has a row; no destination offset is
written twice; and every cell of the destination matrix is written exactly
once. -/
theorem rearrange_index_safety {α : Type} (M N : CuMatrixBase α)
    (hT : N.NumRows ≠ 0)
    (hrows : M.NumRows % N.NumRows = 0)
    (hcols : N.NumCols = M.NumCols * (M.NumRows / N.NumRows))
    (hMs : M.NumCols ≤ M.Stride) (hNs : N.NumCols ≤ N.Stride)
    (hMfit : M.NumRows * M.Stride ≤ int32Max) (hNfit : N.NumRows * N.Stride ≤ int32Max) :
    (RearrangeNnetOutput M N = .ok { N with
        Data := (Tensor3dCopy.accesses N.NumRows M.NumCols (M.NumRows / N.NumRows)
          M.Stride 1 (M.Stride * N.NumRows) N.Stride (M.NumRows / N.NumRows) 1).foldl
            (fun d a => Function.update d a.2 (M.Data a.1)) N.Data } ∧
      (∀ a ∈ Tensor3dCopy.accesses N.NumRows M.NumCols (M.NumRows / N.NumRows)
          M.Stride 1 (M.Stride * N.NumRows) N.Stride (M.NumRows / N.NumRows) 1,
        (∃ r c, r < M.NumRows ∧ c < M.NumCols ∧ a.1 = r * M.Stride + c) ∧
        (∃ r c, r < N.NumRows ∧ c < N.NumCols ∧ a.2 = r * N.Stride + c) ∧
        a.1 ≤ int32Max ∧ a.2 ≤ int32Max) ∧
      ((Tensor3dCopy.accesses N.NumRows M.NumCols (M.NumRows / N.NumRows)
          M.Stride 1 (M.Stride * N.NumRows) N.Stride (M.NumRows / N.NumRows) 1).map
        Prod.snd).Nodup ∧
      (∀ r c, r < N.NumRows → c < N.NumCols →
        ((Tensor3dCopy.accesses N.NumRows M.NumCols (M.NumRows / N.NumRows)
          M.Stride 1 (M.Stride * N.NumRows) N.Stride (M.NumRows / N.NumRows) 1).map
          Prod.snd).count (r * N.Stride + c) = 1)) ∧
    (RearrangeNnetOutputReverse N M = .ok { M with
        Data := (Tensor3dCopy.accesses N.NumRows M.NumCols (M.NumRows / N.NumRows)
          N.Stride (M.NumRows / N.NumRows) 1 M.Stride 1 (M.Stride * N.NumRows)).foldl
            (fun d a => Function.update d a.2 (N.Data a.1)) M.Data } ∧
      (∀ a ∈ Tensor3dCopy.accesses N.NumRows M.NumCols (M.NumRows / N.NumRows)
          N.Stride (M.NumRows / N.NumRows) 1 M.Stride 1 (M.Stride * N.NumRows),
        (∃ r c, r < N.NumRows ∧ c < N.NumCols ∧ a.1 = r * N.Stride + c) ∧
        (∃ r c, r < M.NumRows ∧ c < M.NumCols ∧ a.2 = r * M.Stride + c) ∧
        a.1 ≤ int32Max ∧ a.2 ≤ int32Max) ∧
      ((Tensor3dCopy.accesses N.NumRows M.NumCols (M.NumRows / N.NumRows)
          N.Stride (M.NumRows / N.NumRows) 1 M.Stride 1 (M.Stride * N.NumRows)).map
        Prod.snd).Nodup ∧
      (∀ r c, r < M.NumRows → c < M.NumCols →
        ((Tensor3dCopy.accesses N.NumRows M.NumCols (M.NumRows / N.NumRows)
          N.Stride (M.NumRows / N.NumRows) 1 M.Stride 1 (M.Stride * N.NumRows)).map
          Prod.snd).count (r * M.Stride + c) = 1)) ∧
    (M.NumRows ≠ 0 → M.Stride * N.NumRows ≤ int32Max) := by
  have hTpos : 0 < N.NumRows := Nat.pos_of_ne_zero hT
  have hMrows : M.NumRows / N.NumRows * N.NumRows = M.NumRows :=
    Nat.div_mul_cancel (Nat.dvd_of_mod_eq_zero hrows)
  have hcellM : ∀ r c, r < M.NumRows → c < M.NumCols → r * M.Stride + c ≤ int32Max := by
    intro r c hr hc
    have h1 : (r + 1) * M.Stride ≤ M.NumRows * M.Stride := Nat.mul_le_mul_right _ hr
    have h2 : (r + 1) * M.Stride = r * M.Stride + M.Stride := Nat.succ_mul r _
    omega
  have hcellN : ∀ r c, r < N.NumRows → c < N.NumCols → r * N.Stride + c ≤ int32Max := by
    intro r c hr hc
    have h1 : (r + 1) * N.Stride ≤ N.NumRows * N.Stride := Nat.mul_le_mul_right _ hr
    have h2 : (r + 1) * N.Stride = r * N.Stride + N.Stride := Nat.succ_mul r _
    omega
  have hsrcM : ∀ x y z, x < N.NumRows → y < M.NumCols → z < M.NumRows / N.NumRows →
      z * N.NumRows + x < M.NumRows ∧
      x * M.Stride + y * 1 + z * (M.Stride * N.NumRows)
        = (z * N.NumRows + x) * M.Stride + y := by
    intro x y z hx hy hz
    refine ⟨?_, by ring⟩
    have := cell_lt hz hx
    rw [hMrows] at this
    exact this
  have hdstN : ∀ x y z, x < N.NumRows → y < M.NumCols → z < M.NumRows / N.NumRows →
      y * (M.NumRows / N.NumRows) + z < N.NumCols ∧
      x * N.Stride + y * (M.NumRows / N.NumRows) + z * 1
        = x * N.Stride + (y * (M.NumRows / N.NumRows) + z) := by
    intro x y z hx hy hz
    refine ⟨?_, by ring⟩
    rw [hcols]
    exact cell_lt hy hz
  have hinjN : ∀ x y z x' y' z', x < N.NumRows → y < M.NumCols → z < M.NumRows / N.NumRows →
      x' < N.NumRows → y' < M.NumCols → z' < M.NumRows / N.NumRows →
      x * N.Stride + y * (M.NumRows / N.NumRows) + z * 1
        = x' * N.Stride + y' * (M.NumRows / N.NumRows) + z' * 1 →
      x = x' ∧ y = y' ∧ z = z' := by
    intro x y z x' y' z' _ hy hz _ hy' hz' he
    exact timeMajor_offset_inj (hcols ▸ hNs) hy hz hy' hz' he
  have hinjM : ∀ x y z x' y' z', x < N.NumRows → y < M.NumCols → z < M.NumRows / N.NumRows →
      x' < N.NumRows → y' < M.NumCols → z' < M.NumRows / N.NumRows →
      x * M.Stride + y * 1 + z * (M.Stride * N.NumRows)
        = x' * M.Stride + y' * 1 + z' * (M.Stride * N.NumRows) →
      x = x' ∧ y = y' ∧ z = z' := by
    intro x y z x' y' z' hx hy _ hx' hy' _ he
    exact native_offset_inj hMs hx hy hx' hy' he
  have hndN := Tensor3dCopy.accesses_nodup N.NumRows M.NumCols (M.NumRows / N.NumRows)
    M.Stride 1 (M.Stride * N.NumRows) N.Stride (M.NumRows / N.NumRows) 1 hinjN
  have hndM := Tensor3dCopy.accesses_nodup N.NumRows M.NumCols (M.NumRows / N.NumRows)
    N.Stride (M.NumRows / N.NumRows) 1 M.Stride 1 (M.Stride * N.NumRows) hinjM
  refine ⟨⟨?_, ?_, hndN, ?_⟩, ⟨?_, ?_, hndM, ?_⟩, ?_⟩
  · rw [RearrangeNnetOutput_ok M N hT hrows hcols, Tensor3dCopy_eq_accesses]
  · intro a ha
    obtain ⟨x, y, z, hx, hy, hz, rfl⟩ := (Tensor3dCopy.mem_accesses _ _ _ _ _ _ _ _ _ _).mp ha
    obtain ⟨s1, s2⟩ := hsrcM x y z hx hy hz
    obtain ⟨d1, d2⟩ := hdstN x y z hx hy hz
    refine ⟨⟨_, y, s1, hy, s2⟩, ⟨x, _, hx, d1, d2⟩, ?_, ?_⟩
    · show x * M.Stride + y * 1 + z * (M.Stride * N.NumRows) ≤ int32Max
      rw [s2]; exact hcellM _ _ s1 hy
    · show x * N.Stride + y * (M.NumRows / N.NumRows) + z * 1 ≤ int32Max
      rw [d2]; exact hcellN _ _ hx d1
  · intro r c hr hc
    apply List.count_eq_one_of_mem hndN
    have hSpos : 0 < M.NumRows / N.NumRows := by
      rcases Nat.eq_zero_or_pos (M.NumRows / N.NumRows) with h0 | h0
      · rw [hcols, h0] at hc; simp at hc
      · exact h0
    have hy : c / (M.NumRows / N.NumRows) < M.NumCols := by
      rw [Nat.div_lt_iff_lt_mul hSpos, ← hcols]; exact hc
    have hmem := (Tensor3dCopy.mem_accesses N.NumRows M.NumCols (M.NumRows / N.NumRows)
      M.Stride 1 (M.Stride * N.NumRows) N.Stride (M.NumRows / N.NumRows) 1 _).mpr
      ⟨r, c / (M.NumRows / N.NumRows), c % (M.NumRows / N.NumRows), hr, hy,
        Nat.mod_lt _ hSpos, rfl⟩
    refine List.mem_map.mpr ⟨(_, _), hmem, ?_⟩
    have := Nat.div_add_mod' c (M.NumRows / N.NumRows)
    show r * N.Stride + c / (M.NumRows / N.NumRows) * (M.NumRows / N.NumRows)
      + c % (M.NumRows / N.NumRows) * 1 = r * N.Stride + c
    omega
  · rw [RearrangeNnetOutputReverse_ok N M hT hrows hcols, Tensor3dCopy_eq_accesses]
  · intro a ha
    obtain ⟨x, y, z, hx, hy, hz, rfl⟩ := (Tensor3dCopy.mem_accesses _ _ _ _ _ _ _ _ _ _).mp ha
    obtain ⟨s1, s2⟩ := hsrcM x y z hx hy hz
    obtain ⟨d1, d2⟩ := hdstN x y z hx hy hz
    refine ⟨⟨x, _, hx, d1, d2⟩, ⟨_, y, s1, hy, s2⟩, ?_, ?_⟩
    · show x * N.Stride + y * (M.NumRows / N.NumRows) + z * 1 ≤ int32Max
      rw [d2]; exact hcellN _ _ hx d1
    · show x * M.Stride + y * 1 + z * (M.Stride * N.NumRows) ≤ int32Max
      rw [s2]; exact hcellM _ _ s1 hy
  · intro r c hr hc
    apply List.count_eq_one_of_mem hndM
    have hz : r / N.NumRows < M.NumRows / N.NumRows :=
      Nat.div_lt_div_of_lt_of_dvd (Nat.dvd_of_mod_eq_zero hrows) hr
    have hmem := (Tensor3dCopy.mem_accesses N.NumRows M.NumCols (M.NumRows / N.NumRows)
      N.Stride (M.NumRows / N.NumRows) 1 M.Stride 1 (M.Stride * N.NumRows) _).mpr
      ⟨r % N.NumRows, c, r / N.NumRows, Nat.mod_lt _ hTpos, hc, hz, rfl⟩
    refine List.mem_map.mpr ⟨(_, _), hmem, ?_⟩
    have h1 := Nat.div_add_mod' r N.NumRows
    have e : r % N.NumRows * M.Stride + c * 1 + r / N.NumRows * (M.Stride * N.NumRows)
        = (r / N.NumRows * N.NumRows + r % N.NumRows) * M.Stride + c := by ring
    show r % N.NumRows * M.Stride + c * 1 + r / N.NumRows * (M.Stride * N.NumRows)
      = r * M.Stride + c
    rw [e, h1]
  · intro hM0
    have hle : N.NumRows ≤ M.NumRows :=
      Nat.le_of_dvd (Nat.pos_of_ne_zero hM0) (Nat.dvd_of_mod_eq_zero hrows)
    have h1 : M.Stride * N.NumRows ≤ M.Stride * M.NumRows := Nat.mul_le_mul_left _ hle
    have h2 : M.Stride * M.NumRows = M.NumRows * M.Stride := Nat.mul_comm _ _
    omega

theorem rearrange_index_safety_witness :
    RearrangeNnetOutput (⟨fun i => i, 4, 1, 1⟩ : CuMatrixBase Nat) ⟨fun _ => 0, 2, 2, 3⟩
      = .ok { (⟨fun _ => 0, 2, 2, 3⟩ : CuMatrixBase Nat) with
          Data := (Tensor3dCopy.accesses 2 1 (4 / 2) 1 1 (1 * 2) 3 (4 / 2) 1).foldl
            (fun d a => Function.update d a.2 ((fun i => i) a.1)) (fun _ => 0) } ∧
    ((Tensor3dCopy.accesses 2 1 (4 / 2) 1 1 (1 * 2) 3 (4 / 2) 1).map Prod.snd).Nodup ∧
    ∀ r c, r < 2 → c < 2 →
      ((Tensor3dCopy.accesses 2 1 (4 / 2) 1 1 (1 * 2) 3 (4 / 2) 1).map Prod.snd).count
        (r * 3 + c) = 1 :=
  have h := rearrange_index_safety (⟨fun i => i, 4, 1, 1⟩ : CuMatrixBase Nat)
    ⟨fun _ => 0, 2, 2, 3⟩ (by decide) (by decide) (by decide) (by decide) (by decide)
    (by decide) (by decide)
  ⟨h.1.1, h.1.2.2.1, h.1.2.2.2⟩


/-! ## C17, C18 and C19: the backward pass -/

/-- C18.  `Backward()` run on two storages of the denominator-derivative
matrix and two contents of `beta_` (any padding, any prior cell values)
returns in both cases, with the same denominator gradient in every cell
`(s * T + t, h)` of the output, the same cell `(t, h, s)` of the time-major
denominator-derivative matrix for every `t < T`, `h < H`, `s < S`, and the
same betas in both rows of `beta_`; the offsets `t * Stride + h * S + s` at
which the loops store the denominator derivatives are distinct for distinct
`(t, h, s)`, so each cell is stored once. -/
theorem denominator_gradient_ignores_junk {K : Type} [Field K]
    (c : CctcNegativeComputation K) (wf : BackwardReady c)
    (pad : Nat) (a₁ a₂ : RawAlloc K) (B₁ B₂ : CuMatrixBase K)
    (hB₁ : c.num_hmm_states_ * c.num_sequences_ ≤ B₁.Stride)
    (hB₂ : c.num_hmm_states_ * c.num_sequences_ ≤ B₂.Stride)
    (nod dd : CuMatrixBase K)
    (hT : c.num_time_steps_ ≠ 0)
    (hnr : c.numerators_rearranged_.NumRows = c.num_time_steps_)
    (hdr : c.denominators_rearranged_.NumRows = c.num_time_steps_)
    (hor : nod.NumRows = c.num_sequences_ * c.num_time_steps_)
    (hoc : c.numerator_dim_ + c.trans_model_.NumBlankIndexes ≤ nod.NumCols)
    (hos : nod.NumCols ≤ nod.Stride)
    (hdr' : dd.NumRows = c.num_sequences_ * c.num_time_steps_)
    (hdc : dd.NumCols = c.num_hmm_states_)
    (hds : dd.NumCols ≤ dd.Stride) :
    ∃ (c₁ : CctcNegativeComputation K) (out₁ dd₁ : CuMatrixBase K)
      (c₂ : CctcNegativeComputation K) (out₂ dd₂ : CuMatrixBase K),
      Backward { c with beta_ := B₁ } pad a₁ nod dd = .ok (c₁, out₁, dd₁) ∧
      Backward { c with beta_ := B₂ } pad a₂ nod dd = .ok (c₂, out₂, dd₂) ∧
      (∀ s t h, s < c.num_sequences_ → t < c.num_time_steps_ → h < c.num_hmm_states_ →
        dd₁.RowData (s * c.num_time_steps_ + t) h
          = dd₂.RowData (s * c.num_time_steps_ + t) h) ∧
      (∀ t h s, t < c.num_time_steps_ → h < c.num_hmm_states_ → s < c.num_sequences_ →
        c₁.denominator_derivs_rearranged_.RowData t (h * c.num_sequences_ + s)
          = c₂.denominator_derivs_rearranged_.RowData t (h * c.num_sequences_ + s)) ∧
      (∀ r h s, r < 2 → h < c.num_hmm_states_ → s < c.num_sequences_ →
        c₁.beta_.RowData r (h * c.num_sequences_ + s)
          = c₂.beta_.RowData r (h * c.num_sequences_ + s)) ∧
      (∀ t h s t' h' s', h < c.num_hmm_states_ → s < c.num_sequences_ →
        h' < c.num_hmm_states_ → s' < c.num_sequences_ →
        t * (ResizeUndefined a₁ c.denominators_rearranged_.NumRows
              c.denominators_rearranged_.NumCols).Stride + (h * c.num_sequences_ + s)
          = t' * (ResizeUndefined a₁ c.denominators_rearranged_.NumRows
              c.denominators_rearranged_.NumCols).Stride + (h' * c.num_sequences_ + s') →
        t = t' ∧ h = h' ∧ s = s') := by
  have wf₁ : BackwardReady { c with beta_ := B₁ } :=
    ⟨hB₁, wf.num_cols, wf.den_cols, wf.dest_lt, wf.index_lt⟩
  have wf₂ : BackwardReady { c with beta_ := B₂ } :=
    ⟨hB₂, wf.num_cols, wf.den_cols, wf.dest_lt, wf.index_lt⟩
  obtain ⟨L₁, D₁, B₁', o₁, d₁, run₁, -, -, -, -, -, hdd₁, hD₁, -, hb0₁, hb1₁⟩ :=
    Backward_spec { c with beta_ := B₁ } wf₁ pad a₁ nod dd hT hnr hdr hor hoc hos hdr' hdc hds
  obtain ⟨L₂, D₂, B₂', o₂, d₂, run₂, -, -, -, -, -, hdd₂, hD₂, -, hb0₂, hb1₂⟩ :=
    Backward_spec { c with beta_ := B₂ } wf₂ pad a₂ nod dd hT hnr hdr hor hoc hos hdr' hdc hds
  have eβ : ∀ t h s, fullBeta { c with beta_ := B₁ } t h s
      = fullBeta { c with beta_ := B₂ } t h s :=
    fun t h s => fullBeta_congr { c with beta_ := B₂ } { c with beta_ := B₁ }
      rfl rfl rfl rfl rfl rfl rfl t h s
  have eD : ∀ t h s, denGradFull { c with beta_ := B₁ } t h s
      = denGradFull { c with beta_ := B₂ } t h s :=
    fun t h s => denGradFull_congr { c with beta_ := B₂ } { c with beta_ := B₁ }
      rfl rfl rfl rfl rfl rfl rfl t h s
  refine ⟨_, o₁, d₁, _, o₂, d₂, run₁, run₂, ?_, ?_, ?_, ?_⟩
  · intro s t h hs ht hh
    exact (hdd₁ s t h hs ht hh).trans ((eD t h s).trans (hdd₂ s t h hs ht hh).symm)
  · intro t h s ht hh hs
    exact (hD₁ t h s ht hh hs).trans ((eD t h s).trans (hD₂ t h s ht hh hs).symm)
  · intro r h s hr hh hs
    have hr' : r = 0 ∨ r = 1 := by omega
    rcases hr' with rfl | rfl
    · exact (hb0₁ h s hh hs).trans ((eβ 0 h s).trans (hb0₂ h s hh hs).symm)
    · exact (hb1₁ h s hh hs).trans ((eβ 1 h s).trans (hb1₂ h s hh hs).symm)
  · intro t h s t' h' s' hh hs hh' hs' he
    have hst : c.num_hmm_states_ * c.num_sequences_
        ≤ (ResizeUndefined a₁ c.denominators_rearranged_.NumRows
            c.denominators_rearranged_.NumCols).Stride := by
      show _ ≤ c.denominators_rearranged_.NumCols + a₁.pad
      rw [wf.den_cols]; omega
    obtain ⟨e1, e2⟩ := mixed_radix_inj (lt_of_lt_of_le (cell_lt hh hs) hst)
      (lt_of_lt_of_le (cell_lt hh' hs') hst) he
    obtain ⟨e3, e4⟩ := mixed_radix_inj hs hs' e2
    exact ⟨e1, e3, e4⟩

theorem denominator_gradient_ignores_junk_witness :
    ∃ (c₁ : CctcNegativeComputation ℚ) (out₁ dd₁ : CuMatrixBase ℚ)
      (c₂ : CctcNegativeComputation ℚ) (out₂ dd₂ : CuMatrixBase ℚ),
      Backward { scenarioComputation ℚ with beta_ := constMatrix 0 2 1 } 0 ⟨0, fun _ => 0⟩
          (constMatrix 0 2 3) (constMatrix 0 2 1) = .ok (c₁, out₁, dd₁) ∧
      Backward { scenarioComputation ℚ with beta_ := constMatrix 5 2 1 } 0 ⟨3, fun _ => 9⟩
          (constMatrix 0 2 3) (constMatrix 0 2 1) = .ok (c₂, out₂, dd₂) ∧
      (∀ s t h, s < 1 → t < 2 → h < 1 →
        dd₁.RowData (s * 2 + t) h = dd₂.RowData (s * 2 + t) h) :=
  have h := denominator_gradient_ignores_junk (scenarioComputation ℚ)
    (BackwardReady_scenario _ rfl rfl rfl rfl (Nat.le_refl 1) rfl rfl)
    0 ⟨0, fun _ => 0⟩ ⟨3, fun _ => 9⟩ (constMatrix 0 2 1) (constMatrix 5 2 1)
    (Nat.le_refl 1) (Nat.le_refl 1) (constMatrix 0 2 3) (constMatrix 0 2 1)
    (by decide) rfl rfl rfl (Nat.le_refl 3) (Nat.le_refl 3) rfl rfl (Nat.le_refl 1)
  let ⟨c₁, o₁, d₁, c₂, o₂, d₂, r₁, r₂, hdd, _⟩ := h
  ⟨c₁, o₁, d₁, c₂, o₂, d₂, r₁, r₂, hdd⟩


/-! ## C11: the columns that `Backward()` zeroes -/

/-- `Backward` when the column range `numerator_dim_ .. + NumBlankIndexes`
does not fit in the first output: the call fails in `ColRange`. -/
theorem Backward_colrange_fault {K : Type} [Field K] (c : CctcNegativeComputation K)
    (pad : Nat) (a : RawAlloc K) (nod dd L' D' B' v : CuMatrixBase K)
    (hBI : BackwardInternal { c with
        log_numerator_derivs_rearranged_ :=
          ResizeZero pad c.numerators_rearranged_.NumRows c.numerators_rearranged_.NumCols
        denominator_derivs_rearranged_ :=
          ResizeUndefined a c.denominators_rearranged_.NumRows
            c.denominators_rearranged_.NumCols }
      = .ok { c with log_numerator_derivs_rearranged_ := L'
                     denominator_derivs_rearranged_ := D'
                     beta_ := B' })
    (hc : c.numerator_dim_ ≤ nod.NumCols)
    (hR1 : RearrangeNnetOutputReverse L'
        { Data := fun i => nod.Data (0 + i), NumRows := nod.NumRows,
          NumCols := c.numerator_dim_, Stride := nod.Stride } = .ok v)
    (hc' : ¬ c.numerator_dim_ + c.trans_model_.NumBlankIndexes ≤ nod.NumCols) :
    Backward c pad a nod dd = .error .assertFailed := by
  have h1 : 0 + c.numerator_dim_ ≤ nod.NumCols := by omega
  have h2 : ¬ c.numerator_dim_ + c.trans_model_.NumBlankIndexes
      ≤ (writeBack nod 0 v).NumCols := hc'
  unfold Backward
  simp only [hBI, ColRange, if_pos h1, hR1, if_neg h2]

/-- C11, two failing inputs, on the scenario object after `Forward()`
(`numerator_dim_ = 2`, `NumBlankIndexes = 1`, one sequence, two frames).
With a first output of 4 columns, all cells holding 7 before the call,
`Backward()` returns and column 3, whose index is at least `numerator_dim_`,
still holds 7: only column 2 has been zeroed.  With a first output of
2 columns, which is at least `numerator_dim_`, `Backward()` does not
complete: the column range of width `NumBlankIndexes` starting at column 2
lies outside the matrix. -/
theorem backward_zeroes_blank_columns_only :
    ∃ v c₁, Forward Real.log (scenarioComputation ℝ) = .ok (v, c₁) ∧
      (∃ c₂ out dd', Backward c₁ 0 ⟨0, fun _ => 0⟩ (constMatrix 7 2 4) (constMatrix 0 2 1)
          = .ok (c₂, out, dd') ∧
        c₁.numerator_dim_ ≤ 3 ∧ 3 < out.NumCols ∧
        out.RowData 0 3 = 7 ∧ out.RowData 1 3 = 7 ∧
        out.RowData 0 2 = 0 ∧ out.RowData 1 2 = 0) ∧
      c₁.numerator_dim_ ≤ (constMatrix (7 : ℝ) 2 2).NumCols ∧
      Backward c₁ 0 ⟨0, fun _ => 0⟩ (constMatrix 7 2 2) (constMatrix 0 2 1)
        = .error .assertFailed := by
  obtain ⟨A, hrun, hAst, -⟩ :=
    Forward_spec Real.log (scenarioComputation ℝ) (ForwardReady_scenarioComputation ℝ)
      scenario_no_zero_division.1 scenario_no_zero_division.2.1
  refine ⟨_, _, hrun, ?_, Nat.le_refl 2, ?_⟩
  · have wf : BackwardReady { scenarioComputation ℝ with
        alpha_ := A
        tot_prob_ := (List.range (scenarioComputation ℝ).num_sequences_).map (fun s =>
          ∑ h ∈ Finset.range (scenarioComputation ℝ).num_hmm_states_,
            alphaRec (scenarioComputation ℝ) (scenarioComputation ℝ).num_time_steps_ h s)
        tot_log_prob_ := (List.range (scenarioComputation ℝ).num_sequences_).map (fun s =>
          Real.log (∑ h ∈ Finset.range (scenarioComputation ℝ).num_hmm_states_,
            alphaRec (scenarioComputation ℝ) (scenarioComputation ℝ).num_time_steps_ h s)) } :=
      BackwardReady_scenario _ rfl rfl rfl rfl (Nat.le_refl 1) rfl rfl
    obtain ⟨L', D', B', out, dd', hb, ⟨-, o2, -⟩, -, -, hz, hfr, -⟩ :=
      Backward_spec _ wf 0 ⟨0, fun _ => 0⟩ (constMatrix 7 2 4) (constMatrix 0 2 1)
        (show (2 : Nat) ≠ 0 by decide) rfl rfl rfl (show (2 + 1 : Nat) ≤ 4 by decide)
        (Nat.le_refl 4) rfl rfl (Nat.le_refl 1)
    refine ⟨_, out, dd', hb, show (2 : Nat) ≤ 3 by decide,
      by rw [o2]; exact (show (3 : Nat) < 4 by decide), ?_, ?_, ?_, ?_⟩
    · exact hfr 0 3 (show (2 + 1 : Nat) ≤ 3 by decide) (show (3 : Nat) < 4 by decide)
    · exact hfr 1 3 (show (2 + 1 : Nat) ≤ 3 by decide) (show (3 : Nat) < 4 by decide)
    · exact hz 0 2 (show (0 : Nat) < 1 * 2 by decide) (show (2 : Nat) ≤ 2 by decide)
        (show (2 : Nat) < 2 + 1 by decide)
    · exact hz 1 2 (show (1 : Nat) < 1 * 2 by decide) (show (2 : Nat) ≤ 2 by decide)
        (show (2 : Nat) < 2 + 1 by decide)
  · have wf : BackwardReady { scenarioComputation ℝ with
        alpha_ := A
        tot_prob_ := (List.range (scenarioComputation ℝ).num_sequences_).map (fun s =>
          ∑ h ∈ Finset.range (scenarioComputation ℝ).num_hmm_states_,
            alphaRec (scenarioComputation ℝ) (scenarioComputation ℝ).num_time_steps_ h s)
        tot_log_prob_ := (List.range (scenarioComputation ℝ).num_sequences_).map (fun s =>
          Real.log (∑ h ∈ Finset.range (scenarioComputation ℝ).num_hmm_states_,
            alphaRec (scenarioComputation ℝ) (scenarioComputation ℝ).num_time_steps_ h s)) } :=
      BackwardReady_scenario _ rfl rfl rfl rfl (Nat.le_refl 1) rfl rfl
    obtain ⟨L', D', B', hBI, ⟨-, l2, l3⟩, -⟩ :=
      BackwardInternal_resized_spec _ wf 0 ⟨0, fun _ => 0⟩
    have hv := RearrangeNnetOutputReverse_ok L'
      ({ Data := fun i => (constMatrix (7 : ℝ) 2 2).Data (0 + i),
         NumRows := (constMatrix (7 : ℝ) 2 2).NumRows,
         NumCols := 2, Stride := (constMatrix (7 : ℝ) 2 2).Stride } : CuMatrixBase ℝ)
      (by rw [l2]; exact (show (2 : Nat) ≠ 0 by decide))
      (by rw [l2]; exact (show (2 : Nat) % 2 = 0 by decide))
      (by rw [l2, l3]; exact (show (2 : Nat) = 2 * (2 / 2) by decide))
    exact Backward_colrange_fault _ 0 ⟨0, fun _ => 0⟩ (constMatrix 7 2 2) (constMatrix 0 2 1)
      L' D' B' _ hBI (Nat.le_refl 2) hv (show ¬ (2 + 1 : Nat) ≤ 2 by decide)


/-! ## The occupation mass of a frame -/

section Occupation

variable {K : Type} [Field K]

/-- One step of the full-table beta recursion, by frame. -/
theorem fullBeta_step (c : CctcNegativeComputation K) (t h s : Nat)
    (ht : t < c.num_time_steps_) :
    fullBeta c t h s
      = ((outEdges c h).map (fun e =>
          e.transition_prob * fullBeta c (t + 1) e.hmm_state s
            * c.numerators_rearranged_.RowData t (e.num_index * c.num_sequences_ + s))).sum
        * commonFactor c t h s := by
  have e1 : c.num_time_steps_ - t = (c.num_time_steps_ - (t + 1)) + 1 := by omega
  have e2 : c.num_time_steps_ - (c.num_time_steps_ - (t + 1) + 1) = t := by omega
  unfold fullBeta
  rw [e1]
  simp only [betaRec]
  rw [e2]

theorem fullBeta_last (c : CctcNegativeComputation K) (h s : Nat) :
    fullBeta c c.num_time_steps_ h s = (c.tot_prob_.map (fun x => 1 / x)).getD s 0 := by
  unfold fullBeta
  rw [Nat.sub_self]
  simp only [betaRec]

theorem list_sum_comm (f : Nat → Nat → K) (n m : Nat) :
    ((List.range n).map (fun i => ((List.range m).map (fun j => f i j)).sum)).sum
      = ((List.range m).map (fun j => ((List.range n).map (fun i => f i j)).sum)).sum := by
  simp only [list_sum_range_eq]
  exact Finset.sum_comm

/-- On a table built by `SetTransitions`, the occupation mass
`Σ_h alpha[t][h,s] * beta[t][h,s]` is the same on frames `t` and `t + 1`:
every transition is counted once as an outgoing transition of its origin and
once as an incoming transition of its destination. -/
theorem occupation_sum_step (mdl : CctcTransitionModel K) (c : CctcNegativeComputation K)
    (hnext : ∀ s p, s < mdl.NumHistoryStates → p < mdl.NumPhones + 1 →
      (forwardRecord mdl s p).hmm_state < mdl.NumHistoryStates)
    (hH : c.num_hmm_states_ = mdl.NumHistoryStates)
    (hin : ∀ h, h < mdl.NumHistoryStates → inEdges c h = incomingRecords mdl h)
    (hout : ∀ h, h < mdl.NumHistoryStates → outEdges c h = outgoingRecords mdl h)
    (t s : Nat) (ht : t < c.num_time_steps_)
    (hrec : ∀ h, h < c.num_hmm_states_ →
      c.alpha_.RowData (t + 1) (h * c.num_sequences_ + s)
        = ((inEdges c h).map (fun e =>
            c.alpha_.RowData t (e.hmm_state * c.num_sequences_ + s) * e.transition_prob
              * numProb c e.num_index t s / denProb c e.hmm_state t s)).sum
          * (1 / c.alpha_.RowData t (c.hmm_.special_hmm_state_ * c.num_sequences_ + s))) :
    ((List.range c.num_hmm_states_).map (fun h =>
        c.alpha_.RowData t (h * c.num_sequences_ + s) * fullBeta c t h s)).sum
      = ((List.range c.num_hmm_states_).map (fun h =>
        c.alpha_.RowData (t + 1) (h * c.num_sequences_ + s) * fullBeta c (t + 1) h s)).sum := by
  -- the weight of the pair `(o, p)`
  obtain ⟨G, hG⟩ : ∃ G : Nat × Nat → K, G = fun op =>
      c.alpha_.RowData t (op.1 * c.num_sequences_ + s)
        * (forwardRecord mdl op.1 op.2).transition_prob
        * numProb c (forwardRecord mdl op.1 op.2).num_index t s / denProb c op.1 t s
        * (1 / c.alpha_.RowData t (c.hmm_.special_hmm_state_ * c.num_sequences_ + s))
        * fullBeta c (t + 1) (forwardRecord mdl op.1 op.2).hmm_state s := ⟨_, rfl⟩
  have hl : ((List.range c.num_hmm_states_).map (fun h =>
        c.alpha_.RowData t (h * c.num_sequences_ + s) * fullBeta c t h s)).sum
      = ((statePhonePairs mdl.NumHistoryStates mdl.NumPhones).map G).sum := by
    unfold statePhonePairs
    rw [sum_product, hH]
    congr 1
    apply List.map_congr_left
    intro h hh
    have hh' : h < mdl.NumHistoryStates := List.mem_range.mp hh
    rw [fullBeta_step c t h s ht, hout h hh']
    unfold outgoingRecords
    rw [List.map_map, ← List.sum_map_mul_right, ← List.sum_map_mul_left]
    congr 1
    apply List.map_congr_left
    intro p _
    rw [hG]
    simp only [Function.comp, commonFactor, numProb, denProb]
    ring
  have hr : ((List.range c.num_hmm_states_).map (fun h =>
        c.alpha_.RowData (t + 1) (h * c.num_sequences_ + s) * fullBeta c (t + 1) h s)).sum
      = ((statePhonePairs mdl.NumHistoryStates mdl.NumPhones).map G).sum := by
    rw [← sum_filter_partition (statePhonePairs mdl.NumHistoryStates mdl.NumPhones)
      (fun op => (forwardRecord mdl op.1 op.2).hmm_state) G mdl.NumHistoryStates
      (fun op hop => hnext op.1 op.2 (mem_statePhonePairs.mp hop).1
        (mem_statePhonePairs.mp hop).2), hH]
    congr 1
    apply List.map_congr_left
    intro d hd
    have hd' : d < mdl.NumHistoryStates := List.mem_range.mp hd
    rw [hrec d (by rw [hH]; exact hd'), hin d hd']
    unfold incomingRecords
    rw [List.map_map, ← List.sum_map_mul_right, ← List.sum_map_mul_right]
    congr 1
    apply List.map_congr_left
    intro op hop
    have hd2 : (forwardRecord mdl op.1 op.2).hmm_state = d :=
      of_decide_eq_true (List.mem_filter.mp hop).2
    rw [hG]
    simp only [Function.comp, reverseRecord, hd2]
  rw [hl, hr]


/-- The occupation mass of every frame equals that of the last frame. -/
theorem occupation_sum_const (mdl : CctcTransitionModel K) (c : CctcNegativeComputation K)
    (hnext : ∀ s p, s < mdl.NumHistoryStates → p < mdl.NumPhones + 1 →
      (forwardRecord mdl s p).hmm_state < mdl.NumHistoryStates)
    (hH : c.num_hmm_states_ = mdl.NumHistoryStates)
    (hin : ∀ h, h < mdl.NumHistoryStates → inEdges c h = incomingRecords mdl h)
    (hout : ∀ h, h < mdl.NumHistoryStates → outEdges c h = outgoingRecords mdl h)
    (s : Nat)
    (hrec : ∀ t h, t < c.num_time_steps_ → h < c.num_hmm_states_ →
      c.alpha_.RowData (t + 1) (h * c.num_sequences_ + s)
        = ((inEdges c h).map (fun e =>
            c.alpha_.RowData t (e.hmm_state * c.num_sequences_ + s) * e.transition_prob
              * numProb c e.num_index t s / denProb c e.hmm_state t s)).sum
          * (1 / c.alpha_.RowData t (c.hmm_.special_hmm_state_ * c.num_sequences_ + s)))
    (t : Nat) (ht : t ≤ c.num_time_steps_) :
    ((List.range c.num_hmm_states_).map (fun h =>
        c.alpha_.RowData t (h * c.num_sequences_ + s) * fullBeta c t h s)).sum
      = ((List.range c.num_hmm_states_).map (fun h =>
        c.alpha_.RowData c.num_time_steps_ (h * c.num_sequences_ + s)
          * fullBeta c c.num_time_steps_ h s)).sum := by
  obtain ⟨k, hk⟩ : ∃ k, t + k = c.num_time_steps_ := ⟨c.num_time_steps_ - t, by omega⟩
  induction k generalizing t with
  | zero =>
    have : t = c.num_time_steps_ := by omega
    rw [this]
  | succ k ih =>
    rw [occupation_sum_step mdl c hnext hH hin hout t s (by omega)
      (fun h hh => hrec t h (by omega) hh)]
    exact ih (t + 1) (by omega) (by omega)

/-- The numerator gradients of a frame add up to its occupation mass. -/
theorem numGradFull_sum (c : CctcNegativeComputation K)
    (hidx : ∀ h, h < c.num_hmm_states_ → ∀ e ∈ outEdges c h, e.num_index < c.numerator_dim_)
    (t s : Nat) (ht : t < c.num_time_steps_) :
    ((List.range c.numerator_dim_).map (fun k => numGradFull c t k s)).sum
      = ((List.range c.num_hmm_states_).map (fun h =>
        c.alpha_.RowData t (h * c.num_sequences_ + s) * fullBeta c t h s)).sum := by
  unfold numGradFull
  rw [list_sum_comm]
  congr 1
  apply List.map_congr_left
  intro h hh
  rw [sum_filter_partition (outEdges c h) (fun e => e.num_index) _ c.numerator_dim_
    (fun e he => hidx h (List.mem_range.mp hh) e he),
    fullBeta_step c t h s ht, List.sum_map_mul_right]
  unfold occupationFactor
  ring

/-- The denominator gradients of a frame, each times its denominator
probability, add up to minus the occupation mass. -/
theorem denGradFull_sum (c : CctcNegativeComputation K) (t s : Nat)
    (ht : t < c.num_time_steps_)
    (hden : ∀ h, h < c.num_hmm_states_ → denProb c h t s ≠ 0) :
    ((List.range c.num_hmm_states_).map (fun h =>
        denGradFull c t h s * denProb c h t s)).sum
      = - ((List.range c.num_hmm_states_).map (fun h =>
        c.alpha_.RowData t (h * c.num_sequences_ + s) * fullBeta c t h s)).sum := by
  rw [← neg_one_mul, ← List.sum_map_mul_left]
  congr 1
  apply List.map_congr_left
  intro h hh
  have hd := hden h (List.mem_range.mp hh)
  rw [fullBeta_step c t h s ht]
  unfold denGradFull occupationFactor
  unfold denProb at hd ⊢
  rw [div_mul_cancel₀ _ hd]
  ring


/-- After `Forward()` on a table built by `SetTransitions`, when no division
of the forward pass is by zero, the occupation
mass `Σ_h alpha[t][h,s] * beta[t][h,s]` of every frame `t ≤ T` is `Z * (1 / Z)`
for the sum `Z` of the last alpha row in lane `s`. -/
theorem occupation_after_forward [DecidableEq K] (log : K → K)
    (mdl : CctcTransitionModel K) (c : CctcNegativeComputation K)
    (hnext : ∀ s p, s < mdl.NumHistoryStates → p < mdl.NumPhones + 1 →
      (forwardRecord mdl s p).hmm_state < mdl.NumHistoryStates)
    (htab : SetTransitions mdl = .ok (c.hmm_.forward_transitions_,
      c.hmm_.backward_transitions_, c.hmm_.transitions_))
    (hH : c.num_hmm_states_ = mdl.NumHistoryStates)
    (hsp : c.hmm_.special_hmm_state_ < c.num_hmm_states_)
    (hst : c.num_hmm_states_ * c.num_sequences_ ≤ c.alpha_.Stride)
    (hden : ∀ t h s, t < c.num_time_steps_ → h < c.num_hmm_states_ → s < c.num_sequences_ →
      denProb c h t s ≠ 0)
    (hscale : ∀ t s, t < c.num_time_steps_ → s < c.num_sequences_ →
      alphaRec c t c.hmm_.special_hmm_state_ s ≠ 0) :
    ∃ (v : K) (A : CuMatrixBase K) (tp tlp : List K),
      Forward log c = .ok (v, { c with alpha_ := A, tot_prob_ := tp, tot_log_prob_ := tlp }) ∧
      (∀ t h s, t ≤ c.num_time_steps_ → h < c.num_hmm_states_ → s < c.num_sequences_ →
        A.RowData t (h * c.num_sequences_ + s) = alphaRec c t h s) ∧
      (∀ t s, t ≤ c.num_time_steps_ → s < c.num_sequences_ →
        ∑ h ∈ Finset.range c.num_hmm_states_,
          A.RowData t (h * c.num_sequences_ + s)
            * fullBeta { c with alpha_ := A, tot_prob_ := tp, tot_log_prob_ := tlp } t h s
          = (∑ h ∈ Finset.range c.num_hmm_states_, alphaRec c c.num_time_steps_ h s)
            * (1 / ∑ h ∈ Finset.range c.num_hmm_states_,
                alphaRec c c.num_time_steps_ h s)) := by
  have hedges := fun h hh => inEdges_of_SetTransitions mdl c hnext htab h hh
  have wf : ForwardReady c := by
    refine ⟨hst, hsp, ?_⟩
    intro h hh e he
    rw [(hedges h (hH ▸ hh)).1] at he
    unfold incomingRecords at he
    obtain ⟨op, hop, rfl⟩ := List.mem_map.mp he
    rw [hH]
    exact (mem_statePhonePairs.mp (List.mem_of_mem_filter hop)).1
  obtain ⟨A, hrun, -, hA⟩ := Forward_spec log c wf hden hscale
  refine ⟨_, A, _, _, hrun, hA, ?_⟩
  intro t s ht hs
  rw [← list_sum_range_eq]
  have hconst := occupation_sum_const mdl
    { c with
      alpha_ := A
      tot_prob_ := (List.range c.num_sequences_).map (fun s =>
        ∑ h ∈ Finset.range c.num_hmm_states_, alphaRec c c.num_time_steps_ h s)
      tot_log_prob_ := (List.range c.num_sequences_).map (fun s =>
        log (∑ h ∈ Finset.range c.num_hmm_states_, alphaRec c c.num_time_steps_ h s)) }
    hnext hH (fun h hh => (hedges h hh).1) (fun h hh => (hedges h hh).2) s
    (by
      intro t h ht hh
      show A.RowData (t + 1) (h * c.num_sequences_ + s)
        = ((inEdges c h).map (fun e =>
            A.RowData t (e.hmm_state * c.num_sequences_ + s) * e.transition_prob
              * numProb c e.num_index t s / denProb c e.hmm_state t s)).sum
          * (1 / A.RowData t (c.hmm_.special_hmm_state_ * c.num_sequences_ + s))
      rw [hA (t + 1) h s ht hh hs, hA t _ s (Nat.le_of_lt ht) hsp hs]
      show ((inEdges c h).map _).sum * _ = _
      congr 2
      apply List.map_congr_left
      intro e he
      rw [hA t e.hmm_state s (Nat.le_of_lt ht) (wf.origin_lt h hh e he) hs])
    t ht
  refine hconst.trans ?_
  have hlast : ∀ h, fullBeta { c with
      alpha_ := A
      tot_prob_ := (List.range c.num_sequences_).map (fun s =>
        ∑ h ∈ Finset.range c.num_hmm_states_, alphaRec c c.num_time_steps_ h s)
      tot_log_prob_ := (List.range c.num_sequences_).map (fun s =>
        log (∑ h ∈ Finset.range c.num_hmm_states_, alphaRec c c.num_time_steps_ h s)) }
      c.num_time_steps_ h s
      = 1 / ∑ h ∈ Finset.range c.num_hmm_states_, alphaRec c c.num_time_steps_ h s := by
    intro h
    refine (fullBeta_last _ h s).trans ?_
    show (((List.range c.num_sequences_).map (fun s =>
        ∑ h ∈ Finset.range c.num_hmm_states_, alphaRec c c.num_time_steps_ h s)).map
        (fun x => 1 / x)).getD s 0 = _
    rw [List.map_map, List.getD_eq_getElem?_getD, List.getElem?_map,
      List.getElem?_range hs]
    rfl
  show ((List.range c.num_hmm_states_).map (fun h =>
    A.RowData c.num_time_steps_ (h * c.num_sequences_ + s) * _)).sum = _
  have : ((List.range c.num_hmm_states_).map (fun h =>
      A.RowData c.num_time_steps_ (h * c.num_sequences_ + s)
        * fullBeta { c with
            alpha_ := A
            tot_prob_ := (List.range c.num_sequences_).map (fun s =>
              ∑ h ∈ Finset.range c.num_hmm_states_, alphaRec c c.num_time_steps_ h s)
            tot_log_prob_ := (List.range c.num_sequences_).map (fun s =>
              log (∑ h ∈ Finset.range c.num_hmm_states_, alphaRec c c.num_time_steps_ h s)) }
            c.num_time_steps_ h s))
      = (List.range c.num_hmm_states_).map (fun h =>
        alphaRec c c.num_time_steps_ h s
          * (1 / ∑ h ∈ Finset.range c.num_hmm_states_, alphaRec c c.num_time_steps_ h s)) := by
    apply List.map_congr_left
    intro h hh
    rw [hlast h, hA _ h s (Nat.le_refl _) (List.mem_range.mp hh) hs]
  rw [this, List.sum_map_mul_right, list_sum_range_eq]

end Occupation


/-- `Forward()` followed by `Backward()` on a table built by `SetTransitions`,
when no division of the forward pass is by zero: both calls return, and on every frame the numerator gradients add up to
`Z * (1 / Z)`, the occupation mass is `Z * (1 / Z)` and, where the
denominator probabilities of the frame are nonzero, the denominator gradients
times the denominator probabilities add up to `-(Z * (1 / Z))`, for the sum
`Z` of the last alpha row of the lane. -/
theorem occupation_end_to_end {K : Type} [Field K] [DecidableEq K] (log : K → K)
    (mdl : CctcTransitionModel K) (c : CctcNegativeComputation K)
    (hnext : ∀ s p, s < mdl.NumHistoryStates → p < mdl.NumPhones + 1 →
      (forwardRecord mdl s p).hmm_state < mdl.NumHistoryStates)
    (hidx : ∀ s p, s < mdl.NumHistoryStates → p < mdl.NumPhones + 1 →
      (forwardRecord mdl s p).num_index < c.numerator_dim_)
    (htab : SetTransitions mdl = .ok (c.hmm_.forward_transitions_,
      c.hmm_.backward_transitions_, c.hmm_.transitions_))
    (hH : c.num_hmm_states_ = mdl.NumHistoryStates)
    (hsp : c.hmm_.special_hmm_state_ < c.num_hmm_states_)
    (hast : c.num_hmm_states_ * c.num_sequences_ ≤ c.alpha_.Stride)
    (hbst : c.num_hmm_states_ * c.num_sequences_ ≤ c.beta_.Stride)
    (hnc : c.numerators_rearranged_.NumCols = c.numerator_dim_ * c.num_sequences_)
    (hdc : c.denominators_rearranged_.NumCols = c.num_hmm_states_ * c.num_sequences_)
    (pad : Nat) (a : RawAlloc K) (nod dd : CuMatrixBase K)
    (hT : c.num_time_steps_ ≠ 0)
    (hnr : c.numerators_rearranged_.NumRows = c.num_time_steps_)
    (hdr : c.denominators_rearranged_.NumRows = c.num_time_steps_)
    (hor : nod.NumRows = c.num_sequences_ * c.num_time_steps_)
    (hoc : c.numerator_dim_ + c.trans_model_.NumBlankIndexes ≤ nod.NumCols)
    (hos : nod.NumCols ≤ nod.Stride)
    (hdr' : dd.NumRows = c.num_sequences_ * c.num_time_steps_)
    (hdc' : dd.NumCols = c.num_hmm_states_)
    (hds : dd.NumCols ≤ dd.Stride)
    (hden : ∀ t h s, t < c.num_time_steps_ → h < c.num_hmm_states_ → s < c.num_sequences_ →
      denProb c h t s ≠ 0)
    (hscale : ∀ t s, t < c.num_time_steps_ → s < c.num_sequences_ →
      alphaRec c t c.hmm_.special_hmm_state_ s ≠ 0) :
    ∃ (v : K) (c₁ c₂ : CctcNegativeComputation K) (out dd' : CuMatrixBase K),
      Forward log c = .ok (v, c₁) ∧ Backward c₁ pad a nod dd = .ok (c₂, out, dd') ∧
      (∀ t h s, t ≤ c.num_time_steps_ → h < c.num_hmm_states_ → s < c.num_sequences_ →
        c₁.alpha_.RowData t (h * c.num_sequences_ + s) = alphaRec c t h s) ∧
      (∀ t s, t < c.num_time_steps_ → s < c.num_sequences_ →
        ∑ k ∈ Finset.range c.numerator_dim_, out.RowData (s * c.num_time_steps_ + t) k
          = (∑ h ∈ Finset.range c.num_hmm_states_, alphaRec c c.num_time_steps_ h s)
            * (1 / ∑ h ∈ Finset.range c.num_hmm_states_,
                alphaRec c c.num_time_steps_ h s)) ∧
      (∀ t s, t < c.num_time_steps_ → s < c.num_sequences_ →
        ∑ k ∈ Finset.range c.numerator_dim_,
            c₂.log_numerator_derivs_rearranged_.RowData t (k * c.num_sequences_ + s)
          = (∑ h ∈ Finset.range c.num_hmm_states_, alphaRec c c.num_time_steps_ h s)
            * (1 / ∑ h ∈ Finset.range c.num_hmm_states_,
                alphaRec c c.num_time_steps_ h s)) ∧
      (∀ t s, t ≤ c.num_time_steps_ → s < c.num_sequences_ →
        ∑ h ∈ Finset.range c.num_hmm_states_,
            c₁.alpha_.RowData t (h * c.num_sequences_ + s) * fullBeta c₁ t h s
          = (∑ h ∈ Finset.range c.num_hmm_states_, alphaRec c c.num_time_steps_ h s)
            * (1 / ∑ h ∈ Finset.range c.num_hmm_states_,
                alphaRec c c.num_time_steps_ h s)) ∧
      (∀ t s, t < c.num_time_steps_ → s < c.num_sequences_ →
        (∀ h, h < c.num_hmm_states_ → denProb c h t s ≠ 0) →
        ∑ h ∈ Finset.range c.num_hmm_states_,
            dd'.RowData (s * c.num_time_steps_ + t) h * denProb c h t s
          = - ((∑ h ∈ Finset.range c.num_hmm_states_, alphaRec c c.num_time_steps_ h s)
            * (1 / ∑ h ∈ Finset.range c.num_hmm_states_,
                alphaRec c c.num_time_steps_ h s))) := by
  obtain ⟨v, A, tp, tlp, hrun, hA, hocc⟩ :=
    occupation_after_forward log mdl c hnext htab hH hsp hast hden hscale
  have hedges := fun h hh => inEdges_of_SetTransitions mdl c hnext htab h hh
  have hrec : ∀ h, h < c.num_hmm_states_ → ∀ e ∈ outEdges c h,
      e.hmm_state < c.num_hmm_states_ ∧ e.num_index < c.numerator_dim_ := by
    intro h hh e he
    have hh' : h < mdl.NumHistoryStates := hH ▸ hh
    rw [(hedges h hh').2] at he
    unfold outgoingRecords at he
    obtain ⟨p, hp, rfl⟩ := List.mem_map.mp he
    exact ⟨by rw [hH]; exact hnext h p hh' (List.mem_range.mp hp),
      hidx h p hh' (List.mem_range.mp hp)⟩
  have wf₁ : BackwardReady { c with alpha_ := A, tot_prob_ := tp, tot_log_prob_ := tlp } :=
    ⟨hbst, hnc, hdc, fun h hh e he => (hrec h hh e he).1, fun h hh e he => (hrec h hh e he).2⟩
  obtain ⟨L', D', B', out, dd', hback, -, -, hout, -, -, hddc, -, hLc, -, -⟩ :=
    Backward_spec _ wf₁ pad a nod dd hT hnr hdr hor hoc hos hdr' hdc' hds
  have hnum : ∀ t s, t < c.num_time_steps_ → s < c.num_sequences_ →
      ∑ k ∈ Finset.range c.numerator_dim_,
        numGradFull { c with alpha_ := A, tot_prob_ := tp, tot_log_prob_ := tlp } t k s
        = (∑ h ∈ Finset.range c.num_hmm_states_, alphaRec c c.num_time_steps_ h s)
          * (1 / ∑ h ∈ Finset.range c.num_hmm_states_,
              alphaRec c c.num_time_steps_ h s) := by
    intro t s ht hs
    rw [← hocc t s (Nat.le_of_lt ht) hs, ← list_sum_range_eq, ← list_sum_range_eq]
    exact numGradFull_sum { c with alpha_ := A, tot_prob_ := tp, tot_log_prob_ := tlp }
      (fun h hh e he => (hrec h hh e he).2) t s ht
  refine ⟨v, _, _, out, dd', hrun, hback, hA, ?_, ?_, hocc, ?_⟩
  · intro t s ht hs
    rw [← hnum t s ht hs]
    apply Finset.sum_congr rfl
    intro k hk
    exact hout s t k hs ht (Finset.mem_range.mp hk)
  · intro t s ht hs
    rw [← hnum t s ht hs]
    apply Finset.sum_congr rfl
    intro k hk
    exact hLc t k s ht (Finset.mem_range.mp hk) hs
  · intro t s ht hs hden
    rw [← hocc t s (Nat.le_of_lt ht) hs, ← list_sum_range_eq, ← list_sum_range_eq]
    have := denGradFull_sum { c with alpha_ := A, tot_prob_ := tp, tot_log_prob_ := tlp }
      t s ht hden
    refine Eq.trans ?_ this
    congr 1
    apply List.map_congr_left
    intro h hh
    rw [hddc s t h hs ht (List.mem_range.mp hh)]
    rfl


/-! ## C20: the occupation of a frame sums to one -/

/-- C20.  For every model with at least one history state and next states and
label indexes in range, every object over the `CctcHmm` that the constructor
builds for the model, with the shapes that the constructor sets and `T ≥ 1`,
output matrices of `S * T` rows with at least `numerator_dim_ +
NumBlankIndexes` and exactly `num_hmm_states_` columns, and all strictly
positive initial, transition, numerator and denominator probabilities:
`Forward()` and `Backward()` return, and for every frame `t < T` and lane `s`
the numerator gradients sum to 1 over the label indexes (in the output and in
the time-major matrix), `Σ_h alpha[t][h,s] * beta[t][h,s] = 1` for every
`t ≤ T`, and `Σ_h denominatorGradient[h,t,s] * denominatorProb[h,t,s] = -1`. -/
theorem occupation_sums_to_one (mdl : CctcTransitionModel ℝ) (c : CctcNegativeComputation ℝ)
    (hH1 : 1 ≤ mdl.NumHistoryStates)
    (hnext : ∀ s p, s < mdl.NumHistoryStates → p < mdl.NumPhones + 1 →
      (forwardRecord mdl s p).hmm_state < mdl.NumHistoryStates)
    (hidx : ∀ s p, s < mdl.NumHistoryStates → p < mdl.NumPhones + 1 →
      (forwardRecord mdl s p).num_index < c.numerator_dim_)
    (hhmm : newCctcHmm mdl = .ok c.hmm_)
    (hH : c.num_hmm_states_ = mdl.NumHistoryStates)
    (hast : c.num_hmm_states_ * c.num_sequences_ ≤ c.alpha_.Stride)
    (hbst : c.num_hmm_states_ * c.num_sequences_ ≤ c.beta_.Stride)
    (hnc : c.numerators_rearranged_.NumCols = c.numerator_dim_ * c.num_sequences_)
    (hdc : c.denominators_rearranged_.NumCols = c.num_hmm_states_ * c.num_sequences_)
    (pad : Nat) (a : RawAlloc ℝ) (nod dd : CuMatrixBase ℝ)
    (hT : c.num_time_steps_ ≠ 0)
    (hnr : c.numerators_rearranged_.NumRows = c.num_time_steps_)
    (hdr : c.denominators_rearranged_.NumRows = c.num_time_steps_)
    (hor : nod.NumRows = c.num_sequences_ * c.num_time_steps_)
    (hoc : c.numerator_dim_ + c.trans_model_.NumBlankIndexes ≤ nod.NumCols)
    (hos : nod.NumCols ≤ nod.Stride)
    (hdr' : dd.NumRows = c.num_sequences_ * c.num_time_steps_)
    (hdc' : dd.NumCols = c.num_hmm_states_)
    (hds : dd.NumCols ≤ dd.Stride)
    (hpos : PositiveInputs mdl c) :
    ∃ (v : ℝ) (c₁ c₂ : CctcNegativeComputation ℝ) (out dd' : CuMatrixBase ℝ),
      Forward Real.log c = .ok (v, c₁) ∧ Backward c₁ pad a nod dd = .ok (c₂, out, dd') ∧
      (∀ t s, t < c.num_time_steps_ → s < c.num_sequences_ →
        ∑ k ∈ Finset.range c.numerator_dim_, out.RowData (s * c.num_time_steps_ + t) k = 1) ∧
      (∀ t s, t < c.num_time_steps_ → s < c.num_sequences_ →
        ∑ k ∈ Finset.range c.numerator_dim_,
            c₂.log_numerator_derivs_rearranged_.RowData t (k * c.num_sequences_ + s) = 1) ∧
      (∀ t s, t ≤ c.num_time_steps_ → s < c.num_sequences_ →
        ∑ h ∈ Finset.range c.num_hmm_states_,
            c₁.alpha_.RowData t (h * c.num_sequences_ + s) * fullBeta c₁ t h s = 1) ∧
      (∀ t s, t < c.num_time_steps_ → s < c.num_sequences_ →
        ∑ h ∈ Finset.range c.num_hmm_states_,
            dd'.RowData (s * c.num_time_steps_ + t) h * denProb c h t s = -1) := by
  obtain ⟨-, htab, hsp, hal⟩ := positive_inputs_spec mdl c hH1 hnext hidx hhmm hH hast hpos
  have hden : ∀ t h s, t < c.num_time_steps_ → h < c.num_hmm_states_ →
      s < c.num_sequences_ → denProb c h t s ≠ 0 :=
    fun t h s ht hh hs => ne_of_gt (hpos.den_pos h t s hh ht hs)
  have htot : ∀ s, s < c.num_sequences_ →
      ∑ h ∈ Finset.range c.num_hmm_states_, alphaRec c c.num_time_steps_ h s ≠ 0 := by
    intro s hs
    apply ne_of_gt
    apply Finset.sum_pos
    · intro h hh
      exact hal _ h s (le_refl _) (Finset.mem_range.mp hh) hs
    · exact ⟨0, Finset.mem_range.mpr (by rw [hH]; exact hH1)⟩
  obtain ⟨v, c₁, c₂, out, dd', hF, hB, -, h1, h2, h3, h4⟩ :=
    occupation_end_to_end Real.log mdl c hnext hidx htab hH hsp hast hbst hnc hdc pad a nod dd
      hT hnr hdr hor hoc hos hdr' hdc' hds hden
      (fun t s ht hs => ne_of_gt (hal t _ s (le_of_lt ht) hsp hs))
  refine ⟨v, c₁, c₂, out, dd', hF, hB, ?_, ?_, ?_, ?_⟩
  · intro t s ht hs
    rw [h1 t s ht hs, mul_one_div_cancel (htot s hs)]
  · intro t s ht hs
    rw [h2 t s ht hs, mul_one_div_cancel (htot s hs)]
  · intro t s ht hs
    rw [h3 t s ht hs, mul_one_div_cancel (htot s hs)]
  · intro t s ht hs
    rw [h4 t s ht hs (fun h hh => hden t h s ht hh hs), mul_one_div_cancel (htot s hs)]

theorem occupation_sums_to_one_witness :
    ∃ (v : ℝ) (c₁ c₂ : CctcNegativeComputation ℝ) (out dd' : CuMatrixBase ℝ),
      Forward Real.log (scenarioComputation ℝ) = .ok (v, c₁) ∧
      Backward c₁ 0 ⟨0, fun _ => 0⟩ (constMatrix 0 2 3) (constMatrix 0 2 1)
        = .ok (c₂, out, dd') ∧
      (∀ t s, t < 2 → s < 1 → ∑ k ∈ Finset.range 2, out.RowData (s * 2 + t) k = 1) :=
  have h := occupation_sums_to_one (scenarioModel ℝ) (scenarioComputation ℝ) (Nat.le_refl 1)
    (fun _ _ _ _ => Nat.zero_lt_one) (fun _ _ _ hp => hp) (newCctcHmm_scenario ℝ) rfl
    (Nat.le_refl 1) (Nat.le_refl 1) rfl rfl 0 ⟨0, fun _ => 0⟩
    (constMatrix 0 2 3) (constMatrix 0 2 1) (by decide) rfl rfl rfl (Nat.le_refl 3)
    (Nat.le_refl 3) rfl rfl (Nat.le_refl 1) PositiveInputs_scenario
  let ⟨v, c₁, c₂, out, dd', hF, hB, h1, _⟩ := h
  ⟨v, c₁, c₂, out, dd', hF, hB, h1⟩


/-! ## Lanes do not interact -/

section Lanes

variable {K : Type} [Field K]

/-- The alpha recursion of a lane depends only on the numerator and
denominator probabilities of that lane. -/
theorem alphaRec_lane (c c' : CctcNegativeComputation K) (hhmm : c'.hmm_ = c.hmm_)
    (horigin : ∀ h, h < c.num_hmm_states_ → ∀ e ∈ inEdges c h,
      e.hmm_state < c.num_hmm_states_ ∧ e.num_index < c.numerator_dim_)
    (hsp : c.hmm_.special_hmm_state_ < c.num_hmm_states_)
    (s s' : Nat)
    (hn : ∀ k t, k < c.numerator_dim_ → t < c.num_time_steps_ →
      numProb c k t s = numProb c' k t s')
    (hd : ∀ h t, h < c.num_hmm_states_ → t < c.num_time_steps_ →
      denProb c h t s = denProb c' h t s')
    (t : Nat) (ht : t ≤ c.num_time_steps_) (h : Nat) (hh : h < c.num_hmm_states_) :
    alphaRec c t h s = alphaRec c' t h s' := by
  induction t generalizing h with
  | zero => simp only [alphaRec, hhmm]
  | succ t ih =>
    have hin : inEdges c' h = inEdges c h := by unfold inEdges; rw [hhmm]
    simp only [alphaRec, hin, hhmm]
    rw [ih (by omega) _ hsp]
    congr 2
    apply List.map_congr_left
    intro e he
    obtain ⟨ho, hi⟩ := horigin h hh e he
    rw [ih (by omega) _ ho, hn _ t hi (by omega), hd _ t ho (by omega)]

/-- The beta recursion of a lane depends only on the quantities of that
lane. -/
theorem betaRec_lane (c c' : CctcNegativeComputation K) (hhmm : c'.hmm_ = c.hmm_)
    (hT : c'.num_time_steps_ = c.num_time_steps_)
    (hdest : ∀ h, h < c.num_hmm_states_ → ∀ e ∈ outEdges c h,
      e.hmm_state < c.num_hmm_states_ ∧ e.num_index < c.numerator_dim_)
    (s s' : Nat)
    (hn : ∀ k t, k < c.numerator_dim_ → t < c.num_time_steps_ →
      numProb c k t s = numProb c' k t s')
    (hcf : ∀ h t, h < c.num_hmm_states_ → t < c.num_time_steps_ →
      commonFactor c t h s = commonFactor c' t h s')
    (h0 : (c.tot_prob_.map (fun x => 1 / x)).getD s 0
      = (c'.tot_prob_.map (fun x => 1 / x)).getD s' 0)
    (k : Nat) (hk : k ≤ c.num_time_steps_) (h : Nat) (hh : h < c.num_hmm_states_) :
    betaRec c k h s = betaRec c' k h s' := by
  induction k generalizing h with
  | zero => simp only [betaRec, h0]
  | succ k ih =>
    have hout : outEdges c' h = outEdges c h := by unfold outEdges; rw [hhmm]
    simp only [betaRec, hout, hT]
    rw [hcf h _ hh (by omega)]
    congr 2
    apply List.map_congr_left
    intro e he
    obtain ⟨hd, hi⟩ := hdest h hh e he
    have := hn _ (c.num_time_steps_ - (k + 1)) hi (by omega)
    unfold numProb at this
    rw [ih (by omega) _ hd, this]


theorem fullBeta_lane (c c' : CctcNegativeComputation K) (hhmm : c'.hmm_ = c.hmm_)
    (hT : c'.num_time_steps_ = c.num_time_steps_)
    (hdest : ∀ h, h < c.num_hmm_states_ → ∀ e ∈ outEdges c h,
      e.hmm_state < c.num_hmm_states_ ∧ e.num_index < c.numerator_dim_)
    (s s' : Nat)
    (hn : ∀ k t, k < c.numerator_dim_ → t < c.num_time_steps_ →
      numProb c k t s = numProb c' k t s')
    (hcf : ∀ h t, h < c.num_hmm_states_ → t < c.num_time_steps_ →
      commonFactor c t h s = commonFactor c' t h s')
    (h0 : (c.tot_prob_.map (fun x => 1 / x)).getD s 0
      = (c'.tot_prob_.map (fun x => 1 / x)).getD s' 0)
    (t : Nat) (h : Nat) (hh : h < c.num_hmm_states_) :
    fullBeta c t h s = fullBeta c' t h s' := by
  unfold fullBeta
  rw [hT]
  exact betaRec_lane c c' hhmm hT hdest s s' hn hcf h0 _ (Nat.sub_le _ _) h hh

/-- The gradients of a lane depend only on the quantities of that lane. -/
theorem gradFull_lane (c c' : CctcNegativeComputation K) (hhmm : c'.hmm_ = c.hmm_)
    (hT : c'.num_time_steps_ = c.num_time_steps_)
    (hH : c'.num_hmm_states_ = c.num_hmm_states_)
    (hdest : ∀ h, h < c.num_hmm_states_ → ∀ e ∈ outEdges c h,
      e.hmm_state < c.num_hmm_states_ ∧ e.num_index < c.numerator_dim_)
    (s s' : Nat)
    (hn : ∀ k t, k < c.numerator_dim_ → t < c.num_time_steps_ →
      numProb c k t s = numProb c' k t s')
    (hd : ∀ h t, h < c.num_hmm_states_ → t < c.num_time_steps_ →
      denProb c h t s = denProb c' h t s')
    (ha : ∀ h t, h < c.num_hmm_states_ → t < c.num_time_steps_ →
      c.alpha_.RowData t (h * c.num_sequences_ + s)
        = c'.alpha_.RowData t (h * c'.num_sequences_ + s'))
    (hcf : ∀ h t, h < c.num_hmm_states_ → t < c.num_time_steps_ →
      commonFactor c t h s = commonFactor c' t h s')
    (h0 : (c.tot_prob_.map (fun x => 1 / x)).getD s 0
      = (c'.tot_prob_.map (fun x => 1 / x)).getD s' 0)
    (t : Nat) (ht : t < c.num_time_steps_) :
    (∀ h, h < c.num_hmm_states_ → denGradFull c t h s = denGradFull c' t h s') ∧
    (∀ k, numGradFull c t k s = numGradFull c' t k s') := by
  have hβ := fun t h hh => fullBeta_lane c c' hhmm hT hdest s s' hn hcf h0 t h hh
  have hout : ∀ h, outEdges c' h = outEdges c h := by
    intro h; unfold outEdges; rw [hhmm]
  have hterm : ∀ h, h < c.num_hmm_states_ → ∀ e ∈ outEdges c h,
      e.transition_prob * fullBeta c (t + 1) e.hmm_state s
        * c.numerators_rearranged_.RowData t (e.num_index * c.num_sequences_ + s)
      = e.transition_prob * fullBeta c' (t + 1) e.hmm_state s'
        * c'.numerators_rearranged_.RowData t (e.num_index * c'.num_sequences_ + s') := by
    intro h hh e he
    obtain ⟨hd', hi⟩ := hdest h hh e he
    have := hn _ t hi ht
    unfold numProb at this
    rw [hβ (t + 1) _ hd', this]
  have hocc : ∀ h, h < c.num_hmm_states_ →
      occupationFactor c t h s = occupationFactor c' t h s' := by
    intro h hh
    unfold occupationFactor
    rw [hcf h t hh ht, ha h t hh ht]
  constructor
  · intro h hh
    have hden := hd h t hh ht
    unfold denProb at hden
    unfold denGradFull
    rw [hout h, hocc h hh, hden]
    congr 3
    exact congrArg List.sum (List.map_congr_left (hterm h hh))
  · intro k
    unfold numGradFull
    rw [hH]
    congr 1
    apply List.map_congr_left
    intro h hh
    have hh' : h < c.num_hmm_states_ := List.mem_range.mp hh
    rw [hout h]
    congr 1
    apply List.map_congr_left
    intro e he
    rw [hterm h hh' e (List.mem_of_mem_filter he), hocc h hh']


/-- The whole computation on native inputs, when no division of the forward
pass is by zero: the constructor, `Forward()` and `Backward()` return, and the
outputs are given by the recursions over the constructed object. -/
theorem pipeline_spec [DecidableEq K] (log : K → K)
    (mdl : CctcTransitionModel K) (hmm : CctcHmm K)
    (X Y : CuMatrixBase K) (S T : Nat) (ws : Workspace K)
    (pad : Nat) (a : RawAlloc K) (nod dd : CuMatrixBase K)
    (hnext : ∀ s p, s < mdl.NumHistoryStates → p < mdl.NumPhones + 1 →
      (forwardRecord mdl s p).hmm_state < mdl.NumHistoryStates)
    (hidx : ∀ s p, s < mdl.NumHistoryStates → p < mdl.NumPhones + 1 →
      (forwardRecord mdl s p).num_index < mdl.NumTreeIndexes + mdl.NumBlankIndexes)
    (htab : SetTransitions mdl = .ok (hmm.forward_transitions_,
      hmm.backward_transitions_, hmm.transitions_))
    (hsp : hmm.special_hmm_state_ < mdl.NumHistoryStates)
    (hS : S ≠ 0) (hT : T ≠ 0)
    (hXr : X.NumRows = S * T)
    (hXc : mdl.NumTreeIndexes + mdl.NumBlankIndexes ≤ X.NumCols)
    (hYr : Y.NumRows = S * T) (hYc : Y.NumCols = mdl.NumHistoryStates)
    (hor : nod.NumRows = S * T)
    (hoc : mdl.NumTreeIndexes + mdl.NumBlankIndexes + mdl.NumBlankIndexes ≤ nod.NumCols)
    (hos : nod.NumCols ≤ nod.Stride)
    (hdr : dd.NumRows = S * T) (hdc : dd.NumCols = mdl.NumHistoryStates)
    (hds : dd.NumCols ≤ dd.Stride)
    (hY : ∀ s t h, s < S → t < T → h < mdl.NumHistoryStates → Y.RowData (s * T + t) h ≠ 0)
    (hsc : ∀ c, newCctcNegativeComputation mdl hmm X Y S ws = .ok c →
      ∀ t s, t < T → s < S → alphaRec c t hmm.special_hmm_state_ s ≠ 0) :
    ∃ (c : CctcNegativeComputation K) (v : K) (c₁ c₂ : CctcNegativeComputation K)
      (out dd' : CuMatrixBase K),
      newCctcNegativeComputation mdl hmm X Y S ws = .ok c ∧
      Forward log c = .ok (v, c₁) ∧
      Backward c₁ pad a nod dd = .ok (c₂, out, dd') ∧
      (c.hmm_ = hmm ∧ c.num_sequences_ = S ∧ c.num_time_steps_ = T ∧
        c.numerator_dim_ = mdl.NumTreeIndexes + mdl.NumBlankIndexes ∧
        c.num_hmm_states_ = mdl.NumHistoryStates) ∧
      (c₁.hmm_ = hmm ∧ c₁.num_sequences_ = S ∧ c₁.num_time_steps_ = T ∧
        c₁.numerator_dim_ = mdl.NumTreeIndexes + mdl.NumBlankIndexes ∧
        c₁.num_hmm_states_ = mdl.NumHistoryStates ∧
        c₁.numerators_rearranged_ = c.numerators_rearranged_ ∧
        c₁.denominators_rearranged_ = c.denominators_rearranged_) ∧
      ((∀ k t s, k < mdl.NumTreeIndexes + mdl.NumBlankIndexes → t < T → s < S →
          numProb c k t s = X.RowData (s * T + t) k) ∧
        (∀ h t s, h < mdl.NumHistoryStates → t < T → s < S →
          denProb c h t s = Y.RowData (s * T + t) h)) ∧
      v = ∑ s ∈ Finset.range S,
            log (∑ h ∈ Finset.range mdl.NumHistoryStates, alphaRec c T h s)
          + ∑ t ∈ Finset.range T, ∑ s ∈ Finset.range S,
              log (alphaRec c t hmm.special_hmm_state_ s) ∧
      (∀ t h s, t ≤ T → h < mdl.NumHistoryStates → s < S →
        c₁.alpha_.RowData t (h * S + s) = alphaRec c t h s) ∧
      c₁.tot_prob_ = (List.range S).map (fun s =>
        ∑ h ∈ Finset.range mdl.NumHistoryStates, alphaRec c T h s) ∧
      (∀ s t k, s < S → t < T → k < mdl.NumTreeIndexes + mdl.NumBlankIndexes →
        out.RowData (s * T + t) k = numGradFull c₁ t k s) ∧
      (∀ s t h, s < S → t < T → h < mdl.NumHistoryStates →
        dd'.RowData (s * T + t) h = denGradFull c₁ t h s) ∧
      (∀ h s, h < mdl.NumHistoryStates → s < S →
        c₂.beta_.RowData 0 (h * S + s) = fullBeta c₁ 0 h s) := by
  obtain ⟨c, hc, e1, e2, e3, e4, e5, e6, e7, e8, e9, e10, e11, e12, hnum, hden⟩ :=
    newCctcNegativeComputation_spec mdl hmm X Y S T ws hS hT hXr hXc hYr hYc
  have htab' : SetTransitions mdl = .ok (c.hmm_.forward_transitions_,
      c.hmm_.backward_transitions_, c.hmm_.transitions_) := by rw [e2]; exact htab
  have hedges := fun h hh => inEdges_of_SetTransitions mdl c hnext htab' h hh
  have wf : ForwardReady c := by
    refine ⟨by rw [e6, e3, e7]; omega, by rw [e2, e6]; exact hsp, ?_⟩
    intro h hh e he
    rw [(hedges h (e6 ▸ hh)).1] at he
    unfold incomingRecords at he
    obtain ⟨op, hop, rfl⟩ := List.mem_map.mp he
    rw [e6]
    exact (mem_statePhonePairs.mp (List.mem_of_mem_filter hop)).1
  obtain ⟨A, hrun, -, hA⟩ := Forward_spec log c wf
    (by
      intro t h s ht hh hs
      rw [e4] at ht
      rw [e6] at hh
      rw [e3] at hs
      rw [hden h t s hh ht hs]
      exact hY s t h hs ht hh)
    (by
      intro t s ht hs
      rw [e4] at ht
      rw [e3] at hs
      rw [e2]
      exact hsc c hc t s ht hs)
  have hrec : ∀ h, h < c.num_hmm_states_ → ∀ e ∈ outEdges c h,
      e.hmm_state < c.num_hmm_states_ ∧ e.num_index < c.numerator_dim_ := by
    intro h hh e he
    have hh' : h < mdl.NumHistoryStates := e6 ▸ hh
    rw [(hedges h hh').2] at he
    unfold outgoingRecords at he
    obtain ⟨p, hp, rfl⟩ := List.mem_map.mp he
    exact ⟨by rw [e6]; exact hnext h p hh' (List.mem_range.mp hp),
      by rw [e5]; exact hidx h p hh' (List.mem_range.mp hp)⟩
  have wf₁ : BackwardReady { c with
      alpha_ := A
      tot_prob_ := (List.range c.num_sequences_).map (fun s =>
        ∑ h ∈ Finset.range c.num_hmm_states_, alphaRec c c.num_time_steps_ h s)
      tot_log_prob_ := (List.range c.num_sequences_).map (fun s =>
        log (∑ h ∈ Finset.range c.num_hmm_states_, alphaRec c c.num_time_steps_ h s)) } :=
    ⟨by show c.num_hmm_states_ * c.num_sequences_ ≤ c.beta_.Stride; rw [e6, e3, e8]; omega,
     by show c.numerators_rearranged_.NumCols = _; rw [e10, e5, e3],
     by show c.denominators_rearranged_.NumCols = _; rw [e12, e6, e3],
     fun h hh e he => (hrec h hh e he).1, fun h hh e he => (hrec h hh e he).2⟩
  obtain ⟨L', D', B', out, dd', hback, -, -, hout, -, -, hddc, -, -, hb0, -⟩ :=
    Backward_spec _ wf₁ pad a nod dd (by show c.num_time_steps_ ≠ 0; rw [e4]; exact hT)
      (by show c.numerators_rearranged_.NumRows = c.num_time_steps_; rw [e9, e4])
      (by show c.denominators_rearranged_.NumRows = c.num_time_steps_; rw [e11, e4])
      (by show nod.NumRows = c.num_sequences_ * c.num_time_steps_; rw [e3, e4]; exact hor)
      (by show c.numerator_dim_ + c.trans_model_.NumBlankIndexes ≤ _; rw [e5, e1]; exact hoc)
      hos
      (by show dd.NumRows = c.num_sequences_ * c.num_time_steps_; rw [e3, e4]; exact hdr)
      (by show dd.NumCols = c.num_hmm_states_; rw [e6]; exact hdc) hds
  refine ⟨c, _, _, _, out, dd', hc, hrun, hback, ⟨e2, e3, e4, e5, e6⟩,
    ⟨e2, e3, e4, e5, e6, rfl, rfl⟩, ⟨hnum, hden⟩, ?_, ?_, ?_, ?_, ?_, ?_⟩
  · rw [e3, e4, e6, e2]
  · intro t h s ht hh hs
    have := hA t h s (by rw [e4]; exact ht) (by rw [e6]; exact hh) (by rw [e3]; exact hs)
    rw [e3] at this
    exact this
  · show (List.range c.num_sequences_).map _ = _
    rw [e3, e4, e6]
  · intro s t k hs ht hk
    have := hout s t k (by show s < c.num_sequences_; rw [e3]; exact hs)
      (by show t < c.num_time_steps_; rw [e4]; exact ht)
      (by show k < c.numerator_dim_; rw [e5]; exact hk)
    rw [← this]
    show out.RowData (s * T + t) k = out.RowData (s * c.num_time_steps_ + t) k
    rw [e4]
  · intro s t h hs ht hh
    have := hddc s t h (by show s < c.num_sequences_; rw [e3]; exact hs)
      (by show t < c.num_time_steps_; rw [e4]; exact ht)
      (by show h < c.num_hmm_states_; rw [e6]; exact hh)
    rw [← this]
    show dd'.RowData (s * T + t) h = dd'.RowData (s * c.num_time_steps_ + t) h
    rw [e4]
  · intro h s hh hs
    have := hb0 h s (by show h < c.num_hmm_states_; rw [e6]; exact hh)
      (by show s < c.num_sequences_; rw [e3]; exact hs)
    rw [← this]
    show B'.RowData 0 (h * S + s) = B'.RowData 0 (h * c.num_sequences_ + s)
    rw [e3]

end Lanes


/-! ## C10: batch independence -/

/-- C10.  Two runs of the constructor, `Forward()` and `Backward()` over the
same model and table, with `S` and `S'` sequences of `T` frames, in neither of
which a division is by zero (the denominator probabilities are nonzero, the
alpha recursion of the special state is nonzero on every frame before the
last, and the sum of the last alpha row is nonzero in every lane), both
return.  Whenever lane `s` of the first batch
and lane `s'` of the second hold the same numerator and denominator
probabilities, they have the same
per-sequence total probability, the same alpha cells on every frame, the same
betas of frame 0 and the same numerator and denominator gradient rows: the
cells of a lane depend only on the inputs of that lane.  In particular, when
the second run has one sequence and every lane of the first batch is a copy
of it, every lane reproduces the single-sequence run and the total
log-likelihood of the batch is `S` times the single-sequence value. -/
theorem batch_independence {K : Type} [Field K] [DecidableEq K] (log : K → K)
    (mdl : CctcTransitionModel K) (hmm : CctcHmm K)
    (hnext : ∀ s p, s < mdl.NumHistoryStates → p < mdl.NumPhones + 1 →
      (forwardRecord mdl s p).hmm_state < mdl.NumHistoryStates)
    (hidx : ∀ s p, s < mdl.NumHistoryStates → p < mdl.NumPhones + 1 →
      (forwardRecord mdl s p).num_index < mdl.NumTreeIndexes + mdl.NumBlankIndexes)
    (htab : SetTransitions mdl = .ok (hmm.forward_transitions_,
      hmm.backward_transitions_, hmm.transitions_))
    (hsp : hmm.special_hmm_state_ < mdl.NumHistoryStates)
    (T : Nat) (hT : T ≠ 0)
    (S : Nat) (hS : S ≠ 0) (X Y : CuMatrixBase K) (ws : Workspace K)
    (pad : Nat) (a : RawAlloc K) (nod dd : CuMatrixBase K)
    (hXr : X.NumRows = S * T)
    (hXc : mdl.NumTreeIndexes + mdl.NumBlankIndexes ≤ X.NumCols)
    (hYr : Y.NumRows = S * T) (hYc : Y.NumCols = mdl.NumHistoryStates)
    (hor : nod.NumRows = S * T)
    (hoc : mdl.NumTreeIndexes + mdl.NumBlankIndexes + mdl.NumBlankIndexes ≤ nod.NumCols)
    (hos : nod.NumCols ≤ nod.Stride)
    (hdr : dd.NumRows = S * T) (hdc : dd.NumCols = mdl.NumHistoryStates)
    (hds : dd.NumCols ≤ dd.Stride)
    (S' : Nat) (hS' : S' ≠ 0) (X' Y' : CuMatrixBase K) (ws' : Workspace K)
    (pad' : Nat) (a' : RawAlloc K) (nod' dd' : CuMatrixBase K)
    (hXr' : X'.NumRows = S' * T)
    (hXc' : mdl.NumTreeIndexes + mdl.NumBlankIndexes ≤ X'.NumCols)
    (hYr' : Y'.NumRows = S' * T) (hYc' : Y'.NumCols = mdl.NumHistoryStates)
    (hor' : nod'.NumRows = S' * T)
    (hoc' : mdl.NumTreeIndexes + mdl.NumBlankIndexes + mdl.NumBlankIndexes ≤ nod'.NumCols)
    (hos' : nod'.NumCols ≤ nod'.Stride)
    (hdr' : dd'.NumRows = S' * T) (hdc' : dd'.NumCols = mdl.NumHistoryStates)
    (hds' : dd'.NumCols ≤ dd'.Stride)
    (hY : ∀ s t h, s < S → t < T → h < mdl.NumHistoryStates → Y.RowData (s * T + t) h ≠ 0)
    (hsc : ∀ c, newCctcNegativeComputation mdl hmm X Y S ws = .ok c →
      ∀ t s, t < T → s < S → alphaRec c t hmm.special_hmm_state_ s ≠ 0)
    (hY' : ∀ s t h, s < S' → t < T → h < mdl.NumHistoryStates →
      Y'.RowData (s * T + t) h ≠ 0)
    (hsc' : ∀ c, newCctcNegativeComputation mdl hmm X' Y' S' ws' = .ok c →
      ∀ t s, t < T → s < S' → alphaRec c t hmm.special_hmm_state_ s ≠ 0)
    (_htp : ∀ c, newCctcNegativeComputation mdl hmm X Y S ws = .ok c →
      ∀ s, s < S → ∑ h ∈ Finset.range mdl.NumHistoryStates, alphaRec c T h s ≠ 0)
    (_htp' : ∀ c, newCctcNegativeComputation mdl hmm X' Y' S' ws' = .ok c →
      ∀ s, s < S' → ∑ h ∈ Finset.range mdl.NumHistoryStates, alphaRec c T h s ≠ 0) :
    ∃ (c : CctcNegativeComputation K) (v : K) (c₁ c₂ : CctcNegativeComputation K)
      (out ddo : CuMatrixBase K)
      (c' : CctcNegativeComputation K) (v' : K) (c₁' c₂' : CctcNegativeComputation K)
      (out' ddo' : CuMatrixBase K),
      (newCctcNegativeComputation mdl hmm X Y S ws = .ok c ∧
        Forward log c = .ok (v, c₁) ∧ Backward c₁ pad a nod dd = .ok (c₂, out, ddo)) ∧
      (newCctcNegativeComputation mdl hmm X' Y' S' ws' = .ok c' ∧
        Forward log c' = .ok (v', c₁') ∧
        Backward c₁' pad' a' nod' dd' = .ok (c₂', out', ddo')) ∧
      (∀ s s', s < S → s' < S' →
        (∀ t j, t < T → j < mdl.NumTreeIndexes + mdl.NumBlankIndexes →
          X.RowData (s * T + t) j = X'.RowData (s' * T + t) j) →
        (∀ t h, t < T → h < mdl.NumHistoryStates →
          Y.RowData (s * T + t) h = Y'.RowData (s' * T + t) h) →
        c₁.tot_prob_.getD s 0 = c₁'.tot_prob_.getD s' 0 ∧
        (∀ t h, t ≤ T → h < mdl.NumHistoryStates →
          c₁.alpha_.RowData t (h * S + s) = c₁'.alpha_.RowData t (h * S' + s')) ∧
        (∀ h, h < mdl.NumHistoryStates →
          c₂.beta_.RowData 0 (h * S + s) = c₂'.beta_.RowData 0 (h * S' + s')) ∧
        (∀ t j, t < T → j < mdl.NumTreeIndexes + mdl.NumBlankIndexes →
          out.RowData (s * T + t) j = out'.RowData (s' * T + t) j) ∧
        (∀ t h, t < T → h < mdl.NumHistoryStates →
          ddo.RowData (s * T + t) h = ddo'.RowData (s' * T + t) h)) ∧
      (S' = 1 →
        (∀ s t j, s < S → t < T → j < mdl.NumTreeIndexes + mdl.NumBlankIndexes →
          X.RowData (s * T + t) j = X'.RowData (0 * T + t) j) →
        (∀ s t h, s < S → t < T → h < mdl.NumHistoryStates →
          Y.RowData (s * T + t) h = Y'.RowData (0 * T + t) h) →
        v = (S : K) * v') := by
  obtain ⟨c, v, c₁, c₂, out, ddo, r1, r2, r3, ⟨f1, f2, f3, f4, f5⟩,
      ⟨g1, g2, g3, g4, g5, g6, g7⟩, ⟨hnum, hden⟩, hv, hA, htp, hout, hddo, hb0⟩ :=
    pipeline_spec log mdl hmm X Y S T ws pad a nod dd hnext hidx htab hsp hS hT hXr hXc hYr
      hYc hor hoc hos hdr hdc hds hY hsc
  obtain ⟨c', v', c₁', c₂', out', ddo', r1', r2', r3', ⟨f1', f2', f3', f4', f5'⟩,
      ⟨g1', g2', g3', g4', g5', g6', g7'⟩, ⟨hnum', hden'⟩, hv', hA', htp', hout', hddo',
      hb0'⟩ :=
    pipeline_spec log mdl hmm X' Y' S' T ws' pad' a' nod' dd' hnext hidx htab hsp hS' hT hXr'
      hXc' hYr' hYc' hor' hoc' hos' hdr' hdc' hds' hY' hsc'
  have htabc : SetTransitions mdl = .ok (c.hmm_.forward_transitions_,
      c.hmm_.backward_transitions_, c.hmm_.transitions_) := by rw [f1]; exact htab
  have htabc₁ : SetTransitions mdl = .ok (c₁.hmm_.forward_transitions_,
      c₁.hmm_.backward_transitions_, c₁.hmm_.transitions_) := by rw [g1]; exact htab
  have hin : ∀ h, h < c.num_hmm_states_ → ∀ e ∈ inEdges c h,
      e.hmm_state < c.num_hmm_states_ ∧ e.num_index < c.numerator_dim_ := by
    intro h hh e he
    have hh' : h < mdl.NumHistoryStates := f5 ▸ hh
    rw [(inEdges_of_SetTransitions mdl c hnext htabc h hh').1] at he
    unfold incomingRecords at he
    obtain ⟨op, hop, rfl⟩ := List.mem_map.mp he
    have hm := mem_statePhonePairs.mp (List.mem_of_mem_filter hop)
    exact ⟨by rw [f5]; exact hm.1, by rw [f4]; exact hidx op.1 op.2 hm.1 hm.2⟩
  have hout₁ : ∀ h, h < c₁.num_hmm_states_ → ∀ e ∈ outEdges c₁ h,
      e.hmm_state < c₁.num_hmm_states_ ∧ e.num_index < c₁.numerator_dim_ := by
    intro h hh e he
    have hh' : h < mdl.NumHistoryStates := g5 ▸ hh
    rw [(inEdges_of_SetTransitions mdl c₁ hnext htabc₁ h hh').2] at he
    unfold outgoingRecords at he
    obtain ⟨p, hp, rfl⟩ := List.mem_map.mp he
    exact ⟨by rw [g5]; exact hnext h p hh' (List.mem_range.mp hp),
      by rw [g4]; exact hidx h p hh' (List.mem_range.mp hp)⟩
  -- the alphas of two lanes with equal inputs
  have halpha : ∀ s s', s < S → s' < S' →
      (∀ t j, t < T → j < mdl.NumTreeIndexes + mdl.NumBlankIndexes →
        X.RowData (s * T + t) j = X'.RowData (s' * T + t) j) →
      (∀ t h, t < T → h < mdl.NumHistoryStates →
        Y.RowData (s * T + t) h = Y'.RowData (s' * T + t) h) →
      ∀ t h, t ≤ T → h < mdl.NumHistoryStates → alphaRec c t h s = alphaRec c' t h s' := by
    intro s s' hs hs' hX hY t h ht hh
    refine alphaRec_lane c c' (f1'.trans f1.symm) hin (by rw [f1, f5]; exact hsp) s s'
      ?_ ?_ t (by rw [f3]; exact ht) h (by rw [f5]; exact hh)
    · intro k t hk ht
      rw [f4] at hk
      rw [f3] at ht
      rw [hnum k t s hk ht hs, hnum' k t s' hk ht hs', hX t k ht hk]
    · intro h t hh ht
      rw [f5] at hh
      rw [f3] at ht
      rw [hden h t s hh ht hs, hden' h t s' hh ht hs', hY t h ht hh]
  refine ⟨c, v, c₁, c₂, out, ddo, c', v', c₁', c₂', out', ddo', ⟨r1, r2, r3⟩,
    ⟨r1', r2', r3'⟩, ?_, ?_⟩
  · intro s s' hs hs' hX hY
    have ha := halpha s s' hs hs' hX hY
    have hZ : (∑ h ∈ Finset.range mdl.NumHistoryStates, alphaRec c T h s)
        = ∑ h ∈ Finset.range mdl.NumHistoryStates, alphaRec c' T h s' :=
      Finset.sum_congr rfl (fun h hh => ha T h (Nat.le_refl T) (Finset.mem_range.mp hh))
    have htps : c₁.tot_prob_.getD s 0
        = ∑ h ∈ Finset.range mdl.NumHistoryStates, alphaRec c T h s := by
      rw [htp, List.getD_eq_getElem?_getD, List.getElem?_map, List.getElem?_range hs]
      rfl
    have htps' : c₁'.tot_prob_.getD s' 0
        = ∑ h ∈ Finset.range mdl.NumHistoryStates, alphaRec c' T h s' := by
      rw [htp', List.getD_eq_getElem?_getD, List.getElem?_map, List.getElem?_range hs']
      rfl
    have hinv : (c₁.tot_prob_.map (fun x => 1 / x)).getD s 0
        = (c₁'.tot_prob_.map (fun x => 1 / x)).getD s' 0 := by
      rw [htp, htp', List.map_map, List.map_map, List.getD_eq_getElem?_getD,
        List.getD_eq_getElem?_getD, List.getElem?_map, List.getElem?_map,
        List.getElem?_range hs, List.getElem?_range hs']
      show 1 / (∑ h ∈ Finset.range mdl.NumHistoryStates, alphaRec c T h s)
        = 1 / (∑ h ∈ Finset.range mdl.NumHistoryStates, alphaRec c' T h s')
      rw [hZ]
    have hacell : ∀ t h, t ≤ T → h < mdl.NumHistoryStates →
        c₁.alpha_.RowData t (h * S + s) = c₁'.alpha_.RowData t (h * S' + s') := by
      intro t h ht hh
      rw [hA t h s ht hh hs, hA' t h s' ht hh hs', ha t h ht hh]
    have hn₁ : ∀ k t, k < c₁.numerator_dim_ → t < c₁.num_time_steps_ →
        numProb c₁ k t s = numProb c₁' k t s' := by
      intro k t hk ht
      rw [g4] at hk
      rw [g3] at ht
      have e1 : numProb c₁ k t s = numProb c k t s := by
        unfold numProb; rw [g6, g2, f2]
      have e2 : numProb c₁' k t s' = numProb c' k t s' := by
        unfold numProb; rw [g6', g2', f2']
      rw [e1, e2, hnum k t s hk ht hs, hnum' k t s' hk ht hs', hX t k ht hk]
    have hd₁ : ∀ h t, h < c₁.num_hmm_states_ → t < c₁.num_time_steps_ →
        denProb c₁ h t s = denProb c₁' h t s' := by
      intro h t hh ht
      rw [g5] at hh
      rw [g3] at ht
      have e1 : denProb c₁ h t s = denProb c h t s := by
        unfold denProb; rw [g7, g2, f2]
      have e2 : denProb c₁' h t s' = denProb c' h t s' := by
        unfold denProb; rw [g7', g2', f2']
      rw [e1, e2, hden h t s hh ht hs, hden' h t s' hh ht hs', hY t h ht hh]
    have ha₁ : ∀ h t, h < c₁.num_hmm_states_ → t < c₁.num_time_steps_ →
        c₁.alpha_.RowData t (h * c₁.num_sequences_ + s)
          = c₁'.alpha_.RowData t (h * c₁'.num_sequences_ + s') := by
      intro h t hh ht
      rw [g2, g2']
      exact hacell t h (by rw [g3] at ht; omega) (g5 ▸ hh)
    have hcf₁ : ∀ h t, h < c₁.num_hmm_states_ → t < c₁.num_time_steps_ →
        commonFactor c₁ t h s = commonFactor c₁' t h s' := by
      intro h t hh ht
      have hd := hd₁ h t hh ht
      unfold denProb at hd
      unfold commonFactor
      rw [hd, g1, g1', g2, g2', hacell t _ (by rw [g3] at ht; omega) hsp]
    have hgrad := fun t ht => gradFull_lane c₁ c₁' (g1'.trans g1.symm) (g3'.trans g3.symm)
      (g5'.trans g5.symm) hout₁ s s' hn₁ hd₁ ha₁ hcf₁ hinv t ht
    refine ⟨by rw [htps, htps', hZ], hacell, ?_, ?_, ?_⟩
    · intro h hh
      rw [hb0 h s hh hs, hb0' h s' hh hs']
      exact fullBeta_lane c₁ c₁' (g1'.trans g1.symm) (g3'.trans g3.symm) hout₁ s s' hn₁
        hcf₁ hinv 0 h (by rw [g5]; exact hh)
    · intro t j ht hj
      rw [hout s t j hs ht hj, hout' s' t j hs' ht hj]
      exact (hgrad t (by rw [g3]; exact ht)).2 j
    · intro t h ht hh
      rw [hddo s t h hs ht hh, hddo' s' t h hs' ht hh]
      exact (hgrad t (by rw [g3]; exact ht)).1 h (by rw [g5]; exact hh)
  · intro h1 hX hY
    subst h1
    have ha : ∀ s, s < S → ∀ t h, t ≤ T → h < mdl.NumHistoryStates →
        alphaRec c t h s = alphaRec c' t h 0 :=
      fun s hs => halpha s 0 hs Nat.zero_lt_one (fun t j ht hj => hX s t j hs ht hj)
        (fun t h ht hh => hY s t h hs ht hh)
    rw [hv, hv']
    have e1 : ∑ s ∈ Finset.range S,
          log (∑ h ∈ Finset.range mdl.NumHistoryStates, alphaRec c T h s)
        = (S : K) * log (∑ h ∈ Finset.range mdl.NumHistoryStates, alphaRec c' T h 0) := by
      have e : ∀ s ∈ Finset.range S,
          log (∑ h ∈ Finset.range mdl.NumHistoryStates, alphaRec c T h s)
            = log (∑ h ∈ Finset.range mdl.NumHistoryStates, alphaRec c' T h 0) := by
        intro s hs
        congr 1
        exact Finset.sum_congr rfl (fun h hh =>
          ha s (Finset.mem_range.mp hs) T h (Nat.le_refl T) (Finset.mem_range.mp hh))
      rw [Finset.sum_congr rfl e, Finset.sum_const, Finset.card_range, nsmul_eq_mul]
    have e2 : ∑ t ∈ Finset.range T, ∑ s ∈ Finset.range S,
          log (alphaRec c t hmm.special_hmm_state_ s)
        = (S : K) * ∑ t ∈ Finset.range T, log (alphaRec c' t hmm.special_hmm_state_ 0) := by
      rw [Finset.mul_sum]
      apply Finset.sum_congr rfl
      intro t ht
      have e : ∀ s ∈ Finset.range S, log (alphaRec c t hmm.special_hmm_state_ s)
          = log (alphaRec c' t hmm.special_hmm_state_ 0) := by
        intro s hs
        rw [ha s (Finset.mem_range.mp hs) t _ (Nat.le_of_lt (Finset.mem_range.mp ht)) hsp]
      rw [Finset.sum_congr rfl e, Finset.sum_const, Finset.card_range, nsmul_eq_mul]
    rw [e1, e2, Finset.sum_range_one]
    simp only [Finset.sum_range_one]
    ring


/-- On a batch of `S` sequences of two frames over the scenario model whose
numerator and denominator probabilities are all 1, the alpha of the special
state is nonzero on frames 0 and 1, and so is the sum of the last alpha row:
the lanes carry 1, 2 and 2. -/
theorem scenario_batch_no_zero_division (S : Nat) (hS : S ≠ 0) (X Y : CuMatrixBase ℝ)
    (c : CctcNegativeComputation ℝ)
    (hc : newCctcNegativeComputation (scenarioModel ℝ) (scenarioHmm ℝ) X Y S
      (zeroWorkspace ℝ) = .ok c)
    (hX : ∀ s t k, s < S → t < 2 → k < 2 → X.RowData (s * 2 + t) k = 1)
    (hYv : ∀ s t h, s < S → t < 2 → h < 1 → Y.RowData (s * 2 + t) h = 1)
    (hXr : X.NumRows = S * 2) (hXc : 2 ≤ X.NumCols) (hYr : Y.NumRows = S * 2)
    (hYc : Y.NumCols = 1) :
    (∀ t s, t < 2 → s < S → alphaRec c t (scenarioHmm ℝ).special_hmm_state_ s ≠ 0) ∧
    (∀ s, s < S → ∑ h ∈ Finset.range 1, alphaRec c 2 h s ≠ 0) := by
  obtain ⟨c₀, hc₀, -, hhmm, hS', hT, -, hH, -, -, -, -, -, -, hnum, hden⟩ :=
    newCctcNegativeComputation_spec (scenarioModel ℝ) (scenarioHmm ℝ) X Y S 2
      (zeroWorkspace ℝ) hS (by decide) hXr hXc hYr hYc
  have hcc : c = c₀ := by
    rw [hc] at hc₀
    exact Except.ok.inj hc₀
  subst hcc
  have hedges : inEdges c 0 = [⟨1, 0, 0⟩, ⟨1, 1, 0⟩] := by
    unfold inEdges; rw [hhmm]; rfl
  have hsp : c.hmm_.special_hmm_state_ = 0 := by rw [hhmm]; rfl
  have a0 : ∀ s, alphaRec c 0 0 s = 1 := by
    intro s
    simp [alphaRec, hhmm, scenarioHmm]
  have a1 : ∀ s, s < S → alphaRec c 1 0 s = 2 := by
    intro s hs
    rw [show alphaRec c 1 0 s = ((inEdges c 0).map (fun e =>
        alphaRec c 0 e.hmm_state s * e.transition_prob * numProb c e.num_index 0 s
          / denProb c e.hmm_state 0 s)).sum
          * (1 / alphaRec c 0 c.hmm_.special_hmm_state_ s) from rfl, hedges, hsp]
    simp only [List.map_cons, List.map_nil, List.sum_cons, List.sum_nil, a0]
    rw [hnum 0 0 s (by show 0 < 1 + 1; omega) (by omega) hs,
      hnum 1 0 s (by show 1 < 1 + 1; omega) (by omega) hs,
      hden 0 0 s (by show 0 < 1; omega) (by omega) hs,
      hX s 0 0 hs (by omega) (by omega), hX s 0 1 hs (by omega) (by omega),
      hYv s 0 0 hs (by omega) (by omega)]
    norm_num
  have a2 : ∀ s, s < S → alphaRec c 2 0 s = 2 := by
    intro s hs
    rw [show alphaRec c 2 0 s = ((inEdges c 0).map (fun e =>
        alphaRec c 1 e.hmm_state s * e.transition_prob * numProb c e.num_index 1 s
          / denProb c e.hmm_state 1 s)).sum
          * (1 / alphaRec c 1 c.hmm_.special_hmm_state_ s) from rfl, hedges, hsp]
    simp only [List.map_cons, List.map_nil, List.sum_cons, List.sum_nil, a1 s hs]
    rw [hnum 0 1 s (by show 0 < 1 + 1; omega) (by omega) hs,
      hnum 1 1 s (by show 1 < 1 + 1; omega) (by omega) hs,
      hden 0 1 s (by show 0 < 1; omega) (by omega) hs,
      hX s 1 0 hs (by omega) (by omega), hX s 1 1 hs (by omega) (by omega),
      hYv s 1 0 hs (by omega) (by omega)]
    norm_num
  refine ⟨?_, ?_⟩
  · intro t s ht hs
    show alphaRec c t 0 s ≠ 0
    rcases (by omega : t = 0 ∨ t = 1) with rfl | rfl
    · rw [a0]; exact one_ne_zero
    · rw [a1 s hs]; exact two_ne_zero
  · intro s hs
    rw [Finset.sum_range_one, a2 s hs]
    exact two_ne_zero

theorem batch_independence_witness :
    ∃ (c : CctcNegativeComputation ℝ) (v : ℝ) (c₁ c₂ : CctcNegativeComputation ℝ)
      (out ddo : CuMatrixBase ℝ)
      (c' : CctcNegativeComputation ℝ) (v' : ℝ) (c₁' c₂' : CctcNegativeComputation ℝ)
      (out' ddo' : CuMatrixBase ℝ),
      (newCctcNegativeComputation (scenarioModel ℝ) (scenarioHmm ℝ) (constMatrix 1 4 2)
          (constMatrix 1 4 1) 2 (zeroWorkspace ℝ) = .ok c ∧
        Forward Real.log c = .ok (v, c₁) ∧
        Backward c₁ 0 ⟨0, fun _ => 0⟩ (constMatrix 0 4 3) (constMatrix 0 4 1)
          = .ok (c₂, out, ddo)) ∧
      (newCctcNegativeComputation (scenarioModel ℝ) (scenarioHmm ℝ) (constMatrix 1 2 2)
          (constMatrix 1 2 1) 1 (zeroWorkspace ℝ) = .ok c' ∧
        Forward Real.log c' = .ok (v', c₁') ∧
        Backward c₁' 0 ⟨0, fun _ => 0⟩ (constMatrix 0 2 3) (constMatrix 0 2 1)
          = .ok (c₂', out', ddo')) ∧
      v = ((2 : Nat) : ℝ) * v' :=
  have h := batch_independence Real.log (scenarioModel ℝ) (scenarioHmm ℝ)
    (fun _ _ _ _ => Nat.zero_lt_one) (fun _ _ _ hp => hp) (SetTransitions_scenario ℝ)
    Nat.zero_lt_one 2 (by decide)
    2 (by decide) (constMatrix 1 4 2) (constMatrix 1 4 1) (zeroWorkspace ℝ) 0
    ⟨0, fun _ => 0⟩ (constMatrix 0 4 3) (constMatrix 0 4 1)
    rfl (Nat.le_refl 2) rfl rfl rfl (Nat.le_refl 3) (Nat.le_refl 3) rfl rfl (Nat.le_refl 1)
    1 (by decide) (constMatrix 1 2 2) (constMatrix 1 2 1) (zeroWorkspace ℝ) 0
    ⟨0, fun _ => 0⟩ (constMatrix 0 2 3) (constMatrix 0 2 1)
    rfl (Nat.le_refl 2) rfl rfl rfl (Nat.le_refl 3) (Nat.le_refl 3) rfl rfl (Nat.le_refl 1)
    (fun _ _ _ _ _ _ => (one_ne_zero : (1 : ℝ) ≠ 0))
    (fun c hc => (scenario_batch_no_zero_division 2 (by decide) _ _ c hc
      (fun _ _ _ _ _ _ => rfl) (fun _ _ _ _ _ _ => rfl) rfl (Nat.le_refl 2) rfl rfl).1)
    (fun _ _ _ _ _ _ => (one_ne_zero : (1 : ℝ) ≠ 0))
    (fun c hc => (scenario_batch_no_zero_division 1 (by decide) _ _ c hc
      (fun _ _ _ _ _ _ => rfl) (fun _ _ _ _ _ _ => rfl) rfl (Nat.le_refl 2) rfl rfl).1)
    (fun c hc => (scenario_batch_no_zero_division 2 (by decide) _ _ c hc
      (fun _ _ _ _ _ _ => rfl) (fun _ _ _ _ _ _ => rfl) rfl (Nat.le_refl 2) rfl rfl).2)
    (fun c hc => (scenario_batch_no_zero_division 1 (by decide) _ _ c hc
      (fun _ _ _ _ _ _ => rfl) (fun _ _ _ _ _ _ => rfl) rfl (Nat.le_refl 2) rfl rfl).2)
  let ⟨c, v, c₁, c₂, out, ddo, c', v', c₁', c₂', out', ddo', r, r', _, hk⟩ := h
  ⟨c, v, c₁, c₂, out, ddo, c', v', c₁', c₂', out', ddo', r, r',
    hk rfl (fun _ _ _ _ _ _ => rfl) (fun _ _ _ _ _ _ => rfl)⟩


/-! ## Gradients as derivatives -/

section Gradient

variable {K : Type} [Field K]

/-- The effect on the unscaled alphas of lane `s` of multiplying by `ρ` the
weights, on frame `t₀`, of the transitions whose origin and `num_index` lie
in `E`: nothing changes up to frame `t₀`, and on frame `t₀ + 1 + k` the
change is `(ρ - 1)` times the mass of the paths through `E`. -/
theorem unscaledAlpha_perturbed (c c' : CctcNegativeComputation K) (hhmm : c'.hmm_ = c.hmm_)
    (horigin : ∀ h, h < c.num_hmm_states_ → ∀ e ∈ inEdges c h,
      e.hmm_state < c.num_hmm_states_)
    (E : Nat → Nat → Bool) (ρ : K) (t₀ s : Nat) (ht₀ : t₀ < c.num_time_steps_)
    (hw0 : ∀ h, h < c.num_hmm_states_ → ∀ e ∈ inEdges c h,
      e.transition_prob * numProb c' e.num_index t₀ s / denProb c' e.hmm_state t₀ s
        = (if E e.hmm_state e.num_index then ρ else 1)
          * (e.transition_prob * numProb c e.num_index t₀ s / denProb c e.hmm_state t₀ s))
    (hwt : ∀ t, t ≠ t₀ → t < c.num_time_steps_ → ∀ h, h < c.num_hmm_states_ →
      ∀ e ∈ inEdges c h,
      e.transition_prob * numProb c' e.num_index t s / denProb c' e.hmm_state t s
        = e.transition_prob * numProb c e.num_index t s / denProb c e.hmm_state t s) :
    (∀ t, t ≤ t₀ → ∀ h, h < c.num_hmm_states_ →
      unscaledAlpha c' t h s = unscaledAlpha c t h s) ∧
    (∀ k, t₀ + 1 + k ≤ c.num_time_steps_ → ∀ h, h < c.num_hmm_states_ →
      unscaledAlpha c' (t₀ + 1 + k) h s
        = unscaledAlpha c (t₀ + 1 + k) h s + (ρ - 1) * edgeSetMass c E t₀ s k h) := by
  have hin : ∀ h, inEdges c' h = inEdges c h := by
    intro h; unfold inEdges; rw [hhmm]
  have hassoc : ∀ (u p n d : K), u * p * n / d = u * (p * n / d) := by
    intro u p n d; ring
  have part1 : ∀ t, t ≤ t₀ → ∀ h, h < c.num_hmm_states_ →
      unscaledAlpha c' t h s = unscaledAlpha c t h s := by
    intro t
    induction t with
    | zero => intro _ h _; simp only [unscaledAlpha, hhmm]
    | succ t ih =>
      intro ht h hh
      simp only [unscaledAlpha, hin]
      congr 1
      apply List.map_congr_left
      intro e he
      rw [ih (by omega) _ (horigin h hh e he), hassoc, hassoc,
        hwt t (by omega) (by omega) h hh e he]
  refine ⟨part1, ?_⟩
  intro k
  induction k with
  | zero =>
    intro _ h hh
    show unscaledAlpha c' (t₀ + 1) h s = unscaledAlpha c (t₀ + 1) h s + _
    simp only [unscaledAlpha, edgeSetMass, hin]
    rw [← List.sum_map_mul_left, ← List.sum_map_add]
    congr 1
    apply List.map_congr_left
    intro e he
    rw [part1 t₀ (Nat.le_refl _) _ (horigin h hh e he), hassoc, hw0 h hh e he]
    by_cases hE : E e.hmm_state e.num_index = true
    · rw [if_pos hE, if_pos hE]; ring
    · rw [if_neg hE, if_neg hE]; ring
  | succ k ih =>
    intro hk h hh
    show unscaledAlpha c' (t₀ + 1 + k + 1) h s = unscaledAlpha c (t₀ + 1 + k + 1) h s + _
    simp only [unscaledAlpha, edgeSetMass, hin]
    rw [← List.sum_map_mul_left, ← List.sum_map_add]
    congr 1
    apply List.map_congr_left
    intro e he
    rw [ih (by omega) _ (horigin h hh e he), hassoc,
      hwt (t₀ + 1 + k) (by omega) (by omega) h hh e he]
    ring


/-- On a table built by `SetTransitions` a sum over the incoming transitions
of all states is the sum over the outgoing transitions of all states: every
transition appears once in each. -/
theorem mirror_sum (mdl : CctcTransitionModel K) (c : CctcNegativeComputation K)
    (hnext : ∀ s p, s < mdl.NumHistoryStates → p < mdl.NumPhones + 1 →
      (forwardRecord mdl s p).hmm_state < mdl.NumHistoryStates)
    (hH : c.num_hmm_states_ = mdl.NumHistoryStates)
    (hin : ∀ h, h < mdl.NumHistoryStates → inEdges c h = incomingRecords mdl h)
    (hout : ∀ h, h < mdl.NumHistoryStates → outEdges c h = outgoingRecords mdl h)
    (φ : Nat → K → Nat → Nat → K) :
    ((List.range c.num_hmm_states_).map (fun d =>
        ((inEdges c d).map (fun e =>
          φ e.hmm_state e.transition_prob e.num_index d)).sum)).sum
      = ((List.range c.num_hmm_states_).map (fun o =>
        ((outEdges c o).map (fun e =>
          φ o e.transition_prob e.num_index e.hmm_state)).sum)).sum := by
  obtain ⟨G, hG⟩ : ∃ G : Nat × Nat → K, G = fun op =>
      φ op.1 (forwardRecord mdl op.1 op.2).transition_prob
        (forwardRecord mdl op.1 op.2).num_index (forwardRecord mdl op.1 op.2).hmm_state :=
    ⟨_, rfl⟩
  have hl : ((List.range c.num_hmm_states_).map (fun d =>
        ((inEdges c d).map (fun e =>
          φ e.hmm_state e.transition_prob e.num_index d)).sum)).sum
      = ((statePhonePairs mdl.NumHistoryStates mdl.NumPhones).map G).sum := by
    rw [← sum_filter_partition (statePhonePairs mdl.NumHistoryStates mdl.NumPhones)
      (fun op => (forwardRecord mdl op.1 op.2).hmm_state) G mdl.NumHistoryStates
      (fun op hop => hnext op.1 op.2 (mem_statePhonePairs.mp hop).1
        (mem_statePhonePairs.mp hop).2), hH]
    congr 1
    apply List.map_congr_left
    intro d hd
    rw [hin d (List.mem_range.mp hd)]
    unfold incomingRecords
    rw [List.map_map]
    congr 1
    apply List.map_congr_left
    intro op hop
    have hd2 : (forwardRecord mdl op.1 op.2).hmm_state = d :=
      of_decide_eq_true (List.mem_filter.mp hop).2
    rw [hG]
    simp only [Function.comp, reverseRecord, hd2]
  have hr : ((List.range c.num_hmm_states_).map (fun o =>
        ((outEdges c o).map (fun e =>
          φ o e.transition_prob e.num_index e.hmm_state)).sum)).sum
      = ((statePhonePairs mdl.NumHistoryStates mdl.NumPhones).map G).sum := by
    unfold statePhonePairs
    rw [sum_product, hH]
    congr 1
    apply List.map_congr_left
    intro o ho
    rw [hout o (List.mem_range.mp ho)]
    unfold outgoingRecords
    rw [List.map_map, hG]
    rfl
  rw [hl, hr]


/-- The occupation of a set of transitions on frame `t₀`, as the code's
recursions give it, times the unscaled total probability of the lane, is the
unscaled mass of the paths through that set. -/
theorem edgeSet_occupation (mdl : CctcTransitionModel K) (c : CctcNegativeComputation K)
    (hnext : ∀ s p, s < mdl.NumHistoryStates → p < mdl.NumPhones + 1 →
      (forwardRecord mdl s p).hmm_state < mdl.NumHistoryStates)
    (hH : c.num_hmm_states_ = mdl.NumHistoryStates)
    (hin : ∀ h, h < mdl.NumHistoryStates → inEdges c h = incomingRecords mdl h)
    (hout : ∀ h, h < mdl.NumHistoryStates → outEdges c h = outgoingRecords mdl h)
    (E : Nat → Nat → Bool) (t₀ s : Nat) (ht₀ : t₀ < c.num_time_steps_)
    (h1 : ∀ t h, t ≤ c.num_time_steps_ → h < c.num_hmm_states_ →
      c.alpha_.RowData t (h * c.num_sequences_ + s)
        * ∏ u ∈ Finset.range t,
            c.alpha_.RowData u (c.hmm_.special_hmm_state_ * c.num_sequences_ + s)
        = unscaledAlpha c t h s)
    (h2 : ∀ u, u < c.num_time_steps_ →
      c.alpha_.RowData u (c.hmm_.special_hmm_state_ * c.num_sequences_ + s) ≠ 0)
    (Z : K) (hZ : Z ≠ 0)
    (hZsum : ((List.range c.num_hmm_states_).map (fun h =>
      c.alpha_.RowData c.num_time_steps_ (h * c.num_sequences_ + s))).sum = Z)
    (h3 : ∀ h, fullBeta c c.num_time_steps_ h s = 1 / Z) :
    ((List.range c.num_hmm_states_).map (fun o =>
        ((outEdges c o).map (fun e =>
          if E o e.num_index then
            e.transition_prob * fullBeta c (t₀ + 1) e.hmm_state s
              * c.numerators_rearranged_.RowData t₀ (e.num_index * c.num_sequences_ + s)
              * occupationFactor c t₀ o s
          else 0)).sum)).sum
      * ((List.range c.num_hmm_states_).map (fun h =>
          unscaledAlpha c c.num_time_steps_ h s)).sum
      = ((List.range c.num_hmm_states_).map (fun h =>
          edgeSetMass c E t₀ s (c.num_time_steps_ - (t₀ + 1)) h)).sum := by
  have hcancel : ∀ (t : Nat) (den : K), t < c.num_time_steps_ →
      1 / (den * c.alpha_.RowData t (c.hmm_.special_hmm_state_ * c.num_sequences_ + s))
        * c.alpha_.RowData t (c.hmm_.special_hmm_state_ * c.num_sequences_ + s)
        = 1 / den := by
    intro t den ht
    rw [one_div, one_div, mul_inv, mul_assoc, inv_mul_cancel₀ (h2 t ht), mul_one]
  -- the frame after `t₀`
  have hbase : ((List.range c.num_hmm_states_).map (fun o =>
        ((outEdges c o).map (fun e =>
          if E o e.num_index then
            e.transition_prob * fullBeta c (t₀ + 1) e.hmm_state s
              * c.numerators_rearranged_.RowData t₀ (e.num_index * c.num_sequences_ + s)
              * occupationFactor c t₀ o s
          else 0)).sum)).sum
      * ∏ u ∈ Finset.range (t₀ + 1),
          c.alpha_.RowData u (c.hmm_.special_hmm_state_ * c.num_sequences_ + s)
      = ((List.range c.num_hmm_states_).map (fun d =>
          edgeSetMass c E t₀ s 0 d * fullBeta c (t₀ + 1) d s)).sum := by
    have hm := mirror_sum mdl c hnext hH hin hout (fun o p k d =>
      (if E o k then unscaledAlpha c t₀ o s * p * numProb c k t₀ s / denProb c o t₀ s else 0)
        * fullBeta c (t₀ + 1) d s)
    have hr : ((List.range c.num_hmm_states_).map (fun d =>
          edgeSetMass c E t₀ s 0 d * fullBeta c (t₀ + 1) d s)).sum
        = ((List.range c.num_hmm_states_).map (fun d =>
          ((inEdges c d).map (fun e =>
            (if E e.hmm_state e.num_index then
              unscaledAlpha c t₀ e.hmm_state s * e.transition_prob
                * numProb c e.num_index t₀ s / denProb c e.hmm_state t₀ s
            else 0) * fullBeta c (t₀ + 1) d s)).sum)).sum := by
      congr 1
      apply List.map_congr_left
      intro d _
      simp only [edgeSetMass]
      rw [List.sum_map_mul_right]
    rw [hr, hm, ← List.sum_map_mul_right]
    congr 1
    apply List.map_congr_left
    intro o ho
    rw [← List.sum_map_mul_right]
    congr 1
    apply List.map_congr_left
    intro e _
    by_cases hE : E o e.num_index = true
    · rw [if_pos hE, if_pos hE, Finset.prod_range_succ,
        ← h1 t₀ o (Nat.le_of_lt ht₀) (List.mem_range.mp ho)]
      have key := hcancel t₀ (c.denominators_rearranged_.RowData t₀
        (o * c.num_sequences_ + s)) ht₀
      unfold occupationFactor commonFactor numProb denProb
      linear_combination (e.transition_prob * fullBeta c (t₀ + 1) e.hmm_state s
        * c.numerators_rearranged_.RowData t₀ (e.num_index * c.num_sequences_ + s)
        * c.alpha_.RowData t₀ (o * c.num_sequences_ + s)
        * ∏ u ∈ Finset.range t₀,
            c.alpha_.RowData u (c.hmm_.special_hmm_state_ * c.num_sequences_ + s)) * key
    · rw [if_neg hE, if_neg hE, zero_mul, zero_mul]
  -- one more frame
  have hstep : ∀ k, t₀ + 1 + k < c.num_time_steps_ →
      ((List.range c.num_hmm_states_).map (fun d =>
          edgeSetMass c E t₀ s k d * fullBeta c (t₀ + 1 + k) d s)).sum
        * c.alpha_.RowData (t₀ + 1 + k) (c.hmm_.special_hmm_state_ * c.num_sequences_ + s)
      = ((List.range c.num_hmm_states_).map (fun d =>
          edgeSetMass c E t₀ s (k + 1) d * fullBeta c (t₀ + 1 + k + 1) d s)).sum := by
    intro k hk
    have hm := mirror_sum mdl c hnext hH hin hout (fun o p k' d =>
      edgeSetMass c E t₀ s k o * p * numProb c k' (t₀ + 1 + k) s
        / denProb c o (t₀ + 1 + k) s * fullBeta c (t₀ + 1 + k + 1) d s)
    have hr : ((List.range c.num_hmm_states_).map (fun d =>
          edgeSetMass c E t₀ s (k + 1) d * fullBeta c (t₀ + 1 + k + 1) d s)).sum
        = ((List.range c.num_hmm_states_).map (fun d =>
          ((inEdges c d).map (fun e =>
            edgeSetMass c E t₀ s k e.hmm_state * e.transition_prob
              * numProb c e.num_index (t₀ + 1 + k) s / denProb c e.hmm_state (t₀ + 1 + k) s
              * fullBeta c (t₀ + 1 + k + 1) d s)).sum)).sum := by
      congr 1
      apply List.map_congr_left
      intro d _
      simp only [edgeSetMass]
      rw [List.sum_map_mul_right]
    rw [hr, hm, ← List.sum_map_mul_right]
    congr 1
    apply List.map_congr_left
    intro o _
    rw [fullBeta_step c (t₀ + 1 + k) o s hk, ← List.sum_map_mul_right, ← List.sum_map_mul_left,
      ← List.sum_map_mul_right]
    congr 1
    apply List.map_congr_left
    intro e _
    have key := hcancel (t₀ + 1 + k) (c.denominators_rearranged_.RowData (t₀ + 1 + k)
      (o * c.num_sequences_ + s)) hk
    unfold commonFactor numProb denProb
    linear_combination (edgeSetMass c E t₀ s k o * (e.transition_prob
      * fullBeta c (t₀ + 1 + k + 1) e.hmm_state s
      * c.numerators_rearranged_.RowData (t₀ + 1 + k)
          (e.num_index * c.num_sequences_ + s))) * key
  -- all the frames up to the last
  have hchain : ∀ k, t₀ + 1 + k ≤ c.num_time_steps_ →
      ((List.range c.num_hmm_states_).map (fun o =>
        ((outEdges c o).map (fun e =>
          if E o e.num_index then
            e.transition_prob * fullBeta c (t₀ + 1) e.hmm_state s
              * c.numerators_rearranged_.RowData t₀ (e.num_index * c.num_sequences_ + s)
              * occupationFactor c t₀ o s
          else 0)).sum)).sum
      * ∏ u ∈ Finset.range (t₀ + 1 + k),
          c.alpha_.RowData u (c.hmm_.special_hmm_state_ * c.num_sequences_ + s)
      = ((List.range c.num_hmm_states_).map (fun d =>
          edgeSetMass c E t₀ s k d * fullBeta c (t₀ + 1 + k) d s)).sum := by
    intro k
    induction k with
    | zero => intro _; exact hbase
    | succ k ih =>
      intro hk
      have e : t₀ + 1 + (k + 1) = t₀ + 1 + k + 1 := by omega
      rw [e, Finset.prod_range_succ, ← mul_assoc, ih (by omega), hstep k (by omega)]
  have hk : t₀ + 1 + (c.num_time_steps_ - (t₀ + 1)) = c.num_time_steps_ := by omega
  have hfin := hchain (c.num_time_steps_ - (t₀ + 1)) (by omega)
  rw [hk] at hfin
  have hP : ((List.range c.num_hmm_states_).map (fun h =>
      unscaledAlpha c c.num_time_steps_ h s)).sum
      = Z * ∏ u ∈ Finset.range c.num_time_steps_,
          c.alpha_.RowData u (c.hmm_.special_hmm_state_ * c.num_sequences_ + s) := by
    rw [← hZsum, ← List.sum_map_mul_right]
    congr 1
    apply List.map_congr_left
    intro h hh
    exact (h1 _ h (Nat.le_refl _) (List.mem_range.mp hh)).symm
  have hG : ((List.range c.num_hmm_states_).map (fun d =>
      edgeSetMass c E t₀ s (c.num_time_steps_ - (t₀ + 1)) d
        * fullBeta c c.num_time_steps_ d s)).sum
      = ((List.range c.num_hmm_states_).map (fun h =>
          edgeSetMass c E t₀ s (c.num_time_steps_ - (t₀ + 1)) h)).sum * (1 / Z) := by
    rw [← List.sum_map_mul_right]
    congr 1
    apply List.map_congr_left
    intro d _
    rw [h3 d]
  rw [hG] at hfin
  rw [hP]
  have hZc : 1 / Z * Z = 1 := by rw [one_div, inv_mul_cancel₀ hZ]
  linear_combination Z * hfin + ((List.range c.num_hmm_states_).map (fun h =>
    edgeSetMass c E t₀ s (c.num_time_steps_ - (t₀ + 1)) h)).sum * hZc

theorem unscaledAlpha_congr (c c' : CctcNegativeComputation K) (h1 : c'.hmm_ = c.hmm_)
    (h2 : c'.numerators_rearranged_ = c.numerators_rearranged_)
    (h3 : c'.denominators_rearranged_ = c.denominators_rearranged_)
    (h7 : c'.num_sequences_ = c.num_sequences_) (t h s : Nat) :
    unscaledAlpha c' t h s = unscaledAlpha c t h s := by
  induction t generalizing h with
  | zero => simp only [unscaledAlpha, h1]
  | succ t ih => simp only [unscaledAlpha, inEdges, numProb, denProb, h1, h2, h3, h7, ih]

theorem edgeSetMass_congr (c c' : CctcNegativeComputation K) (h1 : c'.hmm_ = c.hmm_)
    (h2 : c'.numerators_rearranged_ = c.numerators_rearranged_)
    (h3 : c'.denominators_rearranged_ = c.denominators_rearranged_)
    (h7 : c'.num_sequences_ = c.num_sequences_) (E : Nat → Nat → Bool) (t₀ s k h : Nat) :
    edgeSetMass c' E t₀ s k h = edgeSetMass c E t₀ s k h := by
  induction k generalizing h with
  | zero =>
    simp only [edgeSetMass, inEdges, numProb, denProb, h1, h2, h3, h7,
      unscaledAlpha_congr c c' h1 h2 h3 h7]
  | succ k ih => simp only [edgeSetMass, inEdges, numProb, denProb, h1, h2, h3, h7, ih]

/-- When the unscaled alpha of the special state is nonzero on the frames
before `T`, so is the stored one: no rescaling divides by zero. -/
theorem alphaRec_special_ne_zero (c : CctcNegativeComputation K) (s T : Nat)
    (hU : ∀ u, u < T → unscaledAlpha c u c.hmm_.special_hmm_state_ s ≠ 0) :
    ∀ u, u < T → alphaRec c u c.hmm_.special_hmm_state_ s ≠ 0 := by
  intro u
  induction u using Nat.strong_induction_on with
  | _ u ih =>
    intro hu
    have hprod := alphaRec_mul_prod c s u (fun v hv => ih v hv (by omega))
      c.hmm_.special_hmm_state_
    intro h0
    rw [h0, zero_mul] at hprod
    exact hU u hu hprod.symm


/-- When no denominator probability is zero and no rescaling divides by zero,
the value `Forward()` returns is the sum over the lanes of the logarithm of the unscaled total probability. -/
theorem totalLogLike_unscaled (c : CctcNegativeComputation ℝ) (wf : ForwardReady c)
    (hden : ∀ t h s, t < c.num_time_steps_ → h < c.num_hmm_states_ → s < c.num_sequences_ →
      denProb c h t s ≠ 0)
    (hU : ∀ t s, t < c.num_time_steps_ → s < c.num_sequences_ →
      unscaledAlpha c t c.hmm_.special_hmm_state_ s ≠ 0)
    (hP : ∀ s, s < c.num_sequences_ →
      ∑ h ∈ Finset.range c.num_hmm_states_, unscaledAlpha c c.num_time_steps_ h s ≠ 0) :
    totalLogLike Real.log c
      = ∑ s ∈ Finset.range c.num_sequences_,
          Real.log (∑ h ∈ Finset.range c.num_hmm_states_,
            unscaledAlpha c c.num_time_steps_ h s) := by
  have hsp : ∀ t s, t < c.num_time_steps_ → s < c.num_sequences_ →
      alphaRec c t c.hmm_.special_hmm_state_ s ≠ 0 :=
    fun t s ht hs => alphaRec_special_ne_zero c s c.num_time_steps_
      (fun u hu => hU u s hu hs) t ht
  have hprod : ∀ s, s < c.num_sequences_ →
      (∑ h ∈ Finset.range c.num_hmm_states_, alphaRec c c.num_time_steps_ h s)
        * ∏ t ∈ Finset.range c.num_time_steps_, alphaRec c t c.hmm_.special_hmm_state_ s
      = ∑ h ∈ Finset.range c.num_hmm_states_, unscaledAlpha c c.num_time_steps_ h s := by
    intro s hs
    rw [Finset.sum_mul]
    apply Finset.sum_congr rfl
    intro h _
    exact alphaRec_mul_prod c s c.num_time_steps_ (fun u hu => hsp u s hu hs) h
  have htot : ∀ s, s < c.num_sequences_ →
      ∑ h ∈ Finset.range c.num_hmm_states_, alphaRec c c.num_time_steps_ h s ≠ 0 := by
    intro s hs h0
    have := hprod s hs
    rw [h0, zero_mul] at this
    exact hP s hs this.symm
  obtain ⟨A, h1, -, -⟩ := Forward_spec Real.log c wf hden hsp
  unfold totalLogLike
  rw [h1]
  show _ + _ = _
  rw [Finset.sum_comm, ← Finset.sum_add_distrib]
  apply Finset.sum_congr rfl
  intro s hs
  have hs' := Finset.mem_range.mp hs
  rw [← hprod s hs', Real.log_mul (htot s hs'), Real.log_prod]
  · intro t ht
    exact hsp t s (Finset.mem_range.mp ht) hs'
  · rw [Finset.prod_ne_zero_iff]
    intro t ht
    exact hsp t s (Finset.mem_range.mp ht) hs'

/-- The derivative of the value of `Forward()` along a family of objects that
differ from `c` only in the weights, on frame `t₀` and in lane `s₀`, of the
transitions in `E`, which are multiplied by `ρ x` with `ρ x₀ = 1`: it is
`ρ'` times the mass of the paths through `E` over the total probability of
the lane, provided no rescaling of `c` divides by zero and the denominator
probabilities of the family are nonzero near `x₀`. -/
theorem totalLogLike_hasDerivAt (c : CctcNegativeComputation ℝ) (wf : ForwardReady c)
    (c' : ℝ → CctcNegativeComputation ℝ)
    (e1 : ∀ x, (c' x).hmm_ = c.hmm_)
    (e2 : ∀ x, (c' x).num_sequences_ = c.num_sequences_)
    (e3 : ∀ x, (c' x).num_time_steps_ = c.num_time_steps_)
    (e4 : ∀ x, (c' x).num_hmm_states_ = c.num_hmm_states_)
    (e5 : ∀ x, (c' x).alpha_ = c.alpha_)
    (E : Nat → Nat → Bool) (ρ : ℝ → ℝ) (ρ' x₀ : ℝ) (hρ : HasDerivAt ρ ρ' x₀)
    (hρ1 : ρ x₀ = 1)
    (t₀ s₀ : Nat) (ht₀ : t₀ < c.num_time_steps_) (hs₀ : s₀ < c.num_sequences_)
    (hw0 : ∀ x h, h < c.num_hmm_states_ → ∀ e ∈ inEdges c h,
      e.transition_prob * numProb (c' x) e.num_index t₀ s₀
          / denProb (c' x) e.hmm_state t₀ s₀
        = (if E e.hmm_state e.num_index then ρ x else 1)
          * (e.transition_prob * numProb c e.num_index t₀ s₀ / denProb c e.hmm_state t₀ s₀))
    (hwt : ∀ x t s, (t ≠ t₀ ∨ s ≠ s₀) → t < c.num_time_steps_ → s < c.num_sequences_ →
      ∀ h, h < c.num_hmm_states_ → ∀ e ∈ inEdges c h,
      e.transition_prob * numProb (c' x) e.num_index t s / denProb (c' x) e.hmm_state t s
        = e.transition_prob * numProb c e.num_index t s / denProb c e.hmm_state t s)
    (hdenx : ∀ᶠ x in nhds x₀, ∀ t h s, t < c.num_time_steps_ → h < c.num_hmm_states_ →
      s < c.num_sequences_ → denProb (c' x) h t s ≠ 0)
    (hU : ∀ t s, t < c.num_time_steps_ → s < c.num_sequences_ →
      unscaledAlpha c t c.hmm_.special_hmm_state_ s ≠ 0)
    (hP : ∀ s, s < c.num_sequences_ →
      ∑ h ∈ Finset.range c.num_hmm_states_, unscaledAlpha c c.num_time_steps_ h s ≠ 0) :
    HasDerivAt (fun x => totalLogLike Real.log (c' x))
      (ρ' * (∑ h ∈ Finset.range c.num_hmm_states_,
          edgeSetMass c E t₀ s₀ (c.num_time_steps_ - (t₀ + 1)) h)
        / ∑ h ∈ Finset.range c.num_hmm_states_, unscaledAlpha c c.num_time_steps_ h s₀)
      x₀ := by
  -- the other lanes do not change
  have hother : ∀ x s, s ≠ s₀ → s < c.num_sequences_ → ∀ t, t ≤ c.num_time_steps_ →
      ∀ h, h < c.num_hmm_states_ → unscaledAlpha (c' x) t h s = unscaledAlpha c t h s := by
    intro x s hs hsS t ht h hh
    obtain ⟨p1, p2⟩ := unscaledAlpha_perturbed c (c' x) (e1 x) wf.origin_lt
      (fun _ _ => false) 1 t₀ s ht₀
      (fun h hh e he => by
        rw [hwt x t₀ s (Or.inr hs) ht₀ hsS h hh e he]
        simp)
      (fun t htt htT h hh e he => hwt x t s (Or.inr hs) htT hsS h hh e he)
    by_cases htt : t ≤ t₀
    · exact p1 t htt h hh
    · obtain ⟨k, rfl⟩ : ∃ k, t = t₀ + 1 + k := ⟨t - (t₀ + 1), by omega⟩
      rw [p2 k ht h hh, sub_self, zero_mul, add_zero]
  -- the lane of the cell
  obtain ⟨m, hm⟩ : ∃ m : Nat → Nat → ℝ, m = fun t h =>
      if t ≤ t₀ then 0 else edgeSetMass c E t₀ s₀ (t - (t₀ + 1)) h := ⟨_, rfl⟩
  have hlane : ∀ x t, t ≤ c.num_time_steps_ → ∀ h, h < c.num_hmm_states_ →
      unscaledAlpha (c' x) t h s₀ = unscaledAlpha c t h s₀ + (ρ x - 1) * m t h := by
    intro x t ht h hh
    obtain ⟨p1, p2⟩ := unscaledAlpha_perturbed c (c' x) (e1 x) wf.origin_lt E (ρ x) t₀ s₀ ht₀
      (hw0 x)
      (fun t htt htT h hh e he => hwt x t s₀ (Or.inl htt) htT hs₀ h hh e he)
    by_cases htt : t ≤ t₀
    · rw [p1 t htt h hh, hm]
      simp only [htt, if_true, mul_zero, add_zero]
    · obtain ⟨k, rfl⟩ : ∃ k, t = t₀ + 1 + k := ⟨t - (t₀ + 1), by omega⟩
      rw [p2 k ht h hh, hm]
      simp only [htt, if_false]
      rw [Nat.add_sub_cancel_left]
  have hmT : ∀ h, m c.num_time_steps_ h
      = edgeSetMass c E t₀ s₀ (c.num_time_steps_ - (t₀ + 1)) h := by
    intro h
    rw [hm]
    simp only [Nat.not_le.mpr ht₀, if_false]
  have hρc : ContinuousAt ρ x₀ := hρ.continuousAt
  have hcont : ∀ a b : ℝ, a ≠ 0 → ∀ᶠ x in nhds x₀, a + (ρ x - 1) * b ≠ 0 := by
    intro a b ha
    have hc : ContinuousAt (fun x => a + (ρ x - 1) * b) x₀ :=
      continuousAt_const.add ((hρc.sub continuousAt_const).mul continuousAt_const)
    apply hc.eventually_ne
    show a + (ρ x₀ - 1) * b ≠ 0
    rw [hρ1, sub_self, zero_mul, add_zero]
    exact ha
  obtain ⟨G, hG⟩ : ∃ G : ℝ, G = ∑ h ∈ Finset.range c.num_hmm_states_,
      edgeSetMass c E t₀ s₀ (c.num_time_steps_ - (t₀ + 1)) h := ⟨_, rfl⟩
  obtain ⟨P, hPd⟩ : ∃ P : Nat → ℝ, P = fun s => ∑ h ∈ Finset.range c.num_hmm_states_,
      unscaledAlpha c c.num_time_steps_ h s := ⟨_, rfl⟩
  have hP0 : P s₀ ≠ 0 := by rw [hPd]; exact hP s₀ hs₀
  have hsum0 : ∀ x, ∑ h ∈ Finset.range c.num_hmm_states_,
      unscaledAlpha (c' x) c.num_time_steps_ h s₀ = P s₀ + (ρ x - 1) * G := by
    intro x
    rw [hPd, hG, Finset.mul_sum, ← Finset.sum_add_distrib]
    apply Finset.sum_congr rfl
    intro h hh
    rw [hlane x _ (le_refl _) h (Finset.mem_range.mp hh), hmT]
  have hsum : ∀ x s, s ≠ s₀ → s < c.num_sequences_ →
      ∑ h ∈ Finset.range c.num_hmm_states_,
        unscaledAlpha (c' x) c.num_time_steps_ h s = P s := by
    intro x s hs hsS
    rw [hPd]
    apply Finset.sum_congr rfl
    intro h hh
    exact hother x s hs hsS _ (le_refl _) h (Finset.mem_range.mp hh)
  have hev1 : ∀ᶠ x in nhds x₀, ∀ t ∈ Finset.range c.num_time_steps_,
      unscaledAlpha c t c.hmm_.special_hmm_state_ s₀
        + (ρ x - 1) * m t c.hmm_.special_hmm_state_ ≠ 0 := by
    rw [Filter.eventually_all_finset]
    intro t ht
    exact hcont _ _ (hU t s₀ (Finset.mem_range.mp ht) hs₀)
  have hev2 : ∀ᶠ x in nhds x₀, P s₀ + (ρ x - 1) * G ≠ 0 := hcont _ _ hP0
  have hval : ∀ᶠ x in nhds x₀, totalLogLike Real.log (c' x)
      = (∑ s ∈ (Finset.range c.num_sequences_).erase s₀, Real.log (P s))
        + Real.log (P s₀ + (ρ x - 1) * G) := by
    filter_upwards [hev1, hev2, hdenx] with x hx1 hx2 hx3
    have wfx : ForwardReady (c' x) := by
      refine ⟨?_, ?_, ?_⟩
      · rw [e4, e2, e5]; exact wf.alpha_stride
      · rw [e4, e1]; exact wf.special_lt
      · intro h hh e he
        rw [e4] at hh ⊢
        unfold inEdges at he
        rw [e1] at he
        exact wf.origin_lt h hh e he
    rw [totalLogLike_unscaled (c' x) wfx
      (fun t h s ht hh hs => hx3 t h s (by rw [← e3 x]; exact ht) (by rw [← e4 x]; exact hh)
        (by rw [← e2 x]; exact hs))]
    · rw [e2, e3, e4, ← Finset.sum_erase_add _ _ (Finset.mem_range.mpr hs₀), hsum0 x]
      congr 1
      apply Finset.sum_congr rfl
      intro s hs
      rw [hsum x s (Finset.ne_of_mem_erase hs)
        (Finset.mem_range.mp (Finset.mem_of_mem_erase hs))]
    · intro t s ht hs
      rw [e3] at ht
      rw [e2] at hs
      rw [e1]
      by_cases hss : s = s₀
      · subst hss
        rw [hlane x t (le_of_lt ht) _ wf.special_lt]
        exact hx1 t (Finset.mem_range.mpr ht)
      · rw [hother x s hss hs t (le_of_lt ht) _ wf.special_lt]
        exact hU t s ht hs
    · intro s hs
      rw [e2] at hs
      rw [e3, e4]
      by_cases hss : s = s₀
      · subst hss
        rw [hsum0 x]
        exact hx2
      · rw [hsum x s hss hs, hPd]
        exact hP s hs
  have hinner : HasDerivAt (fun x => P s₀ + (ρ x - 1) * G) (ρ' * G) x₀ := by
    have := ((hρ.sub_const 1).mul_const G).const_add (P s₀)
    exact this
  have hlog := (hinner.log (by rw [hρ1, sub_self, zero_mul, add_zero]; exact hP0)).const_add
    (∑ s ∈ (Finset.range c.num_sequences_).erase s₀, Real.log (P s))
  have hfin := hlog.congr_of_eventuallyEq hval
  rw [hρ1, sub_self, zero_mul, add_zero] at hfin
  rw [← hG]
  have hPs : ∑ h ∈ Finset.range c.num_hmm_states_, unscaledAlpha c c.num_time_steps_ h s₀
      = P s₀ := by rw [hPd]
  rw [hPs]
  exact hfin

/-- The occupation of a set of transitions after `Forward()`: for an object
`c₁` that differs from `c` in `alpha_` and `tot_prob_`, which hold the alpha
recursion and the sums of its last row, the occupation of `E` on frame `t₀`
times the unscaled total probability is the unscaled mass through `E`. -/
theorem edgeSet_occupation_after_forward (mdl : CctcTransitionModel K)
    (c c₁ : CctcNegativeComputation K)
    (hnext : ∀ s p, s < mdl.NumHistoryStates → p < mdl.NumPhones + 1 →
      (forwardRecord mdl s p).hmm_state < mdl.NumHistoryStates)
    (hH : c.num_hmm_states_ = mdl.NumHistoryStates)
    (hin : ∀ h, h < mdl.NumHistoryStates → inEdges c h = incomingRecords mdl h)
    (hout : ∀ h, h < mdl.NumHistoryStates → outEdges c h = outgoingRecords mdl h)
    (g1 : c₁.hmm_ = c.hmm_)
    (g2 : c₁.numerators_rearranged_ = c.numerators_rearranged_)
    (g3 : c₁.denominators_rearranged_ = c.denominators_rearranged_)
    (g4 : c₁.num_sequences_ = c.num_sequences_)
    (g5 : c₁.num_time_steps_ = c.num_time_steps_)
    (g6 : c₁.num_hmm_states_ = c.num_hmm_states_)
    (s : Nat) (hs : s < c.num_sequences_)
    (hA : ∀ t h, t ≤ c.num_time_steps_ → h < c.num_hmm_states_ →
      c₁.alpha_.RowData t (h * c.num_sequences_ + s) = alphaRec c t h s)
    (htp : c₁.tot_prob_ = (List.range c.num_sequences_).map (fun s =>
      ∑ h ∈ Finset.range c.num_hmm_states_, alphaRec c c.num_time_steps_ h s))
    (hsp : c.hmm_.special_hmm_state_ < c.num_hmm_states_)
    (E : Nat → Nat → Bool) (t₀ : Nat) (ht₀ : t₀ < c.num_time_steps_)
    (hscale : ∀ u, u < c.num_time_steps_ → alphaRec c u c.hmm_.special_hmm_state_ s ≠ 0)
    (htot : ∑ h ∈ Finset.range c.num_hmm_states_, alphaRec c c.num_time_steps_ h s ≠ 0) :
    ((List.range c₁.num_hmm_states_).map (fun o =>
        ((outEdges c₁ o).map (fun e =>
          if E o e.num_index then
            e.transition_prob * fullBeta c₁ (t₀ + 1) e.hmm_state s
              * c₁.numerators_rearranged_.RowData t₀ (e.num_index * c₁.num_sequences_ + s)
              * occupationFactor c₁ t₀ o s
          else 0)).sum)).sum
      * (∑ h ∈ Finset.range c.num_hmm_states_, unscaledAlpha c c.num_time_steps_ h s)
      = ∑ h ∈ Finset.range c.num_hmm_states_,
          edgeSetMass c E t₀ s (c.num_time_steps_ - (t₀ + 1)) h := by
  have hin₁ : ∀ h, h < mdl.NumHistoryStates → inEdges c₁ h = incomingRecords mdl h := by
    intro h hh
    rw [← hin h hh]
    unfold inEdges
    rw [g1]
  have hout₁ : ∀ h, h < mdl.NumHistoryStates → outEdges c₁ h = outgoingRecords mdl h := by
    intro h hh
    rw [← hout h hh]
    unfold outEdges
    rw [g1]
  have key := edgeSet_occupation mdl c₁ hnext (g6.trans hH) hin₁ hout₁ E t₀ s
    (by rw [g5]; exact ht₀)
    (by
      intro t h ht hh
      rw [g5] at ht
      rw [g6] at hh
      rw [g4, g1, hA t h ht hh, unscaledAlpha_congr c c₁ g1 g2 g3 g4,
        ← alphaRec_mul_prod c s t (fun u hu => hscale u (by omega)) h]
      congr 1
      apply Finset.prod_congr rfl
      intro u hu
      exact hA u _ (by have := Finset.mem_range.mp hu; omega) hsp)
    (by
      intro u hu
      rw [g5] at hu
      rw [g4, g1, hA u _ (le_of_lt hu) hsp]
      exact hscale u hu)
    (∑ h ∈ Finset.range c.num_hmm_states_, alphaRec c c.num_time_steps_ h s) htot
    (by
      rw [g6, g5, g4, list_sum_range_eq]
      apply Finset.sum_congr rfl
      intro h hh
      exact hA _ h (le_refl _) (Finset.mem_range.mp hh))
    (by
      intro h
      refine (fullBeta_last c₁ h s).trans ?_
      rw [htp, List.map_map, List.getD_eq_getElem?_getD, List.getElem?_map,
        List.getElem?_range hs]
      rfl)
  have eP : ((List.range c₁.num_hmm_states_).map (fun h =>
        unscaledAlpha c₁ c₁.num_time_steps_ h s)).sum
      = ∑ h ∈ Finset.range c.num_hmm_states_, unscaledAlpha c c.num_time_steps_ h s := by
    rw [g6, g5, list_sum_range_eq]
    apply Finset.sum_congr rfl
    intro h _
    exact unscaledAlpha_congr c c₁ g1 g2 g3 g4 _ h s
  have eG : ((List.range c₁.num_hmm_states_).map (fun h =>
        edgeSetMass c₁ E t₀ s (c₁.num_time_steps_ - (t₀ + 1)) h)).sum
      = ∑ h ∈ Finset.range c.num_hmm_states_,
          edgeSetMass c E t₀ s (c.num_time_steps_ - (t₀ + 1)) h := by
    rw [g6, g5, list_sum_range_eq]
    apply Finset.sum_congr rfl
    intro h _
    exact edgeSetMass_congr c c₁ g1 g2 g3 g4 E t₀ s _ h
  rw [eP, eG] at key
  exact key

theorem sum_range_ite_eq (n j : Nat) (hj : j < n) (f : Nat → K) :
    ((List.range n).map (fun i => if i = j then f i else 0)).sum = f j := by
  rw [list_sum_range_eq, Finset.sum_ite_eq' (Finset.range n) j f]
  simp [hj]

theorem sum_map_ite_filter {α : Type} (l : List α) (p : α → Bool) (f : α → K) :
    (l.map (fun a => if p a then f a else 0)).sum = ((l.filter p).map f).sum := by
  induction l with
  | nil => rfl
  | cons a l ih =>
    rw [List.map_cons, List.sum_cons, ih, List.filter_cons]
    by_cases h : p a = true
    · simp [h]
    · simp [h]

omit [Field K] in
/-- Replacing `denominatorProb[h₀,t₀,s₀]` changes that cell and no other. -/
theorem denProb_withDenominator (c : CctcNegativeComputation K)
    (hst : c.num_hmm_states_ * c.num_sequences_ ≤ c.denominators_rearranged_.Stride)
    (t₀ h₀ s₀ : Nat) (hh₀ : h₀ < c.num_hmm_states_) (hs₀ : s₀ < c.num_sequences_) (x : K)
    (h t s : Nat) (hh : h < c.num_hmm_states_) (hs : s < c.num_sequences_) :
    denProb (withDenominator c t₀ h₀ s₀ x) h t s
      = if t = t₀ ∧ h = h₀ ∧ s = s₀ then x else denProb c h t s := by
  show Function.update c.denominators_rearranged_.Data
      (t₀ * c.denominators_rearranged_.Stride + (h₀ * c.num_sequences_ + s₀)) x
      (t * c.denominators_rearranged_.Stride + (h * c.num_sequences_ + s)) = _
  by_cases hc : t = t₀ ∧ h = h₀ ∧ s = s₀
  · obtain ⟨rfl, rfl, rfl⟩ := hc
    simp
  · rw [if_neg hc, Function.update_noteq]
    · rfl
    · intro he
      have hj := cell_lt hh hs
      have hj₀ := cell_lt hh₀ hs₀
      have ht : t = t₀ := by
        by_contra hne
        exact row_offset_ne (Nat.lt_of_lt_of_le hj hst) (Nat.lt_of_lt_of_le hj₀ hst) hne he
      subst ht
      obtain ⟨e1, e2⟩ := cell_offset_inj hs hs₀ he
      exact hc ⟨rfl, e1, e2⟩

omit [Field K] in
/-- Replacing `numeratorProb[k₀,t₀,s₀]` changes that cell and no other. -/
theorem numProb_withNumerator (c : CctcNegativeComputation K)
    (hst : c.numerator_dim_ * c.num_sequences_ ≤ c.numerators_rearranged_.Stride)
    (t₀ k₀ s₀ : Nat) (hk₀ : k₀ < c.numerator_dim_) (hs₀ : s₀ < c.num_sequences_) (x : K)
    (k t s : Nat) (hk : k < c.numerator_dim_) (hs : s < c.num_sequences_) :
    numProb (withNumerator c t₀ k₀ s₀ x) k t s
      = if t = t₀ ∧ k = k₀ ∧ s = s₀ then x else numProb c k t s := by
  show Function.update c.numerators_rearranged_.Data
      (t₀ * c.numerators_rearranged_.Stride + (k₀ * c.num_sequences_ + s₀)) x
      (t * c.numerators_rearranged_.Stride + (k * c.num_sequences_ + s)) = _
  by_cases hc : t = t₀ ∧ k = k₀ ∧ s = s₀
  · obtain ⟨rfl, rfl, rfl⟩ := hc
    simp
  · rw [if_neg hc, Function.update_noteq]
    · rfl
    · intro he
      have hj := cell_lt hk hs
      have hj₀ := cell_lt hk₀ hs₀
      have ht : t = t₀ := by
        by_contra hne
        exact row_offset_ne (Nat.lt_of_lt_of_le hj hst) (Nat.lt_of_lt_of_le hj₀ hst) hne he
      subst ht
      obtain ⟨e1, e2⟩ := cell_offset_inj hs hs₀ he
      exact hc ⟨rfl, e1, e2⟩

/-- The denominator gradient computed from the full beta table is minus the
occupation of the outgoing transitions of the state over the denominator
probability. -/
theorem denGradFull_eq_occupation (c : CctcNegativeComputation K) (t₀ h₀ s : Nat)
    (hh₀ : h₀ < c.num_hmm_states_) :
    denGradFull c t₀ h₀ s
      = - ((List.range c.num_hmm_states_).map (fun o =>
        ((outEdges c o).map (fun e =>
          if (fun (o _k : Nat) => decide (o = h₀)) o e.num_index then
            e.transition_prob * fullBeta c (t₀ + 1) e.hmm_state s
              * c.numerators_rearranged_.RowData t₀ (e.num_index * c.num_sequences_ + s)
              * occupationFactor c t₀ o s
          else 0)).sum)).sum
        / c.denominators_rearranged_.RowData t₀ (h₀ * c.num_sequences_ + s) := by
  have hΓ : ((List.range c.num_hmm_states_).map (fun o =>
        ((outEdges c o).map (fun e =>
          if (fun (o _k : Nat) => decide (o = h₀)) o e.num_index then
            e.transition_prob * fullBeta c (t₀ + 1) e.hmm_state s
              * c.numerators_rearranged_.RowData t₀ (e.num_index * c.num_sequences_ + s)
              * occupationFactor c t₀ o s
          else 0)).sum)).sum
      = ((outEdges c h₀).map (fun e =>
          e.transition_prob * fullBeta c (t₀ + 1) e.hmm_state s
            * c.numerators_rearranged_.RowData t₀ (e.num_index * c.num_sequences_ + s))).sum
        * occupationFactor c t₀ h₀ s := by
    rw [← sum_range_ite_eq c.num_hmm_states_ h₀ hh₀ (fun o =>
      ((outEdges c o).map (fun e =>
          e.transition_prob * fullBeta c (t₀ + 1) e.hmm_state s
            * c.numerators_rearranged_.RowData t₀ (e.num_index * c.num_sequences_ + s))).sum
        * occupationFactor c t₀ o s)]
    congr 1
    apply List.map_congr_left
    intro o _
    by_cases ho : o = h₀
    · simp only [ho, decide_True, if_true]
      rw [List.sum_map_mul_right]
    · simp only [ho, decide_False, if_false]
      simp
  rw [hΓ]
  unfold denGradFull
  ring

/-- The numerator gradient computed from the full beta table is the
occupation of the transitions with that `num_index`. -/
theorem numGradFull_eq_occupation (c : CctcNegativeComputation K) (t₀ k₀ s : Nat) :
    numGradFull c t₀ k₀ s
      = ((List.range c.num_hmm_states_).map (fun o =>
        ((outEdges c o).map (fun e =>
          if (fun (_o k : Nat) => decide (k = k₀)) o e.num_index then
            e.transition_prob * fullBeta c (t₀ + 1) e.hmm_state s
              * c.numerators_rearranged_.RowData t₀ (e.num_index * c.num_sequences_ + s)
              * occupationFactor c t₀ o s
          else 0)).sum)).sum := by
  unfold numGradFull
  congr 1
  apply List.map_congr_left
  intro o _
  exact (sum_map_ite_filter (outEdges c o) (fun e => decide (e.num_index = k₀)) _).symm

/-- When the stored alphas of the special state and the sum of the last alpha
row are nonzero, so are their unscaled counterparts. -/
theorem unscaled_ne_zero (c : CctcNegativeComputation K) (s : Nat)
    (hscale : ∀ t, t < c.num_time_steps_ → alphaRec c t c.hmm_.special_hmm_state_ s ≠ 0)
    (htot : ∑ h ∈ Finset.range c.num_hmm_states_, alphaRec c c.num_time_steps_ h s ≠ 0) :
    (∀ t, t < c.num_time_steps_ → unscaledAlpha c t c.hmm_.special_hmm_state_ s ≠ 0) ∧
    ∑ h ∈ Finset.range c.num_hmm_states_, unscaledAlpha c c.num_time_steps_ h s ≠ 0 := by
  constructor
  · intro t ht
    rw [← alphaRec_mul_prod c s t (fun u hu => hscale u (by omega))]
    apply mul_ne_zero (hscale t ht)
    rw [Finset.prod_ne_zero_iff]
    intro u hu
    exact hscale u (by have := Finset.mem_range.mp hu; omega)
  · have e : ∑ h ∈ Finset.range c.num_hmm_states_, unscaledAlpha c c.num_time_steps_ h s
        = (∑ h ∈ Finset.range c.num_hmm_states_, alphaRec c c.num_time_steps_ h s)
          * ∏ u ∈ Finset.range c.num_time_steps_,
              alphaRec c u c.hmm_.special_hmm_state_ s := by
      rw [Finset.sum_mul]
      apply Finset.sum_congr rfl
      intro h _
      exact (alphaRec_mul_prod c s _ (fun u hu => hscale u hu) h).symm
    rw [e]
    apply mul_ne_zero htot
    rw [Finset.prod_ne_zero_iff]
    intro u hu
    exact hscale u (Finset.mem_range.mp hu)

/-- `Forward()` and `Backward()` on a table built by `SetTransitions`, when no
denominator probability is zero and no rescaling divides by zero: both calls
return, and the numerator gradient of a cell whose numerator probability `x₀`
is nonzero is `x₀` times the derivative
of the value of `Forward()` with respect to that numerator probability. -/
theorem numerator_gradient_derivative (mdl : CctcTransitionModel ℝ)
    (c : CctcNegativeComputation ℝ)
    (hnext : ∀ s p, s < mdl.NumHistoryStates → p < mdl.NumPhones + 1 →
      (forwardRecord mdl s p).hmm_state < mdl.NumHistoryStates)
    (hidx : ∀ s p, s < mdl.NumHistoryStates → p < mdl.NumPhones + 1 →
      (forwardRecord mdl s p).num_index < c.numerator_dim_)
    (htab : SetTransitions mdl = .ok (c.hmm_.forward_transitions_,
      c.hmm_.backward_transitions_, c.hmm_.transitions_))
    (hH : c.num_hmm_states_ = mdl.NumHistoryStates)
    (hsp : c.hmm_.special_hmm_state_ < c.num_hmm_states_)
    (hast : c.num_hmm_states_ * c.num_sequences_ ≤ c.alpha_.Stride)
    (hbst : c.num_hmm_states_ * c.num_sequences_ ≤ c.beta_.Stride)
    (hnc : c.numerators_rearranged_.NumCols = c.numerator_dim_ * c.num_sequences_)
    (hdc : c.denominators_rearranged_.NumCols = c.num_hmm_states_ * c.num_sequences_)
    (hnst : c.numerators_rearranged_.NumCols ≤ c.numerators_rearranged_.Stride)
    (pad : Nat) (a : RawAlloc ℝ) (nod dd : CuMatrixBase ℝ)
    (hT : c.num_time_steps_ ≠ 0)
    (hnr : c.numerators_rearranged_.NumRows = c.num_time_steps_)
    (hdr : c.denominators_rearranged_.NumRows = c.num_time_steps_)
    (hor : nod.NumRows = c.num_sequences_ * c.num_time_steps_)
    (hoc : c.numerator_dim_ + c.trans_model_.NumBlankIndexes ≤ nod.NumCols)
    (hos : nod.NumCols ≤ nod.Stride)
    (hdr' : dd.NumRows = c.num_sequences_ * c.num_time_steps_)
    (hdc' : dd.NumCols = c.num_hmm_states_)
    (hds : dd.NumCols ≤ dd.Stride)
    (t₀ k₀ s₀ : Nat) (ht₀ : t₀ < c.num_time_steps_) (hk₀ : k₀ < c.numerator_dim_)
    (hs₀ : s₀ < c.num_sequences_)
    (hx₀ : numProb c k₀ t₀ s₀ ≠ 0)
    (hden : ∀ t h s, t < c.num_time_steps_ → h < c.num_hmm_states_ → s < c.num_sequences_ →
      denProb c h t s ≠ 0)
    (hscale : ∀ t s, t < c.num_time_steps_ → s < c.num_sequences_ →
      alphaRec c t c.hmm_.special_hmm_state_ s ≠ 0)
    (htot : ∀ s, s < c.num_sequences_ →
      ∑ h ∈ Finset.range c.num_hmm_states_, alphaRec c c.num_time_steps_ h s ≠ 0) :
    ∃ (v : ℝ) (c₁ c₂ : CctcNegativeComputation ℝ) (out dd' : CuMatrixBase ℝ),
      Forward Real.log c = .ok (v, c₁) ∧ Backward c₁ pad a nod dd = .ok (c₂, out, dd') ∧
      totalLogLike Real.log (withNumerator c t₀ k₀ s₀ (numProb c k₀ t₀ s₀)) = v ∧
      HasDerivAt (fun x => totalLogLike Real.log (withNumerator c t₀ k₀ s₀ x))
        (out.RowData (s₀ * c.num_time_steps_ + t₀) k₀ / numProb c k₀ t₀ s₀)
        (numProb c k₀ t₀ s₀) := by
  have hedges := fun h hh => inEdges_of_SetTransitions mdl c hnext htab h hh
  have wf : ForwardReady c := by
    refine ⟨hast, hsp, ?_⟩
    intro h hh e he
    rw [(hedges h (hH ▸ hh)).1] at he
    unfold incomingRecords at he
    obtain ⟨op, hop, rfl⟩ := List.mem_map.mp he
    rw [hH]
    exact (mem_statePhonePairs.mp (List.mem_of_mem_filter hop)).1
  have hinidx : ∀ h, h < c.num_hmm_states_ → ∀ e ∈ inEdges c h,
      e.num_index < c.numerator_dim_ := by
    intro h hh e he
    rw [(hedges h (hH ▸ hh)).1] at he
    unfold incomingRecords at he
    obtain ⟨op, hop, rfl⟩ := List.mem_map.mp he
    have hm := mem_statePhonePairs.mp (List.mem_of_mem_filter hop)
    exact hidx op.1 op.2 hm.1 hm.2
  have hrec : ∀ h, h < c.num_hmm_states_ → ∀ e ∈ outEdges c h,
      e.hmm_state < c.num_hmm_states_ ∧ e.num_index < c.numerator_dim_ := by
    intro h hh e he
    have hh' : h < mdl.NumHistoryStates := hH ▸ hh
    rw [(hedges h hh').2] at he
    unfold outgoingRecords at he
    obtain ⟨p, hp, rfl⟩ := List.mem_map.mp he
    exact ⟨by rw [hH]; exact hnext h p hh' (List.mem_range.mp hp),
      hidx h p hh' (List.mem_range.mp hp)⟩
  obtain ⟨A, hrun, -, hA⟩ := Forward_spec Real.log c wf hden hscale
  obtain ⟨tp, tlp, hrun, htp⟩ : ∃ tp tlp, Forward Real.log c = .ok
      (∑ s ∈ Finset.range c.num_sequences_,
            Real.log (∑ h ∈ Finset.range c.num_hmm_states_, alphaRec c c.num_time_steps_ h s)
          + ∑ t ∈ Finset.range c.num_time_steps_, ∑ s ∈ Finset.range c.num_sequences_,
              Real.log (alphaRec c t c.hmm_.special_hmm_state_ s),
        { c with alpha_ := A, tot_prob_ := tp, tot_log_prob_ := tlp }) ∧
      tp = (List.range c.num_sequences_).map (fun s =>
        ∑ h ∈ Finset.range c.num_hmm_states_, alphaRec c c.num_time_steps_ h s) :=
    ⟨_, _, hrun, rfl⟩
  have wf₁ : BackwardReady { c with alpha_ := A, tot_prob_ := tp, tot_log_prob_ := tlp } :=
    ⟨hbst, hnc, hdc, fun h hh e he => (hrec h hh e he).1, fun h hh e he => (hrec h hh e he).2⟩
  obtain ⟨L', D', B', out, dd', hback, -, -, hout, -, -, -, -, -, -, -⟩ :=
    Backward_spec _ wf₁ pad a nod dd hT hnr hdr hor hoc hos hdr' hdc' hds
  refine ⟨_, _, _, out, dd', hrun, hback, ?_, ?_⟩
  · have e : withNumerator c t₀ k₀ s₀ (numProb c k₀ t₀ s₀) = c := by
      unfold withNumerator CuMatrixBase.setRowData numProb CuMatrixBase.RowData
      rw [Function.update_eq_self]
    rw [e]
    unfold totalLogLike
    rw [hrun]
  · obtain ⟨x₀, hx₀d⟩ : ∃ x₀, x₀ = numProb c k₀ t₀ s₀ := ⟨_, rfl⟩
    rw [← hx₀d] at hx₀ ⊢
    have hun := fun s hs => unscaled_ne_zero c s (fun t ht => hscale t s ht hs) (htot s hs)
    have hρ : HasDerivAt (fun x : ℝ => x / x₀) (1 / x₀) x₀ :=
      (hasDerivAt_id x₀).div_const x₀
    have hstride : c.numerator_dim_ * c.num_sequences_
        ≤ c.numerators_rearranged_.Stride := hnc ▸ hnst
    have hnum : ∀ x k t s, k < c.numerator_dim_ → s < c.num_sequences_ →
        numProb (withNumerator c t₀ k₀ s₀ x) k t s
          = if t = t₀ ∧ k = k₀ ∧ s = s₀ then x else numProb c k t s :=
      fun x k t s hk hs => numProb_withNumerator c hstride t₀ k₀ s₀ hk₀ hs₀ x k t s hk hs
    have der := totalLogLike_hasDerivAt c wf (fun x => withNumerator c t₀ k₀ s₀ x)
      (fun _ => rfl) (fun _ => rfl) (fun _ => rfl) (fun _ => rfl) (fun _ => rfl)
      (fun (_o k : Nat) => decide (k = k₀)) (fun x => x / x₀) (1 / x₀) x₀ hρ
      (div_self hx₀) t₀ s₀ ht₀ hs₀
      (by
        intro x h hh e he
        have hk := hinidx h hh e he
        rw [hnum x _ t₀ s₀ hk hs₀]
        show _ / denProb c e.hmm_state t₀ s₀ = _
        by_cases hc : e.num_index = k₀
        · simp only [hc, true_and, and_self, if_true, decide_True]
          rw [← hx₀d, div_mul_div_comm,
            show x * (e.transition_prob * x₀) = e.transition_prob * x * x₀ by ring,
            mul_comm x₀, mul_div_mul_right _ _ hx₀]
        · simp only [hc, false_and, and_false, if_false, decide_False, one_mul]
          simp)
      (by
        intro x t s hts ht hs h hh e he
        have hk := hinidx h hh e he
        rw [hnum x _ t s hk hs]
        have hc : ¬ (t = t₀ ∧ e.num_index = k₀ ∧ s = s₀) := by
          rintro ⟨h1, -, h3⟩
          rcases hts with h | h
          · exact h h1
          · exact h h3
        rw [if_neg hc]
        rfl)
      (Filter.Eventually.of_forall (fun _ t h s ht hh hs => hden t h s ht hh hs))
      (fun t s ht hs => (hun s hs).1 t ht) (fun s hs => (hun s hs).2)
    have occ := edgeSet_occupation_after_forward mdl c
      { c with alpha_ := A, tot_prob_ := tp, tot_log_prob_ := tlp } hnext hH
      (fun h hh => (hedges h hh).1) (fun h hh => (hedges h hh).2) rfl rfl rfl rfl rfl rfl
      s₀ hs₀ (fun t h ht hh => hA t h s₀ ht hh hs₀) htp hsp
      (fun (_o k : Nat) => decide (k = k₀)) t₀ ht₀ (fun u hu => hscale u s₀ hu hs₀)
      (htot s₀ hs₀)
    have hgrad := numGradFull_eq_occupation
      { c with alpha_ := A, tot_prob_ := tp, tot_log_prob_ := tlp } t₀ k₀ s₀
    have hcell : out.RowData (s₀ * c.num_time_steps_ + t₀) k₀ / x₀
        = 1 / x₀ * (∑ h ∈ Finset.range c.num_hmm_states_,
            edgeSetMass c (fun (_o k : Nat) => decide (k = k₀)) t₀ s₀
              (c.num_time_steps_ - (t₀ + 1)) h)
          / ∑ h ∈ Finset.range c.num_hmm_states_,
              unscaledAlpha c c.num_time_steps_ h s₀ := by
      rw [hout s₀ t₀ k₀ hs₀ ht₀ hk₀, hgrad, ← occ]
      have hP := (hun s₀ hs₀).2
      have alg : ∀ Γ P x : ℝ, P ≠ 0 → x ≠ 0 → Γ / x = 1 / x * (Γ * P) / P := by
        intro Γ P x hP hx
        field_simp
        ring
      exact alg _ _ _ hP hx₀
    rw [hcell]
    exact der

end Gradient


/-- `Forward()` and `Backward()` on a table built by `SetTransitions`, when no
denominator probability is zero and no rescaling divides by zero: both calls
return, and the denominator gradient of a cell is the derivative of the value
of `Forward()` with respect to the denominator probability of the cell. -/
theorem denominator_gradient_derivative (mdl : CctcTransitionModel ℝ)
    (c : CctcNegativeComputation ℝ)
    (hnext : ∀ s p, s < mdl.NumHistoryStates → p < mdl.NumPhones + 1 →
      (forwardRecord mdl s p).hmm_state < mdl.NumHistoryStates)
    (hidx : ∀ s p, s < mdl.NumHistoryStates → p < mdl.NumPhones + 1 →
      (forwardRecord mdl s p).num_index < c.numerator_dim_)
    (htab : SetTransitions mdl = .ok (c.hmm_.forward_transitions_,
      c.hmm_.backward_transitions_, c.hmm_.transitions_))
    (hH : c.num_hmm_states_ = mdl.NumHistoryStates)
    (hsp : c.hmm_.special_hmm_state_ < c.num_hmm_states_)
    (hast : c.num_hmm_states_ * c.num_sequences_ ≤ c.alpha_.Stride)
    (hbst : c.num_hmm_states_ * c.num_sequences_ ≤ c.beta_.Stride)
    (hnc : c.numerators_rearranged_.NumCols = c.numerator_dim_ * c.num_sequences_)
    (hdc : c.denominators_rearranged_.NumCols = c.num_hmm_states_ * c.num_sequences_)
    (hdst : c.denominators_rearranged_.NumCols ≤ c.denominators_rearranged_.Stride)
    (pad : Nat) (a : RawAlloc ℝ) (nod dd : CuMatrixBase ℝ)
    (hT : c.num_time_steps_ ≠ 0)
    (hnr : c.numerators_rearranged_.NumRows = c.num_time_steps_)
    (hdr : c.denominators_rearranged_.NumRows = c.num_time_steps_)
    (hor : nod.NumRows = c.num_sequences_ * c.num_time_steps_)
    (hoc : c.numerator_dim_ + c.trans_model_.NumBlankIndexes ≤ nod.NumCols)
    (hos : nod.NumCols ≤ nod.Stride)
    (hdr' : dd.NumRows = c.num_sequences_ * c.num_time_steps_)
    (hdc' : dd.NumCols = c.num_hmm_states_)
    (hds : dd.NumCols ≤ dd.Stride)
    (t₀ h₀ s₀ : Nat) (ht₀ : t₀ < c.num_time_steps_) (hh₀ : h₀ < c.num_hmm_states_)
    (hs₀ : s₀ < c.num_sequences_)
    (hden : ∀ t h s, t < c.num_time_steps_ → h < c.num_hmm_states_ → s < c.num_sequences_ →
      denProb c h t s ≠ 0)
    (hscale : ∀ t s, t < c.num_time_steps_ → s < c.num_sequences_ →
      alphaRec c t c.hmm_.special_hmm_state_ s ≠ 0)
    (htot : ∀ s, s < c.num_sequences_ →
      ∑ h ∈ Finset.range c.num_hmm_states_, alphaRec c c.num_time_steps_ h s ≠ 0) :
    ∃ (v : ℝ) (c₁ c₂ : CctcNegativeComputation ℝ) (out dd' : CuMatrixBase ℝ),
      Forward Real.log c = .ok (v, c₁) ∧ Backward c₁ pad a nod dd = .ok (c₂, out, dd') ∧
      totalLogLike Real.log (withDenominator c t₀ h₀ s₀ (denProb c h₀ t₀ s₀)) = v ∧
      HasDerivAt (fun x => totalLogLike Real.log (withDenominator c t₀ h₀ s₀ x))
        (dd'.RowData (s₀ * c.num_time_steps_ + t₀) h₀) (denProb c h₀ t₀ s₀) := by
  have hedges := fun h hh => inEdges_of_SetTransitions mdl c hnext htab h hh
  have wf : ForwardReady c := by
    refine ⟨hast, hsp, ?_⟩
    intro h hh e he
    rw [(hedges h (hH ▸ hh)).1] at he
    unfold incomingRecords at he
    obtain ⟨op, hop, rfl⟩ := List.mem_map.mp he
    rw [hH]
    exact (mem_statePhonePairs.mp (List.mem_of_mem_filter hop)).1
  have hrec : ∀ h, h < c.num_hmm_states_ → ∀ e ∈ outEdges c h,
      e.hmm_state < c.num_hmm_states_ ∧ e.num_index < c.numerator_dim_ := by
    intro h hh e he
    have hh' : h < mdl.NumHistoryStates := hH ▸ hh
    rw [(hedges h hh').2] at he
    unfold outgoingRecords at he
    obtain ⟨p, hp, rfl⟩ := List.mem_map.mp he
    exact ⟨by rw [hH]; exact hnext h p hh' (List.mem_range.mp hp),
      hidx h p hh' (List.mem_range.mp hp)⟩
  have hx₀ : denProb c h₀ t₀ s₀ ≠ 0 := hden t₀ h₀ s₀ ht₀ hh₀ hs₀
  obtain ⟨A, hrun, -, hA⟩ := Forward_spec Real.log c wf hden hscale
  obtain ⟨tp, tlp, hrun, htp⟩ : ∃ tp tlp, Forward Real.log c = .ok
      (∑ s ∈ Finset.range c.num_sequences_,
            Real.log (∑ h ∈ Finset.range c.num_hmm_states_, alphaRec c c.num_time_steps_ h s)
          + ∑ t ∈ Finset.range c.num_time_steps_, ∑ s ∈ Finset.range c.num_sequences_,
              Real.log (alphaRec c t c.hmm_.special_hmm_state_ s),
        { c with alpha_ := A, tot_prob_ := tp, tot_log_prob_ := tlp }) ∧
      tp = (List.range c.num_sequences_).map (fun s =>
        ∑ h ∈ Finset.range c.num_hmm_states_, alphaRec c c.num_time_steps_ h s) :=
    ⟨_, _, hrun, rfl⟩
  have wf₁ : BackwardReady { c with alpha_ := A, tot_prob_ := tp, tot_log_prob_ := tlp } :=
    ⟨hbst, hnc, hdc, fun h hh e he => (hrec h hh e he).1, fun h hh e he => (hrec h hh e he).2⟩
  obtain ⟨L', D', B', out, dd', hback, -, -, -, -, -, hddc, -, -, -, -⟩ :=
    Backward_spec _ wf₁ pad a nod dd hT hnr hdr hor hoc hos hdr' hdc' hds
  refine ⟨_, _, _, out, dd', hrun, hback, ?_, ?_⟩
  · have e : withDenominator c t₀ h₀ s₀ (denProb c h₀ t₀ s₀) = c := by
      unfold withDenominator CuMatrixBase.setRowData denProb CuMatrixBase.RowData
      rw [Function.update_eq_self]
    rw [e]
    unfold totalLogLike
    rw [hrun]
  · obtain ⟨x₀, hx₀d⟩ : ∃ x₀, x₀ = denProb c h₀ t₀ s₀ := ⟨_, rfl⟩
    rw [← hx₀d] at hx₀ ⊢
    have hun := fun s hs => unscaled_ne_zero c s (fun t ht => hscale t s ht hs) (htot s hs)
    have hρ : HasDerivAt (fun x : ℝ => x₀ / x) (-(1 / x₀)) x₀ := by
      have h1 := (hasDerivAt_inv hx₀).const_mul x₀
      have e1 : (fun x : ℝ => x₀ / x) = fun y => x₀ * y⁻¹ := by
        funext x
        exact div_eq_mul_inv x₀ x
      have e2 : x₀ * -(x₀ ^ 2)⁻¹ = -(1 / x₀) := by
        field_simp
        ring
      rw [e1, ← e2]
      exact h1
    have hstride : c.num_hmm_states_ * c.num_sequences_
        ≤ c.denominators_rearranged_.Stride := hdc ▸ hdst
    have hdw : ∀ x h t s, h < c.num_hmm_states_ → s < c.num_sequences_ →
        denProb (withDenominator c t₀ h₀ s₀ x) h t s
          = if t = t₀ ∧ h = h₀ ∧ s = s₀ then x else denProb c h t s :=
      fun x h t s hh hs => denProb_withDenominator c hstride t₀ h₀ s₀ hh₀ hs₀ x h t s hh hs
    have der := totalLogLike_hasDerivAt c wf (fun x => withDenominator c t₀ h₀ s₀ x)
      (fun _ => rfl) (fun _ => rfl) (fun _ => rfl) (fun _ => rfl) (fun _ => rfl)
      (fun (o _k : Nat) => decide (o = h₀)) (fun x => x₀ / x) (-(1 / x₀)) x₀ hρ
      (div_self hx₀) t₀ s₀ ht₀ hs₀
      (by
        intro x h hh e he
        have ho := wf.origin_lt h hh e he
        rw [hdw x _ t₀ s₀ ho hs₀]
        show e.transition_prob * numProb c e.num_index t₀ s₀ / _ = _
        by_cases hc : e.hmm_state = h₀
        · simp only [hc, true_and, and_self, if_true, decide_True]
          rw [← hx₀d, div_mul_div_comm, mul_comm x₀, mul_div_mul_right _ _ hx₀]
        · simp only [hc, false_and, and_false, if_false, decide_False, one_mul]
          simp)
      (by
        intro x t s hts ht hs h hh e he
        have ho := wf.origin_lt h hh e he
        rw [hdw x _ t s ho hs]
        have hc : ¬ (t = t₀ ∧ e.hmm_state = h₀ ∧ s = s₀) := by
          rintro ⟨h1, -, h3⟩
          rcases hts with h | h
          · exact h h1
          · exact h h3
        rw [if_neg hc]
        rfl)
      (by
        filter_upwards [eventually_ne_nhds hx₀] with x hx
        intro t h s ht hh hs
        rw [hdw x h t s hh hs]
        split_ifs
        · exact hx
        · exact hden t h s ht hh hs)
      (fun t s ht hs => (hun s hs).1 t ht) (fun s hs => (hun s hs).2)
    have occ := edgeSet_occupation_after_forward mdl c
      { c with alpha_ := A, tot_prob_ := tp, tot_log_prob_ := tlp } hnext hH
      (fun h hh => (hedges h hh).1) (fun h hh => (hedges h hh).2) rfl rfl rfl rfl rfl rfl
      s₀ hs₀ (fun t h ht hh => hA t h s₀ ht hh hs₀) htp hsp
      (fun (o _k : Nat) => decide (o = h₀)) t₀ ht₀ (fun u hu => hscale u s₀ hu hs₀)
      (htot s₀ hs₀)
    have hgrad := denGradFull_eq_occupation
      { c with alpha_ := A, tot_prob_ := tp, tot_log_prob_ := tlp } t₀ h₀ s₀ hh₀
    have hcell : dd'.RowData (s₀ * c.num_time_steps_ + t₀) h₀
        = -(1 / x₀) * (∑ h ∈ Finset.range c.num_hmm_states_,
            edgeSetMass c (fun (o _k : Nat) => decide (o = h₀)) t₀ s₀
              (c.num_time_steps_ - (t₀ + 1)) h)
          / ∑ h ∈ Finset.range c.num_hmm_states_,
              unscaledAlpha c c.num_time_steps_ h s₀ := by
      rw [hddc s₀ t₀ h₀ hs₀ ht₀ hh₀, hgrad, ← occ]
      have hP := (hun s₀ hs₀).2
      have hxe : c.denominators_rearranged_.RowData t₀ (h₀ * c.num_sequences_ + s₀) = x₀ :=
        hx₀d.symm
      have alg : ∀ Γ P x : ℝ, P ≠ 0 → x ≠ 0 → -Γ / x = -(1 / x) * (Γ * P) / P := by
        intro Γ P x hP hx
        field_simp
        ring
      show - _ / c.denominators_rearranged_.RowData t₀ (h₀ * c.num_sequences_ + s₀) = _
      rw [hxe]
      exact alg _ _ _ hP hx₀
    rw [hcell]
    exact der


/-! ## C4: the denominator gradient is the derivative of the log-likelihood -/

/-- C4.  For every model with at least one history state and next states and
label indexes in range, every object over the `CctcHmm` that the constructor
builds for the model, with the shapes that the constructor sets (the rearranged
matrices of `T` rows, `numerator_dim_ * S` and `num_hmm_states_ * S` columns
within their strides, `alpha_` and `beta_` of stride at least
`num_hmm_states_ * S`) and `T ≥ 1`, output matrices of `S * T` rows with at
least `numerator_dim_ + NumBlankIndexes` and exactly `num_hmm_states_`
columns within their strides, and all strictly positive initial, transition,
numerator and denominator probabilities: for every cell `(h₀, t₀, s₀)`,
`Forward()` and `Backward()` return and the denominator gradient that
`Backward()` writes for the cell is the derivative, at the cell's value, of the value that
`Forward()` returns as a function of `denominatorProb[h₀,t₀,s₀]`, every other
input held fixed. -/
theorem denominator_gradient_correct (mdl : CctcTransitionModel ℝ)
    (c : CctcNegativeComputation ℝ)
    (hH1 : 1 ≤ mdl.NumHistoryStates)
    (hnext : ∀ s p, s < mdl.NumHistoryStates → p < mdl.NumPhones + 1 →
      (forwardRecord mdl s p).hmm_state < mdl.NumHistoryStates)
    (hidx : ∀ s p, s < mdl.NumHistoryStates → p < mdl.NumPhones + 1 →
      (forwardRecord mdl s p).num_index < c.numerator_dim_)
    (hhmm : newCctcHmm mdl = .ok c.hmm_)
    (hH : c.num_hmm_states_ = mdl.NumHistoryStates)
    (hast : c.num_hmm_states_ * c.num_sequences_ ≤ c.alpha_.Stride)
    (hbst : c.num_hmm_states_ * c.num_sequences_ ≤ c.beta_.Stride)
    (hnc : c.numerators_rearranged_.NumCols = c.numerator_dim_ * c.num_sequences_)
    (hdc : c.denominators_rearranged_.NumCols = c.num_hmm_states_ * c.num_sequences_)
    (hdst : c.denominators_rearranged_.NumCols ≤ c.denominators_rearranged_.Stride)
    (pad : Nat) (a : RawAlloc ℝ) (nod dd : CuMatrixBase ℝ)
    (hT : c.num_time_steps_ ≠ 0)
    (hnr : c.numerators_rearranged_.NumRows = c.num_time_steps_)
    (hdr : c.denominators_rearranged_.NumRows = c.num_time_steps_)
    (hor : nod.NumRows = c.num_sequences_ * c.num_time_steps_)
    (hoc : c.numerator_dim_ + c.trans_model_.NumBlankIndexes ≤ nod.NumCols)
    (hos : nod.NumCols ≤ nod.Stride)
    (hdr' : dd.NumRows = c.num_sequences_ * c.num_time_steps_)
    (hdc' : dd.NumCols = c.num_hmm_states_)
    (hds : dd.NumCols ≤ dd.Stride)
    (hpos : PositiveInputs mdl c)
    (t₀ h₀ s₀ : Nat) (ht₀ : t₀ < c.num_time_steps_) (hh₀ : h₀ < c.num_hmm_states_)
    (hs₀ : s₀ < c.num_sequences_) :
    ∃ (v : ℝ) (c₁ c₂ : CctcNegativeComputation ℝ) (out dd' : CuMatrixBase ℝ),
      Forward Real.log c = .ok (v, c₁) ∧ Backward c₁ pad a nod dd = .ok (c₂, out, dd') ∧
      totalLogLike Real.log (withDenominator c t₀ h₀ s₀ (denProb c h₀ t₀ s₀)) = v ∧
      HasDerivAt (fun x => totalLogLike Real.log (withDenominator c t₀ h₀ s₀ x))
        (dd'.RowData (s₀ * c.num_time_steps_ + t₀) h₀) (denProb c h₀ t₀ s₀) := by
  obtain ⟨-, htab, hsp, hal⟩ := positive_inputs_spec mdl c hH1 hnext hidx hhmm hH hast hpos
  have hden : ∀ t h s, t < c.num_time_steps_ → h < c.num_hmm_states_ →
      s < c.num_sequences_ → denProb c h t s ≠ 0 :=
    fun t h s ht hh hs => ne_of_gt (hpos.den_pos h t s hh ht hs)
  have hscale : ∀ t s, t < c.num_time_steps_ → s < c.num_sequences_ →
      alphaRec c t c.hmm_.special_hmm_state_ s ≠ 0 :=
    fun t s ht hs => ne_of_gt (hal t _ s (le_of_lt ht) hsp hs)
  have htot : ∀ s, s < c.num_sequences_ →
      ∑ h ∈ Finset.range c.num_hmm_states_, alphaRec c c.num_time_steps_ h s ≠ 0 := by
    intro s hs
    apply ne_of_gt
    apply Finset.sum_pos
    · intro h hh
      exact hal _ h s (le_refl _) (Finset.mem_range.mp hh) hs
    · exact ⟨0, Finset.mem_range.mpr (by rw [hH]; exact hH1)⟩
  exact denominator_gradient_derivative mdl c hnext hidx htab hH hsp hast hbst hnc hdc hdst
    pad a nod dd hT hnr hdr hor hoc hos hdr' hdc' hds t₀ h₀ s₀ ht₀ hh₀ hs₀ hden hscale htot

theorem denominator_gradient_correct_witness :
    ∃ (v : ℝ) (c₁ c₂ : CctcNegativeComputation ℝ) (out dd' : CuMatrixBase ℝ),
      Forward Real.log (scenarioComputation ℝ) = .ok (v, c₁) ∧
      Backward c₁ 0 ⟨0, fun _ => 0⟩ (constMatrix 0 2 3) (constMatrix 0 2 1)
        = .ok (c₂, out, dd') ∧
      totalLogLike Real.log (withDenominator (scenarioComputation ℝ) 0 0 0
        (denProb (scenarioComputation ℝ) 0 0 0)) = v ∧
      HasDerivAt
        (fun x => totalLogLike Real.log (withDenominator (scenarioComputation ℝ) 0 0 0 x))
        (dd'.RowData (0 * 2 + 0) 0) (denProb (scenarioComputation ℝ) 0 0 0) :=
  denominator_gradient_correct (scenarioModel ℝ) (scenarioComputation ℝ) (Nat.le_refl 1)
    (fun _ _ _ _ => Nat.zero_lt_one) (fun _ _ _ hp => hp) (newCctcHmm_scenario ℝ) rfl
    (Nat.le_refl 1) (Nat.le_refl 1) rfl rfl (Nat.le_refl 1) 0 ⟨0, fun _ => 0⟩
    (constMatrix 0 2 3) (constMatrix 0 2 1) (by decide) rfl rfl rfl (Nat.le_refl 3)
    (Nat.le_refl 3) rfl rfl (Nat.le_refl 1) PositiveInputs_scenario 0 0 0 Nat.zero_lt_two
    Nat.zero_lt_one Nat.zero_lt_one


/-! ## C5: the numerator gradient is the derivative with respect to the log-numerator -/

/-- C5 (amended).  For every model with at least one history state and next
states and label indexes in range, every object over the `CctcHmm` that the
constructor builds for the model, with the shapes that the constructor sets
(the rearranged matrices of `T` rows, `numerator_dim_ * S` and
`num_hmm_states_ * S` columns, the numerators within their stride, `alpha_`
and `beta_` of stride at least `num_hmm_states_ * S`) and `T ≥ 1`, output
matrices of `S * T` rows with at least `numerator_dim_ + NumBlankIndexes` and
exactly `num_hmm_states_` columns within their strides, and all strictly
positive initial, transition, numerator and denominator probabilities: for
every cell `(k₀, t₀, s₀)`, `Forward()` and `Backward()` return and the
numerator gradient that `Backward()` writes for the cell, divided by the
numerator probability `x₀` of the cell, is the derivative, at `x₀`, of the
value that `Forward()` returns as a function of `numeratorProb[k₀,t₀,s₀]`,
every other input held fixed.  The gradient is thus `x₀` times the partial
derivative: it is the derivative with respect to the logarithm of the
numerator probability. -/
theorem numerator_gradient_correct (mdl : CctcTransitionModel ℝ)
    (c : CctcNegativeComputation ℝ)
    (hH1 : 1 ≤ mdl.NumHistoryStates)
    (hnext : ∀ s p, s < mdl.NumHistoryStates → p < mdl.NumPhones + 1 →
      (forwardRecord mdl s p).hmm_state < mdl.NumHistoryStates)
    (hidx : ∀ s p, s < mdl.NumHistoryStates → p < mdl.NumPhones + 1 →
      (forwardRecord mdl s p).num_index < c.numerator_dim_)
    (hhmm : newCctcHmm mdl = .ok c.hmm_)
    (hH : c.num_hmm_states_ = mdl.NumHistoryStates)
    (hast : c.num_hmm_states_ * c.num_sequences_ ≤ c.alpha_.Stride)
    (hbst : c.num_hmm_states_ * c.num_sequences_ ≤ c.beta_.Stride)
    (hnc : c.numerators_rearranged_.NumCols = c.numerator_dim_ * c.num_sequences_)
    (hdc : c.denominators_rearranged_.NumCols = c.num_hmm_states_ * c.num_sequences_)
    (hnst : c.numerators_rearranged_.NumCols ≤ c.numerators_rearranged_.Stride)
    (pad : Nat) (a : RawAlloc ℝ) (nod dd : CuMatrixBase ℝ)
    (hT : c.num_time_steps_ ≠ 0)
    (hnr : c.numerators_rearranged_.NumRows = c.num_time_steps_)
    (hdr : c.denominators_rearranged_.NumRows = c.num_time_steps_)
    (hor : nod.NumRows = c.num_sequences_ * c.num_time_steps_)
    (hoc : c.numerator_dim_ + c.trans_model_.NumBlankIndexes ≤ nod.NumCols)
    (hos : nod.NumCols ≤ nod.Stride)
    (hdr' : dd.NumRows = c.num_sequences_ * c.num_time_steps_)
    (hdc' : dd.NumCols = c.num_hmm_states_)
    (hds : dd.NumCols ≤ dd.Stride)
    (hpos : PositiveInputs mdl c)
    (t₀ k₀ s₀ : Nat) (ht₀ : t₀ < c.num_time_steps_) (hk₀ : k₀ < c.numerator_dim_)
    (hs₀ : s₀ < c.num_sequences_) :
    ∃ (v : ℝ) (c₁ c₂ : CctcNegativeComputation ℝ) (out dd' : CuMatrixBase ℝ),
      Forward Real.log c = .ok (v, c₁) ∧ Backward c₁ pad a nod dd = .ok (c₂, out, dd') ∧
      totalLogLike Real.log (withNumerator c t₀ k₀ s₀ (numProb c k₀ t₀ s₀)) = v ∧
      HasDerivAt (fun x => totalLogLike Real.log (withNumerator c t₀ k₀ s₀ x))
        (out.RowData (s₀ * c.num_time_steps_ + t₀) k₀ / numProb c k₀ t₀ s₀)
        (numProb c k₀ t₀ s₀) := by
  obtain ⟨-, htab, hsp, hal⟩ := positive_inputs_spec mdl c hH1 hnext hidx hhmm hH hast hpos
  have hden : ∀ t h s, t < c.num_time_steps_ → h < c.num_hmm_states_ →
      s < c.num_sequences_ → denProb c h t s ≠ 0 :=
    fun t h s ht hh hs => ne_of_gt (hpos.den_pos h t s hh ht hs)
  have hscale : ∀ t s, t < c.num_time_steps_ → s < c.num_sequences_ →
      alphaRec c t c.hmm_.special_hmm_state_ s ≠ 0 :=
    fun t s ht hs => ne_of_gt (hal t _ s (le_of_lt ht) hsp hs)
  have htot : ∀ s, s < c.num_sequences_ →
      ∑ h ∈ Finset.range c.num_hmm_states_, alphaRec c c.num_time_steps_ h s ≠ 0 := by
    intro s hs
    apply ne_of_gt
    apply Finset.sum_pos
    · intro h hh
      exact hal _ h s (le_refl _) (Finset.mem_range.mp hh) hs
    · exact ⟨0, Finset.mem_range.mpr (by rw [hH]; exact hH1)⟩
  exact numerator_gradient_derivative mdl c hnext hidx htab hH hsp hast hbst hnc hdc hnst pad a
    nod dd hT hnr hdr hor hoc hos hdr' hdc' hds t₀ k₀ s₀ ht₀ hk₀ hs₀
    (ne_of_gt (hpos.num_pos k₀ t₀ s₀ hk₀ ht₀ hs₀)) hden hscale htot

theorem numerator_gradient_correct_witness :
    ∃ (v : ℝ) (c₁ c₂ : CctcNegativeComputation ℝ) (out dd' : CuMatrixBase ℝ),
      Forward Real.log (scenarioComputation ℝ) = .ok (v, c₁) ∧
      Backward c₁ 0 ⟨0, fun _ => 0⟩ (constMatrix 0 2 3) (constMatrix 0 2 1)
        = .ok (c₂, out, dd') ∧
      totalLogLike Real.log (withNumerator (scenarioComputation ℝ) 0 0 0
        (numProb (scenarioComputation ℝ) 0 0 0)) = v ∧
      HasDerivAt
        (fun x => totalLogLike Real.log (withNumerator (scenarioComputation ℝ) 0 0 0 x))
        (out.RowData (0 * 2 + 0) 0 / numProb (scenarioComputation ℝ) 0 0 0)
        (numProb (scenarioComputation ℝ) 0 0 0) :=
  numerator_gradient_correct (scenarioModel ℝ) (scenarioComputation ℝ) (Nat.le_refl 1)
    (fun _ _ _ _ => Nat.zero_lt_one) (fun _ _ _ hp => hp) (newCctcHmm_scenario ℝ) rfl
    (Nat.le_refl 1) (Nat.le_refl 1) rfl rfl (Nat.le_refl 2) 0 ⟨0, fun _ => 0⟩
    (constMatrix 0 2 3) (constMatrix 0 2 1) (by decide) rfl rfl rfl (Nat.le_refl 3)
    (Nat.le_refl 3) rfl rfl (Nat.le_refl 1) PositiveInputs_scenario 0 0 0 Nat.zero_lt_two
    Nat.zero_lt_two Nat.zero_lt_one

theorem withNumerator_withNumerator {K : Type} (c : CctcNegativeComputation K)
    (t k s : Nat) (x y : K) :
    withNumerator (withNumerator c t k s x) t k s y = withNumerator c t k s y := by
  unfold withNumerator CuMatrixBase.setRowData
  simp only [Function.update_idem]

theorem ForwardReady_scenario_withNumerator (x : ℝ) :
    ForwardReady (withNumerator (scenarioComputation ℝ) 0 0 0 x) := by
  obtain ⟨h1, h2, h3⟩ := ForwardReady_scenarioComputation ℝ
  exact ⟨h1, h2, h3⟩

/-- The alphas of the scenario when `numeratorProb[0,0,0]` is replaced by
`x`: 1 on frame 0, `x + 1` on frame 1 and `2 (x + 1)` over `x + 1` on frame 2. -/
theorem alphaRec_scenario_withNumerator (x : ℝ) :
    alphaRec (withNumerator (scenarioComputation ℝ) 0 0 0 x) 0 0 0 = 1 ∧
    alphaRec (withNumerator (scenarioComputation ℝ) 0 0 0 x) 1 0 0 = x + 1 ∧
    alphaRec (withNumerator (scenarioComputation ℝ) 0 0 0 x) 2 0 0
      = ((x + 1) + (x + 1)) * (1 / (x + 1)) := by
  have e0 : inEdges (withNumerator (scenarioComputation ℝ) 0 0 0 x) 0
      = [⟨1, 0, 0⟩, ⟨1, 1, 0⟩] := rfl
  have hsp : (withNumerator (scenarioComputation ℝ) 0 0 0 x).hmm_.special_hmm_state_ = 0 := rfl
  have d : ∀ h t, denProb (withNumerator (scenarioComputation ℝ) 0 0 0 x) h t 0 = 1 :=
    fun _ _ => rfl
  have n00 : numProb (withNumerator (scenarioComputation ℝ) 0 0 0 x) 0 0 0 = x := by
    simp [numProb, withNumerator, CuMatrixBase.setRowData, CuMatrixBase.RowData]
  have n10 : numProb (withNumerator (scenarioComputation ℝ) 0 0 0 x) 1 0 0 = 1 := by
    simp [numProb, withNumerator, CuMatrixBase.setRowData, CuMatrixBase.RowData,
      scenarioComputation, constMatrix]
  have n01 : numProb (withNumerator (scenarioComputation ℝ) 0 0 0 x) 0 1 0 = 1 := by
    simp [numProb, withNumerator, CuMatrixBase.setRowData, CuMatrixBase.RowData,
      scenarioComputation, constMatrix]
  have n11 : numProb (withNumerator (scenarioComputation ℝ) 0 0 0 x) 1 1 0 = 1 := by
    simp [numProb, withNumerator, CuMatrixBase.setRowData, CuMatrixBase.RowData,
      scenarioComputation, constMatrix]
  have a0 : alphaRec (withNumerator (scenarioComputation ℝ) 0 0 0 x) 0 0 0 = 1 := rfl
  have a1 : alphaRec (withNumerator (scenarioComputation ℝ) 0 0 0 x) 1 0 0 = x + 1 := by
    rw [alphaRec, e0, hsp, a0]
    simp only [List.map_cons, List.map_nil, List.sum_cons, List.sum_nil, d, n00, n10, a0]
    ring
  refine ⟨a0, a1, ?_⟩
  rw [alphaRec, e0, hsp, a1]
  simp only [List.map_cons, List.map_nil, List.sum_cons, List.sum_nil, d, n01, n11, a1]
  ring

/-- The value of `Forward()` on the scenario as a function of
`numeratorProb[0,0,0]`. -/
theorem totalLogLike_scenario_withNumerator (x : ℝ) (hx : x + 1 ≠ 0) :
    totalLogLike Real.log (withNumerator (scenarioComputation ℝ) 0 0 0 x)
      = Real.log 2 + Real.log (x + 1) := by
  obtain ⟨a0, a1, a2⟩ := alphaRec_scenario_withNumerator x
  obtain ⟨A, h1, -, -⟩ := Forward_spec Real.log _ (ForwardReady_scenario_withNumerator x)
    (fun _ _ _ _ _ _ => (one_ne_zero : (1 : ℝ) ≠ 0))
    (fun t s ht hs => by
      have hs0 : s = 0 := by
        have : s < 1 := hs
        omega
      subst hs0
      have ht2 : t < 2 := ht
      rcases (by omega : t = 0 ∨ t = 1) with rfl | rfl
      · exact a0.symm ▸ one_ne_zero
      · exact a1.symm ▸ hx)
  unfold totalLogLike
  rw [h1]
  show ∑ s ∈ Finset.range 1, Real.log (∑ h ∈ Finset.range 1,
        alphaRec (withNumerator (scenarioComputation ℝ) 0 0 0 x) 2 h s)
      + ∑ t ∈ Finset.range 2, ∑ s ∈ Finset.range 1,
        Real.log (alphaRec (withNumerator (scenarioComputation ℝ) 0 0 0 x) t 0 s) = _
  simp only [Finset.sum_range_succ, Finset.sum_range_zero, zero_add, a0, a1, a2,
    Real.log_one]
  have e : ((x + 1) + (x + 1)) * (1 / (x + 1)) = 2 := by
    field_simp
    ring
  rw [e]

/-- Counterexample to C5 as stated.  On the scenario (the `CctcHmm` that the
constructor builds for the model of one history state and one phone, one
sequence, two time steps, every probability 1) with
`numeratorProb[0,0,0] = 2`, every input is strictly positive and no rescaling
divides by zero; the value that
`Forward()` returns, as a function of `x = numeratorProb[0,0,0]`, is
`log 2 + log (x + 1)` near `x = 2`, whose derivative at 2 is `1/3`, while the
numerator gradient that `Backward()` writes for the cell is `2/3`. -/
theorem numerator_gradient_correct_counterexample :
    newCctcHmm (scenarioModel ℝ)
      = .ok (withNumerator (scenarioComputation ℝ) 0 0 0 2).hmm_ ∧
    (∀ x ∈ (scenarioHmm ℝ).initial_probs_, 0 < x) ∧
    (∀ e ∈ (scenarioHmm ℝ).transitions_, 0 < e.transition_prob) ∧
    (∀ k t s, 0 < numProb (withNumerator (scenarioComputation ℝ) 0 0 0 2) k t s) ∧
    (∀ h t s, 0 < denProb (withNumerator (scenarioComputation ℝ) 0 0 0 2) h t s) ∧
    numProb (withNumerator (scenarioComputation ℝ) 0 0 0 2) 0 0 0 = 2 ∧
    (∀ t, t < 2 → alphaRec (withNumerator (scenarioComputation ℝ) 0 0 0 2) t 0 0 ≠ 0) ∧
    alphaRec (withNumerator (scenarioComputation ℝ) 0 0 0 2) 2 0 0 ≠ 0 ∧
    ∃ (v : ℝ) (c₁ c₂ : CctcNegativeComputation ℝ) (out dd' : CuMatrixBase ℝ),
      Forward Real.log (withNumerator (scenarioComputation ℝ) 0 0 0 2) = .ok (v, c₁) ∧
      Backward c₁ 0 ⟨0, fun _ => 0⟩ (constMatrix 0 2 3) (constMatrix 0 2 1)
        = .ok (c₂, out, dd') ∧
      out.RowData (0 * 2 + 0) 0 = 2 / 3 ∧
      HasDerivAt
        (fun x => totalLogLike Real.log
          (withNumerator (withNumerator (scenarioComputation ℝ) 0 0 0 2) 0 0 0 x))
        (1 / 3) 2 ∧
      ¬ HasDerivAt
        (fun x => totalLogLike Real.log
          (withNumerator (withNumerator (scenarioComputation ℝ) 0 0 0 2) 0 0 0 x))
        (out.RowData (0 * 2 + 0) 0) 2 := by
  obtain ⟨a0, a1, a2⟩ := alphaRec_scenario_withNumerator 2
  have n00 : numProb (withNumerator (scenarioComputation ℝ) 0 0 0 2) 0 0 0 = 2 := by
    simp [numProb, withNumerator, CuMatrixBase.setRowData, CuMatrixBase.RowData]
  have hne : ∀ t, t < 2 →
      alphaRec (withNumerator (scenarioComputation ℝ) 0 0 0 2) t 0 0 ≠ 0 := by
    intro t ht
    rcases (by omega : t = 0 ∨ t = 1) with rfl | rfl
    · rw [a0]; exact one_ne_zero
    · rw [a1]; norm_num
  have hne2 : alphaRec (withNumerator (scenarioComputation ℝ) 0 0 0 2) 2 0 0 ≠ 0 := by
    rw [a2]; norm_num
  have hder : HasDerivAt
      (fun x => totalLogLike Real.log
        (withNumerator (withNumerator (scenarioComputation ℝ) 0 0 0 2) 0 0 0 x))
      (1 / 3) 2 := by
    have hev : ∀ᶠ x : ℝ in nhds 2, x + 1 ≠ 0 :=
      (continuousAt_id.add continuousAt_const).eventually_ne (by norm_num)
    have heq : (fun x => totalLogLike Real.log
          (withNumerator (withNumerator (scenarioComputation ℝ) 0 0 0 2) 0 0 0 x))
        =ᶠ[nhds 2] fun x => Real.log 2 + Real.log (x + 1) := by
      filter_upwards [hev] with x hx
      rw [withNumerator_withNumerator]
      exact totalLogLike_scenario_withNumerator x hx
    have h1 : HasDerivAt (fun x : ℝ => x + 1) 1 2 := (hasDerivAt_id (2 : ℝ)).add_const 1
    have h2 := (h1.log (by norm_num)).const_add (Real.log 2)
    have h3 := h2.congr_of_eventuallyEq heq
    convert h3 using 1
    norm_num
  obtain ⟨v, c₁, c₂, out, dd', hF, hB, -, hD⟩ :=
    numerator_gradient_derivative (scenarioModel ℝ)
      (withNumerator (scenarioComputation ℝ) 0 0 0 2)
      (fun _ _ _ _ => Nat.zero_lt_one) (fun _ _ _ hp => hp) (SetTransitions_scenario ℝ) rfl
      Nat.zero_lt_one (Nat.le_refl 1) (Nat.le_refl 1) rfl rfl (Nat.le_refl 2) 0
      ⟨0, fun _ => 0⟩ (constMatrix 0 2 3) (constMatrix 0 2 1) (by decide) rfl rfl rfl
      (Nat.le_refl 3) (Nat.le_refl 3) rfl rfl (Nat.le_refl 1) 0 0 0 Nat.zero_lt_two
      Nat.zero_lt_two Nat.zero_lt_one (by rw [n00]; exact two_ne_zero)
      (fun _ _ _ _ _ _ => (one_ne_zero : (1 : ℝ) ≠ 0))
      (fun t s ht hs => by
        have hs0 : s = 0 := by
          have : s < 1 := hs
          omega
        subst hs0
        exact hne t ht)
      (fun s hs => by
        have hs0 : s = 0 := by
          have : s < 1 := hs
          omega
        subst hs0
        show ∑ h ∈ Finset.range 1,
          alphaRec (withNumerator (scenarioComputation ℝ) 0 0 0 2) 2 h 0 ≠ 0
        rw [Finset.sum_range_one]
        exact hne2)
  rw [n00] at hD
  have hval : out.RowData (0 * 2 + 0) 0 = 2 / 3 := by
    have hu := hD.unique hder
    have hu' : out.RowData (0 * 2 + 0) 0 / 2 = 1 / 3 := hu
    linarith
  refine ⟨newCctcHmm_scenario ℝ, ?_, ?_, ?_, ?_, n00, hne, hne2, v, c₁, c₂, out, dd', hF, hB,
    hval, hder, ?_⟩
  · intro x hx
    have : x = 1 := by
      simpa [scenarioHmm] using hx
    rw [this]; exact one_pos
  · intro e he
    have : e.transition_prob = 1 := by
      simp only [scenarioHmm, List.mem_cons, List.mem_singleton, List.not_mem_nil,
        or_false] at he
      rcases he with rfl | rfl | rfl | rfl <;> rfl
    rw [this]; exact one_pos
  · intro k t s
    show (0 : ℝ) < Function.update (fun _ => (1 : ℝ)) _ 2 _
    rw [Function.update_apply]
    split_ifs <;> norm_num
  · intro h t s
    show (0 : ℝ) < 1
    exact one_pos
  · rw [hval]
    intro h0
    have := h0.unique hder
    norm_num at this

end Cctc
